import Mathlib

/-! # Invariant and liveness checker of the model checker (`modelchecker/invariants.go`)

A shallow embedding of the Go code.

* Pointers to nodes are node identifiers (`NodeId`), and the heap of nodes is a
  total map `Graph := NodeId → Node`; pointer equality is equality of identifiers.
* Go maps used as sets (`map[*Node]bool`, `map[string]bool`) are duplicate-free
  lists: insertion adds a missing key, `delete` removes the key, `len(m) > 0`
  is non-emptiness.
* A Go call either returns, panics, or is still running when the model's fuel
  is used up: `Outcome`.
* The heap, the evaluator and the execution engine are not part of these
  sources; a process carries their observable results as functions.
* Roles (`modelchecker/starlark_role.go`) are embedded in the section on roles,
  over the operations of the struct types that hold their parameters and fields.
-/

namespace Fizzbee

/-- Result of a modelled Go call: it returns a value, it panics with a message,
or the loop budget of the model is used up while the Go code is still running. -/
inductive Outcome (α : Type) where
  | ret (a : α)
  | fatal (msg : String)
  | fuel
deriving Repr, DecidableEq

/-- Fairness level of a link (`ast.FairnessLevel`). -/
inductive FairnessLevel where
  | NONE
  | WEAK
  | STRONG
deriving Repr, DecidableEq

/-- Identity of a node: the embedding's stand-in for `*Node`. -/
abbrev NodeId := Nat

/-- Directed, action-labelled edge (`Link`); `Node` is the target on an outbound
list and the origin on an inbound list. -/
structure Link where
  Node : NodeId
  Name : String
  Labels : List String := []
  Fairness : FairnessLevel := FairnessLevel.NONE
deriving Repr, DecidableEq

/-- Declared invariant (`ast.Invariant`); `Block` records `invariant.Block != nil`. -/
structure Invariant where
  Name : String := ""
  Always : Bool := false
  Eventually : Bool := false
  Nested : Option Invariant := none
  PyExpr : String := ""
  Block : Bool := false
  TemporalOperators : List String := []

/-- Source file of the specification (`ast.File`), with its invariants. -/
structure File where
  FileName : String := ""
  Invariants : List Invariant := []

/-- Program state (`Process`). `Threads` is `len(process.Threads)`. `Witness` is
the bitmap `Witness[file][invariant]`, allocated by the process constructor with
one bit per declared invariant. `EvalPyExpr file expr` is what
`process.Evaluator.EvalPyExpr` answers on this process's heap (`none`: an
error); `RunAssertion index name` is the truth value in the return slot `name`
once the assert thread started at `Invariants[index]` has finished (`none`: a
step forked). -/
structure Process where
  Name : String := ""
  Files : List File := []
  Threads : Nat := 0
  Witness : Nat → Nat → Bool := fun _ _ => false
  Labels : List String := []
  Fairness : FairnessLevel := FairnessLevel.NONE
  EvalPyExpr : String → String → Option Bool := fun _ _ => some true
  RunAssertion : Nat → String → Option Bool := fun _ _ => some true

/-- Node of the state graph (`Node`), which embeds its `*Process`. -/
structure Node where
  Process : Process := {}
  actionDepth : Nat := 0
  forkDepth : Nat := 0
  Outbound : List Link := []
  Inbound : List Link := []

/-- Heap of nodes. -/
abbrev Graph := NodeId → Node

/-- Position of an invariant (`InvariantPosition`). -/
structure InvariantPosition where
  FileIndex : Nat
  InvariantIndex : Nat
deriving Repr, DecidableEq

/-- Constructor `NewInvariantPosition`. -/
def NewInvariantPosition (fileIndex invariantIndex : Nat) : InvariantPosition :=
  { FileIndex := fileIndex, InvariantIndex := invariantIndex }

/-- Go type `Predicate func(n *Node) (bool, bool)`: relevance and value. -/
abbrev Predicate := NodeId → Bool × Bool

/-- Go type `CycleCallback func(path []*Link) bool`; a callback may panic. -/
abbrev CycleCallback := List Link → Outcome Bool

/-- Insertion of a key into a Go map used as a set (`m[k] = true`). -/
def setInsert {α : Type} [DecidableEq α] (m : List α) (k : α) : List α :=
  if k ∈ m then m else m ++ [k]

/-- Go `delete(m, k)` on a map used as a set. -/
def setDelete {α : Type} [DecidableEq α] (m : List α) (k : α) : List α :=
  m.filter (fun x => decide (x ≠ k))

/-! ## Per-state evaluation -/

/-- Nil-safe getter chain `invariant.GetNested().GetAlways()`. -/
def GetNestedAlways (invariant : Invariant) : Bool :=
  match invariant.Nested with
  | none => false
  | some nested => nested.Always

/-- Go `CheckInvariant` (lines 54-72). -/
def CheckInvariant (process : Process) (invariant : Invariant) : Outcome Bool :=
  let eventuallyAlways := invariant.Eventually && GetNestedAlways invariant
  if !invariant.Always && !eventuallyAlways then
    Outcome.fatal "Invariant checking not supported for non-always invariants"
  else if !eventuallyAlways && invariant.Nested.isSome then
    Outcome.fatal "Invariant checking not supported for nested invariants"
  else
    let pyExpr :=
      match invariant.Nested with
      | some nested => if eventuallyAlways then nested.PyExpr else invariant.PyExpr
      | none => invariant.PyExpr
    match process.Files with
    | [] => Outcome.fatal "index out of range [0] with length 0"
    | file :: _ =>
      match process.EvalPyExpr file.FileName pyExpr with
      | none => Outcome.fatal "PanicOnError"
      | some cond => Outcome.ret cond

/-- Go `CheckAssertion` (lines 74-98). -/
def CheckAssertion (process : Process) (invariant : Invariant) (index : Nat) : Outcome Bool :=
  if !invariant.TemporalOperators.contains "always" &&
      !invariant.TemporalOperators.contains "exists" then
    Outcome.fatal "Invariant checking supported only for always/always-eventually/eventually-always/exists invariants"
  else
    match process.RunAssertion index invariant.Name with
    | none => Outcome.fatal "Assertions should not include non-deterministic behavior"
    | some passed => Outcome.ret passed

/-- Assignment `process.Witness[i][j] = true`. -/
def setWitness (process : Process) (i j : Nat) : Process :=
  { process with Witness := fun a b => if a = i ∧ b = j then true else process.Witness a b }

/-- Test `slices.Contains(ops, "eventually") || slices.Contains(ops, "exists")`
of lines 43 and 45. -/
def eventualOrExists (invariant : Invariant) : Bool :=
  invariant.TemporalOperators.contains "eventually" ||
    invariant.TemporalOperators.contains "exists"

/-- Inner loop of `CheckInvariants` (lines 32-49) over the invariants of file
`i`, from index `j` on. The state is the process, whose witness bitmap the loop
writes, and the violation list `results[i]`. A panic leaves the process as it
was when it was raised. -/
def checkInvariantsLoop (i : Nat) :
    Nat → List Invariant → Process → List Nat → Process × Outcome (List Nat)
  | _, [], process, results => (process, Outcome.ret results)
  | j, invariant :: rest, process, results =>
    if !invariant.Block then
      match CheckInvariant process invariant with
      | Outcome.ret passed =>
        if invariant.Eventually && passed then
          checkInvariantsLoop i (j + 1) rest (setWitness process i j) results
        else if !invariant.Eventually && !passed then
          checkInvariantsLoop i (j + 1) rest process (results ++ [j])
        else
          checkInvariantsLoop i (j + 1) rest process results
      | Outcome.fatal msg => (process, Outcome.fatal msg)
      | Outcome.fuel => (process, Outcome.fuel)
    else
      match CheckAssertion process invariant j with
      | Outcome.ret passed =>
        if eventualOrExists invariant && passed then
          checkInvariantsLoop i (j + 1) rest (setWitness process i j) results
        else if !eventualOrExists invariant && !passed then
          checkInvariantsLoop i (j + 1) rest process (results ++ [j])
        else
          checkInvariantsLoop i (j + 1) rest process results
      | Outcome.fatal msg => (process, Outcome.fatal msg)
      | Outcome.fuel => (process, Outcome.fuel)

/-- Go `CheckInvariants` (lines 25-52). The returned map is the list of its
entries; the process after the call is returned with it. More than one file
panics, so the loop over the files runs at most once. -/
def CheckInvariants (process : Process) : Process × Outcome (List (Nat × List Nat)) :=
  if process.Files.length > 1 then
    (process, Outcome.fatal "Invariant checking not supported for multiple files")
  else
    match process.Files with
    | [] => (process, Outcome.ret [])
    | file :: _ =>
      match checkInvariantsLoop 0 0 file.Invariants process [] with
      | (after, Outcome.ret results) => (after, Outcome.ret [(0, results)])
      | (after, Outcome.fatal msg) => (after, Outcome.fatal msg)
      | (after, Outcome.fuel) => (after, Outcome.fuel)

/-! ## Existential witnesses -/

/-- Go `slices.Delete(s, i, j)`: removes `s[i:j]`; panics when `s[i:j]` is not a
valid slice of `s`. -/
def slicesDelete {α : Type} (s : List α) (i j : Nat) : Option (List α) :=
  if i ≤ j ∧ j ≤ s.length then some (s.take i ++ s.drop j) else none

/-- Lines 105-111 of `CheckSimpleExistsWitness`: the positions of the block
invariants of file `i` whose operators contain `exists`, from index `j` on. -/
def collectExistsPositions (i : Nat) : Nat → List Invariant → List InvariantPosition
  | _, [] => []
  | j, invariant :: rest =>
    if invariant.Block && invariant.TemporalOperators.contains "exists" then
      NewInvariantPosition i j :: collectExistsPositions i (j + 1) rest
    else
      collectExistsPositions i (j + 1) rest

/-- Lines 117-122: the indices `j`, counted from `j`, of the positions whose
witness bit is set at `process`, in order. -/
def witnessedIndices (process : Process) : Nat → List InvariantPosition → List Nat
  | _, [] => []
  | j, position :: rest =>
    if process.Witness position.FileIndex position.InvariantIndex then
      j :: witnessedIndices process (j + 1) rest
    else
      witnessedIndices process (j + 1) rest

/-- Lines 124-126: delete the listed indices one after the other. -/
def deleteIndices : List Nat → List InvariantPosition → Option (List InvariantPosition)
  | [], positions => some positions
  | index :: rest, positions =>
    match slicesDelete positions index (index + 1) with
    | none => none
    | some remaining => deleteIndices rest remaining

/-- Loop over the nodes of `CheckSimpleExistsWitness` (lines 113-127);
`satisfiedInvariants` is declared before the loop and lives across iterations. -/
def existsWitnessLoop (g : Graph) :
    List NodeId → List InvariantPosition → List Nat → Outcome (List InvariantPosition)
  | [], positions, _ => Outcome.ret positions
  | node :: rest, positions, satisfiedInvariants =>
    if positions.length = 0 then
      Outcome.ret positions
    else
      let satisfied := satisfiedInvariants ++ witnessedIndices (g node).Process 0 positions
      match deleteIndices satisfied positions with
      | none => Outcome.fatal "slice bounds out of range"
      | some remaining => existsWitnessLoop g rest remaining satisfied

/-- Go `CheckSimpleExistsWitness` (lines 99-129). -/
def CheckSimpleExistsWitness (g : Graph) (nodes : List NodeId) :
    Outcome (List InvariantPosition) :=
  match nodes with
  | [] => Outcome.fatal "index out of range [0] with length 0"
  | first :: _ =>
    let process := (g first).Process
    if process.Files.length > 1 then
      Outcome.fatal "Invariant checking not supported for multiple files yet"
    else
      match process.Files with
      | [] => existsWitnessLoop g nodes [] []
      | file :: _ => existsWitnessLoop g nodes (collectExistsPositions 0 0 file.Invariants) []

/-! ## Fair-cycle analysis -/

/-- Local variables of `isFairCycle` (lines 492-504). `firstYield` is `none`
for the Go value `-1`. -/
structure FairState where
  strongFairLinksInChain : List String := []
  strongFairLinksOutOfChain : List String := []
  weakFairLinksInChain : List String := []
  weakFairLinksOutOfChain : List String := []
  unvisitedWeakFairLinksOutOfChain : List String := []
  firstYield : Option Nat := none
  prevNodeHasNonCrashLink : Bool := false
  nextNodeIsCrash : Bool := false
deriving Repr, DecidableEq

/-- Node `path[(i+1)%chainLen].Node`, the successor of position `i` on the chain. -/
def succNode (path : List Link) (i : Nat) : Option NodeId :=
  (path.get? ((i + 1) % path.length)).map Link.Node

/-- Body of the loop over `node.Outbound` in `isFairCycle` (lines 526-558) for one
outbound link; `next` is the successor of the current position. -/
def outLinkStep (next : Option NodeId) (st : FairState) (outLink : Link) : FairState :=
  let st :=
    if outLink.Name ≠ "crash" then
      { st with prevNodeHasNonCrashLink := true }
    else if some outLink.Node = next then
      { st with nextNodeIsCrash := true }
    else st
  if outLink.Fairness = FairnessLevel.STRONG then
    if some outLink.Node = next then
      { st with
        strongFairLinksInChain := setInsert st.strongFairLinksInChain outLink.Name
        strongFairLinksOutOfChain := setDelete st.strongFairLinksOutOfChain outLink.Name }
    else if outLink.Name ∉ st.strongFairLinksInChain then
      { st with strongFairLinksOutOfChain := setInsert st.strongFairLinksOutOfChain outLink.Name }
    else st
  else if outLink.Fairness = FairnessLevel.WEAK then
    if some outLink.Node = next then
      { st with
        weakFairLinksInChain := setInsert st.weakFairLinksInChain outLink.Name
        unvisitedWeakFairLinksOutOfChain :=
          setDelete st.unvisitedWeakFairLinksOutOfChain outLink.Name }
    else if outLink.Name ∉ st.weakFairLinksInChain then
      { st with
        unvisitedWeakFairLinksOutOfChain :=
          setInsert st.unvisitedWeakFairLinksOutOfChain outLink.Name }
    else st
  else st

/-- Body of the loop of `isFairCycle` for a position `i` whose node is named
`init` or `yield` (lines 522-571). -/
def participatingStep (g : Graph) (path : List Link) (i : Nat) (link : Link) (st : FairState) :
    FairState :=
  let firstYield := match st.firstYield with
    | none => i
    | some first => first
  let st := (g link.Node).Outbound.foldl (outLinkStep (succNode path i))
    { st with
      unvisitedWeakFairLinksOutOfChain := []
      firstYield := some firstYield
      prevNodeHasNonCrashLink := false }
  if i = firstYield then
    { st with weakFairLinksOutOfChain := st.unvisitedWeakFairLinksOutOfChain }
  else
    { st with weakFairLinksOutOfChain := st.weakFairLinksOutOfChain.filter (fun k =>
        decide (k ∈ st.unvisitedWeakFairLinksOutOfChain)) }

/-- Loop `for i, link := range path` of `isFairCycle` (lines 502-575) from
position `i` on; `none` is the early `return false` of line 513. -/
def isFairCycleLoop (g : Graph) (path : List Link) :
    Nat → List Link → FairState → Option FairState
  | _, [], st => some st
  | i, link :: rest, st =>
    if st.nextNodeIsCrash && st.prevNodeHasNonCrashLink then
      none
    else if (g link.Node).Process.Name ≠ "init" ∧ (g link.Node).Process.Name ≠ "yield" then
      isFairCycleLoop g path (i + 1) rest st
    else
      isFairCycleLoop g path (i + 1) rest (participatingStep g path i link st)

/-- Go `isFairCycle` (lines 491-590); the `debugLog` flag only prints. -/
def isFairCycle (g : Graph) (path : List Link) : Bool :=
  match isFairCycleLoop g path 0 path {} with
  | none => false
  | some st =>
    if st.strongFairLinksOutOfChain.length > 0 ∨ st.weakFairLinksOutOfChain.length > 0 then
      false
    else
      true

/-! ## Final strategy: forward depth-first search -/

/-- Go `InitNodeToLink` (lines 308-315). -/
def InitNodeToLink (g : Graph) (node : NodeId) : Link :=
  { Node := node, Name := "Init", Labels := (g node).Process.Labels,
    Fairness := (g node).Process.Fairness }

/-- Synthetic link `&Link{Node: node, Name: "stutter"}`. -/
def stutterLink (node : NodeId) : Link :=
  { Node := node, Name := "stutter" }

/-- Backward scan of the always-eventually callback (lines 436-447). The
argument is `path[0..i]` reversed, its head being `path[i]`; `last` is
`len(path)-1`. `none`: a relevant node with the value true was met (line 441);
`some m`: the scan ended with `mergeIndex = m`. -/
def alwaysEventuallyScan (predicate : Predicate) (mergeNode : NodeId) (last : Nat) :
    List Link → Option Nat
  | [] => some 0
  | link :: before =>
    if (predicate link.Node).1 && (predicate link.Node).2 then
      none
    else if before.length < last ∧ link.Node = mergeNode then
      some before.length
    else
      alwaysEventuallyScan predicate mergeNode last before

/-- Callback `f` of `AlwaysEventuallyFinal` (lines 432-457). -/
def alwaysEventuallyCallback (g : Graph) (predicate : Predicate) : CycleCallback :=
  fun path =>
    match path.getLast? with
    | none => Outcome.fatal "index out of range [-1]"
    | some lastLink =>
      match alwaysEventuallyScan predicate lastLink.Node (path.length - 1) path.reverse with
      | none => Outcome.ret true
      | some mergeIndex =>
        if isFairCycle g (path.drop mergeIndex) then Outcome.ret false else Outcome.ret true

/-- Backward scan of the eventually-always callback (lines 467-478), as
`alwaysEventuallyScan`; returns `(mergeIndex, deadNodeFound)`. -/
def eventuallyAlwaysScan (predicate : Predicate) (mergeNode : NodeId) (last : Nat) :
    List Link → Bool → Nat × Bool
  | [], deadNodeFound => (0, deadNodeFound)
  | link :: before, deadNodeFound =>
    let deadNodeFound :=
      if (predicate link.Node).1 && !(predicate link.Node).2 then true else deadNodeFound
    if before.length < last ∧ link.Node = mergeNode then
      (before.length, deadNodeFound)
    else
      eventuallyAlwaysScan predicate mergeNode last before deadNodeFound

/-- Callback `f` of `EventuallyAlwaysFinal` (lines 462-487). -/
def eventuallyAlwaysCallback (g : Graph) (predicate : Predicate) : CycleCallback :=
  fun path =>
    match path.getLast? with
    | none => Outcome.fatal "index out of range [-1]"
    | some lastLink =>
      let scan := eventuallyAlwaysScan predicate lastLink.Node (path.length - 1) path.reverse false
      if scan.2 && isFairCycle g (path.drop scan.1) then Outcome.ret false else Outcome.ret true

/-- Loop of lines 615-623 of `cycleFinderHelper`: some outbound link is weakly or
strongly fair. -/
def hasFairLink (outbound : List Link) : Bool :=
  outbound.any (fun link =>
    decide (link.Fairness = FairnessLevel.STRONG ∨ link.Fairness = FairnessLevel.WEAK))

/-- Loop of lines 615-623 of `cycleFinderHelper`: some outbound link has a name
starting with `thread-`. -/
def hasPendingAction (outbound : List Link) : Bool :=
  outbound.any (fun link => "thread-".toList.isPrefixOf link.Name.toList)

/-- Loop over the outbound links of `cycleFinderHelper` (lines 638-646);
`explore` is the recursive call, `visited` and `path` are cloned for every
link, `globalVisited` is shared. -/
def traverseOutbound
    (explore : NodeId → List NodeId → List Link → List NodeId →
      Outcome (List Link × Bool × List NodeId))
    (visited : List NodeId) (path : List Link) :
    List Link → List NodeId → Outcome (List Link × Bool × List NodeId)
  | [], globalVisited => Outcome.ret ([], true, globalVisited)
  | link :: rest, globalVisited =>
    match explore link.Node visited (path ++ [link]) globalVisited with
    | Outcome.ret (failedPath, success, globalVisited) =>
      if !success then
        Outcome.ret (failedPath, false, globalVisited)
      else
        traverseOutbound explore visited path rest globalVisited
    | Outcome.fatal msg => Outcome.fatal msg
    | Outcome.fuel => Outcome.fuel

/-- Go `cycleFinderHelper` (lines 600-649). The first argument bounds the
recursion depth. The shared map `globalVisited` is passed in and returned. -/
def cycleFinderHelper (g : Graph) (callback : CycleCallback) :
    Nat → NodeId → List NodeId → List Link → List NodeId →
      Outcome (List Link × Bool × List NodeId)
  | 0, _, _, _, _ => Outcome.fuel
  | depth + 1, node, visited, path, globalVisited =>
    if node ∈ visited then
      match callback path with
      | Outcome.ret live => Outcome.ret (path, live, globalVisited)
      | Outcome.fatal msg => Outcome.fatal msg
      | Outcome.fuel => Outcome.fuel
    else
      let visited := setInsert visited node
      if node ∈ globalVisited then
        Outcome.ret ([], true, globalVisited)
      else
        let globalVisited := setInsert globalVisited node
        let hasFair := hasFairLink (g node).Outbound
        let pendingAction := hasPendingAction (g node).Outbound
        let descend := traverseOutbound (cycleFinderHelper g callback depth) visited path
          (g node).Outbound globalVisited
        if (g node).Process.Name = "yield" ∧ !hasFair ∧ !pendingAction then
          let pathCopy := path ++ [stutterLink node]
          match callback pathCopy with
          | Outcome.ret isLive =>
            if !isLive then Outcome.ret (pathCopy, false, globalVisited) else descend
          | Outcome.fatal msg => Outcome.fatal msg
          | Outcome.fuel => Outcome.fuel
        else
          descend

/-- Go `CycleFinderFinal` (lines 592-598). -/
def CycleFinderFinal (depth : Nat) (g : Graph) (node : NodeId) (callback : CycleCallback) :
    Outcome (List Link × Bool) :=
  match cycleFinderHelper g callback depth node [] [InitNodeToLink g node] [] with
  | Outcome.ret (path, live, _) => Outcome.ret (path, live)
  | Outcome.fatal msg => Outcome.fatal msg
  | Outcome.fuel => Outcome.fuel

/-- Go `AlwaysEventuallyFinal` (lines 431-459). -/
def AlwaysEventuallyFinal (depth : Nat) (g : Graph) (root : NodeId) (predicate : Predicate) :
    Outcome (List Link × Bool) :=
  CycleFinderFinal depth g root (alwaysEventuallyCallback g predicate)

/-- Go `EventuallyAlwaysFinal` (lines 461-489). -/
def EventuallyAlwaysFinal (depth : Nat) (g : Graph) (root : NodeId) (predicate : Predicate) :
    Outcome (List Link × Bool) :=
  CycleFinderFinal depth g root (eventuallyAlwaysCallback g predicate)

/-! ## Fast strategy: backward fixpoint -/

/-- Seeding loop of `AlwaysEventuallyFast` (lines 235-246): the state is the
queue and `falseNodes`. -/
def alwaysEventuallySeed (g : Graph) (predicate : Predicate) :
    List NodeId → List NodeId → List NodeId → Outcome (List NodeId × List NodeId)
  | [], queue, falseNodes => Outcome.ret (queue, falseNodes)
  | node :: rest, queue, falseNodes =>
    if (g node).Outbound.length = 0 then
      Outcome.fatal "Deadlock detected, at node: "
    else if (predicate node).1 && (predicate node).2 then
      alwaysEventuallySeed g predicate rest (queue ++ [node]) falseNodes
    else
      alwaysEventuallySeed g predicate rest queue (setInsert falseNodes node)

/-- Body of the loops over `node.Inbound` (lines 253-260 and 397-404) for one
inbound link: unless the link is passed over, its origin is deleted from the
marked set (`falseNodes`, `trueNodes`) and enqueued. The state is the marked
set and the queue. -/
def inboundStep (passOver : Link → Bool) (visited : List NodeId)
    (state : List NodeId × List NodeId) (link : Link) : List NodeId × List NodeId :=
  if link.Node ∈ visited ∨ passOver link = true then
    state
  else
    (setDelete state.1 link.Node, state.2 ++ [link.Node])

/-- Queue loops `for queue.Count() > 0` of `AlwaysEventuallyFast` (lines 247-261)
and `EventuallyAlwaysFast` (lines 390-405), which differ only in the inbound
links they pass over (`passOver node link`). Returns the marked set left when
the queue is empty. The first argument bounds the number of iterations. -/
def reverseBfs (g : Graph) (passOver : NodeId → Link → Bool) :
    Nat → List NodeId → List NodeId → List NodeId → Outcome (List NodeId)
  | _, [], _, marked => Outcome.ret marked
  | 0, _ :: _, _, _ => Outcome.fuel
  | fuel + 1, node :: queue, visited, marked =>
    if node ∈ visited then
      reverseBfs g passOver fuel queue visited marked
    else
      let state := (g node).Inbound.foldl (inboundStep (passOver node) (setInsert visited node))
        (marked, queue)
      reverseBfs g passOver fuel state.2 (setInsert visited node) state.1

/-- Condition of line 254-255 besides `visited[link.Node]`:
`link.Node == node || link.Fairness != STRONG`. -/
def notStrongOrSelf (node : NodeId) (link : Link) : Bool :=
  decide (link.Node = node ∨ link.Fairness ≠ FairnessLevel.STRONG)

/-- Lines 232-261 of `AlwaysEventuallyFast`: the set `falseNodes` when the queue
loop has ended. -/
def alwaysEventuallyFalseNodes (fuel : Nat) (g : Graph) (nodes : List NodeId)
    (predicate : Predicate) : Outcome (List NodeId) :=
  match alwaysEventuallySeed g predicate nodes [] [] with
  | Outcome.ret (queue, falseNodes) => reverseBfs g notStrongOrSelf fuel queue [] falseNodes
  | Outcome.fatal msg => Outcome.fatal msg
  | Outcome.fuel => Outcome.fuel

/-- Body of the loop over `falseNodes` that selects `closestDeadNode`
(lines 265-278); `none` is the nil pointer. -/
def closestDeadStep (g : Graph) (closestDeadNode : Option NodeId) (node : NodeId) :
    Option NodeId :=
  match closestDeadNode with
  | none => some node
  | some closest =>
    if (g closest).Process.Threads > 0 ∧ (g node).Process.Threads = 0 then some node
    else if (g node).actionDepth > (g closest).actionDepth then some closest
    else if (g node).actionDepth < (g closest).actionDepth then some node
    else if (g node).forkDepth < (g closest).forkDepth then some node
    else some closest

/-- Modelled from the spec: `ReverseLink(node, link)`, which is not in these
sources; "each step appends the reversed inbound link (source→target flipped to
target→source)": the link into `node` that carries the inbound link's action. -/
def ReverseLink (node : NodeId) (link : Link) : Link :=
  { Node := node, Name := link.Name, Labels := link.Labels, Fairness := link.Fairness }

/-- Loop of `pathToInit` (lines 294-303); `failurePath` is built from the target
backward. The first argument bounds the number of iterations. -/
def pathToInitLoop (g : Graph) (nodes : List NodeId) :
    Nat → NodeId → List Link → Outcome (List Link)
  | 0, _, _ => Outcome.fuel
  | fuel + 1, node, failurePath =>
    match (g node).Inbound with
    | [] => Outcome.ret (failurePath ++ [InitNodeToLink g node])
    | first :: _ =>
      if (g node).Process.Name = "init" then
        Outcome.ret (failurePath ++ [InitNodeToLink g node])
      else
        match nodes.head? with
        | none => Outcome.fatal "index out of range [0] with length 0"
        | some root =>
          if node = root then
            Outcome.ret (failurePath ++ [InitNodeToLink g node])
          else
            pathToInitLoop g nodes fuel first.Node (failurePath ++ [ReverseLink node first])

/-- Go `pathToInit` (lines 290-306). -/
def pathToInit (fuel : Nat) (g : Graph) (nodes : List NodeId) (closestDeadNode : NodeId) :
    Outcome (List Link) :=
  match pathToInitLoop g nodes fuel closestDeadNode [] with
  | Outcome.ret failurePath => Outcome.ret failurePath.reverse
  | Outcome.fatal msg => Outcome.fatal msg
  | Outcome.fuel => Outcome.fuel

/-- Queue element of `findCyclePath` and `cycleFinderHelperBfs` (`Wrapper`). -/
structure Wrapper where
  link : Link
  path : List Link
  visited : List NodeId
deriving Repr, DecidableEq

/-- Loop over `node.Outbound` in `findCyclePath` (lines 332-349). `Sum.inl path`
is the `return path` of line 345; otherwise the queue and `fairCount`. -/
def findCycleOutbound (nodes : List NodeId) (node : NodeId) (path : List Link)
    (visited : List NodeId) :
    List Link → List Wrapper → Nat → List Link ⊕ (List Wrapper × Nat)
  | [], queue, fairCount => Sum.inr (queue, fairCount)
  | link :: rest, queue, fairCount =>
    if link.Fairness ≠ FairnessLevel.STRONG then
      findCycleOutbound nodes node path visited rest queue fairCount
    else if link.Node ∉ nodes then
      findCycleOutbound nodes node path visited rest queue fairCount
    else if node ∈ visited then
      Sum.inl path
    else
      findCycleOutbound nodes node path visited rest
        (queue ++ [{ link := link, path := path ++ [link], visited := setInsert visited node }])
        (fairCount + 1)

/-- Queue loop of `findCyclePath` (lines 326-360). The first argument bounds the
number of iterations. -/
def findCyclePathLoop (g : Graph) (nodes : List NodeId) :
    Nat → List Wrapper → Outcome (List Link)
  | _, [] => Outcome.fatal "Cycle not found"
  | 0, _ :: _ => Outcome.fuel
  | fuel + 1, element :: queue =>
    match findCycleOutbound nodes element.link.Node element.path element.visited
        (g element.link.Node).Outbound queue 0 with
    | Sum.inl path => Outcome.ret path
    | Sum.inr (queue, fairCount) =>
      if fairCount = 0 then
        Outcome.ret (element.path ++ [stutterLink element.link.Node])
      else
        findCyclePathLoop g nodes fuel queue

/-- Go `findCyclePath` (lines 317-362); `nodes` is the allowed set. -/
def findCyclePath (fuel : Nat) (g : Graph) (startNode : NodeId) (nodes : List NodeId) :
    Outcome (List Link) :=
  findCyclePathLoop g nodes fuel
    [{ link := InitNodeToLink g startNode, path := [], visited := [] }]

/-- Lines 262-283 of `AlwaysEventuallyFast`: the counterexample for a non-empty
`falseNodes`. `iteration m` is the order in which the Go runtime ranges over the
keys of the map `m`. -/
def alwaysEventuallyFailure (fuel : Nat) (g : Graph) (iteration : List NodeId → List NodeId)
    (nodes : List NodeId) (falseNodes : List NodeId) : Outcome (List Link × Bool) :=
  match (iteration falseNodes).foldl (closestDeadStep g) none with
  | none => Outcome.fatal "invalid memory address or nil pointer dereference"
  | some closestDeadNode =>
    match pathToInit fuel g nodes closestDeadNode with
    | Outcome.ret failurePath =>
      match findCyclePath fuel g closestDeadNode falseNodes with
      | Outcome.ret path => Outcome.ret (failurePath ++ path, false)
      | Outcome.fatal msg => Outcome.fatal msg
      | Outcome.fuel => Outcome.fuel
    | Outcome.fatal msg => Outcome.fatal msg
    | Outcome.fuel => Outcome.fuel

/-- Go `AlwaysEventuallyFast` (lines 227-288). The nil path is the empty list. -/
def AlwaysEventuallyFast (fuel : Nat) (g : Graph) (iteration : List NodeId → List NodeId)
    (nodes : List NodeId) (predicate : Predicate) : Outcome (List Link × Bool) :=
  match alwaysEventuallyFalseNodes fuel g nodes predicate with
  | Outcome.ret falseNodes =>
    if falseNodes.length > 0 then
      alwaysEventuallyFailure fuel g iteration nodes falseNodes
    else
      Outcome.ret ([], true)
  | Outcome.fatal msg => Outcome.fatal msg
  | Outcome.fuel => Outcome.fuel

/-- Queue loop of `cycleFinderHelperBfs` (lines 665-710). The first argument
bounds the number of iterations. -/
def cycleFinderBfsLoop (g : Graph) (callback : CycleCallback) :
    Nat → List Wrapper → Outcome (List Link × Bool)
  | _, [] => Outcome.ret ([], true)
  | 0, _ :: _ => Outcome.fuel
  | fuel + 1, element :: queue =>
    let node := element.link.Node
    let path := element.path ++ [element.link]
    if node ∈ element.visited then
      match callback path with
      | Outcome.ret live =>
        if live then cycleFinderBfsLoop g callback fuel queue else Outcome.ret (path, false)
      | Outcome.fatal msg => Outcome.fatal msg
      | Outcome.fuel => Outcome.fuel
    else
      let visited := setInsert element.visited node
      let queue := queue ++ (g node).Outbound.map (fun outLink =>
        { link := outLink, path := path, visited := visited })
      if hasFairLink (g node).Outbound then
        cycleFinderBfsLoop g callback fuel queue
      else
        match callback (path ++ [stutterLink node]) with
        | Outcome.ret live =>
          if live then cycleFinderBfsLoop g callback fuel queue
          else Outcome.ret (path ++ [stutterLink node], false)
        | Outcome.fatal msg => Outcome.fatal msg
        | Outcome.fuel => Outcome.fuel

/-- Go `cycleFinderHelperBfs` (lines 657-711). -/
def cycleFinderHelperBfs (fuel : Nat) (g : Graph) (root : NodeId) (callback : CycleCallback)
    (visited : List NodeId) (path : List Link) : Outcome (List Link × Bool) :=
  cycleFinderBfsLoop g callback fuel
    [{ link := InitNodeToLink g root, path := path, visited := visited }]

/-- Go `CycleFinderFinalBfs` (lines 651-655). -/
def CycleFinderFinalBfs (fuel : Nat) (g : Graph) (node : NodeId) (callback : CycleCallback) :
    Outcome (List Link × Bool) :=
  cycleFinderHelperBfs fuel g node callback [] []

/-- Seeding loop of `EventuallyAlwaysFast` (lines 376-387): the state is the queue
and `trueNodes`. -/
def eventuallyAlwaysSeed (g : Graph) (predicate : Predicate) :
    List NodeId → List NodeId → List NodeId → Outcome (List NodeId × List NodeId)
  | [], queue, trueNodes => Outcome.ret (queue, trueNodes)
  | node :: rest, queue, trueNodes =>
    if (g node).Outbound.length = 0 then
      Outcome.fatal "Deadlock detected, at node: "
    else if (predicate node).1 && !(predicate node).2 then
      eventuallyAlwaysSeed g predicate rest (queue ++ [node]) trueNodes
    else if (predicate node).1 then
      eventuallyAlwaysSeed g predicate rest queue (setInsert trueNodes node)
    else
      eventuallyAlwaysSeed g predicate rest queue trueNodes

/-- Lines 373-405 of `EventuallyAlwaysFast`: the set `trueNodes` when the queue
loop has ended. -/
def eventuallyAlwaysTrueNodes (fuel : Nat) (g : Graph) (nodes : List NodeId)
    (predicate : Predicate) : Outcome (List NodeId) :=
  match eventuallyAlwaysSeed g predicate nodes [] [] with
  | Outcome.ret (queue, trueNodes) => reverseBfs g (fun _ _ => false) fuel queue [] trueNodes
  | Outcome.fatal msg => Outcome.fatal msg
  | Outcome.fuel => Outcome.fuel

/-- Derived predicate of line 410-412: every node is relevant, the value is
membership in `trueNodes`. -/
def inTrueNodes (trueNodes : List NodeId) : Predicate :=
  fun n => (true, decide (n ∈ trueNodes))

/-- Go `EventuallyAlwaysFast` (lines 364-424). -/
def EventuallyAlwaysFast (fuel : Nat) (g : Graph) (iteration : List NodeId → List NodeId)
    (nodes : List NodeId) (predicate : Predicate) : Outcome (List Link × Bool) :=
  match eventuallyAlwaysTrueNodes fuel g nodes predicate with
  | Outcome.ret trueNodes =>
    if trueNodes.length > 0 then
      AlwaysEventuallyFast fuel g iteration nodes (inTrueNodes trueNodes)
    else
      match nodes with
      | [] => Outcome.fatal "index out of range [0] with length 0"
      | root :: _ => CycleFinderFinalBfs fuel g root (fun _ => Outcome.ret false)
  | Outcome.fatal msg => Outcome.fatal msg
  | Outcome.fuel => Outcome.fuel

/-! ## Liveness dispatchers -/

/-- Temporal classification of lines 141-157, repeated at lines 190-206: the
flags `(eventuallyAlways, alwaysEventually)`. Indexing `TemporalOperators[1]`
panics on a one-element list. -/
def classifyTemporal (invariant : Invariant) : Outcome (Bool × Bool) :=
  if !invariant.Block then
    if invariant.Always && invariant.Eventually then
      Outcome.ret (false, true)
    else if invariant.Eventually && GetNestedAlways invariant then
      Outcome.ret (true, false)
    else
      Outcome.ret (false, false)
  else if !invariant.TemporalOperators.contains "eventually" then
    Outcome.ret (false, false)
  else
    match invariant.TemporalOperators with
    | [] => Outcome.fatal "index out of range [0] with length 0"
    | first :: others =>
      if first = "eventually" then
        match others with
        | [] => Outcome.fatal "index out of range [1] with length 1"
        | second :: _ =>
          if second = "always" then Outcome.ret (true, false) else Outcome.ret (false, false)
      else if first = "always" then
        match others with
        | [] => Outcome.fatal "index out of range [1] with length 1"
        | second :: _ =>
          if second = "eventually" then Outcome.ret (false, true) else Outcome.ret (false, false)
      else
        Outcome.ret (false, false)

/-- Loop over the invariants of file `i` shared by `CheckStrictLiveness`
(lines 137-172) and `CheckFastLiveness` (lines 186-221), from index `j` on;
`predicateAt j` is the closure built for invariant `j`, and the two entry points
are those the dispatcher calls. The pair `(nil, nil)` is `([], none)`. -/
def livenessLoop (i : Nat) (predicateAt : Nat → Predicate)
    (eventuallyAlwaysEntry alwaysEventuallyEntry : Predicate → Outcome (List Link × Bool)) :
    Nat → List Invariant → Outcome (List Link × Option InvariantPosition)
  | _, [] => Outcome.ret ([], none)
  | j, invariant :: rest =>
    match classifyTemporal invariant with
    | Outcome.ret (eventuallyAlways, alwaysEventually) =>
      if eventuallyAlways then
        match eventuallyAlwaysEntry (predicateAt j) with
        | Outcome.ret (failurePath, isLive) =>
          if !isLive then
            Outcome.ret (failurePath, some (NewInvariantPosition i j))
          else
            livenessLoop i predicateAt eventuallyAlwaysEntry alwaysEventuallyEntry (j + 1) rest
        | Outcome.fatal msg => Outcome.fatal msg
        | Outcome.fuel => Outcome.fuel
      else if alwaysEventually then
        match alwaysEventuallyEntry (predicateAt j) with
        | Outcome.ret (failurePath, isLive) =>
          if !isLive then
            Outcome.ret (failurePath, some (NewInvariantPosition i j))
          else
            livenessLoop i predicateAt eventuallyAlwaysEntry alwaysEventuallyEntry (j + 1) rest
        | Outcome.fatal msg => Outcome.fatal msg
        | Outcome.fuel => Outcome.fuel
      else
        livenessLoop i predicateAt eventuallyAlwaysEntry alwaysEventuallyEntry (j + 1) rest
    | Outcome.fatal msg => Outcome.fatal msg
    | Outcome.fuel => Outcome.fuel

/-- Predicate closure of `CheckStrictLiveness` (lines 138-140) for invariant
`(i, j)`. -/
def strictPredicate (g : Graph) (i j : Nat) : Predicate :=
  fun n => ((g n).Process.Threads = 0 || (g n).Process.Name = "yield", (g n).Process.Witness i j)

/-- Predicate closure of `CheckFastLiveness` (lines 187-189) for invariant
`(i, j)`. -/
def fastPredicate (g : Graph) (i j : Nat) : Predicate :=
  fun n => (decide ((g n).Process.Threads = 0), (g n).Process.Witness i j)

/-- Go `CheckStrictLiveness` (lines 131-176). -/
def CheckStrictLiveness (depth : Nat) (g : Graph) (node : NodeId) :
    Outcome (List Link × Option InvariantPosition) :=
  if (g node).Process.Files.length > 1 then
    Outcome.fatal "Invariant checking not supported for multiple files yet"
  else
    match (g node).Process.Files with
    | [] => Outcome.ret ([], none)
    | file :: _ =>
      livenessLoop 0 (strictPredicate g 0) (EventuallyAlwaysFinal depth g node)
        (AlwaysEventuallyFinal depth g node) 0 file.Invariants

/-- Go `CheckFastLiveness` (lines 178-225). -/
def CheckFastLiveness (fuel : Nat) (g : Graph) (iteration : List NodeId → List NodeId)
    (allNodes : List NodeId) : Outcome (List Link × Option InvariantPosition) :=
  match allNodes with
  | [] => Outcome.fatal "index out of range [0] with length 0"
  | node :: _ =>
    if (g node).Process.Files.length > 1 then
      Outcome.fatal "Invariant checking not supported for multiple files yet"
    else
      match (g node).Process.Files with
      | [] => Outcome.ret ([], none)
      | file :: _ =>
        livenessLoop 0 (fastPredicate g 0) (EventuallyAlwaysFast fuel g iteration allNodes)
          (AlwaysEventuallyFast fuel g iteration allNodes) 0 file.Invariants

/-! ## Roles (`modelchecker/starlark_role.go`)

A role holds its parameters in a `starlarkstruct.Struct` and its fields in a
`lib.Struct`. The code of these two types and of `lib.BuiltinAttr` is not part
of these sources: the embedding of `Role` takes their operations as the
parameter `StructLib`, over any type `V` of Starlark values, `P` of parameter
structs and `F` of field structs. A Go result `(starlark.Value, error)` is a
pair of options, `none` being `nil`; a method that updates a struct in place
returns the struct after the call. -/

/-- Go `error` values that `Role` tells apart with the type test
`err.(starlark.NoSuchAttrError)`: a `starlark.NoSuchAttrError`, or any other
error, such as the result of `fmt.Errorf`. -/
inductive Error where
  | NoSuchAttrError (msg : String)
  | Errorf (msg : String)
deriving Repr, DecidableEq

/-- Go `*starlark.Builtin`, by its name. -/
structure Builtin where
  name : String
deriving Repr, DecidableEq

/-- Go `Role` (lines 19-24). -/
structure Role (V P F : Type) where
  ref : Nat
  Name : String
  Params : P
  Fields : F

/-- Operations of `starlarkstruct.Struct` (the type `P`) and of package `lib`
(the type `F` is `lib.Struct`) that `Role` calls: `starlarkstruct.FromKeywords`
and `lib.FromStringDict` with the name of the constructor, the methods `Attr` of
both struct types, the method `SetField` of `lib.Struct`, and `lib.BuiltinAttr`
with the receiver, the attribute name and the table of methods. -/
structure StructLib (V P F : Type) where
  FromKeywords : String → List (String × V) → P
  ParamsAttr : P → String → Option V × Option Error
  FromStringDict : String → List (String × V) → F
  FieldsAttr : F → String → Option V × Option Error
  FieldsSetField : F → String → V → F × Option Error
  BuiltinAttr : Role V P F → String → List (String × Builtin) → Option V × Option Error

/-- Go `roleMethods` (lines 10-14): the table of builtin methods of a role, which
has no entry. -/
def roleMethods : List (String × Builtin) := []

/-- Go `roleRefs` (lines 16-18): the number of roles created for each role name;
the lookup of a missing key gives 0. -/
abbrev RoleRefs := String → Nat

/-- Go `(*Role).SetField` (lines 26-37): the role after the call and the error
returned. -/
def Role.SetField {V P F : Type} (lib : StructLib V P F) (r : Role V P F) (name : String)
    (val : V) : Role V P F × Option Error :=
  match lib.ParamsAttr r.Params name with
  | (_, none) =>
    (r, some (Error.Errorf ("cannot set immutable field " ++ name ++ " on role " ++ r.Name)))
  | (_, some (Error.NoSuchAttrError _)) =>
    match lib.BuiltinAttr r name roleMethods with
    | (some _, _) =>
      (r, some (Error.Errorf ("cannot override builtins " ++ name ++ " on role " ++ r.Name)))
    | (none, _) =>
      let stored := lib.FieldsSetField r.Fields name val
      ({ r with Fields := stored.1 }, stored.2)
  | (_, some err) => (r, some err)

/-- Go `(*Role).Attr` (lines 39-50). -/
def Role.Attr {V P F : Type} (lib : StructLib V P F) (r : Role V P F) (name : String) :
    Option V × Option Error :=
  match lib.FieldsAttr r.Fields name with
  | (v, none) => (v, none)
  | (_, some (Error.NoSuchAttrError _)) =>
    match lib.ParamsAttr r.Params name with
    | (v, none) => (v, none)
    | (_, some (Error.NoSuchAttrError _)) => lib.BuiltinAttr r name roleMethods
    | (v, some err) => (v, some err)
  | (v, some err) => (v, some err)

/-- Go `CreateRoleBuiltin` (lines 80-93): the call of the builtin that it
returns, with the positional arguments, the keyword arguments and the global
`roleRefs`; the result is the value and error returned and `roleRefs` after the
call. -/
def CreateRoleBuiltin {V P F : Type} (lib : StructLib V P F) (name : String)
    (roleRefs : RoleRefs) (_args : List V) (kwargs : List (String × V)) :
    (Option (Role V P F) × Option Error) × RoleRefs :=
  let params := lib.FromKeywords "params" kwargs
  let nextRef := roleRefs name
  let roleRefs :=
    if roleRefs name > 0 then
      Function.update roleRefs name (roleRefs name + 1)
    else
      Function.update roleRefs name 1
  let fields := lib.FromStringDict "fields" []
  ((some { ref := nextRef + 1, Name := name, Params := params, Fields := fields }, none),
    roleRefs)

/-! ## Notions of the specification -/

/-- Fields of a process that evaluation reads are those of `p`. -/
def sameProgram (p q : Process) : Prop :=
  q.Files = p.Files ∧ q.EvalPyExpr = p.EvalPyExpr ∧ q.RunAssertion = p.RunAssertion

/-- Eventual or existential form (spec 4.1): `Eventually` on a flat invariant,
`eventually` or `exists` among the operators of a block invariant. -/
def eventualForm (invariant : Invariant) : Bool :=
  if invariant.Block then eventualOrExists invariant else invariant.Eventually

/-- Truth value of the predicate or assertion of invariant `j` at a process:
`CheckAssertion` for a block invariant, `CheckInvariant` for a flat one. -/
def evaluateAt (process : Process) (invariant : Invariant) (j : Nat) : Outcome Bool :=
  if invariant.Block then CheckAssertion process invariant j else CheckInvariant process invariant

/-- Safety form (spec 4.1): a flat invariant with `Eventually` false, or a block
invariant whose operators contain neither `eventually` nor `exists`. -/
def safetyForm (invariant : Invariant) : Bool :=
  if invariant.Block then
    !invariant.TemporalOperators.contains "eventually" &&
      !invariant.TemporalOperators.contains "exists"
  else
    !invariant.Eventually

/-- Position `i` of the path participates in the fairness accounting: its node is
named `init` or `yield`. -/
def participates (g : Graph) (path : List Link) (i : Nat) : Prop :=
  ∃ link, path.get? i = some link ∧
    ((g link.Node).Process.Name = "init" ∨ (g link.Node).Process.Name = "yield")

/-- Name `a` labels an outbound link of fairness `f` at the participating
position `i` that targets the successor of `i` on the path. -/
def inChainAt (g : Graph) (path : List Link) (f : FairnessLevel) (i : Nat) (a : String) : Prop :=
  participates g path i ∧ ∃ link outLink, path.get? i = some link ∧
    outLink ∈ (g link.Node).Outbound ∧ outLink.Fairness = f ∧ outLink.Name = a ∧
    some outLink.Node = succNode path i

/-- Name `a` labels an outbound link of fairness `f` at the participating
position `i` that does not target the successor of `i` on the path. -/
def outOfChainAt (g : Graph) (path : List Link) (f : FairnessLevel) (i : Nat) (a : String) :
    Prop :=
  participates g path i ∧ ∃ link outLink, path.get? i = some link ∧
    outLink ∈ (g link.Node).Outbound ∧ outLink.Fairness = f ∧ outLink.Name = a ∧
    some outLink.Node ≠ succNode path i

/-- Strong out-of-chain set of a path: the names of strong-fair outbound links of
participating nodes that do not target the successor, minus the names of
strong-fair outbound links of participating nodes that do. -/
def strongOutOfChain (g : Graph) (path : List Link) (a : String) : Prop :=
  (∃ i, outOfChainAt g path FairnessLevel.STRONG i a) ∧
    ¬ ∃ i, inChainAt g path FairnessLevel.STRONG i a

/-- Weak out-of-chain set of a path: the intersection, over the participating
positions, of the names of weak-fair outbound links at the position that do not
target the successor and are not names of weak-fair links that do. A path
without participating position has no such name. -/
def weakOutOfChain (g : Graph) (path : List Link) (a : String) : Prop :=
  (∃ i, participates g path i) ∧
    ∀ i, participates g path i →
      outOfChainAt g path FairnessLevel.WEAK i a ∧ ¬ inChainAt g path FairnessLevel.WEAK i a

/-- Participating position `k` has an outbound link named `crash` that targets the
successor of `k` on the path. -/
def crashTakenAt (g : Graph) (path : List Link) (k : Nat) : Prop :=
  participates g path k ∧ ∃ link outLink, path.get? k = some link ∧
    outLink ∈ (g link.Node).Outbound ∧ outLink.Name = "crash" ∧
    some outLink.Node = succNode path k

/-- Participating position `m` has an outbound link that is not named `crash`. -/
def nonCrashAt (g : Graph) (path : List Link) (m : Nat) : Prop :=
  participates g path m ∧ ∃ link outLink, path.get? m = some link ∧
    outLink ∈ (g link.Node).Outbound ∧ outLink.Name ≠ "crash"

/-- Test with which the loop of `isFairCycle` returns false (lines 509-514), in
terms of the path: a participating position has an outbound link named `crash`
that targets its successor, and the same or a later participating position,
other than the last position of the path, has an outbound link not named
`crash`. -/
def crashRejected (g : Graph) (path : List Link) : Prop :=
  ∃ k m, k ≤ m ∧ m + 1 < path.length ∧ crashTakenAt g path k ∧ nonCrashAt g path m

/-- Invariant `j` raises no liveness failure: its classification returns, and if
it is classified eventually-always or always-eventually, the entry point of
that class reports it live. -/
def reportedLive (predicateAt : Nat → Predicate)
    (eventuallyAlwaysEntry alwaysEventuallyEntry : Predicate → Outcome (List Link × Bool))
    (invariant : Invariant) (j : Nat) : Prop :=
  ∃ eventuallyAlways alwaysEventually,
    classifyTemporal invariant = Outcome.ret (eventuallyAlways, alwaysEventually) ∧
    (eventuallyAlways = true →
      ∃ path, eventuallyAlwaysEntry (predicateAt j) = Outcome.ret (path, true)) ∧
    (eventuallyAlways = false → alwaysEventually = true →
      ∃ path, alwaysEventuallyEntry (predicateAt j) = Outcome.ret (path, true))

/-- Invariant `j` is classified eventually-always or always-eventually and the
entry point of that class reports it not live, with `path`. -/
def reportedNotLive (predicateAt : Nat → Predicate)
    (eventuallyAlwaysEntry alwaysEventuallyEntry : Predicate → Outcome (List Link × Bool))
    (invariant : Invariant) (j : Nat) (path : List Link) : Prop :=
  ∃ eventuallyAlways alwaysEventually,
    classifyTemporal invariant = Outcome.ret (eventuallyAlways, alwaysEventually) ∧
    ((eventuallyAlways = true ∧
        eventuallyAlwaysEntry (predicateAt j) = Outcome.ret (path, false)) ∨
      (eventuallyAlways = false ∧ alwaysEventually = true ∧
        alwaysEventuallyEntry (predicateAt j) = Outcome.ret (path, false)))

/-- Result the specification gives for a liveness dispatcher over the invariants
`invariants` of file 0: `(nil, nil)` when every invariant is reported live, or
the path and position of the first invariant reported not live, all invariants
before it being reported live; nothing is asked of the invariants after it. -/
def firstLivenessFailure (predicateAt : Nat → Predicate)
    (eventuallyAlwaysEntry alwaysEventuallyEntry : Predicate → Outcome (List Link × Bool))
    (invariants : List Invariant) (result : List Link × Option InvariantPosition) : Prop :=
  (result = ([], none) ∧ ∀ j invariant, invariants.get? j = some invariant →
    reportedLive predicateAt eventuallyAlwaysEntry alwaysEventuallyEntry invariant j) ∨
  (∃ j invariant path, invariants.get? j = some invariant ∧
    result = (path, some (NewInvariantPosition 0 j)) ∧
    reportedNotLive predicateAt eventuallyAlwaysEntry alwaysEventuallyEntry invariant j path ∧
    ∀ k earlier, k < j → invariants.get? k = some earlier →
      reportedLive predicateAt eventuallyAlwaysEntry alwaysEventuallyEntry earlier k)

/-- Link `next` is an element of the `Outbound` list of the node of `prev`. -/
def followsOutbound (g : Graph) (prev next : Link) : Prop :=
  next ∈ (g prev.Node).Outbound

/-- Node named `yield` that has no weak- or strong-fair outbound link and no
outbound link whose name starts with `thread-`. -/
def stutteringYield (g : Graph) (node : NodeId) : Prop :=
  (g node).Process.Name = "yield" ∧
    (∀ l ∈ (g node).Outbound,
      l.Fairness ≠ FairnessLevel.WEAK ∧ l.Fairness ≠ FairnessLevel.STRONG) ∧
    (∀ l ∈ (g node).Outbound, ¬ "thread-".toList <+: l.Name.toList)

/-- Shape of a liveness counterexample of the Final strategy (spec 8,
counterexample validity): the path is a stem followed by a final link; the stem
starts with a link named `Init` at the root, each later link of the stem is an
outbound link of the node of the link before it, and the final link either is
an outbound link of the last node of the stem that targets a node of the stem
(it closes a cycle), or is a link named `stutter` at the last node of the stem,
a `yield` node without fair outbound link and without `thread-` link. -/
def finalCounterexample (g : Graph) (root : NodeId) (path : List Link) : Prop :=
  ∃ stem prev last, path = stem ++ [last] ∧
    (∃ first, stem.head? = some first ∧ first.Name = "Init" ∧ first.Node = root) ∧
    stem.getLast? = some prev ∧ List.Chain' (followsOutbound g) stem ∧
    ((last ∈ (g prev.Node).Outbound ∧ ∃ l ∈ stem, l.Node = last.Node) ∨
      (last.Name = "stutter" ∧ last.Node = prev.Node ∧ stutteringYield g prev.Node))

/-- State of the depth-first search at a call of `cycleFinderHelper`: the path
starts with `Init` at the root and ends at `node`, follows outbound links, and
every node of the per-branch `visited` set is a node of the path before its
last link. -/
def searchState (g : Graph) (root node : NodeId) (visited : List NodeId) (path : List Link) :
    Prop :=
  ∃ stem last, path = stem ++ [last] ∧ last.Node = node ∧
    List.Chain' (followsOutbound g) path ∧
    (∃ first, path.head? = some first ∧ first.Name = "Init" ∧ first.Node = root) ∧
    ∀ v ∈ visited, ∃ l ∈ stem, l.Node = v

/-- Node `x` is the origin of an inbound link of `y` that the queue loop of the
Fast strategy follows. -/
def followedInbound (g : Graph) (passOver : NodeId → Link → Bool) (y x : NodeId) : Prop :=
  ∃ l ∈ (g y).Inbound, l.Node = x ∧ passOver y l = false

/-- Number of queue iterations that suffice for the queue loops of the Fast
strategy on the node list: every listed node once for its seeding and once for
each of its inbound links. -/
def bfsBound (g : Graph) (nodes : List NodeId) : Nat :=
  nodes.length + (nodes.map (fun a => (g a).Inbound.length)).sum

/-- Graph given by the node list is closed and its inbound lists mirror its
outbound lists: every inbound link of a listed node comes from a listed node
that has an outbound link of the same fairness to it, and every outbound link
of a listed node goes to a listed node that has an inbound link of the same
fairness from it. -/
def mirrored (g : Graph) (nodes : List NodeId) : Prop :=
  (∀ n ∈ nodes, ∀ l ∈ (g n).Inbound, l.Node ∈ nodes ∧
    ∃ o ∈ (g l.Node).Outbound, o.Node = n ∧ o.Fairness = l.Fairness) ∧
  (∀ n ∈ nodes, ∀ o ∈ (g n).Outbound, o.Node ∈ nodes ∧
    ∃ l ∈ (g o.Node).Inbound, l.Node = n ∧ l.Fairness = o.Fairness)

/-- Node `a` has a strong-fair outbound link to `b`. -/
def strongLink (g : Graph) (a b : NodeId) : Prop :=
  ∃ o ∈ (g a).Outbound, o.Node = b ∧ o.Fairness = FairnessLevel.STRONG

/-- Node `a` has an outbound link, of any fairness, to `b`. -/
def anyLink (g : Graph) (a b : NodeId) : Prop :=
  ∃ o ∈ (g a).Outbound, o.Node = b

/-- Node of the list that is relevant and at which the predicate is true. -/
def goodSeed (nodes : List NodeId) (predicate : Predicate) (s : NodeId) : Prop :=
  s ∈ nodes ∧ (predicate s).1 = true ∧ (predicate s).2 = true

/-- Node `x` is a good seed or has a path of strong-fair links to one. -/
def reachesGoodSeed (g : Graph) (nodes : List NodeId) (predicate : Predicate) (x : NodeId) :
    Prop :=
  ∃ s, goodSeed nodes predicate s ∧ Relation.ReflTransGen (strongLink g) x s

/-- Number of inbound links of the nodes of `domain` that the queue loop has
not visited yet. -/
def pendingInbound (g : Graph) (domain visited : List NodeId) : Nat :=
  ((domain.filter (fun a => decide (a ∉ visited))).map (fun a => (g a).Inbound.length)).sum
/-- Node of the list that is relevant and at which the predicate is false. -/
def badNode (nodes : List NodeId) (predicate : Predicate) (b : NodeId) : Prop :=
  b ∈ nodes ∧ (predicate b).1 = true ∧ (predicate b).2 = false

/-- Set `T` of the specification of `EventuallyAlwaysFast`: the listed nodes
that are relevant and P-true and from which no relevant not-P node is reachable
along links of any fairness. -/
def permanentlyTrue (g : Graph) (nodes : List NodeId) (predicate : Predicate) (x : NodeId) :
    Prop :=
  x ∈ nodes ∧ (predicate x).1 = true ∧ (predicate x).2 = true ∧
    ¬ ∃ b, badNode nodes predicate b ∧ Relation.ReflTransGen (anyLink g) x b

/-- Largest number of outbound links of a listed node. -/
def maxOutDegree (g : Graph) (nodes : List NodeId) : Nat :=
  (nodes.map (fun a => (g a).Outbound.length)).foldr max 0

/-- Number of queue iterations that suffice for the breadth-first cycle finder
to meet a repeated node when every candidate is a violation. -/
def cycleBound (g : Graph) (nodes : List NodeId) : Nat :=
  (maxOutDegree g nodes + 1) ^ nodes.length

/-- Listed nodes that are not on the branch of a queue element yet. -/
def unvisitedCount (nodes visited : List NodeId) : Nat :=
  (nodes.filter (fun a => decide (a ∉ visited))).length

/-- Weight of a queue of the breadth-first cycle finder. -/
def queueWeight (g : Graph) (nodes : List NodeId) (queue : List Wrapper) : Nat :=
  (queue.map (fun e => (maxOutDegree g nodes + 1) ^ unvisitedCount nodes e.visited)).sum


/-- Links `prev` and `next` are connected by an outbound link of the node of
`prev`: that node has an outbound link to the node of `next`. -/
def connectedByOutbound (g : Graph) (prev next : Link) : Prop :=
  anyLink g prev.Node next.Node

/-- Node without strong-fair outbound link. -/
def noStrongLink (g : Graph) (node : NodeId) : Prop :=
  ∀ o ∈ (g node).Outbound, o.Fairness ≠ FairnessLevel.STRONG

/-- Graph invariants of the specification (section 3) for the node list of the
Fast strategy: the list starts with the root, every listed node is reachable
from the root along outbound links, the inbound lists mirror the outbound lists
and no listed node lacks an outbound link. -/
def graphInvariants (g : Graph) (root : NodeId) (nodes : List NodeId) : Prop :=
  nodes.head? = some root ∧
    (∀ n ∈ nodes, Relation.ReflTransGen (anyLink g) root n) ∧
    mirrored g nodes ∧ ∀ n ∈ nodes, (g n).Outbound ≠ []

/-- Shape of a liveness counterexample as the specification states it for the
Fast strategy (spec 8, counterexample validity): a stem that starts with a link
named `Init` at the root and in which each adjacent pair is connected by an
outbound link, followed by a final link that either closes a cycle or is a link
named `stutter` at a `yield` node without fair outbound link and without
`thread-` link. -/
def claimedFastCounterexample (g : Graph) (root : NodeId) (path : List Link) : Prop :=
  ∃ stem prev last, path = stem ++ [last] ∧
    (∃ first, stem.head? = some first ∧ first.Name = "Init" ∧ first.Node = root) ∧
    stem.getLast? = some prev ∧ List.Chain' (connectedByOutbound g) stem ∧
    ((connectedByOutbound g prev last ∧ ∃ l ∈ stem, l.Node = last.Node) ∨
      (last.Name = "stutter" ∧ last.Node = prev.Node ∧ stutteringYield g prev.Node))

/-- Shape of the liveness counterexamples that the Fast strategy returns: as
`claimedFastCounterexample`, but the `Init` link is at the root or at a node
named `init`, and the node of a final `stutter` link is any node without
strong-fair outbound link. -/
def fastCounterexample (g : Graph) (root : NodeId) (path : List Link) : Prop :=
  ∃ stem prev last, path = stem ++ [last] ∧
    (∃ first, stem.head? = some first ∧ first.Name = "Init" ∧
      (first.Node = root ∨ (g first.Node).Process.Name = "init")) ∧
    stem.getLast? = some prev ∧ List.Chain' (connectedByOutbound g) stem ∧
    ((connectedByOutbound g prev last ∧ ∃ l ∈ stem, l.Node = last.Node) ∨
      (last.Name = "stutter" ∧ last.Node = prev.Node ∧ noStrongLink g prev.Node))

/-- Entry point result that reports the property live. -/
def isLive (result : Outcome (List Link × Bool)) : Prop :=
  ∃ path, result = Outcome.ret (path, true)

/-- Deterministic strong-fair graph: every listed node has exactly one outbound
link, and that link is strong-fair and not named `crash`. -/
def deterministic (g : Graph) (nodes : List NodeId) : Prop :=
  ∀ n ∈ nodes, ∃ o, (g n).Outbound = [o] ∧ o.Fairness = FairnessLevel.STRONG ∧
    o.Name ≠ "crash"

/-- Lasso of a deterministic graph: the path `pre ++ lm :: mid ++ [lk]` follows
outbound links, its nodes before the last link are pairwise distinct listed
nodes, and the last link `lk` returns to the node of `lm`. -/
def lasso (g : Graph) (nodes : List NodeId) (pre : List Link) (lm : Link) (mid : List Link)
    (lk : Link) : Prop :=
  lk.Node = lm.Node ∧ List.Chain' (followsOutbound g) (pre ++ lm :: (mid ++ [lk])) ∧
    ((pre ++ lm :: mid).map Link.Node).Nodup ∧ ∀ l ∈ pre ++ lm :: mid, l.Node ∈ nodes

/-- Node `n` is reachable from `root` along outbound links. -/
def reachableFrom (g : Graph) (root n : NodeId) : Prop :=
  Relation.ReflTransGen (anyLink g) root n

/-- Relevance and value of the predicate at a node are both true. -/
def relevantTrue (predicate : Predicate) (n : NodeId) : Bool :=
  (predicate n).1 && (predicate n).2

/-- Node none of whose outbound links is weak- or strong-fair or named `crash`. -/
def plainNode (g : Graph) (n : NodeId) : Prop :=
  ∀ o ∈ (g n).Outbound, o.Fairness = FairnessLevel.NONE ∧ o.Name ≠ "crash"

/-- Shape of the flat invariants for which the specification calls
`CheckInvariant` valid: pure always (`Always`, not `Eventually`, no nested part)
or eventually-always (`Eventually` with `Nested.Always`). -/
def claimedValidShape (invariant : Invariant) : Bool :=
  (invariant.Always && !invariant.Eventually && invariant.Nested.isNone) ||
    (invariant.Eventually && GetNestedAlways invariant)

/-- Shape of the flat invariants that `CheckInvariant` evaluates: `Always`
without nested part, or eventually-always (`Eventually` with `Nested.Always`). -/
def validShape (invariant : Invariant) : Bool :=
  (invariant.Always && invariant.Nested.isNone) ||
    (invariant.Eventually && GetNestedAlways invariant)

/-- Result of `CheckInvariant` for an answer of the evaluator: an error is
fatal, a value is returned as its truth value. -/
def evaluatorResult (answer : Option Bool) : Outcome Bool :=
  match answer with
  | none => Outcome.fatal "PanicOnError"
  | some cond => Outcome.ret cond

/-- Index `m` of the specification of the Final callbacks: the latest index
before the last whose node is the node of the last link, and 0 if there is
none. -/
def isMergeIndex (path : List Link) (m : Nat) : Prop :=
  ∃ last, path.getLast? = some last ∧
    ((m + 1 < path.length ∧ (∃ link, path.get? m = some link ∧ link.Node = last.Node) ∧
        ∀ i link, m < i → i + 1 < path.length → path.get? i = some link →
          link.Node ≠ last.Node) ∨
      (m = 0 ∧ ∀ i link, i + 1 < path.length → path.get? i = some link →
        link.Node ≠ last.Node))

/-- Relevance of the predicate at a node is true and its value is false. -/
def relevantFalse (predicate : Predicate) (n : NodeId) : Bool :=
  (predicate n).1 && !(predicate n).2

/-- Cycle of outbound links: every link is an outbound link of the node of the
link before it, and the first link is an outbound link of the node of the last
one. -/
def isCycle (g : Graph) (cyc : List Link) : Prop :=
  ∃ last, cyc.getLast? = some last ∧ List.Chain' (followsOutbound g) (last :: cyc)

/-- Test of `cycleFinderHelper` for a stutter candidate (line 625): the node is
named `yield` and has neither a fair outbound link nor a `thread-` link. -/
def stutterCandidate (g : Graph) (x : NodeId) : Prop :=
  (g x).Process.Name = "yield" ∧ (!hasFairLink (g x).Outbound) = true ∧
    (!hasPendingAction (g x).Outbound) = true

/-- There is a path from the root to `x` through the nodes `onPath` on which the
callback, as a function, answers live for the stutter candidate of `x`, if `x`
is one, and for every outbound link of `x` that leads back to a node of the
path. -/
def exploredLive (g : Graph) (root : NodeId) (callback : CycleCallback)
    (onPath : List NodeId) (x : NodeId) : Prop :=
  ∃ visited path, searchState g root x visited path ∧
    (∀ v ∈ onPath, v ∈ visited ∨ v = x) ∧
    (stutterCandidate g x → callback (path ++ [stutterLink x]) = Outcome.ret true) ∧
    ∀ o ∈ (g x).Outbound, (o.Node ∈ visited ∨ o.Node = x) →
      callback (path ++ [o]) = Outcome.ret true

/-- State of the shared set `globalVisited` after a part of the search that
ended live, started with the set `before` below the path nodes `onPath`: the
set has only grown, and every node added to it has all its outbound targets in
it and satisfies `exploredLive`. -/
def liveSearch (g : Graph) (root : NodeId) (callback : CycleCallback) (onPath : List NodeId)
    (before after : List NodeId) : Prop :=
  (∀ v ∈ before, v ∈ after) ∧
  (∀ x ∈ after, x ∉ before → ∀ o ∈ (g x).Outbound, o.Node ∈ after) ∧
  (∀ x ∈ after, x ∉ before → exploredLive g root callback onPath x)

/-- Node at which the walk of `pathToInit` stops (line 296): it has no inbound
link, is named `init`, or is `nodes[0]`. -/
def stopNode (g : Graph) (nodes : List NodeId) (n : NodeId) : Prop :=
  (g n).Inbound = [] ∨ (g n).Process.Name = "init" ∨ nodes.head? = some n

/-- Link `l` is the reversal of the first inbound link of its own node, and the
origin of that inbound link is the node of `prev`. -/
def reversedFirstInbound (g : Graph) (prev l : Link) : Prop :=
  ∃ first, (g l.Node).Inbound.head? = some first ∧ l = ReverseLink l.Node first ∧
    first.Node = prev.Node

/-- Path that reads from init to `target`: its first link is the `Init` link of
a node at which the walk stops, the node of its last link is `target`, and every
other link is the reversal of the first inbound link of its own node, whose
origin is the node of the preceding link. -/
def initPath (g : Graph) (nodes : List NodeId) (target : NodeId) (path : List Link) : Prop :=
  (∃ stop, stopNode g nodes stop ∧ path.head? = some (InitNodeToLink g stop)) ∧
    (∃ last, path.getLast? = some last ∧ last.Node = target) ∧
    List.Chain' (reversedFirstInbound g) path

/-- First inbound links lead toward the root: `rank` strictly decreases from
every listed node at which the walk of `pathToInit` does not stop to the origin
of its first inbound link. -/
def firstInboundDescends (g : Graph) (nodes : List NodeId) (rank : NodeId → Nat) : Prop :=
  ∀ n ∈ nodes, ¬ stopNode g nodes n →
    ∀ first, (g n).Inbound.head? = some first → rank first.Node < rank n

/-- Step of a run of `cycleFinderHelper` that the log of the search records:
a call of `cycleFinderHelper` with its node, per-branch `visited` set and path
(line 600); the exploration of the outbound links of a node (lines 613-646,
reached once `globalVisited[node]` is set at line 612); a path handed to the
callback (lines 604 and 631). -/
inductive SearchEvent where
  | call (node : NodeId) (visited : List NodeId) (path : List Link)
  | explore (node : NodeId)
  | handed (path : List Link)
deriving Repr, DecidableEq

/-- Nodes whose outbound links are explored, in the order of the log, one entry
for each exploration. -/
def exploredNodes (log : List SearchEvent) : List NodeId :=
  log.filterMap (fun e =>
    match e with
    | SearchEvent.explore node => some node
    | _ => none)

/-- Loop `traverseOutbound` that also returns the log of the steps of its
recursive calls. -/
def traverseOutboundLog
    (explore : NodeId → List NodeId → List Link → List NodeId →
      List SearchEvent × Outcome (List Link × Bool × List NodeId))
    (visited : List NodeId) (path : List Link) :
    List Link → List NodeId → List SearchEvent × Outcome (List Link × Bool × List NodeId)
  | [], globalVisited => ([], Outcome.ret ([], true, globalVisited))
  | link :: rest, globalVisited =>
    match explore link.Node visited (path ++ [link]) globalVisited with
    | (log, Outcome.ret (failedPath, success, globalVisited)) =>
      if !success then
        (log, Outcome.ret (failedPath, false, globalVisited))
      else
        let later := traverseOutboundLog explore visited path rest globalVisited
        (log ++ later.1, later.2)
    | (log, Outcome.fatal msg) => (log, Outcome.fatal msg)
    | (log, Outcome.fuel) => (log, Outcome.fuel)

/-- Function `cycleFinderHelper` (lines 600-649) that also returns the log of
its steps: the same tests, in the same order, on the same arguments; the second
component is the result of `cycleFinderHelper`. -/
def cycleFinderHelperLog (g : Graph) (callback : CycleCallback) :
    Nat → NodeId → List NodeId → List Link → List NodeId →
      List SearchEvent × Outcome (List Link × Bool × List NodeId)
  | 0, _, _, _, _ => ([], Outcome.fuel)
  | depth + 1, node, visited, path, globalVisited =>
    if node ∈ visited then
      ([SearchEvent.call node visited path, SearchEvent.handed path],
        match callback path with
        | Outcome.ret live => Outcome.ret (path, live, globalVisited)
        | Outcome.fatal msg => Outcome.fatal msg
        | Outcome.fuel => Outcome.fuel)
    else
      let entered := SearchEvent.call node visited path
      let visited := setInsert visited node
      if node ∈ globalVisited then
        ([entered], Outcome.ret ([], true, globalVisited))
      else
        let globalVisited := setInsert globalVisited node
        let hasFair := hasFairLink (g node).Outbound
        let pendingAction := hasPendingAction (g node).Outbound
        let descend := traverseOutboundLog (cycleFinderHelperLog g callback depth) visited path
          (g node).Outbound globalVisited
        if (g node).Process.Name = "yield" ∧ !hasFair ∧ !pendingAction then
          let pathCopy := path ++ [stutterLink node]
          let before := [entered, SearchEvent.explore node, SearchEvent.handed pathCopy]
          match callback pathCopy with
          | Outcome.ret isLive =>
            if !isLive then (before, Outcome.ret (pathCopy, false, globalVisited))
            else (before ++ descend.1, descend.2)
          | Outcome.fatal msg => (before, Outcome.fatal msg)
          | Outcome.fuel => (before, Outcome.fuel)
        else
          ([entered, SearchEvent.explore node] ++ descend.1, descend.2)

/-- Function `CycleFinderFinal` (lines 592-598) with the log of its search. -/
def CycleFinderFinalLog (depth : Nat) (g : Graph) (node : NodeId) (callback : CycleCallback) :
    List SearchEvent × Outcome (List Link × Bool) :=
  let run := cycleFinderHelperLog g callback depth node [] [InitNodeToLink g node] []
  (run.1,
    match run.2 with
    | Outcome.ret (path, live, _) => Outcome.ret (path, live)
    | Outcome.fatal msg => Outcome.fatal msg
    | Outcome.fuel => Outcome.fuel)

/-- Per-branch `visited` set of every logged call is exactly the set of the
nodes of the links of its path before the last link. -/
def visitedIsPathMembership (log : List SearchEvent) : Prop :=
  ∀ node visited path, SearchEvent.call node visited path ∈ log →
    ∀ x, x ∈ visited ↔ x ∈ path.dropLast.map Link.Node

/-- Every path that the log records as handed to the callback repeats no node
before its last link, and has at most `bound + 1` links. -/
def handedPathsSimple (bound : Nat) (log : List SearchEvent) : Prop :=
  ∀ path, SearchEvent.handed path ∈ log →
    (path.dropLast.map Link.Node).Nodup ∧ path.length ≤ bound + 1

/-- Part of a search that starts with the shared set `before` and ends with the
shared set `after`: its log satisfies `visitedIsPathMembership` and
`handedPathsSimple`, it explores no node twice and no node of `before`, and
`after` holds `before` and the explored nodes. -/
def searchSegment (bound : Nat) (before : List NodeId) (log : List SearchEvent)
    (after : List NodeId) : Prop :=
  visitedIsPathMembership log ∧ handedPathsSimple bound log ∧
    (exploredNodes log).Nodup ∧ (∀ x ∈ exploredNodes log, x ∉ before ∧ x ∈ after) ∧
    ∀ x ∈ before, x ∈ after

/-- Path of strong-fair outbound links into the allowed set that starts at
`start`: its first link is an outbound link of `start`, every later link is an
outbound link of the node of the link before it, and every link is strong-fair
and targets a node of `allowed`. -/
def strongPathInto (g : Graph) (allowed : List NodeId) (start : NodeId) (path : List Link) :
    Prop :=
  List.Chain' (followsOutbound g) (InitNodeToLink g start :: path) ∧
    ∀ l ∈ path, l.Fairness = FairnessLevel.STRONG ∧ l.Node ∈ allowed

/-- Result of `findCyclePath`: a path of strong-fair outbound links into the
allowed set from `start` whose last link targets `start` or the node of an
earlier link (a node already expanded on the branch), or such a path followed
by a link named `stutter` at the node where it ends, which has no strong-fair
outbound link into the allowed set. -/
def cyclePathResult (g : Graph) (allowed : List NodeId) (start : NodeId) (p : List Link) :
    Prop :=
  (∃ stem last, p = stem ++ [last] ∧ strongPathInto g allowed start p ∧
    last.Node ∈ (InitNodeToLink g start :: stem).map Link.Node) ∨
  (∃ stem prev, p = stem ++ [stutterLink prev.Node] ∧ strongPathInto g allowed start stem ∧
    (InitNodeToLink g start :: stem).getLast? = some prev ∧
    ∀ o ∈ (g prev.Node).Outbound, o.Fairness = FairnessLevel.STRONG → o.Node ∉ allowed)

/-- Queue element of `findCyclePath` on a branch from `start`: its path is a
path of strong-fair links into the allowed set that ends at the node of its
link, and its `visited` set holds only nodes of the branch before that node. -/
def cycleBranch (g : Graph) (allowed : List NodeId) (start : NodeId) (e : Wrapper) : Prop :=
  strongPathInto g allowed start e.path ∧
    (∃ stem last, InitNodeToLink g start :: e.path = stem ++ [last] ∧
      last.Node = e.link.Node ∧ ∀ x ∈ e.visited, x ∈ stem.map Link.Node) ∧
    e.link.Node ∈ start :: allowed

/-- Contract of the library code behind a role. A struct made by
`starlarkstruct.FromKeywords` answers `Attr` with the value of a keyword
argument of that name, and with a `starlark.NoSuchAttrError` when no keyword
argument has the name. A struct made by `lib.FromStringDict` from the empty
dictionary has no attribute. `SetField` of `lib.Struct` succeeds, after it
`Attr` of the name set returns the value stored, and the other names are
answered as before. `lib.BuiltinAttr` finds nothing in a table without
entries. -/
def lawfulLib {V P F : Type} (lib : StructLib V P F) : Prop :=
  (∀ ctor kwargs name,
    (∃ v, (name, v) ∈ kwargs ∧
      lib.ParamsAttr (lib.FromKeywords ctor kwargs) name = (some v, none)) ∨
    (name ∉ kwargs.map Prod.fst ∧ ∃ msg,
      lib.ParamsAttr (lib.FromKeywords ctor kwargs) name =
        (none, some (Error.NoSuchAttrError msg)))) ∧
  (∀ ctor name, ∃ msg,
    lib.FieldsAttr (lib.FromStringDict ctor []) name =
      (none, some (Error.NoSuchAttrError msg))) ∧
  (∀ f name v, (lib.FieldsSetField f name v).2 = none ∧
    lib.FieldsAttr (lib.FieldsSetField f name v).1 name = (some v, none) ∧
    ∀ other, other ≠ name →
      lib.FieldsAttr (lib.FieldsSetField f name v).1 other = lib.FieldsAttr f other) ∧
  ∀ r name, lib.BuiltinAttr r name [] = (none, none)

/-- Role after a sequence of `SetField` calls, each with a name and a value,
whether the calls succeed or fail. -/
def setFields {V P F : Type} (lib : StructLib V P F) (r : Role V P F) :
    List (String × V) → Role V P F
  | [] => r
  | call :: rest => setFields lib (r.SetField lib call.1 call.2).1 rest

/-- State of a role created with the keyword arguments `kwargs`: its name is
`name`, its parameters are the struct made from the keyword arguments, and no
name of a keyword argument is an attribute of its fields. -/
def paramsIntact {V P F : Type} (lib : StructLib V P F) (name : String)
    (kwargs : List (String × V)) (r : Role V P F) : Prop :=
  r.Name = name ∧ r.Params = lib.FromKeywords "params" kwargs ∧
    ∀ p ∈ kwargs.map Prod.fst, ∃ msg,
      lib.FieldsAttr r.Fields p = (none, some (Error.NoSuchAttrError msg))

/-- Block invariant whose operator list is exactly `[eventually]`. -/
def loneEventually (invariant : Invariant) : Prop :=
  invariant.Block = true ∧ invariant.TemporalOperators = ["eventually"]

/-- Crash filter of `isFairCycle` (spec 4.3, step 2): a participating position
other than the last position of the path has an outbound link named `crash`
that targets its successor while the same node has an outbound link not named
`crash`. -/
def crashFilterRejects (g : Graph) (path : List Link) : Prop :=
  ∃ k, k + 1 < path.length ∧ crashTakenAt g path k ∧ nonCrashAt g path k

/-- A participating position has an outbound link named `crash` that targets
its successor, and a later participating position, other than the last position
of the path, has an outbound link not named `crash`. -/
def crashBeforeOtherLinks (g : Graph) (path : List Link) : Prop :=
  ∃ k m, k < m ∧ m + 1 < path.length ∧ crashTakenAt g path k ∧ nonCrashAt g path m

/-- Paths that the log records as handed to the callback, in the order of the
log. -/
def handedPaths (log : List SearchEvent) : List (List Link) :=
  log.filterMap (fun e =>
    match e with
    | SearchEvent.handed path => some path
    | _ => none)

/-- Node `x` was explored below the path nodes `onPath`, as the log records it:
there is a path from the root to `x` through the nodes `onPath` such that, for
every outbound link of `x` that leads back to a node of the path, the log
records the path extended by that link as handed to the callback. -/
def exploredInLog (g : Graph) (root : NodeId) (log : List SearchEvent)
    (onPath : List NodeId) (x : NodeId) : Prop :=
  ∃ visited path, searchState g root x visited path ∧
    (∀ v ∈ onPath, v ∈ visited ∨ v = x) ∧
    ∀ o ∈ (g x).Outbound, (o.Node ∈ visited ∨ o.Node = x) →
      SearchEvent.handed (path ++ [o]) ∈ log

/-- A link of the cycle is handed to the callback: the log records as handed to
the callback a path that starts with the link `Init` at the root, follows
outbound links, and ends with a link of the cycle whose node is the node of an
earlier link of the path. -/
def cycleLinkHanded (g : Graph) (root : NodeId) (log : List SearchEvent) (cyc : List Link) :
    Prop :=
  ∃ stem o, SearchEvent.handed (stem ++ [o]) ∈ log ∧ o ∈ cyc ∧
    (∃ l ∈ stem, l.Node = o.Node) ∧
    (∃ first, stem.head? = some first ∧ first.Name = "Init" ∧ first.Node = root) ∧
    List.Chain' (followsOutbound g) (stem ++ [o])

/-- State of the shared set `globalVisited` and of the log after a part of the
search that ended live, started with the set `before` below the path nodes
`onPath`: the set has only grown, every node added to it has all its outbound
targets in it and was explored as the log records, and a link of every cycle
among the added nodes was handed to the callback. -/
def liveSegment (g : Graph) (root : NodeId) (log : List SearchEvent) (onPath : List NodeId)
    (before after : List NodeId) : Prop :=
  (∀ v ∈ before, v ∈ after) ∧
  (∀ x ∈ after, x ∉ before → ∀ o ∈ (g x).Outbound, o.Node ∈ after) ∧
  (∀ x ∈ after, x ∉ before → exploredInLog g root log onPath x) ∧
  ∀ cyc, isCycle g cyc → (∀ l ∈ cyc, l.Node ∈ after ∧ l.Node ∉ before) →
    cycleLinkHanded g root log cyc

/-- Answers of the callback on the paths of the log of a search that returned
`path` with `live`: when the search ended live the callback answered live on
every path handed to it; when it ended not live, the last event of the log is
the handing of `path`, on which the callback answered not live, and the
callback answered live on every path handed to it before. -/
def stopsAtFirstNotLive (callback : CycleCallback) (log : List SearchEvent) (path : List Link)
    (live : Bool) : Prop :=
  (live = true → ∀ q, SearchEvent.handed q ∈ log → callback q = Outcome.ret true) ∧
  (live = false → ∃ before, log = before ++ [SearchEvent.handed path] ∧
    callback path = Outcome.ret false ∧
    ∀ q, SearchEvent.handed q ∈ before → callback q = Outcome.ret true)
/-! ## Concrete inputs -/

def exampleInvariants : List Invariant :=
  [ { Name := "Safe", Always := true, PyExpr := "x < 3", Nested := none },
    { Name := "Live", Always := true, Eventually := true, PyExpr := "done", Nested := none },
    { Name := "Found", Block := true, TemporalOperators := ["exists"], Nested := none },
    { Name := "Bounded", Block := true, TemporalOperators := ["always"], Nested := none } ]

def exampleProcess : Process :=
  { Files := [{ FileName := "spec.fizz", Invariants := exampleInvariants }]
    EvalPyExpr := fun _ expr => some (decide (expr = "done"))
    RunAssertion := fun index _ => some (decide (index = 2)) }

/-- Block invariant `exists`, twice in one file. -/
def existsInvariant : Invariant :=
  { Name := "Found", Block := true, TemporalOperators := ["exists"], Nested := none }

/-- Three states of a specification with the two invariants `exists`: state 0
witnesses invariant 0 only, state 1 witnesses neither, state 2 witnesses both. -/
def existsGraph : Graph := fun n =>
  { Process :=
      { Files := [{ FileName := "spec.fizz", Invariants := [existsInvariant, existsInvariant] }]
        Witness := fun _ j => decide (n = 0 ∧ j = 0) || decide (n = 2) } }

/-- A `yield` state 0 whose outbound links are a crash to state 1 and an unfair
action `work` back to itself; no link is fair. -/
def crashGraph : Graph := fun n =>
  match n with
  | 0 => { Process := { Name := "yield" }
           Outbound := [{ Node := 1, Name := "crash" }, { Node := 0, Name := "work" }] }
  | _ => { Process := { Name := "crashed" }
           Outbound := [{ Node := 0, Name := "restart" }] }

/-- Cycle of `crashGraph` from state 0 back to state 0: `Init` at state 0, the
crash to state 1, and `restart` back to state 0. -/
def crashCycle : List Link :=
  [{ Node := 0, Name := "Init" }, { Node := 1, Name := "crash" },
   { Node := 0, Name := "restart" }]

/-- Flat invariant `always eventually done`. -/
def alwaysEventuallyInvariant : Invariant :=
  { Name := "Progress", Always := true, Eventually := true, PyExpr := "done", Nested := none }

/-- Flat invariant `eventually always done`. -/
def eventuallyAlwaysInvariant : Invariant :=
  { Name := "Stable", Eventually := true, PyExpr := "done"
    Nested := some { Always := true, PyExpr := "done", Nested := none } }

/-- Two-state ping-pong (spec 8, scenario 1): state 0 where `done` is false and
state 1 where it is true, joined by strong-fair links in both directions; the
file declares `alwaysEventuallyInvariant` and `eventuallyAlwaysInvariant`. -/
def pingPongGraph : Graph := fun n =>
  match n with
  | 0 => { Process :=
             { Name := "yield"
               Files := [{ Invariants := [alwaysEventuallyInvariant, eventuallyAlwaysInvariant] }] }
           Outbound := [{ Node := 1, Name := "ping", Fairness := FairnessLevel.STRONG }]
           Inbound := [{ Node := 1, Name := "pong", Fairness := FairnessLevel.STRONG }] }
  | _ => { Process :=
             { Name := "yield"
               Files := [{ Invariants := [alwaysEventuallyInvariant, eventuallyAlwaysInvariant] }]
               Witness := fun _ _ => true }
           Outbound := [{ Node := 0, Name := "pong", Fairness := FairnessLevel.STRONG }]
           Inbound := [{ Node := 0, Name := "ping", Fairness := FairnessLevel.STRONG }] }

/-- Counterexample path of the ping-pong graph: `Init` at 0, `ping`, `pong`. -/
def pingPongPath : List Link :=
  [{ Node := 0, Name := "Init" },
   { Node := 1, Name := "ping", Fairness := FairnessLevel.STRONG },
   { Node := 0, Name := "pong", Fairness := FairnessLevel.STRONG }]

/-- A single state without outbound link (a deadlock), whose file declares
`alwaysEventuallyInvariant`. -/
def deadlockGraph : Graph := fun _ =>
  { Process := { Name := "yield", Files := [{ Invariants := [alwaysEventuallyInvariant] }] } }

/-- Path `Init` at state 0, then the synthetic stutter at state 0. -/
def stutterPath : List Link :=
  [{ Node := 0, Name := "Init" }, { Node := 0, Name := "stutter" }]


/-- Root state 0, named `init`, where the predicate holds, with an unfair link
`step` to the `yield` state 1; states 1 and 2 are `yield` states where the
predicate does not hold, joined by the weak-fair links `ping` and `pong`. -/
def weakPingPongGraph : Graph := fun n =>
  match n with
  | 0 => { Process := { Name := "init", Witness := fun _ _ => true }
           Outbound := [{ Node := 1, Name := "step" }] }
  | 1 => { Process := { Name := "yield" }
           actionDepth := 1
           Outbound := [{ Node := 2, Name := "ping", Fairness := FairnessLevel.WEAK }]
           Inbound := [{ Node := 0, Name := "step" },
                       { Node := 2, Name := "pong", Fairness := FairnessLevel.WEAK }] }
  | _ => { Process := { Name := "yield" }
           actionDepth := 2
           Outbound := [{ Node := 1, Name := "pong", Fairness := FairnessLevel.WEAK }]
           Inbound := [{ Node := 1, Name := "ping", Fairness := FairnessLevel.WEAK }] }

/-- Path `Init` at state 0, the link `step` to state 1, then the synthetic
stutter at state 1. -/
def weakPingPongPath : List Link :=
  [{ Node := 0, Name := "Init" }, { Node := 1, Name := "step" },
   { Node := 1, Name := "stutter" }]

/-- Scenario "weak-fair escape continuously enabled" of the specification: the
`yield` state 0, where the predicate does not hold, has the weak-fair link `a`
to state 1 and the weak-fair self-loop `b`; the predicate holds at the `yield`
state 1, which has an unfair self-loop. -/
def weakEscapeGraph : Graph := fun n =>
  match n with
  | 0 => { Process := { Name := "yield" }
           Outbound := [{ Node := 1, Name := "a", Fairness := FairnessLevel.WEAK },
                        { Node := 0, Name := "b", Fairness := FairnessLevel.WEAK }]
           Inbound := [{ Node := 0, Name := "b", Fairness := FairnessLevel.WEAK }] }
  | _ => { Process := { Name := "yield", Witness := fun _ _ => true }
           actionDepth := 1
           Outbound := [{ Node := 1, Name := "stay" }]
           Inbound := [{ Node := 0, Name := "a", Fairness := FairnessLevel.WEAK },
                       { Node := 1, Name := "stay" }] }

/-- Violation path of the Fast strategy on `weakEscapeGraph`: `Init` at state 0,
then the synthetic stutter at state 0. -/
def weakEscapePath : List Link :=
  [{ Node := 0, Name := "Init" }, { Node := 0, Name := "stutter" }]

/-- Three `yield` states, the predicate holding at none of them: state 0 has the
strong-fair links `a` to state 1 and `b` to state 2, and states 1 and 2 return
to state 0 by the strong-fair links `c` and `d`. -/
def twoBranchGraph : Graph := fun n =>
  match n with
  | 0 => { Process := { Name := "yield" }
           Outbound := [{ Node := 1, Name := "a", Fairness := FairnessLevel.STRONG },
                        { Node := 2, Name := "b", Fairness := FairnessLevel.STRONG }]
           Inbound := [{ Node := 1, Name := "c", Fairness := FairnessLevel.STRONG },
                       { Node := 2, Name := "d", Fairness := FairnessLevel.STRONG }] }
  | 1 => { Process := { Name := "yield" }
           Outbound := [{ Node := 0, Name := "c", Fairness := FairnessLevel.STRONG }]
           Inbound := [{ Node := 0, Name := "a", Fairness := FairnessLevel.STRONG }] }
  | _ => { Process := { Name := "yield" }
           Outbound := [{ Node := 0, Name := "d", Fairness := FairnessLevel.STRONG }]
           Inbound := [{ Node := 0, Name := "b", Fairness := FairnessLevel.STRONG }] }

/-- Run of `twoBranchGraph` that alternates between its two cycles: `Init` at
state 0, then the links `a`, `c`, `b`, `d`. -/
def twoBranchCycle : List Link :=
  [{ Node := 0, Name := "Init" },
   { Node := 1, Name := "a", Fairness := FairnessLevel.STRONG },
   { Node := 0, Name := "c", Fairness := FairnessLevel.STRONG },
   { Node := 2, Name := "b", Fairness := FairnessLevel.STRONG },
   { Node := 0, Name := "d", Fairness := FairnessLevel.STRONG }]

/-- State 0, a `yield` state where the predicate does not hold, has the unfair
links `crash` to itself and `go` to state 1; the predicate holds at the `yield`
state 1, whose only link is the unfair self-loop `stay`. -/
def crashLoopGraph : Graph := fun n =>
  match n with
  | 0 => { Process := { Name := "yield" }
           Outbound := [{ Node := 0, Name := "crash" }, { Node := 1, Name := "go" }]
           Inbound := [{ Node := 0, Name := "crash" }] }
  | _ => { Process := { Name := "yield", Witness := fun _ _ => true }
           Outbound := [{ Node := 1, Name := "stay" }]
           Inbound := [{ Node := 0, Name := "go" }, { Node := 1, Name := "stay" }] }

/-- States 0 and 1, where the predicate does not hold, joined by the unfair
links `go` and `back`; state 2, where the predicate holds, is not reachable from
state 0. -/
def islandGraph : Graph := fun n =>
  match n with
  | 0 => { Process := { Name := "init" }
           Outbound := [{ Node := 1, Name := "go" }]
           Inbound := [{ Node := 1, Name := "back" }] }
  | 1 => { Process := { Name := "yield" }
           Outbound := [{ Node := 0, Name := "back" }]
           Inbound := [{ Node := 0, Name := "go" }] }
  | _ => { Process := { Name := "yield", Witness := fun _ _ => true }
           Outbound := [{ Node := 2, Name := "stay" }]
           Inbound := [{ Node := 2, Name := "stay" }] }

/-- Graph all of whose states carry `exampleInvariants` and no witness bit. -/
def unwitnessedGraph : Graph := fun _ =>
  { Process := { Files := [{ FileName := "spec.fizz", Invariants := exampleInvariants }] } }

/-- Block invariant whose operator list is `[eventually]`. -/
def eventuallyOnlyInvariant : Invariant :=
  { Name := "Soon", Block := true, TemporalOperators := ["eventually"], Nested := none }

/-- A single `yield` state with an unfair self-loop, whose file declares
`eventuallyOnlyInvariant`. -/
def eventuallyOnlyGraph : Graph := fun _ =>
  { Process := { Name := "yield", Files := [{ Invariants := [eventuallyOnlyInvariant] }] }
    Outbound := [{ Node := 0, Name := "work" }]
    Inbound := [{ Node := 0, Name := "work" }] }

/-- The root 0, where the predicate holds, and two states where it does not
hold: state 1 without threads at action depth 5, and state 2 with one thread at
action depth 2. -/
def threadGraph : Graph := fun n =>
  match n with
  | 0 => { Process := { Name := "init", Witness := fun _ _ => true }
           Outbound := [{ Node := 2, Name := "start" }]
           Inbound := [] }
  | 1 => { Process := { Name := "yield" }
           actionDepth := 5
           Outbound := [{ Node := 1, Name := "idle" }]
           Inbound := [{ Node := 2, Name := "finish" }, { Node := 1, Name := "idle" }] }
  | _ => { Process := { Name := "start", Threads := 1 }
           actionDepth := 2
           Outbound := [{ Node := 1, Name := "finish" }]
           Inbound := [{ Node := 0, Name := "start" }] }

/-- Flat invariant `eventually done`: `Eventually` without `Always` and without
nested part. -/
def flatEventuallyInvariant : Invariant :=
  { Name := "Once", Eventually := true, PyExpr := "done", Nested := none }

/-- Cycle of `weakEscapeGraph` through the self-loop `b` of state 0. -/
def weakEscapeCycle : List Link :=
  [{ Node := 0, Name := "Init" }, { Node := 0, Name := "b", Fairness := FairnessLevel.WEAK }]

/-- State 0 has the links `a` to state 1 and `b` to state 2, state 1 the link
`c` to state 2, and state 2 the link `d` back to state 0: the cycles are
0, 1, 2 and 0, 2. -/
def skipGraph : Graph := fun n =>
  match n with
  | 0 => { Process := { Name := "init" }
           Outbound := [{ Node := 1, Name := "a" }, { Node := 2, Name := "b" }]
           Inbound := [{ Node := 2, Name := "d" }] }
  | 1 => { Process := { Name := "yield" }
           Outbound := [{ Node := 2, Name := "c" }]
           Inbound := [{ Node := 0, Name := "a" }] }
  | _ => { Process := { Name := "yield" }
           Outbound := [{ Node := 0, Name := "d" }]
           Inbound := [{ Node := 1, Name := "c" }, { Node := 0, Name := "b" }] }

/-- Cycle 0, 2 of `skipGraph`: the link `b` to state 2 and the link `d` back to
state 0. -/
def skippedCycle : List Link :=
  [{ Node := 2, Name := "b" }, { Node := 0, Name := "d" }]

/-- Callback that answers not live exactly on the paths that end with the two
links of `skippedCycle`, in either rotation. -/
def skipCallback : CycleCallback := fun path =>
  Outcome.ret (decide (path.drop (path.length - 2) ≠ skippedCycle ∧
    path.drop (path.length - 2) ≠ skippedCycle.reverse))

/-- Three states: the root 0 named `init` with the link `a` to state 1, and the
cycle of the links `b` from 1 to 2 and `c` from 2 to 1. The inbound list of
state 1 holds the link `c` of the cycle before the link `a` from the root. -/
def backEdgeGraph : Graph := fun n =>
  match n with
  | 0 => { Process := { Name := "init" }
           Outbound := [{ Node := 1, Name := "a" }] }
  | 1 => { Process := { Name := "yield" }
           Outbound := [{ Node := 2, Name := "b" }]
           Inbound := [{ Node := 2, Name := "c" }, { Node := 0, Name := "a" }] }
  | _ => { Process := { Name := "yield" }
           Outbound := [{ Node := 1, Name := "c" }]
           Inbound := [{ Node := 1, Name := "b" }] }

/-- Attribute lookup in a list of entries: the value of the first entry of that
name, or a `starlark.NoSuchAttrError`. -/
def listAttr (entries : List (String × Nat)) (name : String) : Option Nat × Option Error :=
  match entries.find? (fun entry => decide (entry.1 = name)) with
  | some entry => (some entry.2, none)
  | none => (none, some (Error.NoSuchAttrError ("struct has no ." ++ name ++ " attribute")))

/-- Implementation of the struct operations on lists of entries with natural
numbers as values: `SetField` puts the new entry in front. -/
def listLib : StructLib Nat (List (String × Nat)) (List (String × Nat)) :=
  { FromKeywords := fun _ kwargs => kwargs
    ParamsAttr := listAttr
    FromStringDict := fun _ dict => dict
    FieldsAttr := listAttr
    FieldsSetField := fun fields name val => ((name, val) :: fields, none)
    BuiltinAttr := fun _ name methods =>
      match methods.find? (fun entry => decide (entry.1 = name)) with
      | some _ => (some 0, none)
      | none => (none, none) }

/-- Three states with one strong-fair outbound link each: the root 0 named
`init`, where the predicate holds, with the link `a` to state 1, and the cycle
of the links `b` from 1 to 2 and `c` from 2 to 1. The inbound list of state 1
holds the link `c` of the cycle before the link `a` from the root. -/
def strongBackEdgeGraph : Graph := fun n =>
  match n with
  | 0 => { Process := { Name := "init", Witness := fun _ _ => true }
           Outbound := [{ Node := 1, Name := "a", Fairness := FairnessLevel.STRONG }] }
  | 1 => { Process := { Name := "yield" }
           actionDepth := 1
           Outbound := [{ Node := 2, Name := "b", Fairness := FairnessLevel.STRONG }]
           Inbound := [{ Node := 2, Name := "c", Fairness := FairnessLevel.STRONG },
                       { Node := 0, Name := "a", Fairness := FairnessLevel.STRONG }] }
  | _ => { Process := { Name := "yield" }
           actionDepth := 2
           Outbound := [{ Node := 1, Name := "c", Fairness := FairnessLevel.STRONG }]
           Inbound := [{ Node := 1, Name := "b", Fairness := FairnessLevel.STRONG }] }
/-! # Theorems -/

/-! ## `CheckInvariants` -/

theorem sameProgram_refl (p : Process) : sameProgram p p := ⟨rfl, rfl, rfl⟩

theorem sameProgram_setWitness {p q : Process} (h : sameProgram p q) (i j : Nat) :
    sameProgram p (setWitness q i j) := by
  obtain ⟨h1, h2, h3⟩ := h
  exact ⟨h1, h2, h3⟩

theorem evaluateAt_congr {p q : Process} (h : sameProgram p q) (invariant : Invariant) (j : Nat) :
    evaluateAt q invariant j = evaluateAt p invariant j := by
  obtain ⟨h1, h2, h3⟩ := h
  unfold evaluateAt CheckAssertion CheckInvariant
  rw [h1, h2, h3]

theorem checkInvariantsLoop_cons (i j : Nat) (invariant : Invariant) (rest : List Invariant)
    (p : Process) (res : List Nat) :
    checkInvariantsLoop i j (invariant :: rest) p res =
      match evaluateAt p invariant j with
      | Outcome.ret passed =>
        if eventualForm invariant && passed then
          checkInvariantsLoop i (j + 1) rest (setWitness p i j) res
        else if !eventualForm invariant && !passed then
          checkInvariantsLoop i (j + 1) rest p (res ++ [j])
        else
          checkInvariantsLoop i (j + 1) rest p res
      | Outcome.fatal msg => (p, Outcome.fatal msg)
      | Outcome.fuel => (p, Outcome.fuel) := by
  rw [checkInvariantsLoop]
  unfold evaluateAt eventualForm
  cases hb : invariant.Block <;> simp

theorem checkInvariantsLoop_results (p0 : Process) (i : Nat) :
    ∀ (rest : List Invariant) (j : Nat) (p : Process) (res : List Nat),
      sameProgram p0 p →
      (∀ k invariant, rest.get? k = some invariant →
        ∃ b, evaluateAt p0 invariant (j + k) = Outcome.ret b) →
      ∃ l, (checkInvariantsLoop i j rest p res).2 = Outcome.ret (res ++ l) ∧
        l.Sorted (· < ·) ∧
        ∀ x, x ∈ l ↔ ∃ k invariant, x = j + k ∧ rest.get? k = some invariant ∧
          eventualForm invariant = false ∧ evaluateAt p0 invariant x = Outcome.ret false := by
  intro rest
  induction rest with
  | nil =>
    intro j p res _ _
    exact ⟨[], by simp [checkInvariantsLoop], by simp, by simp⟩
  | cons invariant rest ih =>
    intro j p res hp hall
    have hrest : ∀ k inv, rest.get? k = some inv →
        ∃ b, evaluateAt p0 inv (j + 1 + k) = Outcome.ret b := by
      intro k inv hk
      have := hall (k + 1) inv (by simpa using hk)
      rwa [show j + (k + 1) = j + 1 + k by omega] at this
    obtain ⟨b, hb⟩ := hall 0 invariant (by simp)
    rw [Nat.add_zero] at hb
    have shift : ∀ (l : List Nat),
        (∀ x, x ∈ l ↔ ∃ k inv, x = j + 1 + k ∧ rest.get? k = some inv ∧
          eventualForm inv = false ∧ evaluateAt p0 inv x = Outcome.ret false) →
        ∀ x, x ∈ l ↔ ∃ k inv, x = j + k ∧ 0 < k ∧ (invariant :: rest).get? k = some inv ∧
          eventualForm inv = false ∧ evaluateAt p0 inv x = Outcome.ret false := by
      intro l hl x
      rw [hl x]
      constructor
      · rintro ⟨k, inv, rfl, hk, h1, h2⟩
        exact ⟨k + 1, inv, by omega, by omega, by simpa using hk, h1, h2⟩
      · rintro ⟨k, inv, rfl, hpos, hk, h1, h2⟩
        obtain ⟨k, rfl⟩ : ∃ k2, k = k2 + 1 := ⟨k - 1, by omega⟩
        exact ⟨k, inv, by omega, by simpa using hk, h1, h2⟩
    rw [checkInvariantsLoop_cons, evaluateAt_congr hp, hb]
    by_cases hev : eventualForm invariant = true
    · -- the invariant is never listed
      have key : ∀ q : Process, sameProgram p0 q →
          ∃ l, (checkInvariantsLoop i (j + 1) rest q res).2 = Outcome.ret (res ++ l) ∧
            l.Sorted (· < ·) ∧
            ∀ x, x ∈ l ↔ ∃ k inv, x = j + k ∧ (invariant :: rest).get? k = some inv ∧
              eventualForm inv = false ∧ evaluateAt p0 inv x = Outcome.ret false := by
        intro q hq
        obtain ⟨l, h1, h2, h3⟩ := ih (j + 1) q res hq hrest
        refine ⟨l, h1, h2, fun x => ?_⟩
        rw [shift l h3 x]
        constructor
        · rintro ⟨k, inv, hx, _, hk, h4, h5⟩
          exact ⟨k, inv, hx, hk, h4, h5⟩
        · rintro ⟨k, inv, hx, hk, h4, h5⟩
          refine ⟨k, inv, hx, ?_, hk, h4, h5⟩
          rcases Nat.eq_zero_or_pos k with h0 | h0
          · subst h0
            simp at hk
            subst hk
            rw [hev] at h4
            exact absurd h4 (by simp)
          · exact h0
      cases b
      · simpa [hev] using key p hp
      · simpa [hev] using key (setWitness p i j) (sameProgram_setWitness hp i j)
    · have hev2 : eventualForm invariant = false := by simpa using hev
      cases b
      · -- a violated safety invariant is appended
        obtain ⟨l, h1, h2, h3⟩ := ih (j + 1) p (res ++ [j]) hp hrest
        refine ⟨j :: l, by simpa [hev2] using h1, ?_, fun x => ?_⟩
        · refine List.sorted_cons.mpr ⟨fun y hy => ?_, h2⟩
          obtain ⟨k, _, rfl, _⟩ := (h3 y).mp hy
          omega
        · rw [List.mem_cons, shift l h3 x]
          constructor
          · rintro (rfl | ⟨k, inv, hx, _, hk, h4, h5⟩)
            · exact ⟨0, invariant, by simp, by simp, hev2, hb⟩
            · exact ⟨k, inv, hx, hk, h4, h5⟩
          · rintro ⟨k, inv, hx, hk, h4, h5⟩
            rcases Nat.eq_zero_or_pos k with h0 | h0
            · subst h0
              left
              simpa using hx
            · exact Or.inr ⟨k, inv, hx, h0, hk, h4, h5⟩
      · obtain ⟨l, h1, h2, h3⟩ := ih (j + 1) p res hp hrest
        refine ⟨l, by simpa [hev2] using h1, h2, fun x => ?_⟩
        rw [shift l h3 x]
        constructor
        · rintro ⟨k, inv, hx, _, hk, h4, h5⟩
          exact ⟨k, inv, hx, hk, h4, h5⟩
        · rintro ⟨k, inv, hx, hk, h4, h5⟩
          refine ⟨k, inv, hx, ?_, hk, h4, h5⟩
          rcases Nat.eq_zero_or_pos k with h0 | h0
          · subst h0
            simp at hk hx
            subst hk
            subst hx
            rw [hb] at h5
            exact absurd h5 (by simp)
          · exact h0

theorem checkInvariantsLoop_witness (p0 : Process) (i : Nat) :
    ∀ (rest : List Invariant) (j : Nat) (p : Process) (res : List Nat),
      sameProgram p0 p →
      (∀ a b, p.Witness a b = true → (checkInvariantsLoop i j rest p res).1.Witness a b = true) ∧
      (∀ a b, (checkInvariantsLoop i j rest p res).1.Witness a b = true →
        p.Witness a b = true ∨ (a = i ∧ ∃ k invariant, b = j + k ∧
          rest.get? k = some invariant ∧ eventualForm invariant = true ∧
          evaluateAt p0 invariant b = Outcome.ret true)) ∧
      (∀ m, (checkInvariantsLoop i j rest p res).2 = Outcome.ret m →
        ∀ k invariant, rest.get? k = some invariant → eventualForm invariant = true →
          evaluateAt p0 invariant (j + k) = Outcome.ret true →
          (checkInvariantsLoop i j rest p res).1.Witness i (j + k) = true) := by
  intro rest
  induction rest with
  | nil =>
    intro j p res _
    simp [checkInvariantsLoop]
  | cons invariant rest ih =>
    intro j p res hp
    -- what a recursive call from a process `q` that extends `p` gives
    have step : ∀ (q : Process) (res2 : List Nat), sameProgram p0 q →
        (∀ a b, p.Witness a b = true → q.Witness a b = true) →
        (∀ a b, q.Witness a b = true → p.Witness a b = true ∨
          (a = i ∧ b = j ∧ eventualForm invariant = true ∧
            evaluateAt p0 invariant j = Outcome.ret true)) →
        (eventualForm invariant = true → evaluateAt p0 invariant j = Outcome.ret true →
          q.Witness i j = true) →
        (∀ a b, p.Witness a b = true →
            (checkInvariantsLoop i (j + 1) rest q res2).1.Witness a b = true) ∧
        (∀ a b, (checkInvariantsLoop i (j + 1) rest q res2).1.Witness a b = true →
          p.Witness a b = true ∨ (a = i ∧ ∃ k inv, b = j + k ∧
            (invariant :: rest).get? k = some inv ∧ eventualForm inv = true ∧
            evaluateAt p0 inv b = Outcome.ret true)) ∧
        (∀ m, (checkInvariantsLoop i (j + 1) rest q res2).2 = Outcome.ret m →
          ∀ k inv, (invariant :: rest).get? k = some inv → eventualForm inv = true →
            evaluateAt p0 inv (j + k) = Outcome.ret true →
            (checkInvariantsLoop i (j + 1) rest q res2).1.Witness i (j + k) = true) := by
      intro q res2 hq hmono hnew hset
      obtain ⟨h1, h2, h3⟩ := ih (j + 1) q res2 hq
      refine ⟨fun a b hab => h1 a b (hmono a b hab), fun a b hab => ?_, fun m hm k inv hk he hv => ?_⟩
      · rcases h2 a b hab with h | ⟨rfl, k, inv, rfl, hk, he, hv⟩
        · rcases hnew a b h with h | ⟨rfl, rfl, he, hv⟩
          · exact Or.inl h
          · exact Or.inr ⟨rfl, 0, invariant, by simp, by simp, he, hv⟩
        · exact Or.inr ⟨rfl, k + 1, inv, by omega, by simpa using hk, he, hv⟩
      · cases k with
        | zero =>
          simp at hk
          subst hk
          exact h1 i j (hset he hv)
        | succ k =>
          have := h3 m hm k inv (by simpa using hk) he
            (by rwa [show j + 1 + k = j + (k + 1) by omega])
          rwa [show j + 1 + k = j + (k + 1) by omega] at this
    have same : ∀ res2, _ := fun res2 => step p res2 hp (fun _ _ h => h) (fun _ _ h => Or.inl h)
    rw [checkInvariantsLoop_cons, evaluateAt_congr hp]
    cases hb : evaluateAt p0 invariant j with
    | ret b =>
      by_cases hev : eventualForm invariant = true
      · cases b
        · simpa [hev] using same res (by intro _ h; rw [hb] at h; exact absurd h (by simp))
        · have := step (setWitness p i j) res (sameProgram_setWitness hp i j)
            (fun a b h => by simp [setWitness, h])
            (fun a b h => by
              by_cases hab : a = i ∧ b = j
              · exact Or.inr ⟨hab.1, hab.2, hev, hb⟩
              · left
                simpa [setWitness, hab] using h)
            (fun _ _ => by simp [setWitness])
          simpa [hev] using this
      · have hev2 : eventualForm invariant = false := by simpa using hev
        cases b
        · simpa [hev2] using same (res ++ [j]) (by intro h; rw [hev2] at h; exact absurd h (by simp))
        · simpa [hev2] using same res (by intro h; rw [hev2] at h; exact absurd h (by simp))
    | fatal msg =>
      refine ⟨fun _ _ h => h, fun _ _ h => Or.inl h, ?_⟩
      intro m hm
      simp at hm
    | fuel =>
      refine ⟨fun _ _ h => h, fun _ _ h => Or.inl h, ?_⟩
      intro m hm
      simp at hm

theorem safetyForm_eq (invariant : Invariant) :
    safetyForm invariant = !eventualForm invariant := by
  unfold safetyForm eventualForm eventualOrExists
  cases invariant.Block <;> simp

/-- C1: on a process with one file on which no invariant is fatal, the entry of
file 0 in the map returned by `CheckInvariants` is the ascending list of exactly
the indices of the safety-form invariants whose predicate or assertion evaluates
to false; eventual and existential invariants are never listed. -/
theorem CheckInvariants_lists_false_safety_invariants (process : Process) (file : File)
    (hfiles : process.Files = [file])
    (hok : ∀ j invariant, file.Invariants.get? j = some invariant →
      ∃ b, evaluateAt process invariant j = Outcome.ret b) :
    ∃ violations, (CheckInvariants process).2 = Outcome.ret [(0, violations)] ∧
      violations.Sorted (· < ·) ∧
      ∀ j, j ∈ violations ↔ ∃ invariant, file.Invariants.get? j = some invariant ∧
        safetyForm invariant = true ∧ evaluateAt process invariant j = Outcome.ret false := by
  obtain ⟨l, h1, h2, h3⟩ := checkInvariantsLoop_results process 0 file.Invariants 0 process []
    (sameProgram_refl process) (by simpa using hok)
  refine ⟨l, ?_, h2, fun j => ?_⟩
  · unfold CheckInvariants
    rw [hfiles]
    simp only [List.length_singleton, gt_iff_lt, lt_self_iff_false, if_false]
    generalize checkInvariantsLoop 0 0 file.Invariants process [] = r at h1
    obtain ⟨after, out⟩ := r
    simp only [List.nil_append] at h1
    subst h1
    rfl
  · rw [h3 j]
    constructor
    · rintro ⟨k, inv, rfl, hk, he, hv⟩
      refine ⟨inv, by simpa using hk, by simp [safetyForm_eq, he], hv⟩
    · rintro ⟨inv, hk, he, hv⟩
      refine ⟨j, inv, by simp, hk, by simpa [safetyForm_eq] using he, hv⟩

theorem CheckInvariants_lists_false_safety_invariants_witness :
    ∃ violations, (CheckInvariants exampleProcess).2 = Outcome.ret [(0, violations)] ∧
      violations.Sorted (· < ·) ∧
      ∀ j, j ∈ violations ↔ ∃ invariant, exampleInvariants.get? j = some invariant ∧
        safetyForm invariant = true ∧
        evaluateAt exampleProcess invariant j = Outcome.ret false :=
  CheckInvariants_lists_false_safety_invariants exampleProcess
    { FileName := "spec.fizz", Invariants := exampleInvariants } rfl (by
      intro j invariant h
      rcases j with _ | _ | _ | _ | j
      · simp [exampleInvariants] at h
        subst h
        exact ⟨false, by decide⟩
      · simp [exampleInvariants] at h
        subst h
        exact ⟨true, by decide⟩
      · simp [exampleInvariants] at h
        subst h
        exact ⟨true, by decide⟩
      · simp [exampleInvariants] at h
        subst h
        exact ⟨false, by decide⟩
      · simp [exampleInvariants] at h)

/-- C10: `CheckInvariants` never clears a witness bit; every bit of file 0 that
is set after the call was set before or belongs to an eventual or existential
invariant whose predicate holds at the process, so the bits of safety-form
invariants are unchanged; and when the call returns, the bit of every such
invariant whose predicate holds is set. -/
theorem CheckInvariants_witness_bits (process : Process) :
    (∀ i j, process.Witness i j = true → (CheckInvariants process).1.Witness i j = true) ∧
    (∀ j, (CheckInvariants process).1.Witness 0 j = true →
      process.Witness 0 j = true ∨ ∃ file invariant, process.Files = [file] ∧
        file.Invariants.get? j = some invariant ∧ eventualForm invariant = true ∧
        evaluateAt process invariant j = Outcome.ret true) ∧
    (∀ file j invariant, process.Files = [file] → file.Invariants.get? j = some invariant →
      safetyForm invariant = true →
      (CheckInvariants process).1.Witness 0 j = process.Witness 0 j) ∧
    (∀ m, (CheckInvariants process).2 = Outcome.ret m →
      ∀ j, (CheckInvariants process).1.Witness 0 j = true ↔
        (process.Witness 0 j = true ∨ ∃ file invariant, process.Files = [file] ∧
          file.Invariants.get? j = some invariant ∧ eventualForm invariant = true ∧
          evaluateAt process invariant j = Outcome.ret true)) := by
  have main : ∀ file, process.Files = [file] →
      (CheckInvariants process).1 = (checkInvariantsLoop 0 0 file.Invariants process []).1 ∧
      ((CheckInvariants process).2 =
        match (checkInvariantsLoop 0 0 file.Invariants process []).2 with
        | Outcome.ret results => Outcome.ret [(0, results)]
        | Outcome.fatal msg => Outcome.fatal msg
        | Outcome.fuel => Outcome.fuel) := by
    intro file hfiles
    unfold CheckInvariants
    rw [hfiles]
    simp only [List.length_singleton, gt_iff_lt, lt_self_iff_false, if_false]
    generalize checkInvariantsLoop 0 0 file.Invariants process [] = r
    obtain ⟨after, out⟩ := r
    cases out <;> exact ⟨rfl, rfl⟩
  have other : (¬ ∃ file, process.Files = [file]) → (CheckInvariants process).1 = process := by
    intro h
    unfold CheckInvariants
    split
    · rfl
    · rename_i hlen
      cases hf : process.Files with
      | nil => rfl
      | cons file rest =>
        cases rest with
        | nil => exact absurd ⟨file, hf⟩ h
        | cons _ _ => simp [hf] at hlen
  by_cases hex : ∃ file, process.Files = [file]
  · obtain ⟨file, hfiles⟩ := hex
    obtain ⟨h1, h2, h3⟩ := checkInvariantsLoop_witness process 0 file.Invariants 0 process []
      (sameProgram_refl process)
    obtain ⟨e1, e2⟩ := main file hfiles
    have back : ∀ j, (CheckInvariants process).1.Witness 0 j = true →
        process.Witness 0 j = true ∨ ∃ file invariant, process.Files = [file] ∧
          file.Invariants.get? j = some invariant ∧ eventualForm invariant = true ∧
          evaluateAt process invariant j = Outcome.ret true := by
      intro j hj
      rw [e1] at hj
      rcases h2 0 j hj with h | ⟨_, k, inv, rfl, hk, he, hv⟩
      · exact Or.inl h
      · exact Or.inr ⟨file, inv, hfiles, by simpa using hk, he, by simpa using hv⟩
    refine ⟨fun i j h => e1 ▸ h1 i j h, back, ?_, ?_⟩
    · intro file2 j inv hf2 hk hs
      have hff : file2 = file := by
        rw [hfiles] at hf2
        simpa using hf2.symm
      subst hff
      cases hw : process.Witness 0 j with
      | true => exact e1 ▸ h1 0 j hw
      | false =>
        cases hc : (CheckInvariants process).1.Witness 0 j with
        | false => rfl
        | true =>
          rcases back j hc with h | ⟨file3, inv3, hf3, hk3, he3, _⟩
          · rw [hw] at h
            exact absurd h (by simp)
          · have hff : file3 = file2 := by
              rw [hfiles] at hf3
              simpa using hf3.symm
            subst hff
            rw [hk] at hk3
            cases hk3
            rw [safetyForm_eq, he3] at hs
            exact absurd hs (by simp)
    · intro m hm j
      refine ⟨back j, ?_⟩
      rintro (h | ⟨file2, inv, hf2, hk, he, hv⟩)
      · exact e1 ▸ h1 0 j h
      · have hff : file2 = file := by
          rw [hfiles] at hf2
          simpa using hf2.symm
        subst hff
        rw [e2] at hm
        cases hr : (checkInvariantsLoop 0 0 file2.Invariants process []).2 with
        | ret results =>
          have := h3 results hr j inv (by simpa using hk) he (by simpa using hv)
          rw [e1]
          simpa using this
        | fatal msg => simp [hr] at hm
        | fuel => simp [hr] at hm
  · have e := other hex
    rw [e]
    refine ⟨fun _ _ h => h, fun _ h => Or.inl h, fun file _ _ hf => absurd ⟨file, hf⟩ hex, ?_⟩
    intro m _ j
    constructor
    · exact fun h => Or.inl h
    · rintro (h | ⟨file, _, hf, _⟩)
      · exact h
      · exact absurd ⟨file, hf⟩ hex

theorem CheckInvariants_witness_bits_witness :
    (CheckInvariants exampleProcess).1.Witness 0 1 = true ∧
    (CheckInvariants exampleProcess).1.Witness 0 2 = true ∧
    (CheckInvariants exampleProcess).1.Witness 0 0 = false := by
  obtain ⟨_, _, h3, h4⟩ := CheckInvariants_witness_bits exampleProcess
  refine ⟨?_, ?_, ?_⟩
  · exact (h4 [(0, [0, 3])] (by decide) 1).mpr (Or.inr ⟨_, _, rfl, rfl, by decide, by decide⟩)
  · exact (h4 [(0, [0, 3])] (by decide) 2).mpr (Or.inr ⟨_, _, rfl, rfl, by decide, by decide⟩)
  · exact h3 _ 0 _ rfl rfl (by decide)

/-! ## `CheckSimpleExistsWitness` -/

/-- C2 (defect of the code): on the node list `[0, 1]` of `existsGraph` the
invariant at position `(0, 1)` is witnessed at no node, yet
`CheckSimpleExistsWitness` returns the empty list: the indices collected in
`satisfiedInvariants` at node 0 are deleted again at node 1. On the node list
`[2]`, where both invariants are witnessed, the second deletion is out of range
and the call panics. -/
theorem CheckSimpleExistsWitness_drops_unwitnessed :
    CheckSimpleExistsWitness existsGraph [0, 1] = Outcome.ret [] ∧
    (existsGraph 0).Process.Witness 0 1 = false ∧
    (existsGraph 1).Process.Witness 0 1 = false ∧
    CheckSimpleExistsWitness existsGraph [2] = Outcome.fatal "slice bounds out of range" := by
  refine ⟨?_, ?_, ?_, ?_⟩ <;> decide

/-! ## `isFairCycle` -/

theorem mem_setInsert {α : Type} [DecidableEq α] (m : List α) (k x : α) :
    x ∈ setInsert m k ↔ x ∈ m ∨ x = k := by
  unfold setInsert
  split
  · constructor
    · exact Or.inl
    · rintro (h | rfl)
      · exact h
      · assumption
  · simp

theorem mem_setDelete {α : Type} [DecidableEq α] (m : List α) (k x : α) :
    x ∈ setDelete m k ↔ x ∈ m ∧ x ≠ k := by
  simp [setDelete]

theorem outLinkStep_flags (next : Option NodeId) (st : FairState) (l : Link) :
    ((outLinkStep next st l).prevNodeHasNonCrashLink = true ↔
      st.prevNodeHasNonCrashLink = true ∨ l.Name ≠ "crash") ∧
    ((outLinkStep next st l).nextNodeIsCrash = true ↔
      st.nextNodeIsCrash = true ∨ (l.Name = "crash" ∧ some l.Node = next)) ∧
    (outLinkStep next st l).weakFairLinksOutOfChain = st.weakFairLinksOutOfChain ∧
    (outLinkStep next st l).firstYield = st.firstYield := by
  unfold outLinkStep
  dsimp only
  split_ifs <;> simp_all

theorem outLinkStep_strong (next : Option NodeId) (st : FairState) (l : Link) (a : String) :
    (a ∈ (outLinkStep next st l).strongFairLinksInChain ↔
      a ∈ st.strongFairLinksInChain ∨
        (l.Fairness = FairnessLevel.STRONG ∧ l.Name = a ∧ some l.Node = next)) ∧
    (a ∈ (outLinkStep next st l).strongFairLinksOutOfChain ↔
      (a ∈ st.strongFairLinksOutOfChain ∨ (a ∉ st.strongFairLinksInChain ∧
        (l.Fairness = FairnessLevel.STRONG ∧ l.Name = a ∧ some l.Node ≠ next))) ∧
      ¬ (l.Fairness = FairnessLevel.STRONG ∧ l.Name = a ∧ some l.Node = next)) := by
  unfold outLinkStep
  dsimp only
  split_ifs <;> by_cases h8 : l.Name = a <;> simp_all [mem_setInsert, mem_setDelete] <;> tauto

theorem outLinkStep_weak (next : Option NodeId) (st : FairState) (l : Link) (a : String) :
    (a ∈ (outLinkStep next st l).weakFairLinksInChain ↔
      a ∈ st.weakFairLinksInChain ∨
        (l.Fairness = FairnessLevel.WEAK ∧ l.Name = a ∧ some l.Node = next)) ∧
    (a ∈ (outLinkStep next st l).unvisitedWeakFairLinksOutOfChain ↔
      (a ∈ st.unvisitedWeakFairLinksOutOfChain ∨ (a ∉ st.weakFairLinksInChain ∧
        (l.Fairness = FairnessLevel.WEAK ∧ l.Name = a ∧ some l.Node ≠ next))) ∧
      ¬ (l.Fairness = FairnessLevel.WEAK ∧ l.Name = a ∧ some l.Node = next)) := by
  unfold outLinkStep
  dsimp only
  split_ifs <;> by_cases h8 : l.Name = a <;> simp_all [mem_setInsert, mem_setDelete] <;> tauto

theorem chain_in_compose {A2 A1 A0 p E : Prop} (h2 : A2 ↔ A1 ∨ E) (h1 : A1 ↔ A0 ∨ p) :
    A2 ↔ A0 ∨ (p ∨ E) := by
  tauto

theorem chain_out_compose {O2 O1 O0 A1 A0 pin pout Ein Eout : Prop}
    (h2 : O2 ↔ (O1 ∨ (¬ A1 ∧ Eout)) ∧ ¬ Ein) (hA : A1 ↔ A0 ∨ pin)
    (h1 : O1 ↔ (O0 ∨ (¬ A0 ∧ pout)) ∧ ¬ pin) :
    O2 ↔ (O0 ∨ (¬ A0 ∧ (pout ∨ Eout))) ∧ ¬ (pin ∨ Ein) := by
  tauto

theorem foldl_outLinkStep (next : Option NodeId) (links : List Link) :
    ∀ st : FairState,
    ((links.foldl (outLinkStep next) st).prevNodeHasNonCrashLink = true ↔
      st.prevNodeHasNonCrashLink = true ∨ ∃ l ∈ links, l.Name ≠ "crash") ∧
    ((links.foldl (outLinkStep next) st).nextNodeIsCrash = true ↔
      st.nextNodeIsCrash = true ∨ ∃ l ∈ links, l.Name = "crash" ∧ some l.Node = next) ∧
    (links.foldl (outLinkStep next) st).weakFairLinksOutOfChain = st.weakFairLinksOutOfChain ∧
    (links.foldl (outLinkStep next) st).firstYield = st.firstYield ∧
    (∀ a, a ∈ (links.foldl (outLinkStep next) st).strongFairLinksInChain ↔
      a ∈ st.strongFairLinksInChain ∨
        ∃ l ∈ links, l.Fairness = FairnessLevel.STRONG ∧ l.Name = a ∧ some l.Node = next) ∧
    (∀ a, a ∈ (links.foldl (outLinkStep next) st).strongFairLinksOutOfChain ↔
      (a ∈ st.strongFairLinksOutOfChain ∨ (a ∉ st.strongFairLinksInChain ∧
        ∃ l ∈ links, l.Fairness = FairnessLevel.STRONG ∧ l.Name = a ∧ some l.Node ≠ next)) ∧
      ¬ ∃ l ∈ links, l.Fairness = FairnessLevel.STRONG ∧ l.Name = a ∧ some l.Node = next) ∧
    (∀ a, a ∈ (links.foldl (outLinkStep next) st).weakFairLinksInChain ↔
      a ∈ st.weakFairLinksInChain ∨
        ∃ l ∈ links, l.Fairness = FairnessLevel.WEAK ∧ l.Name = a ∧ some l.Node = next) ∧
    (∀ a, a ∈ (links.foldl (outLinkStep next) st).unvisitedWeakFairLinksOutOfChain ↔
      (a ∈ st.unvisitedWeakFairLinksOutOfChain ∨ (a ∉ st.weakFairLinksInChain ∧
        ∃ l ∈ links, l.Fairness = FairnessLevel.WEAK ∧ l.Name = a ∧ some l.Node ≠ next)) ∧
      ¬ ∃ l ∈ links, l.Fairness = FairnessLevel.WEAK ∧ l.Name = a ∧ some l.Node = next) := by
  induction links with
  | nil =>
    intro st
    simp
  | cons l links ih =>
    intro st
    obtain ⟨i1, i2, i3, i4, i5, i6, i7, i8⟩ := ih (outLinkStep next st l)
    obtain ⟨f1, f2, f3, f4⟩ := outLinkStep_flags next st l
    have s := outLinkStep_strong next st l
    have w := outLinkStep_weak next st l
    simp only [List.foldl_cons, List.mem_cons, exists_eq_or_imp]
    exact ⟨chain_in_compose i1 f1, chain_in_compose i2 f2, i3.trans f3, i4.trans f4,
      fun a => chain_in_compose (i5 a) (s a).1,
      fun a => chain_out_compose (i6 a) (s a).1 (s a).2,
      fun a => chain_in_compose (i7 a) (w a).1,
      fun a => chain_out_compose (i8 a) (w a).1 (w a).2⟩

theorem participatingStep_spec (g : Graph) (path : List Link) (i : Nat) (link : Link)
    (st : FairState) (hfy : ∀ f, st.firstYield = some f → f < i) :
    ((participatingStep g path i link st).prevNodeHasNonCrashLink = true ↔
      ∃ l ∈ (g link.Node).Outbound, l.Name ≠ "crash") ∧
    ((participatingStep g path i link st).nextNodeIsCrash = true ↔
      st.nextNodeIsCrash = true ∨
        ∃ l ∈ (g link.Node).Outbound, l.Name = "crash" ∧ some l.Node = succNode path i) ∧
    (∃ f, (participatingStep g path i link st).firstYield = some f ∧ f < i + 1) ∧
    (∀ a, a ∈ (participatingStep g path i link st).strongFairLinksInChain ↔
      a ∈ st.strongFairLinksInChain ∨ ∃ l ∈ (g link.Node).Outbound,
        l.Fairness = FairnessLevel.STRONG ∧ l.Name = a ∧ some l.Node = succNode path i) ∧
    (∀ a, a ∈ (participatingStep g path i link st).strongFairLinksOutOfChain ↔
      (a ∈ st.strongFairLinksOutOfChain ∨ (a ∉ st.strongFairLinksInChain ∧
        ∃ l ∈ (g link.Node).Outbound,
          l.Fairness = FairnessLevel.STRONG ∧ l.Name = a ∧ some l.Node ≠ succNode path i)) ∧
      ¬ ∃ l ∈ (g link.Node).Outbound,
        l.Fairness = FairnessLevel.STRONG ∧ l.Name = a ∧ some l.Node = succNode path i) ∧
    (∀ a, a ∈ (participatingStep g path i link st).weakFairLinksInChain ↔
      a ∈ st.weakFairLinksInChain ∨ ∃ l ∈ (g link.Node).Outbound,
        l.Fairness = FairnessLevel.WEAK ∧ l.Name = a ∧ some l.Node = succNode path i) ∧
    (∀ a, a ∈ (participatingStep g path i link st).weakFairLinksOutOfChain ↔
      (st.firstYield = none ∨ a ∈ st.weakFairLinksOutOfChain) ∧
      (a ∉ st.weakFairLinksInChain ∧ ∃ l ∈ (g link.Node).Outbound,
          l.Fairness = FairnessLevel.WEAK ∧ l.Name = a ∧ some l.Node ≠ succNode path i) ∧
      ¬ ∃ l ∈ (g link.Node).Outbound,
        l.Fairness = FairnessLevel.WEAK ∧ l.Name = a ∧ some l.Node = succNode path i) := by
  cases hf : st.firstYield with
  | none =>
    obtain ⟨f1, f2, f3, f4, f5, f6, f7, f8⟩ := foldl_outLinkStep (succNode path i)
      (g link.Node).Outbound { st with
        unvisitedWeakFairLinksOutOfChain := []
        firstYield := some i
        prevNodeHasNonCrashLink := false }
    simp only [participatingStep, hf, if_true]
    refine ⟨by simpa using f1, f2, ⟨i, by simpa using f4, by omega⟩, f5, f6, f7, fun a => ?_⟩
    have := f8 a
    simp only [List.not_mem_nil, false_or] at this
    simp only [this, true_or, true_and]
  | some f =>
    have hne : i ≠ f := by
      have := hfy f hf
      omega
    obtain ⟨f1, f2, f3, f4, f5, f6, f7, f8⟩ := foldl_outLinkStep (succNode path i)
      (g link.Node).Outbound { st with
        unvisitedWeakFairLinksOutOfChain := []
        firstYield := some f
        prevNodeHasNonCrashLink := false }
    simp only [participatingStep, hf, if_neg hne]
    refine ⟨by simpa using f1, f2, ⟨f, by simpa using f4, by have := hfy f hf; omega⟩,
      f5, f6, f7, fun a => ?_⟩
    have := f8 a
    simp only [List.not_mem_nil, false_or] at this
    simp only [List.mem_filter, decide_eq_true_eq, this, f3, reduceCtorEq, false_or]

theorem participatingStep_spec_flags (g : Graph) (path : List Link) (i : Nat) (link : Link)
    (st : FairState) :
    ((participatingStep g path i link st).prevNodeHasNonCrashLink = true ↔
      ∃ l ∈ (g link.Node).Outbound, l.Name ≠ "crash") ∧
    ((participatingStep g path i link st).nextNodeIsCrash = true ↔
      st.nextNodeIsCrash = true ∨
        ∃ l ∈ (g link.Node).Outbound, l.Name = "crash" ∧ some l.Node = succNode path i) ∧
    True := by
  obtain ⟨f1, f2, _⟩ := foldl_outLinkStep (succNode path i)
    (g link.Node).Outbound { st with
      unvisitedWeakFairLinksOutOfChain := []
      firstYield := some (match st.firstYield with
        | none => i
        | some first => first)
      prevNodeHasNonCrashLink := false }
  unfold participatingStep
  dsimp only
  split <;> exact ⟨by simpa using f1, f2, trivial⟩

theorem exists_ge_succ (P : Nat → Prop) (i : Nat) :
    (∃ k, i ≤ k ∧ P k) ↔ P i ∨ ∃ k, i + 1 ≤ k ∧ P k := by
  constructor
  · rintro ⟨k, hk, hp⟩
    rcases Nat.eq_or_lt_of_le hk with rfl | h
    · exact Or.inl hp
    · exact Or.inr ⟨k, h, hp⟩
  · rintro (hp | ⟨k, hk, hp⟩)
    · exact ⟨i, le_refl i, hp⟩
    · exact ⟨k, by omega, hp⟩

theorem forall_ge_succ (P : Nat → Prop) (i : Nat) :
    (∀ k, i ≤ k → P k) ↔ P i ∧ ∀ k, i + 1 ≤ k → P k := by
  constructor
  · intro h
    exact ⟨h i (le_refl i), fun k hk => h k (by omega)⟩
  · rintro ⟨h0, h1⟩ k hk
    rcases Nat.eq_or_lt_of_le hk with rfl | h
    · exact h0
    · exact h1 k h

theorem participates_of_get {g : Graph} {path : List Link} {i : Nat} {link : Link}
    (hk : path.get? i = some link) :
    participates g path i ↔
      ((g link.Node).Process.Name = "init" ∨ (g link.Node).Process.Name = "yield") := by
  unfold participates
  constructor
  · rintro ⟨l, hl, h⟩
    rw [hk] at hl
    cases hl
    exact h
  · intro h
    exact ⟨link, hk, h⟩

theorem inChainAt_of_get {g : Graph} {path : List Link} {i : Nat} {link : Link}
    (hk : path.get? i = some link)
    (hp : (g link.Node).Process.Name = "init" ∨ (g link.Node).Process.Name = "yield")
    (f : FairnessLevel) (a : String) :
    inChainAt g path f i a ↔ ∃ l ∈ (g link.Node).Outbound,
      l.Fairness = f ∧ l.Name = a ∧ some l.Node = succNode path i := by
  unfold inChainAt
  constructor
  · rintro ⟨_, l, o, hl, h⟩
    rw [hk] at hl
    cases hl
    exact ⟨o, h⟩
  · rintro ⟨o, h⟩
    exact ⟨(participates_of_get hk).mpr hp, link, o, hk, h⟩

theorem outOfChainAt_of_get {g : Graph} {path : List Link} {i : Nat} {link : Link}
    (hk : path.get? i = some link)
    (hp : (g link.Node).Process.Name = "init" ∨ (g link.Node).Process.Name = "yield")
    (f : FairnessLevel) (a : String) :
    outOfChainAt g path f i a ↔ ∃ l ∈ (g link.Node).Outbound,
      l.Fairness = f ∧ l.Name = a ∧ some l.Node ≠ succNode path i := by
  unfold outOfChainAt
  constructor
  · rintro ⟨_, l, o, hl, h⟩
    rw [hk] at hl
    cases hl
    exact ⟨o, h⟩
  · rintro ⟨o, h⟩
    exact ⟨(participates_of_get hk).mpr hp, link, o, hk, h⟩

theorem sets_skip_in {A2 A0 Pi E : Prop} (h : A2 ↔ A0 ∨ E) (hn : ¬ Pi) : A2 ↔ A0 ∨ (Pi ∨ E) := by
  tauto

theorem sets_skip_out {O2 O0 A0 pin pout Ein Eout : Prop}
    (h : O2 ↔ (O0 ∨ (¬ A0 ∧ Eout)) ∧ ¬ Ein) (hi : ¬ pin) (ho : ¬ pout) :
    O2 ↔ (O0 ∨ (¬ A0 ∧ (pout ∨ Eout))) ∧ ¬ (pin ∨ Ein) := by
  tauto

theorem sets_skip_weak {W2 W0 F0 A0 Pi po pin EP AO EI : Prop}
    (h : W2 ↔ ((F0 ∧ EP) ∨ W0) ∧ (EP → ¬ A0) ∧ AO ∧ ¬ EI) (hp : ¬ Pi) (hi : ¬ pin) :
    W2 ↔ ((F0 ∧ (Pi ∨ EP)) ∨ W0) ∧ ((Pi ∨ EP) → ¬ A0) ∧ ((Pi → po) ∧ AO) ∧ ¬ (pin ∨ EI) := by
  tauto

theorem sets_step_weak {W2 W1 W0 F1 F0 A1 A0 Pi po pin EP AO EI : Prop}
    (h : W2 ↔ ((F1 ∧ EP) ∨ W1) ∧ (EP → ¬ A1) ∧ AO ∧ ¬ EI) (hF : ¬ F1)
    (hW : W1 ↔ (F0 ∨ W0) ∧ (¬ A0 ∧ po) ∧ ¬ pin) (hA : A1 ↔ A0 ∨ pin) (hp : Pi) :
    W2 ↔ ((F0 ∧ (Pi ∨ EP)) ∨ W0) ∧ ((Pi ∨ EP) → ¬ A0) ∧ ((Pi → po) ∧ AO) ∧ ¬ (pin ∨ EI) := by
  rw [h, hW, hA]
  constructor
  · rintro ⟨h1 | h1, h2, h3, h4⟩
    · exact absurd h1.1 hF
    · obtain ⟨h5, ⟨h6, h7⟩, h8⟩ := h1
      refine ⟨?_, fun _ => h6, ⟨fun _ => h7, h3⟩, ?_⟩
      · rcases h5 with h5 | h5
        · exact Or.inl ⟨h5, Or.inl hp⟩
        · exact Or.inr h5
      · rintro (h9 | h9)
        · exact h8 h9
        · exact h4 h9
  · rintro ⟨h1, h2, ⟨h3, h4⟩, h5⟩
    have hA0 : ¬ A0 := h2 (Or.inl hp)
    have hpin : ¬ pin := fun h => h5 (Or.inl h)
    refine ⟨Or.inr ⟨?_, ⟨hA0, h3 hp⟩, hpin⟩, ?_, h4, fun h => h5 (Or.inr h)⟩
    · rcases h1 with h1 | h1
      · exact Or.inl h1.1
      · exact Or.inr h1
    · rintro _ (h6 | h6)
      · exact hA0 h6
      · exact hpin h6

theorem isFairCycleLoop_sets (g : Graph) (path : List Link) :
    ∀ (rest : List Link) (i : Nat) (st st2 : FairState),
      (∀ k, rest.get? k = path.get? (i + k)) →
      (∀ f, st.firstYield = some f → f < i) →
      isFairCycleLoop g path i rest st = some st2 →
      (∀ a, a ∈ st2.strongFairLinksInChain ↔ a ∈ st.strongFairLinksInChain ∨
        ∃ k, i ≤ k ∧ inChainAt g path FairnessLevel.STRONG k a) ∧
      (∀ a, a ∈ st2.strongFairLinksOutOfChain ↔
        (a ∈ st.strongFairLinksOutOfChain ∨ (a ∉ st.strongFairLinksInChain ∧
          ∃ k, i ≤ k ∧ outOfChainAt g path FairnessLevel.STRONG k a)) ∧
        ¬ ∃ k, i ≤ k ∧ inChainAt g path FairnessLevel.STRONG k a) ∧
      (∀ a, a ∈ st2.weakFairLinksInChain ↔ a ∈ st.weakFairLinksInChain ∨
        ∃ k, i ≤ k ∧ inChainAt g path FairnessLevel.WEAK k a) ∧
      (∀ a, a ∈ st2.weakFairLinksOutOfChain ↔
        ((st.firstYield = none ∧ ∃ k, i ≤ k ∧ participates g path k) ∨
          a ∈ st.weakFairLinksOutOfChain) ∧
        ((∃ k, i ≤ k ∧ participates g path k) → a ∉ st.weakFairLinksInChain) ∧
        (∀ k, i ≤ k → participates g path k → outOfChainAt g path FairnessLevel.WEAK k a) ∧
        ¬ ∃ k, i ≤ k ∧ inChainAt g path FairnessLevel.WEAK k a) := by
  intro rest
  induction rest with
  | nil =>
    intro i st st2 hsuf _ hloop
    simp only [isFairCycleLoop, Option.some.injEq] at hloop
    subst hloop
    have hnone : ∀ k, i ≤ k → path.get? k = none := by
      intro k hk
      have := hsuf (k - i)
      rw [show i + (k - i) = k by omega] at this
      rw [← this]
      rfl
    have hp : ∀ k, i ≤ k → ¬ participates g path k := by
      rintro k hk ⟨l, hl, _⟩
      rw [hnone k hk] at hl
      cases hl
    have hin : ∀ f a, ¬ ∃ k, i ≤ k ∧ inChainAt g path f k a := by
      rintro f a ⟨k, hk, h, _⟩
      exact hp k hk h
    have hout : ∀ f a, ¬ ∃ k, i ≤ k ∧ outOfChainAt g path f k a := by
      rintro f a ⟨k, hk, h, _⟩
      exact hp k hk h
    have hpe : ¬ ∃ k, i ≤ k ∧ participates g path k := by
      rintro ⟨k, hk, h⟩
      exact hp k hk h
    refine ⟨fun a => ?_, fun a => ?_, fun a => ?_, fun a => ?_⟩
    · simp [hin]
    · simp [hin, hout]
    · simp [hin]
    · simp only [hin, hpe, and_false, false_or, not_false_eq_true, and_true, false_imp_iff,
        true_and]
      constructor
      · intro h
        exact ⟨h, fun k hk hpk => absurd hpk (hp k hk)⟩
      · exact fun h => h.1
  | cons link rest ih =>
    intro i st st2 hsuf hfy hloop
    have hk : path.get? i = some link := by
      have := hsuf 0
      simpa using this.symm
    have hsuf2 : ∀ k, rest.get? k = path.get? (i + 1 + k) := by
      intro k
      have := hsuf (k + 1)
      rw [show i + (k + 1) = i + 1 + k by omega] at this
      simpa using this
    rw [isFairCycleLoop] at hloop
    split at hloop
    · cases hloop
    · split at hloop
      · rename_i hname
        have hnp : ¬ participates g path i := by
          rw [participates_of_get hk]
          tauto
        have hin : ∀ f a, ¬ inChainAt g path f i a := fun f a h => hnp h.1
        have hout : ∀ f a, ¬ outOfChainAt g path f i a := fun f a h => hnp h.1
        obtain ⟨h1, h2, h3, h4⟩ := ih (i + 1) st st2 hsuf2
          (fun f hf => Nat.lt_succ_of_lt (hfy f hf)) hloop
        refine ⟨fun a => ?_, fun a => ?_, fun a => ?_, fun a => ?_⟩
        · rw [exists_ge_succ]
          exact sets_skip_in (h1 a) (hin _ a)
        · rw [exists_ge_succ (fun k => inChainAt g path FairnessLevel.STRONG k a),
            exists_ge_succ (fun k => outOfChainAt g path FairnessLevel.STRONG k a)]
          exact sets_skip_out (h2 a) (hin _ a) (hout _ a)
        · rw [exists_ge_succ]
          exact sets_skip_in (h3 a) (hin _ a)
        · rw [exists_ge_succ (fun k => participates g path k),
            exists_ge_succ (fun k => inChainAt g path FairnessLevel.WEAK k a), forall_ge_succ]
          exact sets_skip_weak (h4 a) hnp (hin _ a)
      · rename_i hname
        have hp : (g link.Node).Process.Name = "init" ∨ (g link.Node).Process.Name = "yield" := by
          by_contra hc
          exact hname ⟨fun h => hc (Or.inl h), fun h => hc (Or.inr h)⟩
        have hpart : participates g path i := (participates_of_get hk).mpr hp
        obtain ⟨_, _, ⟨f1, hf1, hlt⟩, s1, s2, s3, s4⟩ := participatingStep_spec g path i link st hfy
        obtain ⟨h1, h2, h3, h4⟩ := ih (i + 1) (participatingStep g path i link st) st2 hsuf2
          (fun f hf => by
            rw [hf1] at hf
            cases hf
            exact hlt) hloop
        refine ⟨fun a => ?_, fun a => ?_, fun a => ?_, fun a => ?_⟩
        · rw [exists_ge_succ (fun k => inChainAt g path FairnessLevel.STRONG k a)]
          rw [inChainAt_of_get hk hp]
          exact chain_in_compose (h1 a) (s1 a)
        · rw [exists_ge_succ (fun k => inChainAt g path FairnessLevel.STRONG k a),
            exists_ge_succ (fun k => outOfChainAt g path FairnessLevel.STRONG k a)]
          rw [inChainAt_of_get hk hp, outOfChainAt_of_get hk hp]
          exact chain_out_compose (h2 a) (s1 a) (s2 a)
        · rw [exists_ge_succ (fun k => inChainAt g path FairnessLevel.WEAK k a)]
          rw [inChainAt_of_get hk hp]
          exact chain_in_compose (h3 a) (s3 a)
        · rw [exists_ge_succ (fun k => participates g path k),
            exists_ge_succ (fun k => inChainAt g path FairnessLevel.WEAK k a), forall_ge_succ]
          rw [inChainAt_of_get hk hp, outOfChainAt_of_get hk hp]
          exact sets_step_weak (h4 a) (by rw [hf1]; simp) (s4 a) (s3 a) hpart

theorem isFairCycleLoop_none (g : Graph) (path : List Link) :
    ∀ (rest : List Link) (i : Nat) (st : FairState),
      (∀ k, rest.get? k = path.get? (i + k)) →
      (isFairCycleLoop g path i rest st = none ↔
        (rest ≠ [] ∧ st.nextNodeIsCrash = true ∧ st.prevNodeHasNonCrashLink = true) ∨
        ∃ m, i ≤ m ∧ m + 1 < i + rest.length ∧ nonCrashAt g path m ∧
          (st.nextNodeIsCrash = true ∨ ∃ k, i ≤ k ∧ k ≤ m ∧ crashTakenAt g path k)) := by
  intro rest
  induction rest with
  | nil =>
    intro i st _
    simp only [isFairCycleLoop, reduceCtorEq, ne_eq, not_true_eq_false, false_and, List.length_nil,
      false_or, false_iff]
    rintro ⟨m, h1, h2, _⟩
    omega
  | cons link rest ih =>
    intro i st hsuf
    have hk : path.get? i = some link := by
      have := hsuf 0
      simpa using this.symm
    have hsuf2 : ∀ k, rest.get? k = path.get? (i + 1 + k) := by
      intro k
      have := hsuf (k + 1)
      rw [show i + (k + 1) = i + 1 + k by omega] at this
      simpa using this
    rw [isFairCycleLoop]
    by_cases hflags : (st.nextNodeIsCrash && st.prevNodeHasNonCrashLink) = true
    · rw [if_pos hflags]
      simp only [true_iff]
      left
      simp only [Bool.and_eq_true] at hflags
      exact ⟨by simp, hflags.1, hflags.2⟩
    · rw [if_neg hflags]
      have hnot : ¬ (st.nextNodeIsCrash = true ∧ st.prevNodeHasNonCrashLink = true) := by
        simpa using hflags
      by_cases hname : (g link.Node).Process.Name ≠ "init" ∧ (g link.Node).Process.Name ≠ "yield"
      · rw [if_pos hname, ih (i + 1) st hsuf2]
        have hnp : ¬ participates g path i := by
          rw [participates_of_get hk]
          tauto
        constructor
        · rintro (⟨_, h⟩ | ⟨m, h1, h2, h3, h4⟩)
          · exact absurd h hnot
          · refine Or.inr ⟨m, by omega, by simp only [List.length_cons]; omega, h3, ?_⟩
            rcases h4 with h4 | ⟨k, h5, h6, h7⟩
            · exact Or.inl h4
            · exact Or.inr ⟨k, by omega, h6, h7⟩
        · rintro (⟨_, h⟩ | ⟨m, h1, h2, h3, h4⟩)
          · exact absurd h hnot
          · simp only [List.length_cons] at h2
            have hm : i ≠ m := by
              rintro rfl
              exact hnp h3.1
            refine Or.inr ⟨m, by omega, by omega, h3, ?_⟩
            rcases h4 with h4 | ⟨k, h5, h6, h7⟩
            · exact Or.inl h4
            · have hki : i ≠ k := by
                rintro rfl
                exact hnp h7.1
              exact Or.inr ⟨k, by omega, h6, h7⟩
      · rw [if_neg hname]
        have hp : (g link.Node).Process.Name = "init" ∨ (g link.Node).Process.Name = "yield" := by
          by_contra hc
          exact hname ⟨fun h => hc (Or.inl h), fun h => hc (Or.inr h)⟩
        have hpart : participates g path i := (participates_of_get hk).mpr hp
        obtain ⟨s1, s2, _⟩ := participatingStep_spec_flags g path i link st
        have hnc : (participatingStep g path i link st).prevNodeHasNonCrashLink = true ↔
            nonCrashAt g path i := by
          rw [s1]
          constructor
          · rintro ⟨o, h⟩
            exact ⟨hpart, link, o, hk, h⟩
          · rintro ⟨_, l, o, hl, h⟩
            rw [hk] at hl
            cases hl
            exact ⟨o, h⟩
        have hct : (participatingStep g path i link st).nextNodeIsCrash = true ↔
            (st.nextNodeIsCrash = true ∨ crashTakenAt g path i) := by
          rw [s2]
          constructor
          · rintro (h | ⟨o, h⟩)
            · exact Or.inl h
            · exact Or.inr ⟨hpart, link, o, hk, h⟩
          · rintro (h | ⟨_, l, o, hl, h⟩)
            · exact Or.inl h
            · rw [hk] at hl
              cases hl
              exact Or.inr ⟨o, h⟩
        rw [ih (i + 1) _ hsuf2, hnc, hct]
        constructor
        · rintro (⟨h1, h2, h3⟩ | ⟨m, h1, h2, h3, h4⟩)
          · refine Or.inr ⟨i, le_refl i, ?_, h3, ?_⟩
            · cases rest with
              | nil => exact absurd rfl h1
              | cons _ _ => simp only [List.length_cons]; omega
            · rcases h2 with h2 | h2
              · exact Or.inl h2
              · exact Or.inr ⟨i, le_refl i, le_refl i, h2⟩
          · refine Or.inr ⟨m, by omega, by simp only [List.length_cons]; omega, h3, ?_⟩
            rcases h4 with (h4 | h4) | ⟨k, h5, h6, h7⟩
            · exact Or.inl h4
            · exact Or.inr ⟨i, le_refl i, by omega, h4⟩
            · exact Or.inr ⟨k, by omega, h6, h7⟩
        · rintro (⟨_, h⟩ | ⟨m, h1, h2, h3, h4⟩)
          · exact absurd h hnot
          · simp only [List.length_cons] at h2
            rcases Nat.eq_or_lt_of_le h1 with rfl | hlt
            · left
              refine ⟨?_, ?_, h3⟩
              · rintro rfl
                simp at h2
              · rcases h4 with h4 | ⟨k, h5, h6, h7⟩
                · exact Or.inl h4
                · have : k = i := by omega
                  subst this
                  exact Or.inr h7
            · right
              refine ⟨m, by omega, by omega, h3, ?_⟩
              rcases h4 with h4 | ⟨k, h5, h6, h7⟩
              · exact Or.inl (Or.inl h4)
              · rcases Nat.eq_or_lt_of_le h5 with rfl | hk2
                · exact Or.inl (Or.inr h7)
                · exact Or.inr ⟨k, by omega, h6, h7⟩

theorem isFairCycle_iff (g : Graph) (path : List Link) :
    isFairCycle g path = true ↔
      ¬ crashRejected g path ∧ (∀ a, ¬ strongOutOfChain g path a) ∧
        (∀ a, ¬ weakOutOfChain g path a) := by
  have hnone := isFairCycleLoop_none g path path 0 {} (fun k => by simp)
  have hcr : isFairCycleLoop g path 0 path {} = none ↔ crashRejected g path := by
    rw [hnone]
    constructor
    · rintro (⟨_, h, _⟩ | ⟨m, _, h2, h3, h4 | ⟨k, _, h5, h6⟩⟩)
      · cases h
      · cases h4
      · exact ⟨k, m, h5, by simpa using h2, h6, h3⟩
    · rintro ⟨k, m, h1, h2, h3, h4⟩
      exact Or.inr ⟨m, Nat.zero_le m, by simpa using h2, h4, Or.inr ⟨k, Nat.zero_le k, h1, h3⟩⟩
  unfold isFairCycle
  cases hloop : isFairCycleLoop g path 0 path {} with
  | none =>
    simp only [Bool.false_eq_true, false_iff, not_and]
    intro h
    exact absurd (hcr.mp hloop) h
  | some st =>
    have hncr : ¬ crashRejected g path := by
      intro h
      rw [hcr.mpr h] at hloop
      cases hloop
    obtain ⟨_, h2, _, h4⟩ := isFairCycleLoop_sets g path path 0 {} st (fun k => by simp)
      (fun f hf => by cases hf) hloop
    have hs : ∀ a, a ∈ st.strongFairLinksOutOfChain ↔ strongOutOfChain g path a := by
      intro a
      rw [h2 a]
      unfold strongOutOfChain
      simp
    have hw : ∀ a, a ∈ st.weakFairLinksOutOfChain ↔ weakOutOfChain g path a := by
      intro a
      rw [h4 a]
      unfold weakOutOfChain
      simp only [Nat.zero_le, true_and, List.not_mem_nil, or_false, not_false_eq_true,
        implies_true, forall_const, not_exists]
      constructor
      · rintro ⟨h5, h6, h7⟩
        exact ⟨h5, fun i hi => ⟨h6 i hi, h7 i⟩⟩
      · rintro ⟨h5, h6⟩
        refine ⟨h5, fun i hi => (h6 i hi).1, fun i hi => ?_⟩
        exact (h6 i hi.1).2 hi
    simp only [hncr, not_false_eq_true, true_and]
    constructor
    · intro h
      split at h
      · cases h
      · rename_i hlen
        simp only [gt_iff_lt, List.length_pos, not_or, ne_eq, not_not] at hlen
        refine ⟨fun a ha => ?_, fun a ha => ?_⟩
        · have := (hs a).mpr ha
          rw [hlen.1] at this
          cases this
        · have := (hw a).mpr ha
          rw [hlen.2] at this
          cases this
    · rintro ⟨h5, h6⟩
      have e1 : st.strongFairLinksOutOfChain = [] :=
        List.eq_nil_iff_forall_not_mem.mpr (fun a ha => h5 a ((hs a).mp ha))
      have e2 : st.weakFairLinksOutOfChain = [] :=
        List.eq_nil_iff_forall_not_mem.mpr (fun a ha => h6 a ((hw a).mp ha))
      simp [e1, e2]

theorem crashGraph_unfair (n : NodeId) :
    ∀ o ∈ (crashGraph n).Outbound, o.Fairness = FairnessLevel.NONE := by
  intro o ho
  rcases n with _ | n
  · simp only [crashGraph, List.mem_cons, List.mem_singleton, List.not_mem_nil, or_false] at ho
    rcases ho with rfl | rfl <;> rfl
  · simp only [crashGraph, List.mem_singleton] at ho
    subst ho
    rfl

theorem crashGraph_no_later_links : ¬ crashBeforeOtherLinks crashGraph crashCycle := by
  rintro ⟨k, m, hkm, hm, _, ⟨link, hget, hname⟩, _⟩
  have hm1 : m = 1 := by
    simp only [crashCycle, List.length_cons, List.length_nil] at hm
    omega
  subst hm1
  simp only [crashCycle, List.get?_cons_succ, List.get?_cons_zero, Option.some.injEq] at hget
  subst hget
  rcases hname with h | h <;> exact absurd h (by decide)

theorem crashRejected_iff (g : Graph) (path : List Link) :
    crashRejected g path ↔ crashFilterRejects g path ∨ crashBeforeOtherLinks g path := by
  constructor
  · rintro ⟨k, m, hkm, hm, hk, hnc⟩
    rcases Nat.eq_or_lt_of_le hkm with rfl | hlt
    · exact Or.inl ⟨k, hm, hk, hnc⟩
    · exact Or.inr ⟨k, m, hlt, hm, hk, hnc⟩
  · rintro (⟨k, hk1, hk, hnc⟩ | ⟨k, m, hkm, hm, hk, hnc⟩)
    · exact ⟨k, k, Nat.le_refl k, hk1, hk, hnc⟩
    · exact ⟨k, m, Nat.le_of_lt hkm, hm, hk, hnc⟩

/-- C6 (as stated, refuted): `crashCycle` is a cycle of `crashGraph` from state 0
back to state 0 on which no link is fair, so both out-of-chain sets are empty,
but `isFairCycle` returns false: state 0 takes the crash although it has the
link `work`, and the crash filter rejects the cycle. -/
theorem isFairCycle_not_iff_sets_empty :
    crashCycle.head?.map Link.Node = crashCycle.getLast?.map Link.Node ∧
    crashFilterRejects crashGraph crashCycle ∧
    ¬ (isFairCycle crashGraph crashCycle = true ↔
      ((∀ a, ¬ strongOutOfChain crashGraph crashCycle a) ∧
        (∀ a, ¬ weakOutOfChain crashGraph crashCycle a))) := by
  refine ⟨rfl, ?_, ?_⟩
  · have hp : participates crashGraph crashCycle 0 :=
      ⟨{ Node := 0, Name := "Init" }, rfl, Or.inr rfl⟩
    exact ⟨0, by decide,
      ⟨hp, { Node := 0, Name := "Init" }, { Node := 1, Name := "crash" }, rfl, by decide, rfl,
        rfl⟩,
      ⟨hp, { Node := 0, Name := "Init" }, { Node := 0, Name := "work" }, rfl, by decide,
        by decide⟩⟩
  · intro h
    have hfalse : isFairCycle crashGraph crashCycle = false := by decide
    rw [hfalse] at h
    refine absurd (h.mpr ⟨?_, ?_⟩) (by simp)
    · rintro a ⟨⟨i, _, link, o, _, ho, hf, _⟩, _⟩
      rw [crashGraph_unfair link.Node o ho] at hf
      cases hf
    · rintro a ⟨_, hall⟩
      have hp : participates crashGraph crashCycle 0 :=
        ⟨{ Node := 0, Name := "Init" }, rfl, Or.inr rfl⟩
      obtain ⟨⟨_, link, o, _, ho, hf, _⟩, _⟩ := hall 0 hp
      rw [crashGraph_unfair link.Node o ho] at hf
      cases hf

/-- C6 (amended): `isFairCycle` returns false on every path that the crash filter
rejects, that is, on which a participating position other than the last has an
outbound link named `crash` that targets its successor while the same node has
an outbound link not named `crash`. On every path on which no participating
position with such a crash link is followed by a later participating position,
other than the last, that has an outbound link not named `crash`, `isFairCycle`
returns true if and only if the crash filter does not reject the path and both
the strong out-of-chain set and the intersected weak out-of-chain set of the
path are empty. -/
theorem isFairCycle_iff_not_rejected_and_sets_empty (g : Graph) (path : List Link) :
    (crashFilterRejects g path → isFairCycle g path = false) ∧
    (¬ crashBeforeOtherLinks g path →
      (isFairCycle g path = true ↔
        ¬ crashFilterRejects g path ∧ (∀ a, ¬ strongOutOfChain g path a) ∧
          (∀ a, ¬ weakOutOfChain g path a))) := by
  have h := isFairCycle_iff g path
  have hrej := crashRejected_iff g path
  constructor
  · intro hfilter
    cases hfair : isFairCycle g path with
    | false => rfl
    | true => exact absurd (hrej.mpr (Or.inl hfilter)) (h.mp hfair).1
  · intro hlater
    constructor
    · intro hfair
      obtain ⟨h1, h2, h3⟩ := h.mp hfair
      exact ⟨fun hf => h1 (hrej.mpr (Or.inl hf)), h2, h3⟩
    · rintro ⟨h1, h2, h3⟩
      refine h.mpr ⟨fun hr => ?_, h2, h3⟩
      rcases hrej.mp hr with hf | hl
      · exact h1 hf
      · exact hlater hl

theorem isFairCycle_iff_not_rejected_and_sets_empty_witness :
    crashFilterRejects crashGraph crashCycle ∧
    isFairCycle crashGraph crashCycle = false ∧
    ¬ crashBeforeOtherLinks crashGraph crashCycle ∧
    (isFairCycle crashGraph crashCycle = true ↔
      ¬ crashFilterRejects crashGraph crashCycle ∧
        (∀ a, ¬ strongOutOfChain crashGraph crashCycle a) ∧
        (∀ a, ¬ weakOutOfChain crashGraph crashCycle a)) :=
  have hp : participates crashGraph crashCycle 0 :=
    ⟨{ Node := 0, Name := "Init" }, rfl, Or.inr rfl⟩
  have hfilter : crashFilterRejects crashGraph crashCycle :=
    ⟨0, by decide,
      ⟨hp, { Node := 0, Name := "Init" }, { Node := 1, Name := "crash" }, rfl, by decide, rfl,
        rfl⟩,
      ⟨hp, { Node := 0, Name := "Init" }, { Node := 0, Name := "work" }, rfl, by decide,
        by decide⟩⟩
  ⟨hfilter,
    (isFairCycle_iff_not_rejected_and_sets_empty crashGraph crashCycle).1 hfilter,
    crashGraph_no_later_links,
    (isFairCycle_iff_not_rejected_and_sets_empty crashGraph crashCycle).2
      crashGraph_no_later_links⟩
/-! ## Liveness dispatchers -/

theorem livenessLoop_iff (predicateAt : Nat → Predicate)
    (ea ae : Predicate → Outcome (List Link × Bool)) :
    ∀ (invariants : List Invariant) (j0 : Nat) (r : List Link × Option InvariantPosition),
      livenessLoop 0 predicateAt ea ae j0 invariants = Outcome.ret r ↔
        ((r = ([], none) ∧ ∀ k invariant, invariants.get? k = some invariant →
          reportedLive predicateAt ea ae invariant (j0 + k)) ∨
        (∃ k invariant path, invariants.get? k = some invariant ∧
          r = (path, some (NewInvariantPosition 0 (j0 + k))) ∧
          reportedNotLive predicateAt ea ae invariant (j0 + k) path ∧
          ∀ k2 earlier, k2 < k → invariants.get? k2 = some earlier →
            reportedLive predicateAt ea ae earlier (j0 + k2))) := by
  intro invariants
  induction invariants with
  | nil =>
    intro j0 r
    simp only [livenessLoop, Outcome.ret.injEq]
    constructor
    · intro h
      exact Or.inl ⟨h.symm, by simp⟩
    · rintro (⟨h, _⟩ | ⟨k, inv, _, hk, _⟩)
      · exact h.symm
      · simp at hk
  | cons inv rest ih =>
    intro j0 r
    -- the head is live: the dispatcher goes on with the rest
    have live : reportedLive predicateAt ea ae inv j0 →
        (∀ path, ¬ reportedNotLive predicateAt ea ae inv j0 path) →
        (livenessLoop 0 predicateAt ea ae (j0 + 1) rest = Outcome.ret r ↔
          ((r = ([], none) ∧ ∀ k invariant, (inv :: rest).get? k = some invariant →
            reportedLive predicateAt ea ae invariant (j0 + k)) ∨
          (∃ k invariant path, (inv :: rest).get? k = some invariant ∧
            r = (path, some (NewInvariantPosition 0 (j0 + k))) ∧
            reportedNotLive predicateAt ea ae invariant (j0 + k) path ∧
            ∀ k2 earlier, k2 < k → (inv :: rest).get? k2 = some earlier →
              reportedLive predicateAt ea ae earlier (j0 + k2)))) := by
      intro hl hn
      rw [ih (j0 + 1) r]
      constructor
      · rintro (⟨h1, h2⟩ | ⟨k, inv2, path, h1, h2, h3, h4⟩)
        · refine Or.inl ⟨h1, fun k inv2 hk => ?_⟩
          cases k with
          | zero =>
            simp at hk
            subst hk
            exact hl
          | succ k =>
            have := h2 k inv2 (by simpa using hk)
            rwa [show j0 + 1 + k = j0 + (k + 1) by omega] at this
        · refine Or.inr ⟨k + 1, inv2, path, by simpa using h1, ?_, ?_, fun k2 e hlt hk2 => ?_⟩
          · rw [show j0 + (k + 1) = j0 + 1 + k by omega]
            exact h2
          · rw [show j0 + (k + 1) = j0 + 1 + k by omega]
            exact h3
          · cases k2 with
            | zero =>
              simp at hk2
              subst hk2
              exact hl
            | succ k2 =>
              have := h4 k2 e (by omega) (by simpa using hk2)
              rwa [show j0 + 1 + k2 = j0 + (k2 + 1) by omega] at this
      · rintro (⟨h1, h2⟩ | ⟨k, inv2, path, h1, h2, h3, h4⟩)
        · refine Or.inl ⟨h1, fun k inv2 hk => ?_⟩
          have := h2 (k + 1) inv2 (by simpa using hk)
          rwa [show j0 + (k + 1) = j0 + 1 + k by omega] at this
        · cases k with
          | zero =>
            simp at h1
            subst h1
            exact absurd h3 (hn path)
          | succ k =>
            refine Or.inr ⟨k, inv2, path, by simpa using h1, ?_, ?_, fun k2 e hlt hk2 => ?_⟩
            · rw [show j0 + 1 + k = j0 + (k + 1) by omega]
              exact h2
            · rw [show j0 + 1 + k = j0 + (k + 1) by omega]
              exact h3
            · have := h4 (k2 + 1) e (by omega) (by simpa using hk2)
              rwa [show j0 + (k2 + 1) = j0 + 1 + k2 by omega] at this
    -- the head is not live: the result is determined by the head
    have dead : ¬ reportedLive predicateAt ea ae inv j0 →
        (((r = ([], none) ∧ ∀ k invariant, (inv :: rest).get? k = some invariant →
            reportedLive predicateAt ea ae invariant (j0 + k)) ∨
          (∃ k invariant path, (inv :: rest).get? k = some invariant ∧
            r = (path, some (NewInvariantPosition 0 (j0 + k))) ∧
            reportedNotLive predicateAt ea ae invariant (j0 + k) path ∧
            ∀ k2 earlier, k2 < k → (inv :: rest).get? k2 = some earlier →
              reportedLive predicateAt ea ae earlier (j0 + k2))) ↔
          ∃ path, r = (path, some (NewInvariantPosition 0 j0)) ∧
            reportedNotLive predicateAt ea ae inv j0 path) := by
      intro hnl
      constructor
      · rintro (⟨_, h2⟩ | ⟨k, inv2, path, h1, h2, h3, h4⟩)
        · exact absurd (h2 0 inv (by simp)) hnl
        · cases k with
          | zero =>
            simp at h1
            subst h1
            exact ⟨path, h2, h3⟩
          | succ k => exact absurd (h4 0 inv (by omega) (by simp)) hnl
      · rintro ⟨path, h1, h2⟩
        exact Or.inr ⟨0, inv, path, by simp, h1, h2, fun k2 _ hlt _ => absurd hlt (by omega)⟩
    have entryCase : ∀ (entry : Predicate → Outcome (List Link × Bool)) (b1 b2 : Bool),
        classifyTemporal inv = Outcome.ret (b1, b2) →
        ((b1 = true ∧ entry = ea) ∨ (b1 = false ∧ b2 = true ∧ entry = ae)) →
        ((match entry (predicateAt j0) with
          | Outcome.ret (failurePath, isLive) =>
            if !isLive then
              Outcome.ret (failurePath, some (NewInvariantPosition 0 j0))
            else
              livenessLoop 0 predicateAt ea ae (j0 + 1) rest
          | Outcome.fatal msg => Outcome.fatal msg
          | Outcome.fuel => Outcome.fuel) = Outcome.ret r ↔
          ((r = ([], none) ∧ ∀ k invariant, (inv :: rest).get? k = some invariant →
            reportedLive predicateAt ea ae invariant (j0 + k)) ∨
          (∃ k invariant path, (inv :: rest).get? k = some invariant ∧
            r = (path, some (NewInvariantPosition 0 (j0 + k))) ∧
            reportedNotLive predicateAt ea ae invariant (j0 + k) path ∧
            ∀ k2 earlier, k2 < k → (inv :: rest).get? k2 = some earlier →
              reportedLive predicateAt ea ae earlier (j0 + k2)))) := by
      intro entry b1 b2 hc hentry
      have hL : reportedLive predicateAt ea ae inv j0 ↔
          ∃ path, entry (predicateAt j0) = Outcome.ret (path, true) := by
        unfold reportedLive
        rw [hc]
        constructor
        · rintro ⟨e1, e2, he, h1, h2⟩
          cases he
          rcases hentry with ⟨hb, rfl⟩ | ⟨hb1, hb2, rfl⟩
          · exact h1 hb
          · exact h2 hb1 hb2
        · intro h
          refine ⟨b1, b2, rfl, fun hb => ?_, fun hb1 hb2 => ?_⟩
          · rcases hentry with ⟨_, rfl⟩ | ⟨hb1, _, _⟩
            · exact h
            · rw [hb] at hb1
              cases hb1
          · rcases hentry with ⟨hb, _⟩ | ⟨_, _, rfl⟩
            · rw [hb] at hb1
              cases hb1
            · exact h
      have hN : ∀ path, reportedNotLive predicateAt ea ae inv j0 path ↔
          entry (predicateAt j0) = Outcome.ret (path, false) := by
        intro path
        unfold reportedNotLive
        rw [hc]
        constructor
        · rintro ⟨e1, e2, he, h⟩
          cases he
          rcases h with ⟨hb, h⟩ | ⟨hb1, hb2, h⟩
          · rcases hentry with ⟨_, rfl⟩ | ⟨hb1, _, _⟩
            · exact h
            · rw [hb] at hb1
              cases hb1
          · rcases hentry with ⟨hb, _⟩ | ⟨_, _, rfl⟩
            · rw [hb] at hb1
              cases hb1
            · exact h
        · intro h
          refine ⟨b1, b2, rfl, ?_⟩
          rcases hentry with ⟨hb, rfl⟩ | ⟨hb1, hb2, rfl⟩
          · exact Or.inl ⟨hb, h⟩
          · exact Or.inr ⟨hb1, hb2, h⟩
      cases he : entry (predicateAt j0) with
      | ret v =>
        obtain ⟨p, isLive⟩ := v
        cases isLive with
        | true =>
          simp only [Bool.not_true, Bool.false_eq_true, if_false]
          exact live (hL.mpr ⟨p, he⟩) (fun path hp => by
            rw [hN path, he] at hp
            cases hp)
        | false =>
          simp only [Bool.not_false, if_true, Outcome.ret.injEq]
          rw [dead (fun hl => by
            obtain ⟨p2, hp2⟩ := hL.mp hl
            rw [he] at hp2
            cases hp2)]
          constructor
          · intro h
            exact ⟨p, h.symm, (hN p).mpr he⟩
          · rintro ⟨p2, h1, h2⟩
            rw [hN p2, he] at h2
            cases h2
            exact h1.symm
      | fatal msg =>
        simp only [reduceCtorEq, false_iff]
        rw [dead (fun hl => by
          obtain ⟨p2, hp2⟩ := hL.mp hl
          rw [he] at hp2
          cases hp2)]
        rintro ⟨p2, _, h2⟩
        rw [hN p2, he] at h2
        cases h2
      | fuel =>
        simp only [reduceCtorEq, false_iff]
        rw [dead (fun hl => by
          obtain ⟨p2, hp2⟩ := hL.mp hl
          rw [he] at hp2
          cases hp2)]
        rintro ⟨p2, _, h2⟩
        rw [hN p2, he] at h2
        cases h2
    rw [livenessLoop]
    cases hc : classifyTemporal inv with
    | ret v =>
      obtain ⟨b1, b2⟩ := v
      cases b1 with
      | true =>
        simp only [if_true]
        exact entryCase ea true b2 hc (Or.inl ⟨rfl, rfl⟩)
      | false =>
        cases b2 with
        | true =>
          simp only [Bool.false_eq_true, if_false, if_true]
          exact entryCase ae false true hc (Or.inr ⟨rfl, rfl, rfl⟩)
        | false =>
          simp only [Bool.false_eq_true, if_false]
          refine live ⟨false, false, hc, ⟨fun h => absurd h (by simp), fun _ h => absurd h (by simp)⟩⟩ ?_
          rintro path ⟨e1, e2, he, h⟩
          rw [hc] at he
          cases he
          rcases h with ⟨h, _⟩ | ⟨_, h, _⟩ <;> cases h
    | fatal msg =>
      simp only [reduceCtorEq, false_iff]
      rw [dead (by
        rintro ⟨e1, e2, he, _⟩
        rw [hc] at he
        cases he)]
      rintro ⟨p2, _, e1, e2, he, _⟩
      rw [hc] at he
      cases he
    | fuel =>
      simp only [reduceCtorEq, false_iff]
      rw [dead (by
        rintro ⟨e1, e2, he, _⟩
        rw [hc] at he
        cases he)]
      rintro ⟨p2, _, e1, e2, he, _⟩
      rw [hc] at he
      cases he

/-- C9 (as stated, refuted): on a graph whose only node has no outbound link and
whose file declares one always-eventually invariant, `CheckFastLiveness` returns
neither `(nil, nil)` nor a position, whatever the fuel: the invariant is
classified always-eventually, and its entry point panics on the deadlock instead
of reporting it live or not live. -/
theorem CheckFastLiveness_does_not_return_on_deadlock :
    (¬ ∃ fuel r, CheckFastLiveness fuel deadlockGraph id [0] = Outcome.ret r) ∧
    classifyTemporal alwaysEventuallyInvariant = Outcome.ret (false, true) ∧
    (¬ ∃ fuel r, AlwaysEventuallyFast fuel deadlockGraph id [0] (fastPredicate deadlockGraph 0 0)
      = Outcome.ret r) := by
  refine ⟨?_, by decide, ?_⟩
  · rintro ⟨fuel, r, h⟩
    have e : CheckFastLiveness fuel deadlockGraph id [0] =
        Outcome.fatal "Deadlock detected, at node: " := rfl
    rw [e] at h
    cases h
  · rintro ⟨fuel, r, h⟩
    have e : AlwaysEventuallyFast fuel deadlockGraph id [0] (fastPredicate deadlockGraph 0 0) =
        Outcome.fatal "Deadlock detected, at node: " := rfl
    rw [e] at h
    cases h

/-- C9 (amended): with one file, `CheckStrictLiveness` returns a result exactly
when that result is the one the specification describes for the Final entry
points, and `CheckFastLiveness` exactly when it is the one described for the Fast
entry points: `(nil, nil)` when every invariant is classified and, where
classified eventually-always or always-eventually, reported live; otherwise the
position `(0, j)` of the least `j` whose invariant is reported not live, with the
path its entry point returned, the invariants before `j` being reported live and
those after `j` not being consulted. -/
theorem liveness_dispatchers_return_first_failure :
    (∀ depth g node file r, (g node).Process.Files = [file] →
      (CheckStrictLiveness depth g node = Outcome.ret r ↔
        firstLivenessFailure (strictPredicate g 0) (EventuallyAlwaysFinal depth g node)
          (AlwaysEventuallyFinal depth g node) file.Invariants r)) ∧
    (∀ fuel g iteration node others file r, (g node).Process.Files = [file] →
      (CheckFastLiveness fuel g iteration (node :: others) = Outcome.ret r ↔
        firstLivenessFailure (fastPredicate g 0)
          (EventuallyAlwaysFast fuel g iteration (node :: others))
          (AlwaysEventuallyFast fuel g iteration (node :: others)) file.Invariants r)) := by
  constructor
  · intro depth g node file r hfiles
    unfold CheckStrictLiveness firstLivenessFailure
    rw [hfiles]
    simp only [List.length_singleton, gt_iff_lt, lt_self_iff_false, if_false]
    rw [livenessLoop_iff]
    simp only [Nat.zero_add]
  · intro fuel g iteration node others file r hfiles
    unfold CheckFastLiveness firstLivenessFailure
    simp only [hfiles, List.length_singleton, gt_iff_lt, lt_self_iff_false, if_false]
    rw [livenessLoop_iff]
    simp only [Nat.zero_add]

theorem liveness_dispatchers_return_first_failure_witness :
    firstLivenessFailure (strictPredicate pingPongGraph 0) (EventuallyAlwaysFinal 3 pingPongGraph 0)
      (AlwaysEventuallyFinal 3 pingPongGraph 0)
      [alwaysEventuallyInvariant, eventuallyAlwaysInvariant]
      (pingPongPath, some (NewInvariantPosition 0 1)) :=
  (liveness_dispatchers_return_first_failure.1 3 pingPongGraph 0
    { Invariants := [alwaysEventuallyInvariant, eventuallyAlwaysInvariant] }
    (pingPongPath, some (NewInvariantPosition 0 1)) rfl).mp (by decide)

/-! ## Counterexamples of the Final strategy -/

theorem searchState_root (g : Graph) (root : NodeId) :
    searchState g root root [] [InitNodeToLink g root] :=
  ⟨[], InitNodeToLink g root, rfl, rfl, List.chain'_singleton _,
    ⟨InitNodeToLink g root, rfl, rfl, rfl⟩, by simp⟩

theorem searchState_step {g : Graph} {root node : NodeId} {visited : List NodeId}
    {path : List Link} (h : searchState g root node visited path) {link : Link}
    (hlink : link ∈ (g node).Outbound) :
    searchState g root link.Node (setInsert visited node) (path ++ [link]) := by
  obtain ⟨stem, last, rfl, hlast, hchain, ⟨first, hfirst, hinit⟩, hvis⟩ := h
  refine ⟨stem ++ [last], link, rfl, rfl, ?_, ⟨first, ?_, hinit⟩, ?_⟩
  · rw [List.chain'_append]
    refine ⟨hchain, List.chain'_singleton _, ?_⟩
    intro x hx y hy
    rw [List.getLast?_concat] at hx
    simp only [Option.mem_def, Option.some.injEq] at hx
    simp only [List.head?_cons, Option.mem_def, Option.some.injEq] at hy
    subst hx hy
    unfold followsOutbound
    rw [hlast]
    exact hlink
  · rw [List.head?_append_of_ne_nil _ (by simp)]
    exact hfirst
  · intro v hv
    rw [mem_setInsert] at hv
    rcases hv with hv | rfl
    · obtain ⟨l, hl, hlv⟩ := hvis v hv
      exact ⟨l, by simp [hl], hlv⟩
    · exact ⟨last, by simp, hlast⟩

theorem searchState_cycle {g : Graph} {root node : NodeId} {visited : List NodeId}
    {path : List Link} (h : searchState g root node visited path) (hnode : node ∈ visited) :
    finalCounterexample g root path := by
  obtain ⟨stem, last, rfl, hlast, hchain, ⟨first, hfirst, hinit⟩, hvis⟩ := h
  obtain ⟨l, hl, hlv⟩ := hvis node hnode
  have hne : stem ≠ [] := List.ne_nil_of_mem hl
  obtain ⟨prev, hprev⟩ : ∃ prev, stem.getLast? = some prev := by
    cases hs : stem.getLast? with
    | none => exact absurd (List.getLast?_eq_none_iff.mp hs) hne
    | some prev => exact ⟨prev, rfl⟩
  rw [List.chain'_append] at hchain
  refine ⟨stem, prev, last, rfl, ⟨first, ?_, hinit⟩, hprev, hchain.1, Or.inl ⟨?_, l, hl, ?_⟩⟩
  · rwa [List.head?_append_of_ne_nil _ hne] at hfirst
  · exact hchain.2.2 prev hprev last rfl
  · rw [hlv, hlast]

theorem searchState_stutter {g : Graph} {root node : NodeId} {visited : List NodeId}
    {path : List Link} (h : searchState g root node visited path)
    (hy : stutteringYield g node) :
    finalCounterexample g root (path ++ [stutterLink node]) := by
  obtain ⟨stem, last, rfl, hlast, hchain, hfirst, _⟩ := h
  refine ⟨stem ++ [last], last, stutterLink node, rfl, hfirst, by simp, hchain, Or.inr ⟨rfl, ?_, ?_⟩⟩
  · rw [hlast]
    rfl
  · rw [hlast]
    exact hy

theorem stutteringYield_of_flags {g : Graph} {node : NodeId}
    (h : (g node).Process.Name = "yield" ∧ (!hasFairLink (g node).Outbound) = true ∧
      (!hasPendingAction (g node).Outbound) = true) :
    stutteringYield g node := by
  obtain ⟨h1, h2, h3⟩ := h
  refine ⟨h1, fun l hl => ?_, fun l hl hp => ?_⟩
  · simp only [hasFairLink, Bool.not_eq_true', List.any_eq_false, decide_eq_true_eq, not_or] at h2
    exact ⟨(h2 l hl).2, (h2 l hl).1⟩
  · simp only [hasPendingAction, Bool.not_eq_true', List.any_eq_false] at h3
    have := h3 l hl
    rw [List.isPrefixOf_iff_prefix.mpr hp] at this
    exact this rfl

theorem traverseOutbound_counterexample (g : Graph) (root node : NodeId)
    (explore : NodeId → List NodeId → List Link → List NodeId →
      Outcome (List Link × Bool × List NodeId))
    (visited : List NodeId) (path : List Link)
    (hexplore : ∀ link, link ∈ (g node).Outbound → ∀ gv p gv2,
      explore link.Node visited (path ++ [link]) gv = Outcome.ret (p, false, gv2) →
        finalCounterexample g root p) :
    ∀ (links : List Link), (∀ l ∈ links, l ∈ (g node).Outbound) → ∀ gv p gv2,
      traverseOutbound explore visited path links gv = Outcome.ret (p, false, gv2) →
        finalCounterexample g root p := by
  intro links
  induction links with
  | nil =>
    intro _ gv p gv2 h
    simp [traverseOutbound] at h
  | cons link rest ih =>
    intro hsub gv p gv2 h
    rw [traverseOutbound] at h
    cases he : explore link.Node visited (path ++ [link]) gv with
    | ret v =>
      obtain ⟨fp, success, gv3⟩ := v
      rw [he] at h
      cases success with
      | true =>
        simp only [Bool.not_true, Bool.false_eq_true, if_false] at h
        exact ih (fun l hl => hsub l (List.mem_cons_of_mem _ hl)) gv3 p gv2 h
      | false =>
        simp only [Bool.not_false, if_true, Outcome.ret.injEq, Prod.mk.injEq] at h
        obtain ⟨rfl, _, rfl⟩ := h
        exact hexplore link (hsub link (List.mem_cons_self _ _)) gv fp gv3 he
    | fatal msg =>
      rw [he] at h
      cases h
    | fuel =>
      rw [he] at h
      cases h

theorem cycleFinderHelper_counterexample (g : Graph) (callback : CycleCallback) (root : NodeId) :
    ∀ (depth : Nat) (node : NodeId) (visited : List NodeId) (path : List Link)
      (gv : List NodeId) (p : List Link) (gv2 : List NodeId),
      searchState g root node visited path →
      cycleFinderHelper g callback depth node visited path gv = Outcome.ret (p, false, gv2) →
      finalCounterexample g root p := by
  intro depth
  induction depth with
  | zero =>
    intro node visited path gv p gv2 _ h
    simp [cycleFinderHelper] at h
  | succ depth ih =>
    intro node visited path gv p gv2 hst h
    rw [cycleFinderHelper] at h
    by_cases hv : node ∈ visited
    · rw [if_pos hv] at h
      cases hc : callback path with
      | ret live =>
        rw [hc] at h
        simp only [Outcome.ret.injEq, Prod.mk.injEq] at h
        obtain ⟨rfl, _, _⟩ := h
        exact searchState_cycle hst hv
      | fatal msg =>
        rw [hc] at h
        cases h
      | fuel =>
        rw [hc] at h
        cases h
    · rw [if_neg hv] at h
      by_cases hg : node ∈ gv
      · rw [if_pos hg] at h
        simp at h
      · rw [if_neg hg] at h
        have hdescend : ∀ p gv2,
            traverseOutbound (cycleFinderHelper g callback depth) (setInsert visited node) path
              (g node).Outbound (setInsert gv node) = Outcome.ret (p, false, gv2) →
            finalCounterexample g root p :=
          fun p gv2 => traverseOutbound_counterexample g root node _ _ path
            (fun link hlink gv3 p3 gv4 he =>
              ih link.Node _ _ gv3 p3 gv4 (searchState_step hst hlink) he)
            (g node).Outbound (fun _ hl => hl) _ p gv2
        dsimp only at h
        split at h
        · rename_i hy
          cases hc : callback (path ++ [stutterLink node]) with
          | ret isLive =>
            rw [hc] at h
            cases isLive with
            | true =>
              simp only [Bool.not_true, Bool.false_eq_true, if_false] at h
              exact hdescend p gv2 h
            | false =>
              simp only [Bool.not_false, if_true, Outcome.ret.injEq, Prod.mk.injEq] at h
              obtain ⟨rfl, _, _⟩ := h
              exact searchState_stutter hst (stutteringYield_of_flags hy)
          | fatal msg =>
            rw [hc] at h
            cases h
          | fuel =>
            rw [hc] at h
            cases h
        · exact hdescend p gv2 h

/-- C7: whenever `AlwaysEventuallyFinal` or `EventuallyAlwaysFinal` returns a
violation path, the path has the shape `finalCounterexample`: it starts with a
link named `Init` at the root, every later link other than the final one is an
element of the `Outbound` list of the node of the link before it, and the final
link either is such an outbound link and targets a node that occurs earlier on
the path, or is the link named `stutter` at the node of the link before it, a
node named `yield` without weak- or strong-fair outbound link and without
outbound link whose name starts with `thread-`. -/
theorem final_violation_path_shape (depth : Nat) (g : Graph) (root : NodeId)
    (predicate : Predicate) (path : List Link) :
    (AlwaysEventuallyFinal depth g root predicate = Outcome.ret (path, false) →
      finalCounterexample g root path) ∧
    (EventuallyAlwaysFinal depth g root predicate = Outcome.ret (path, false) →
      finalCounterexample g root path) := by
  have key : ∀ callback : CycleCallback,
      CycleFinderFinal depth g root callback = Outcome.ret (path, false) →
      finalCounterexample g root path := by
    intro callback h
    unfold CycleFinderFinal at h
    cases hc : cycleFinderHelper g callback depth root [] [InitNodeToLink g root] [] with
    | ret v =>
      obtain ⟨p, live, gv⟩ := v
      rw [hc] at h
      simp only [Outcome.ret.injEq, Prod.mk.injEq] at h
      obtain ⟨rfl, rfl⟩ := h
      exact cycleFinderHelper_counterexample g callback root depth root [] _ [] p gv
        (searchState_root g root) hc
    | fatal msg =>
      rw [hc] at h
      cases h
    | fuel =>
      rw [hc] at h
      cases h
  exact ⟨key _, key _⟩

theorem final_violation_path_shape_witness :
    finalCounterexample crashGraph 0 stutterPath ∧
    finalCounterexample pingPongGraph 0 pingPongPath :=
  ⟨(final_violation_path_shape 2 crashGraph 0 (strictPredicate crashGraph 0 0) stutterPath).1
      (by decide),
    (final_violation_path_shape 3 pingPongGraph 0 (strictPredicate pingPongGraph 0 1)
      pingPongPath).2 (by decide)⟩

/-! ## Queue loops of the Fast strategy -/

theorem foldl_inboundStep (passOver : Link → Bool) (visited : List NodeId) :
    ∀ (links : List Link) (state : List NodeId × List NodeId),
      (∀ x, x ∈ (links.foldl (inboundStep passOver visited) state).2 ↔
        x ∈ state.2 ∨ ∃ l ∈ links, l.Node = x ∧ x ∉ visited ∧ passOver l = false) ∧
      (∀ x, x ∈ (links.foldl (inboundStep passOver visited) state).1 ↔
        x ∈ state.1 ∧ ¬ ∃ l ∈ links, l.Node = x ∧ x ∉ visited ∧ passOver l = false) ∧
      (links.foldl (inboundStep passOver visited) state).2.length ≤
        state.2.length + links.length := by
  intro links
  induction links with
  | nil =>
    intro state
    simp
  | cons link rest ih =>
    intro state
    obtain ⟨h1, h2, h3⟩ := ih (inboundStep passOver visited state link)
    simp only [List.foldl_cons, List.mem_cons, exists_eq_or_imp, List.length_cons]
    by_cases hskip : link.Node ∈ visited ∨ passOver link = true
    · have e : inboundStep passOver visited state link = state := by
        unfold inboundStep
        rw [if_pos hskip]
      rw [e] at h1 h2 h3 ⊢
      have hno : ∀ x, ¬ (link.Node = x ∧ x ∉ visited ∧ passOver link = false) := by
        rintro x ⟨rfl, hx, hp⟩
        rcases hskip with h | h
        · exact hx h
        · rw [hp] at h
          cases h
      refine ⟨fun x => ?_, fun x => ?_, by omega⟩
      · rw [h1 x]
        simp [hno x]
      · rw [h2 x]
        simp [hno x]
    · have e : inboundStep passOver visited state link =
          (setDelete state.1 link.Node, state.2 ++ [link.Node]) := by
        unfold inboundStep
        rw [if_neg hskip]
      rw [e] at h1 h2 h3 ⊢
      have hyes : link.Node ∉ visited ∧ passOver link = false := by
        constructor
        · exact fun h => hskip (Or.inl h)
        · cases hp : passOver link
          · rfl
          · exact absurd (Or.inr hp) hskip
      refine ⟨fun x => ?_, fun x => ?_, ?_⟩
      · rw [h1 x]
        simp only [List.mem_append, List.mem_singleton]
        constructor
        · rintro ((h | rfl) | h)
          · exact Or.inl h
          · exact Or.inr (Or.inl ⟨rfl, hyes⟩)
          · exact Or.inr (Or.inr h)
        · rintro (h | ⟨rfl, _⟩ | h)
          · exact Or.inl (Or.inl h)
          · exact Or.inl (Or.inr rfl)
          · exact Or.inr h
      · rw [h2 x]
        simp only [mem_setDelete]
        constructor
        · rintro ⟨⟨h, hne⟩, hn⟩
          refine ⟨h, ?_⟩
          rintro (⟨rfl, _⟩ | h5)
          · exact hne rfl
          · exact hn h5
        · rintro ⟨h, hn⟩
          refine ⟨⟨h, ?_⟩, fun h5 => hn (Or.inr h5)⟩
          rintro rfl
          exact hn (Or.inl ⟨rfl, hyes⟩)
      · simp only [List.length_append, List.length_singleton] at h3
        omega

theorem reverseBfs_done (g : Graph) (passOver : NodeId → Link → Bool)
    (visited marked : List NodeId)
    (hclosed : ∀ y ∈ visited, ∀ x, followedInbound g passOver y x → x ∈ visited ∨ x ∈ [])
    (hdisj : ∀ x, x ∈ [] ∨ x ∈ visited → x ∉ marked) (x : NodeId) :
    x ∈ marked ↔ x ∈ marked ∧
      ¬ ∃ s, (s ∈ [] ∨ s ∈ visited) ∧
        Relation.ReflTransGen (followedInbound g passOver) s x := by
  constructor
  · intro hx
    refine ⟨hx, ?_⟩
    rintro ⟨s, hs, hreach⟩
    have hsv : s ∈ visited := by
      rcases hs with h | h
      · cases h
      · exact h
    have : ∀ a b, Relation.ReflTransGen (followedInbound g passOver) a b →
        a ∈ visited → b ∈ visited := by
      intro a b hab
      induction hab with
      | refl => exact id
      | tail _ hstep ihab =>
        intro ha
        rcases hclosed _ (ihab ha) _ hstep with h | h
        · exact h
        · cases h
    exact hdisj x (Or.inr (this s x hreach hsv)) hx
  · exact fun h => h.1

theorem reverseBfs_spec (g : Graph) (passOver : NodeId → Link → Bool) :
    ∀ (fuel : Nat) (queue visited marked result : List NodeId),
      reverseBfs g passOver fuel queue visited marked = Outcome.ret result →
      (∀ y ∈ visited, ∀ x, followedInbound g passOver y x → x ∈ visited ∨ x ∈ queue) →
      (∀ x, x ∈ queue ∨ x ∈ visited → x ∉ marked) →
      ∀ x, x ∈ result ↔ x ∈ marked ∧
        ¬ ∃ s, (s ∈ queue ∨ s ∈ visited) ∧
          Relation.ReflTransGen (followedInbound g passOver) s x := by
  intro fuel
  induction fuel with
  | zero =>
    intro queue visited marked result h hclosed hdisj x
    cases queue with
    | nil =>
      simp only [reverseBfs, Outcome.ret.injEq] at h
      subst h
      exact reverseBfs_done g passOver visited marked hclosed hdisj x
    | cons node rest =>
      simp [reverseBfs] at h
  | succ fuel ih =>
    intro queue visited marked result h hclosed hdisj x
    cases queue with
    | nil =>
      simp only [reverseBfs, Outcome.ret.injEq] at h
      subst h
      exact reverseBfs_done g passOver visited marked hclosed hdisj x
    | cons node rest =>
      rw [reverseBfs] at h
      by_cases hv : node ∈ visited
      · rw [if_pos hv] at h
        rw [ih rest visited marked result h
          (fun y hy z hz => by
            rcases hclosed y hy z hz with h1 | h1
            · exact Or.inl h1
            · rcases List.mem_cons.mp h1 with rfl | h2
              · exact Or.inl hv
              · exact Or.inr h2)
          (fun z hz => hdisj z (by
            rcases hz with h1 | h1
            · exact Or.inl (List.mem_cons_of_mem _ h1)
            · exact Or.inr h1)) x]
        constructor
        · rintro ⟨h1, h2⟩
          refine ⟨h1, ?_⟩
          rintro ⟨s, hs, hreach⟩
          refine h2 ⟨s, ?_, hreach⟩
          rcases hs with h3 | h3
          · rcases List.mem_cons.mp h3 with rfl | h4
            · exact Or.inr hv
            · exact Or.inl h4
          · exact Or.inr h3
        · rintro ⟨h1, h2⟩
          refine ⟨h1, ?_⟩
          rintro ⟨s, hs, hreach⟩
          refine h2 ⟨s, ?_, hreach⟩
          rcases hs with h3 | h3
          · exact Or.inl (List.mem_cons_of_mem _ h3)
          · exact Or.inr h3
      · rw [if_neg hv] at h
        dsimp only at h
        obtain ⟨f1, f2, _⟩ := foldl_inboundStep (passOver node) (setInsert visited node)
          (g node).Inbound (marked, rest)
        simp only at f1 f2
        have hnew : ∀ z, (∃ l ∈ (g node).Inbound, l.Node = z ∧ z ∉ setInsert visited node ∧
            passOver node l = false) → followedInbound g passOver node z := by
          rintro z ⟨l, hl, hz, _, hp⟩
          exact ⟨l, hl, hz, hp⟩
        rw [ih _ _ _ result h
          (fun y hy z hz => by
            rw [mem_setInsert] at hy
            rw [mem_setInsert, f1 z]
            rcases hy with hy | rfl
            · rcases hclosed y hy z hz with h1 | h1
              · exact Or.inl (Or.inl h1)
              · rcases List.mem_cons.mp h1 with rfl | h2
                · exact Or.inl (Or.inr rfl)
                · exact Or.inr (Or.inl h2)
            · obtain ⟨l, hl, hz2, hp⟩ := hz
              by_cases hzv : z ∈ setInsert visited y
              · rw [mem_setInsert] at hzv
                exact Or.inl hzv
              · exact Or.inr (Or.inr ⟨l, hl, hz2, hzv, hp⟩))
          (fun z hz => by
            rw [f2 z]
            rintro ⟨hm, hn⟩
            rcases hz with h1 | h1
            · rw [f1 z] at h1
              rcases h1 with h1 | h1
              · exact hdisj z (Or.inl (List.mem_cons_of_mem _ h1)) hm
              · exact hn h1
            · rw [mem_setInsert] at h1
              rcases h1 with h1 | rfl
              · exact hdisj z (Or.inr h1) hm
              · exact hdisj z (Or.inl (List.mem_cons_self _ _)) hm) x]
        rw [f2 x]
        constructor
        · rintro ⟨⟨h1, _⟩, h2⟩
          refine ⟨h1, ?_⟩
          rintro ⟨s, hs, hreach⟩
          refine h2 ⟨s, ?_, hreach⟩
          rw [f1 s, mem_setInsert]
          rcases hs with h3 | h3
          · rcases List.mem_cons.mp h3 with rfl | h4
            · exact Or.inr (Or.inr rfl)
            · exact Or.inl (Or.inl h4)
          · exact Or.inr (Or.inl h3)
        · rintro ⟨h1, h2⟩
          refine ⟨⟨h1, fun h3 => h2 ⟨node, Or.inl (List.mem_cons_self _ _),
            Relation.ReflTransGen.single (hnew x h3)⟩⟩, ?_⟩
          rintro ⟨s, hs, hreach⟩
          rw [f1 s] at hs
          rcases hs with (h3 | h3) | h3
          · exact h2 ⟨s, Or.inl (List.mem_cons_of_mem _ h3), hreach⟩
          · exact h2 ⟨node, Or.inl (List.mem_cons_self _ _),
              Relation.ReflTransGen.head (hnew s h3) hreach⟩
          · rcases (mem_setInsert _ _ _).mp h3 with h4 | rfl
            · exact h2 ⟨s, Or.inr h4, hreach⟩
            · exact h2 ⟨s, Or.inl (List.mem_cons_self _ _), hreach⟩

theorem pendingInbound_mono (g : Graph) (visited : List NodeId) (node : NodeId) :
    ∀ domain : List NodeId,
      pendingInbound g domain (setInsert visited node) ≤ pendingInbound g domain visited := by
  intro domain
  induction domain with
  | nil => simp [pendingInbound]
  | cons a rest ih =>
    unfold pendingInbound at ih ⊢
    by_cases h1 : a ∈ visited
    · have h2 : a ∈ setInsert visited node := (mem_setInsert _ _ _).mpr (Or.inl h1)
      simpa [List.filter_cons, h1, h2] using ih
    · by_cases h2 : a ∈ setInsert visited node
      · simp only [List.filter_cons, h1, h2, not_true_eq_false, decide_False, Bool.false_eq_true,
          if_false, not_false_eq_true, decide_True, if_true, List.map_cons, List.sum_cons]
        omega
      · simp only [List.filter_cons, h1, h2, not_false_eq_true, decide_True, if_true,
          List.map_cons, List.sum_cons]
        omega

theorem pendingInbound_insert (g : Graph) (visited : List NodeId) (node : NodeId)
    (hv : node ∉ visited) :
    ∀ domain : List NodeId, node ∈ domain →
      pendingInbound g domain (setInsert visited node) + (g node).Inbound.length ≤
        pendingInbound g domain visited := by
  intro domain
  induction domain with
  | nil =>
    intro h
    cases h
  | cons a rest ih =>
    intro h
    by_cases ha : a = node
    · subst ha
      have h2 : a ∈ setInsert visited a := (mem_setInsert _ _ _).mpr (Or.inr rfl)
      have := pendingInbound_mono g visited a rest
      unfold pendingInbound at this ⊢
      simp only [List.filter_cons, hv, h2, not_true_eq_false, decide_False, Bool.false_eq_true,
        if_false, not_false_eq_true, decide_True, if_true, List.map_cons, List.sum_cons]
      omega
    · have hin : node ∈ rest := by
        rcases List.mem_cons.mp h with h3 | h3
        · exact absurd h3.symm ha
        · exact h3
      have := ih hin
      unfold pendingInbound at this ⊢
      by_cases h1 : a ∈ visited
      · have h2 : a ∈ setInsert visited node := (mem_setInsert _ _ _).mpr (Or.inl h1)
        simpa [List.filter_cons, h1, h2] using this
      · have h2 : a ∉ setInsert visited node := by
          rw [mem_setInsert]
          rintro (h3 | h3)
          · exact h1 h3
          · exact ha h3
        simp only [List.filter_cons, h1, h2, not_false_eq_true, decide_True, if_true,
          List.map_cons, List.sum_cons]
        omega

theorem reverseBfs_returns (g : Graph) (passOver : NodeId → Link → Bool)
    (domain : List NodeId)
    (hclosed : ∀ n ∈ domain, ∀ l ∈ (g n).Inbound, l.Node ∈ domain) :
    ∀ (fuel : Nat) (queue visited marked : List NodeId),
      (∀ x ∈ queue, x ∈ domain) →
      queue.length + pendingInbound g domain visited ≤ fuel →
      ∃ result, reverseBfs g passOver fuel queue visited marked = Outcome.ret result := by
  intro fuel
  induction fuel with
  | zero =>
    intro queue visited marked _ hlen
    cases queue with
    | nil => exact ⟨marked, by simp [reverseBfs]⟩
    | cons node rest =>
      simp only [List.length_cons] at hlen
      omega
  | succ fuel ih =>
    intro queue visited marked hq hlen
    cases queue with
    | nil => exact ⟨marked, by simp [reverseBfs]⟩
    | cons node rest =>
      rw [reverseBfs]
      simp only [List.length_cons] at hlen
      by_cases hv : node ∈ visited
      · rw [if_pos hv]
        exact ih rest visited marked (fun x hx => hq x (List.mem_cons_of_mem _ hx)) (by omega)
      · rw [if_neg hv]
        dsimp only
        obtain ⟨f1, _, f3⟩ := foldl_inboundStep (passOver node) (setInsert visited node)
          (g node).Inbound (marked, rest)
        simp only at f1 f3
        have hnode : node ∈ domain := hq node (List.mem_cons_self _ _)
        have := pendingInbound_insert g visited node hv domain hnode
        refine ih _ _ _ (fun x hx => ?_) (by omega)
        rw [f1 x] at hx
        rcases hx with hx | ⟨l, hl, rfl, _⟩
        · exact hq x (List.mem_cons_of_mem _ hx)
        · exact hclosed node hnode l hl

theorem pendingInbound_nil_le (g : Graph) (domain : List NodeId) :
    pendingInbound g domain [] = (domain.map (fun a => (g a).Inbound.length)).sum := by
  unfold pendingInbound
  simp

theorem alwaysEventuallySeed_spec (g : Graph) (predicate : Predicate) :
    ∀ (nodes queue falseNodes : List NodeId), (∀ n ∈ nodes, (g n).Outbound ≠ []) →
      ∃ queue2 falseNodes2,
        alwaysEventuallySeed g predicate nodes queue falseNodes =
          Outcome.ret (queue2, falseNodes2) ∧
        (∀ x, x ∈ queue2 ↔ x ∈ queue ∨
          (x ∈ nodes ∧ (predicate x).1 = true ∧ (predicate x).2 = true)) ∧
        (∀ x, x ∈ falseNodes2 ↔ x ∈ falseNodes ∨
          (x ∈ nodes ∧ ¬ ((predicate x).1 = true ∧ (predicate x).2 = true))) ∧
        queue2.length ≤ queue.length + nodes.length := by
  intro nodes
  induction nodes with
  | nil =>
    intro queue falseNodes _
    exact ⟨queue, falseNodes, rfl, by simp, by simp, by simp⟩
  | cons node rest ih =>
    intro queue falseNodes hout
    have hrest : ∀ n ∈ rest, (g n).Outbound ≠ [] :=
      fun n hn => hout n (List.mem_cons_of_mem _ hn)
    have hne : ¬ (g node).Outbound.length = 0 := by
      rw [List.length_eq_zero]
      exact hout node (List.mem_cons_self _ _)
    rw [alwaysEventuallySeed, if_neg hne]
    by_cases hgood : ((predicate node).1 && (predicate node).2) = true
    · rw [if_pos hgood]
      obtain ⟨q2, f2, e, h1, h2, h3⟩ := ih (queue ++ [node]) falseNodes hrest
      have hg : (predicate node).1 = true ∧ (predicate node).2 = true := by
        simpa using hgood
      refine ⟨q2, f2, e, fun x => ?_, fun x => ?_, ?_⟩
      · rw [h1 x]
        simp only [List.mem_append, List.mem_cons, List.not_mem_nil, or_false]
        constructor
        · rintro ((h | rfl) | ⟨h, hx⟩)
          · exact Or.inl h
          · exact Or.inr ⟨Or.inl rfl, hg⟩
          · exact Or.inr ⟨Or.inr h, hx⟩
        · rintro (h | ⟨rfl | h, hx⟩)
          · exact Or.inl (Or.inl h)
          · exact Or.inl (Or.inr rfl)
          · exact Or.inr ⟨h, hx⟩
      · rw [h2 x]
        simp only [List.mem_cons]
        constructor
        · rintro (h | ⟨h, hx⟩)
          · exact Or.inl h
          · exact Or.inr ⟨Or.inr h, hx⟩
        · rintro (h | ⟨rfl | h, hx⟩)
          · exact Or.inl h
          · exact absurd hg hx
          · exact Or.inr ⟨h, hx⟩
      · simp only [List.length_append, List.length_cons, List.length_nil] at h3 ⊢
        omega
    · rw [if_neg hgood]
      obtain ⟨q2, f2, e, h1, h2, h3⟩ := ih queue (setInsert falseNodes node) hrest
      have hg : ¬ ((predicate node).1 = true ∧ (predicate node).2 = true) := by
        simpa using hgood
      refine ⟨q2, f2, e, fun x => ?_, fun x => ?_, ?_⟩
      · rw [h1 x]
        simp only [List.mem_cons]
        constructor
        · rintro (h | ⟨h, hx⟩)
          · exact Or.inl h
          · exact Or.inr ⟨Or.inr h, hx⟩
        · rintro (h | ⟨rfl | h, hx⟩)
          · exact Or.inl h
          · exact absurd hx hg
          · exact Or.inr ⟨h, hx⟩
      · rw [h2 x, mem_setInsert]
        simp only [List.mem_cons]
        constructor
        · rintro ((h | rfl) | ⟨h, hx⟩)
          · exact Or.inl h
          · exact Or.inr ⟨Or.inl rfl, hg⟩
          · exact Or.inr ⟨Or.inr h, hx⟩
        · rintro (h | ⟨rfl | h, hx⟩)
          · exact Or.inl (Or.inl h)
          · exact Or.inl (Or.inr rfl)
          · exact Or.inr ⟨h, hx⟩
      · simp only [List.length_cons] at h3 ⊢
        omega

theorem strongPath_of_followedInbound {g : Graph} {nodes : List NodeId} (hmir : mirrored g nodes)
    {s x : NodeId} (hs : s ∈ nodes)
    (h : Relation.ReflTransGen (followedInbound g notStrongOrSelf) s x) :
    x ∈ nodes ∧ Relation.ReflTransGen (strongLink g) x s := by
  induction h with
  | refl => exact ⟨hs, Relation.ReflTransGen.refl⟩
  | tail _ hstep ih =>
    obtain ⟨hy, hpath⟩ := ih
    obtain ⟨l, hl, hz, hp⟩ := hstep
    simp only [notStrongOrSelf, ne_eq, decide_eq_false_iff_not, not_or, not_not] at hp
    obtain ⟨hin, o, ho, hoy, hof⟩ := hmir.1 _ hy l hl
    rw [hz] at hin ho
    exact ⟨hin, Relation.ReflTransGen.head ⟨o, ho, hoy, by rw [hof, hp.2]⟩ hpath⟩

theorem followedInbound_of_strongPath {g : Graph} {nodes : List NodeId} (hmir : mirrored g nodes)
    {s x : NodeId} (hx : x ∈ nodes) (h : Relation.ReflTransGen (strongLink g) x s) :
    s ∈ nodes ∧ Relation.ReflTransGen (followedInbound g notStrongOrSelf) s x := by
  induction h with
  | refl => exact ⟨hx, Relation.ReflTransGen.refl⟩
  | @tail y z _ hstep ih =>
    obtain ⟨hy, hpath⟩ := ih
    obtain ⟨o, ho, hoz, hof⟩ := hstep
    obtain ⟨hin, l, hl, hly, hlf⟩ := hmir.2 _ hy o ho
    rw [hoz] at hin hl
    refine ⟨hin, ?_⟩
    by_cases hyz : y = z
    · rw [← hyz]
      exact hpath
    · refine Relation.ReflTransGen.head ⟨l, hl, hly, ?_⟩ hpath
      simp only [notStrongOrSelf, ne_eq, decide_eq_false_iff_not, not_or, not_not]
      exact ⟨by rw [hly]; exact hyz, by rw [hlf, hof]⟩

theorem alwaysEventuallyFalseNodes_spec (fuel : Nat) (g : Graph) (nodes : List NodeId)
    (predicate : Predicate) (hout : ∀ n ∈ nodes, (g n).Outbound ≠ [])
    (hmir : mirrored g nodes) (hfuel : bfsBound g nodes ≤ fuel) :
    ∃ falseNodes, alwaysEventuallyFalseNodes fuel g nodes predicate = Outcome.ret falseNodes ∧
      ∀ x, x ∈ falseNodes ↔ x ∈ nodes ∧ ¬ reachesGoodSeed g nodes predicate x := by
  obtain ⟨q2, f2, e, h1, h2, h3⟩ := alwaysEventuallySeed_spec g predicate nodes [] [] hout
  simp only [List.not_mem_nil, false_or, List.length_nil, Nat.zero_add] at h1 h2 h3
  obtain ⟨result, hres⟩ := reverseBfs_returns g notStrongOrSelf nodes
    (fun n hn l hl => (hmir.1 n hn l hl).1) fuel q2 [] f2
    (fun x hx => ((h1 x).mp hx).1)
    (by
      rw [pendingInbound_nil_le]
      unfold bfsBound at hfuel
      omega)
  refine ⟨result, by simp only [alwaysEventuallyFalseNodes, e, hres], fun x => ?_⟩
  rw [reverseBfs_spec g notStrongOrSelf fuel q2 [] f2 result hres
    (fun y hy => by cases hy)
    (fun z hz => by
      rcases hz with hz | hz
      · rw [h2 z]
        exact fun hn => hn.2 ((h1 z).mp hz).2
      · cases hz) x]
  rw [h2 x]
  simp only [List.not_mem_nil, or_false]
  constructor
  · rintro ⟨⟨hx, _⟩, hno⟩
    refine ⟨hx, ?_⟩
    rintro ⟨s, ⟨hs, hgood⟩, hpath⟩
    exact hno ⟨s, (h1 s).mpr ⟨hs, hgood⟩, (followedInbound_of_strongPath hmir hx hpath).2⟩
  · rintro ⟨hx, hno⟩
    refine ⟨⟨hx, fun hgood => hno ⟨x, ⟨hx, hgood⟩, Relation.ReflTransGen.refl⟩⟩, ?_⟩
    rintro ⟨s, hs, hreach⟩
    obtain ⟨hsn, hgood⟩ := (h1 s).mp hs
    exact hno ⟨s, ⟨hsn, hgood⟩, (strongPath_of_followedInbound hmir hsn hreach).2⟩

theorem alwaysEventuallyFailure_not_live (fuel : Nat) (g : Graph)
    (iteration : List NodeId → List NodeId) (nodes falseNodes : List NodeId) (path : List Link) :
    alwaysEventuallyFailure fuel g iteration nodes falseNodes ≠ Outcome.ret (path, true) := by
  unfold alwaysEventuallyFailure
  intro h
  split at h
  · cases h
  · split at h
    · split at h
      · simp at h
      · cases h
      · cases h
    · cases h
    · cases h

theorem AlwaysEventuallyFast_live_iff_falseNodes_empty (fuel : Nat) (g : Graph)
    (iteration : List NodeId → List NodeId) (nodes : List NodeId) (predicate : Predicate)
    (falseNodes : List NodeId)
    (h : alwaysEventuallyFalseNodes fuel g nodes predicate = Outcome.ret falseNodes) :
    (AlwaysEventuallyFast fuel g iteration nodes predicate = Outcome.ret ([], true) ↔
      falseNodes = []) ∧
    (∀ path, AlwaysEventuallyFast fuel g iteration nodes predicate = Outcome.ret (path, true) →
      falseNodes = []) := by
  unfold AlwaysEventuallyFast
  rw [h]
  dsimp only
  cases falseNodes with
  | nil => simp
  | cons a rest =>
    simp only [List.length_cons, gt_iff_lt, Nat.zero_lt_succ, if_true, reduceCtorEq, iff_false]
    exact ⟨alwaysEventuallyFailure_not_live _ _ _ _ _ _, fun path hp =>
      absurd hp (alwaysEventuallyFailure_not_live _ _ _ _ _ _)⟩

/-- C3: on a node list in which every node has an outbound link and whose
inbound lists mirror its outbound lists, with fuel for the queue loop,
`AlwaysEventuallyFast` returns `(nil, true)` if and only if every node of the
list is relevant and P-true or has a path of strong-fair links to such a node;
and the set `falseNodes` left by the reverse search is exactly the set of listed
nodes that are not such seeds and have no strong-fair path to one. -/
theorem AlwaysEventuallyFast_live_iff (fuel : Nat) (g : Graph)
    (iteration : List NodeId → List NodeId) (nodes : List NodeId) (predicate : Predicate)
    (hout : ∀ n ∈ nodes, (g n).Outbound ≠ []) (hmir : mirrored g nodes)
    (hfuel : bfsBound g nodes ≤ fuel) :
    (AlwaysEventuallyFast fuel g iteration nodes predicate = Outcome.ret ([], true) ↔
      ∀ x ∈ nodes, reachesGoodSeed g nodes predicate x) ∧
    ∃ falseNodes, alwaysEventuallyFalseNodes fuel g nodes predicate = Outcome.ret falseNodes ∧
      ∀ x, x ∈ falseNodes ↔ x ∈ nodes ∧ ¬ reachesGoodSeed g nodes predicate x := by
  obtain ⟨falseNodes, h1, h2⟩ :=
    alwaysEventuallyFalseNodes_spec fuel g nodes predicate hout hmir hfuel
  refine ⟨?_, falseNodes, h1, h2⟩
  rw [(AlwaysEventuallyFast_live_iff_falseNodes_empty fuel g iteration nodes predicate
    falseNodes h1).1]
  constructor
  · intro he x hx
    by_contra hn
    have := (h2 x).mpr ⟨hx, hn⟩
    rw [he] at this
    cases this
  · intro hall
    apply List.eq_nil_iff_forall_not_mem.mpr
    intro x hx
    obtain ⟨hxn, hno⟩ := (h2 x).mp hx
    exact hno (hall x hxn)

theorem AlwaysEventuallyFast_live_iff_witness :
    (AlwaysEventuallyFast 4 pingPongGraph id [0, 1] (fastPredicate pingPongGraph 0 0) =
        Outcome.ret ([], true) ↔
      ∀ x ∈ [0, 1], reachesGoodSeed pingPongGraph [0, 1] (fastPredicate pingPongGraph 0 0) x) ∧
    ∃ falseNodes,
      alwaysEventuallyFalseNodes 4 pingPongGraph [0, 1] (fastPredicate pingPongGraph 0 0) =
        Outcome.ret falseNodes ∧
      ∀ x, x ∈ falseNodes ↔
        x ∈ [0, 1] ∧ ¬ reachesGoodSeed pingPongGraph [0, 1] (fastPredicate pingPongGraph 0 0) x :=
  AlwaysEventuallyFast_live_iff 4 pingPongGraph id [0, 1] (fastPredicate pingPongGraph 0 0)
    (by decide) (by unfold mirrored; decide) (by decide)

/-! ## `EventuallyAlwaysFast` -/

theorem anyPath_of_followedInbound {g : Graph} {nodes : List NodeId} (hmir : mirrored g nodes)
    {s x : NodeId} (hs : s ∈ nodes)
    (h : Relation.ReflTransGen (followedInbound g (fun _ _ => false)) s x) :
    x ∈ nodes ∧ Relation.ReflTransGen (anyLink g) x s := by
  induction h with
  | refl => exact ⟨hs, Relation.ReflTransGen.refl⟩
  | tail _ hstep ih =>
    obtain ⟨hy, hpath⟩ := ih
    obtain ⟨l, hl, hz, _⟩ := hstep
    obtain ⟨hin, o, ho, hoy, _⟩ := hmir.1 _ hy l hl
    rw [hz] at hin ho
    exact ⟨hin, Relation.ReflTransGen.head ⟨o, ho, hoy⟩ hpath⟩

theorem followedInbound_of_anyPath {g : Graph} {nodes : List NodeId} (hmir : mirrored g nodes)
    {s x : NodeId} (hx : x ∈ nodes) (h : Relation.ReflTransGen (anyLink g) x s) :
    s ∈ nodes ∧ Relation.ReflTransGen (followedInbound g (fun _ _ => false)) s x := by
  induction h with
  | refl => exact ⟨hx, Relation.ReflTransGen.refl⟩
  | @tail y z _ hstep ih =>
    obtain ⟨hy, hpath⟩ := ih
    obtain ⟨o, ho, hoz⟩ := hstep
    obtain ⟨hin, l, hl, hly, _⟩ := hmir.2 _ hy o ho
    rw [hoz] at hin hl
    exact ⟨hin, Relation.ReflTransGen.head ⟨l, hl, hly, rfl⟩ hpath⟩

theorem eventuallyAlwaysSeed_spec (g : Graph) (predicate : Predicate) :
    ∀ (nodes queue trueNodes : List NodeId), (∀ n ∈ nodes, (g n).Outbound ≠ []) →
      ∃ queue2 trueNodes2,
        eventuallyAlwaysSeed g predicate nodes queue trueNodes =
          Outcome.ret (queue2, trueNodes2) ∧
        (∀ x, x ∈ queue2 ↔ x ∈ queue ∨
          (x ∈ nodes ∧ (predicate x).1 = true ∧ (predicate x).2 = false)) ∧
        (∀ x, x ∈ trueNodes2 ↔ x ∈ trueNodes ∨
          (x ∈ nodes ∧ (predicate x).1 = true ∧ (predicate x).2 = true)) ∧
        queue2.length ≤ queue.length + nodes.length := by
  intro nodes
  induction nodes with
  | nil =>
    intro queue trueNodes _
    exact ⟨queue, trueNodes, rfl, by simp, by simp, by simp⟩
  | cons node rest ih =>
    intro queue trueNodes hout
    have hrest : ∀ n ∈ rest, (g n).Outbound ≠ [] :=
      fun n hn => hout n (List.mem_cons_of_mem _ hn)
    have hne : ¬ (g node).Outbound.length = 0 := by
      rw [List.length_eq_zero]
      exact hout node (List.mem_cons_self _ _)
    rw [eventuallyAlwaysSeed, if_neg hne]
    cases hr : (predicate node).1 <;> cases hv : (predicate node).2
    all_goals simp only [Bool.and_true, Bool.and_false, Bool.not_true, Bool.not_false,
      Bool.false_and, Bool.true_and, Bool.false_eq_true, if_false, if_true]
    · obtain ⟨q2, t2, e, h1, h2, h3⟩ := ih queue trueNodes hrest
      refine ⟨q2, t2, e, fun x => ?_, fun x => ?_, by simp only [List.length_cons]; omega⟩
      · rw [h1 x]
        simp only [List.mem_cons]
        constructor
        · rintro (h | ⟨h, hx⟩)
          · exact Or.inl h
          · exact Or.inr ⟨Or.inr h, hx⟩
        · rintro (h | ⟨rfl | h, hx⟩)
          · exact Or.inl h
          · rw [hr] at hx
            exact absurd hx.1 (by simp)
          · exact Or.inr ⟨h, hx⟩
      · rw [h2 x]
        simp only [List.mem_cons]
        constructor
        · rintro (h | ⟨h, hx⟩)
          · exact Or.inl h
          · exact Or.inr ⟨Or.inr h, hx⟩
        · rintro (h | ⟨rfl | h, hx⟩)
          · exact Or.inl h
          · rw [hr] at hx
            exact absurd hx.1 (by simp)
          · exact Or.inr ⟨h, hx⟩
    · obtain ⟨q2, t2, e, h1, h2, h3⟩ := ih queue trueNodes hrest
      refine ⟨q2, t2, e, fun x => ?_, fun x => ?_, by simp only [List.length_cons]; omega⟩
      · rw [h1 x]
        simp only [List.mem_cons]
        constructor
        · rintro (h | ⟨h, hx⟩)
          · exact Or.inl h
          · exact Or.inr ⟨Or.inr h, hx⟩
        · rintro (h | ⟨rfl | h, hx⟩)
          · exact Or.inl h
          · rw [hr] at hx
            exact absurd hx.1 (by simp)
          · exact Or.inr ⟨h, hx⟩
      · rw [h2 x]
        simp only [List.mem_cons]
        constructor
        · rintro (h | ⟨h, hx⟩)
          · exact Or.inl h
          · exact Or.inr ⟨Or.inr h, hx⟩
        · rintro (h | ⟨rfl | h, hx⟩)
          · exact Or.inl h
          · rw [hr] at hx
            exact absurd hx.1 (by simp)
          · exact Or.inr ⟨h, hx⟩
    · obtain ⟨q2, t2, e, h1, h2, h3⟩ := ih (queue ++ [node]) trueNodes hrest
      refine ⟨q2, t2, e, fun x => ?_, fun x => ?_, ?_⟩
      · rw [h1 x]
        simp only [List.mem_append, List.mem_cons, List.not_mem_nil, or_false]
        constructor
        · rintro ((h | rfl) | ⟨h, hx⟩)
          · exact Or.inl h
          · exact Or.inr ⟨Or.inl rfl, hr, hv⟩
          · exact Or.inr ⟨Or.inr h, hx⟩
        · rintro (h | ⟨rfl | h, hx⟩)
          · exact Or.inl (Or.inl h)
          · exact Or.inl (Or.inr rfl)
          · exact Or.inr ⟨h, hx⟩
      · rw [h2 x]
        simp only [List.mem_cons]
        constructor
        · rintro (h | ⟨h, hx⟩)
          · exact Or.inl h
          · exact Or.inr ⟨Or.inr h, hx⟩
        · rintro (h | ⟨rfl | h, hx⟩)
          · exact Or.inl h
          · rw [hv] at hx
            exact absurd hx.2 (by simp)
          · exact Or.inr ⟨h, hx⟩
      · simp only [List.length_append, List.length_cons, List.length_nil] at h3 ⊢
        omega
    · obtain ⟨q2, t2, e, h1, h2, h3⟩ := ih queue (setInsert trueNodes node) hrest
      refine ⟨q2, t2, e, fun x => ?_, fun x => ?_, by simp only [List.length_cons]; omega⟩
      · rw [h1 x]
        simp only [List.mem_cons]
        constructor
        · rintro (h | ⟨h, hx⟩)
          · exact Or.inl h
          · exact Or.inr ⟨Or.inr h, hx⟩
        · rintro (h | ⟨rfl | h, hx⟩)
          · exact Or.inl h
          · rw [hv] at hx
            exact absurd hx.2 (by simp)
          · exact Or.inr ⟨h, hx⟩
      · rw [h2 x, mem_setInsert]
        simp only [List.mem_cons]
        constructor
        · rintro ((h | rfl) | ⟨h, hx⟩)
          · exact Or.inl h
          · exact Or.inr ⟨Or.inl rfl, hr, hv⟩
          · exact Or.inr ⟨Or.inr h, hx⟩
        · rintro (h | ⟨rfl | h, hx⟩)
          · exact Or.inl (Or.inl h)
          · exact Or.inl (Or.inr rfl)
          · exact Or.inr ⟨h, hx⟩

theorem eventuallyAlwaysTrueNodes_spec (fuel : Nat) (g : Graph) (nodes : List NodeId)
    (predicate : Predicate) (hout : ∀ n ∈ nodes, (g n).Outbound ≠ [])
    (hmir : mirrored g nodes) (hfuel : bfsBound g nodes ≤ fuel) :
    ∃ trueNodes, eventuallyAlwaysTrueNodes fuel g nodes predicate = Outcome.ret trueNodes ∧
      ∀ x, x ∈ trueNodes ↔ permanentlyTrue g nodes predicate x := by
  obtain ⟨q2, t2, e, h1, h2, h3⟩ := eventuallyAlwaysSeed_spec g predicate nodes [] [] hout
  simp only [List.not_mem_nil, false_or, List.length_nil, Nat.zero_add] at h1 h2 h3
  obtain ⟨result, hres⟩ := reverseBfs_returns g (fun _ _ => false) nodes
    (fun n hn l hl => (hmir.1 n hn l hl).1) fuel q2 [] t2
    (fun x hx => ((h1 x).mp hx).1)
    (by
      rw [pendingInbound_nil_le]
      unfold bfsBound at hfuel
      omega)
  refine ⟨result, by simp only [eventuallyAlwaysTrueNodes, e, hres], fun x => ?_⟩
  rw [reverseBfs_spec g (fun _ _ => false) fuel q2 [] t2 result hres
    (fun y hy => by cases hy)
    (fun z hz => by
      rcases hz with hz | hz
      · rw [h2 z]
        intro hn
        have := ((h1 z).mp hz).2.2
        rw [hn.2.2] at this
        cases this
      · cases hz) x]
  rw [h2 x]
  simp only [List.not_mem_nil, or_false]
  unfold permanentlyTrue badNode
  constructor
  · rintro ⟨⟨hx, hr, hv⟩, hno⟩
    refine ⟨hx, hr, hv, ?_⟩
    rintro ⟨b, hb, hpath⟩
    exact hno ⟨b, (h1 b).mpr hb, (followedInbound_of_anyPath hmir hx hpath).2⟩
  · rintro ⟨hx, hr, hv, hno⟩
    refine ⟨⟨hx, hr, hv⟩, ?_⟩
    rintro ⟨s, hs, hreach⟩
    have hb := (h1 s).mp hs
    exact hno ⟨s, hb, (anyPath_of_followedInbound hmir hb.1 hreach).2⟩

theorem maxOutDegree_ge (g : Graph) :
    ∀ (nodes : List NodeId) (n : NodeId), n ∈ nodes →
      (g n).Outbound.length ≤ maxOutDegree g nodes := by
  intro nodes
  induction nodes with
  | nil =>
    intro n h
    cases h
  | cons a rest ih =>
    intro n h
    unfold maxOutDegree at ih ⊢
    simp only [List.map_cons, List.foldr_cons]
    rcases List.mem_cons.mp h with rfl | h2
    · exact Nat.le_max_left _ _
    · exact Nat.le_trans (ih n h2) (Nat.le_max_right _ _)

theorem unvisitedCount_mono (visited : List NodeId) (node : NodeId) :
    ∀ nodes : List NodeId,
      unvisitedCount nodes (setInsert visited node) ≤ unvisitedCount nodes visited := by
  intro nodes
  induction nodes with
  | nil => simp [unvisitedCount]
  | cons a rest ih =>
    unfold unvisitedCount at ih ⊢
    by_cases h1 : a ∈ visited
    · have h2 : a ∈ setInsert visited node := (mem_setInsert _ _ _).mpr (Or.inl h1)
      simpa [List.filter_cons, h1, h2] using ih
    · by_cases h2 : a ∈ setInsert visited node
      · simp only [List.filter_cons, h1, h2, not_true_eq_false, decide_False, Bool.false_eq_true,
          if_false, not_false_eq_true, decide_True, if_true, List.length_cons]
        omega
      · simp only [List.filter_cons, h1, h2, not_false_eq_true, decide_True, if_true,
          List.length_cons]
        omega

theorem unvisitedCount_insert (visited : List NodeId) (node : NodeId) (hv : node ∉ visited) :
    ∀ nodes : List NodeId, node ∈ nodes →
      unvisitedCount nodes (setInsert visited node) + 1 ≤ unvisitedCount nodes visited := by
  intro nodes
  induction nodes with
  | nil =>
    intro h
    cases h
  | cons a rest ih =>
    intro h
    by_cases ha : a = node
    · subst ha
      have h2 : a ∈ setInsert visited a := (mem_setInsert _ _ _).mpr (Or.inr rfl)
      have := unvisitedCount_mono visited a rest
      unfold unvisitedCount at this ⊢
      simp only [List.filter_cons, hv, h2, not_true_eq_false, decide_False, Bool.false_eq_true,
        if_false, not_false_eq_true, decide_True, if_true, List.length_cons]
      omega
    · have hin : node ∈ rest := by
        rcases List.mem_cons.mp h with h3 | h3
        · exact absurd h3.symm ha
        · exact h3
      have := ih hin
      unfold unvisitedCount at this ⊢
      by_cases h1 : a ∈ visited
      · have h2 : a ∈ setInsert visited node := (mem_setInsert _ _ _).mpr (Or.inl h1)
        simpa [List.filter_cons, h1, h2] using this
      · have h2 : a ∉ setInsert visited node := by
          rw [mem_setInsert]
          rintro (h3 | h3)
          · exact h1 h3
          · exact ha h3
        simp only [List.filter_cons, h1, h2, not_false_eq_true, decide_True, if_true,
          List.length_cons]
        omega

theorem unvisitedCount_le (nodes visited : List NodeId) :
    unvisitedCount nodes visited ≤ nodes.length :=
  List.length_filter_le _ _

theorem queueWeight_children (g : Graph) (nodes : List NodeId) (path : List Link)
    (visited : List NodeId) :
    ∀ links : List Link,
      queueWeight g nodes (links.map (fun outLink =>
        ({ link := outLink, path := path, visited := visited } : Wrapper))) =
      links.length * (maxOutDegree g nodes + 1) ^ unvisitedCount nodes visited := by
  intro links
  induction links with
  | nil => simp [queueWeight]
  | cons l rest ih =>
    unfold queueWeight at ih ⊢
    simp only [List.map_cons, List.sum_cons, List.length_cons, ih]
    ring

theorem cycleFinderBfsLoop_violation (g : Graph) (nodes : List NodeId)
    (hclosed : ∀ n ∈ nodes, ∀ o ∈ (g n).Outbound, o.Node ∈ nodes) :
    ∀ (fuel : Nat) (queue : List Wrapper), queue ≠ [] →
      (∀ e ∈ queue, e.link.Node ∈ nodes) →
      queueWeight g nodes queue ≤ fuel →
      ∃ path, path ≠ [] ∧
        cycleFinderBfsLoop g (fun _ => Outcome.ret false) fuel queue =
          Outcome.ret (path, false) := by
  intro fuel
  induction fuel with
  | zero =>
    intro queue hne _ hw
    cases queue with
    | nil => exact absurd rfl hne
    | cons e rest =>
      unfold queueWeight at hw
      simp only [List.map_cons, List.sum_cons] at hw
      have : 0 < (maxOutDegree g nodes + 1) ^ unvisitedCount nodes e.visited :=
        pow_pos (Nat.succ_pos _) _
      omega
  | succ fuel ih =>
    intro queue hne hwf hw
    cases queue with
    | nil => exact absurd rfl hne
    | cons e rest =>
      rw [cycleFinderBfsLoop]
      dsimp only
      by_cases hv : e.link.Node ∈ e.visited
      · rw [if_pos hv]
        exact ⟨e.path ++ [e.link], by simp, by simp⟩
      · rw [if_neg hv]
        by_cases hfair : hasFairLink (g e.link.Node).Outbound = true
        · rw [if_pos hfair]
          have hnode : e.link.Node ∈ nodes := hwf e (List.mem_cons_self _ _)
          have hout : (g e.link.Node).Outbound ≠ [] := by
            intro h0
            rw [h0] at hfair
            simp [hasFairLink] at hfair
          apply ih
          · intro h0
            have := congrArg List.length h0
            simp only [List.length_append, List.length_map, List.length_nil] at this
            have : (g e.link.Node).Outbound.length = 0 := by omega
            exact hout (List.length_eq_zero.mp this)
          · intro e2 he2
            rcases List.mem_append.mp he2 with h1 | h1
            · exact hwf e2 (List.mem_cons_of_mem _ h1)
            · obtain ⟨o, ho, rfl⟩ := List.mem_map.mp h1
              exact hclosed _ hnode o ho
          · have hdeg := maxOutDegree_ge g nodes _ hnode
            have hcount := unvisitedCount_insert e.visited e.link.Node hv nodes hnode
            have hsplit : queueWeight g nodes (rest ++ (g e.link.Node).Outbound.map
                (fun outLink => Wrapper.mk outLink (e.path ++ [e.link])
                  (setInsert e.visited e.link.Node))) =
                queueWeight g nodes rest + (g e.link.Node).Outbound.length *
                  (maxOutDegree g nodes + 1) ^
                    unvisitedCount nodes (setInsert e.visited e.link.Node) := by
              rw [← queueWeight_children g nodes (e.path ++ [e.link])]
              unfold queueWeight
              rw [List.map_append, List.sum_append]
            rw [hsplit]
            have hold : queueWeight g nodes (e :: rest) =
                (maxOutDegree g nodes + 1) ^ unvisitedCount nodes e.visited +
                  queueWeight g nodes rest := by
              unfold queueWeight
              simp only [List.map_cons, List.sum_cons]
            rw [hold] at hw
            have hpow : (maxOutDegree g nodes + 1) ^
                (unvisitedCount nodes (setInsert e.visited e.link.Node) + 1) ≤
                (maxOutDegree g nodes + 1) ^ unvisitedCount nodes e.visited :=
              Nat.pow_le_pow_right (Nat.succ_pos _) hcount
            have hpos : 0 < (maxOutDegree g nodes + 1) ^
                unvisitedCount nodes (setInsert e.visited e.link.Node) :=
              pow_pos (Nat.succ_pos _) _
            have hmul : (g e.link.Node).Outbound.length *
                (maxOutDegree g nodes + 1) ^
                  unvisitedCount nodes (setInsert e.visited e.link.Node) ≤
                maxOutDegree g nodes * (maxOutDegree g nodes + 1) ^
                  unvisitedCount nodes (setInsert e.visited e.link.Node) :=
              Nat.mul_le_mul_right _ hdeg
            rw [pow_succ] at hpow
            nlinarith
        · rw [if_neg hfair]
          exact ⟨e.path ++ [e.link] ++ [stutterLink e.link.Node], by simp, by simp⟩

theorem unvisitedCount_nil (nodes : List NodeId) : unvisitedCount nodes [] = nodes.length := by
  unfold unvisitedCount
  simp

/-- C4: on a non-empty, deadlock-free node list whose inbound lists mirror its
outbound lists, with fuel for the loops, `EventuallyAlwaysFast` computes as
`trueNodes` exactly the set `T` of the listed nodes that are relevant and P-true
and from which no relevant not-P node is reachable along links of any fairness;
when `T` is non-empty its result is that of `AlwaysEventuallyFast` for the
predicate "is in `T`" with every node relevant; when `T` is empty it returns a
violation (false) with a non-empty path. -/
theorem EventuallyAlwaysFast_computes_permanentlyTrue (fuel : Nat) (g : Graph)
    (iteration : List NodeId → List NodeId) (root : NodeId) (others : List NodeId)
    (predicate : Predicate)
    (hout : ∀ n ∈ root :: others, (g n).Outbound ≠ []) (hmir : mirrored g (root :: others))
    (hfuel : bfsBound g (root :: others) ≤ fuel)
    (hfuel2 : cycleBound g (root :: others) ≤ fuel) :
    ∃ trueNodes,
      eventuallyAlwaysTrueNodes fuel g (root :: others) predicate = Outcome.ret trueNodes ∧
      (∀ x, x ∈ trueNodes ↔ permanentlyTrue g (root :: others) predicate x) ∧
      (trueNodes ≠ [] →
        EventuallyAlwaysFast fuel g iteration (root :: others) predicate =
          AlwaysEventuallyFast fuel g iteration (root :: others) (inTrueNodes trueNodes)) ∧
      (trueNodes = [] → ∃ path, path ≠ [] ∧
        EventuallyAlwaysFast fuel g iteration (root :: others) predicate =
          Outcome.ret (path, false)) := by
  obtain ⟨trueNodes, h1, h2⟩ :=
    eventuallyAlwaysTrueNodes_spec fuel g (root :: others) predicate hout hmir hfuel
  refine ⟨trueNodes, h1, h2, fun hne => ?_, fun he => ?_⟩
  · unfold EventuallyAlwaysFast
    rw [h1]
    dsimp only
    rw [if_pos (List.length_pos.mpr hne)]
  · obtain ⟨path, hp, hres⟩ := cycleFinderBfsLoop_violation g (root :: others)
      (fun n hn o ho => (hmir.2 n hn o ho).1) fuel
      [{ link := InitNodeToLink g root, path := [], visited := [] }] (by simp)
      (fun e he => by
        rw [List.mem_singleton] at he
        subst he
        exact List.mem_cons_self _ _)
      (by
        unfold queueWeight
        simp only [List.map_cons, List.map_nil, List.sum_cons, List.sum_nil, Nat.add_zero,
          unvisitedCount_nil]
        exact hfuel2)
    refine ⟨path, hp, ?_⟩
    unfold EventuallyAlwaysFast
    rw [h1, he]
    exact hres

theorem EventuallyAlwaysFast_computes_permanentlyTrue_witness :
    ∃ trueNodes,
      eventuallyAlwaysTrueNodes 4 pingPongGraph [0, 1] (fastPredicate pingPongGraph 0 1) =
        Outcome.ret trueNodes ∧
      (∀ x, x ∈ trueNodes ↔
        permanentlyTrue pingPongGraph [0, 1] (fastPredicate pingPongGraph 0 1) x) ∧
      (trueNodes ≠ [] →
        EventuallyAlwaysFast 4 pingPongGraph id [0, 1] (fastPredicate pingPongGraph 0 1) =
          AlwaysEventuallyFast 4 pingPongGraph id [0, 1] (inTrueNodes trueNodes)) ∧
      (trueNodes = [] → ∃ path, path ≠ [] ∧
        EventuallyAlwaysFast 4 pingPongGraph id [0, 1] (fastPredicate pingPongGraph 0 1) =
          Outcome.ret (path, false)) :=
  EventuallyAlwaysFast_computes_permanentlyTrue 4 pingPongGraph id 0 [1]
    (fastPredicate pingPongGraph 0 1) (by decide) (by unfold mirrored; decide) (by decide)
    (by decide)

/-! ## Counterexamples of the Fast strategy -/

theorem pathToInitLoop_shape (g : Graph) (nodes : List NodeId) (hmir : mirrored g nodes)
    (target : NodeId) :
    ∀ (fuel : Nat) (node : NodeId) (failurePath res : List Link),
      node ∈ nodes →
      List.Chain' (connectedByOutbound g) failurePath.reverse →
      (∀ h, failurePath.getLast? = some h → anyLink g node h.Node) →
      ((failurePath = [] ∧ node = target) ∨
        ∃ t rest, failurePath = t :: rest ∧ t.Node = target) →
      pathToInitLoop g nodes fuel node failurePath = Outcome.ret res →
      ∃ stop, stop ∈ nodes ∧
        ((g stop).Inbound = [] ∨ (g stop).Process.Name = "init" ∨ nodes.head? = some stop) ∧
        res.reverse.head? = some (InitNodeToLink g stop) ∧
        List.Chain' (connectedByOutbound g) res.reverse ∧
        ∃ last, res.reverse.getLast? = some last ∧ last.Node = target := by
  intro fuel
  induction fuel with
  | zero =>
    intro node failurePath res _ _ _ _ h
    simp [pathToInitLoop] at h
  | succ fuel ih =>
    intro node failurePath res hnode hchain hlast htarget h
    have finish : res = failurePath ++ [InitNodeToLink g node] →
        ((g node).Inbound = [] ∨ (g node).Process.Name = "init" ∨ nodes.head? = some node) →
        ∃ stop, stop ∈ nodes ∧
          ((g stop).Inbound = [] ∨ (g stop).Process.Name = "init" ∨ nodes.head? = some stop) ∧
          res.reverse.head? = some (InitNodeToLink g stop) ∧
          List.Chain' (connectedByOutbound g) res.reverse ∧
          ∃ last, res.reverse.getLast? = some last ∧ last.Node = target := by
      intro hres hstop
      subst hres
      refine ⟨node, hnode, hstop, by simp, ?_, ?_⟩
      · rw [List.reverse_append, List.reverse_singleton, List.singleton_append]
        refine List.Chain'.cons' hchain ?_
        intro y hy
        rw [List.head?_reverse] at hy
        exact hlast y hy
      · rw [List.reverse_append, List.reverse_singleton, List.singleton_append]
        rcases htarget with ⟨rfl, rfl⟩ | ⟨t, rest, rfl, ht⟩
        · exact ⟨InitNodeToLink g node, rfl, rfl⟩
        · refine ⟨t, ?_, ht⟩
          rw [show InitNodeToLink g node :: (t :: rest).reverse =
            (InitNodeToLink g node :: rest.reverse) ++ [t] by simp]
          exact List.getLast?_concat _
    rw [pathToInitLoop] at h
    cases hin : (g node).Inbound with
    | nil =>
      rw [hin] at h
      simp only [Outcome.ret.injEq] at h
      exact finish h.symm (Or.inl hin)
    | cons first others =>
      rw [hin] at h
      dsimp only at h
      by_cases hname : (g node).Process.Name = "init"
      · rw [if_pos hname] at h
        simp only [Outcome.ret.injEq] at h
        exact finish h.symm (Or.inr (Or.inl hname))
      · rw [if_neg hname] at h
        obtain ⟨root, hhead⟩ : ∃ root, nodes.head? = some root := by
          cases hnodes : nodes with
          | nil =>
            rw [hnodes] at hnode
            cases hnode
          | cons root tail => exact ⟨root, rfl⟩
        rw [hhead] at h
        dsimp only at h
        by_cases hroot : node = root
        · rw [if_pos hroot] at h
          simp only [Outcome.ret.injEq] at h
          exact finish h.symm (Or.inr (Or.inr (by rw [hroot]; exact hhead)))
        · rw [if_neg hroot] at h
          have hfirst : first ∈ (g node).Inbound := by
            rw [hin]
            exact List.mem_cons_self _ _
          obtain ⟨hfn, o, ho, hon, _⟩ := hmir.1 node hnode first hfirst
          refine ih first.Node (failurePath ++ [ReverseLink node first]) res hfn ?_ ?_ ?_ h
          · rw [List.reverse_append, List.reverse_singleton, List.singleton_append]
            refine List.Chain'.cons' hchain ?_
            intro y hy
            rw [List.head?_reverse] at hy
            exact hlast y hy
          · intro h2 hh
            rw [List.getLast?_concat] at hh
            cases hh
            exact ⟨o, ho, hon⟩
          · rcases htarget with ⟨rfl, rfl⟩ | ⟨t, rest, rfl, ht⟩
            · exact Or.inr ⟨ReverseLink node first, [], rfl, rfl⟩
            · exact Or.inr ⟨t, rest ++ [ReverseLink node first], rfl, ht⟩

theorem pathToInit_shape (g : Graph) (nodes : List NodeId) (hmir : mirrored g nodes)
    (fuel : Nat) (target : NodeId) (htarget : target ∈ nodes) (failurePath : List Link)
    (h : pathToInit fuel g nodes target = Outcome.ret failurePath) :
    ∃ stop, stop ∈ nodes ∧
      ((g stop).Inbound = [] ∨ (g stop).Process.Name = "init" ∨ nodes.head? = some stop) ∧
      failurePath.head? = some (InitNodeToLink g stop) ∧
      List.Chain' (connectedByOutbound g) failurePath ∧
      ∃ last, failurePath.getLast? = some last ∧ last.Node = target := by
  unfold pathToInit at h
  cases hl : pathToInitLoop g nodes fuel target [] with
  | ret res =>
    rw [hl] at h
    simp only [Outcome.ret.injEq] at h
    subst h
    exact pathToInitLoop_shape g nodes hmir target fuel target [] res htarget
      (by simp) (fun h hh => by cases hh) (Or.inl ⟨rfl, rfl⟩) hl
  | fatal msg =>
    rw [hl] at h
    cases h
  | fuel =>
    rw [hl] at h
    cases h


theorem findCycleOutbound_count (allowed : List NodeId) (node : NodeId) (path : List Link)
    (visited : List NodeId) :
    ∀ (links : List Link) (queue : List Wrapper) (fairCount : Nat) (queue2 : List Wrapper)
      (fairCount2 : Nat),
      findCycleOutbound allowed node path visited links queue (fairCount + 1) =
        Sum.inr (queue2, fairCount2) → fairCount2 ≠ 0 := by
  intro links
  induction links with
  | nil =>
    intro queue fairCount q2 f2 h
    simp only [findCycleOutbound, Sum.inr.injEq, Prod.mk.injEq] at h
    omega
  | cons link rest ih =>
    intro queue fairCount q2 f2 h
    rw [findCycleOutbound] at h
    split at h
    · exact ih _ _ _ _ h
    · split at h
      · exact ih _ _ _ _ h
      · split at h
        · cases h
        · exact ih _ _ _ _ h


theorem findCycleOutbound_spec (allowed : List NodeId) (node : NodeId) (path : List Link)
    (visited : List NodeId) :
    ∀ (links : List Link) (queue : List Wrapper) (fairCount : Nat),
      (∀ p, findCycleOutbound allowed node path visited links queue fairCount = Sum.inl p →
        p = path ∧ node ∈ visited) ∧
      (∀ queue2 fairCount2,
        findCycleOutbound allowed node path visited links queue fairCount =
          Sum.inr (queue2, fairCount2) →
        (fairCount2 = 0 → ∀ l ∈ links, l.Fairness = FairnessLevel.STRONG → l.Node ∉ allowed) ∧
        ∀ e ∈ queue2, e ∈ queue ∨ ∃ l ∈ links, l.Node ∈ allowed ∧
          e = { link := l, path := path ++ [l], visited := setInsert visited node }) := by
  intro links
  induction links with
  | nil =>
    intro queue fairCount
    refine ⟨fun p h => by simp [findCycleOutbound] at h, fun q2 f2 h => ?_⟩
    simp only [findCycleOutbound, Sum.inr.injEq, Prod.mk.injEq] at h
    obtain ⟨rfl, rfl⟩ := h
    exact ⟨fun _ l hl => absurd hl (List.not_mem_nil l), fun e he => Or.inl he⟩
  | cons link rest ih =>
    intro queue fairCount
    rw [findCycleOutbound]
    by_cases hs : link.Fairness ≠ FairnessLevel.STRONG
    · rw [if_pos hs]
      obtain ⟨i1, i2⟩ := ih queue fairCount
      refine ⟨i1, fun q2 f2 h => ?_⟩
      obtain ⟨j1, j2⟩ := i2 q2 f2 h
      refine ⟨fun h0 l hl hsl => ?_, fun e he => ?_⟩
      · rcases List.mem_cons.mp hl with rfl | hl2
        · exact absurd hsl hs
        · exact j1 h0 l hl2 hsl
      · rcases j2 e he with h1 | ⟨l, hl, h2⟩
        · exact Or.inl h1
        · exact Or.inr ⟨l, List.mem_cons_of_mem _ hl, h2⟩
    · rw [if_neg hs]
      by_cases ha : link.Node ∉ allowed
      · rw [if_pos ha]
        obtain ⟨i1, i2⟩ := ih queue fairCount
        refine ⟨i1, fun q2 f2 h => ?_⟩
        obtain ⟨j1, j2⟩ := i2 q2 f2 h
        refine ⟨fun h0 l hl hsl => ?_, fun e he => ?_⟩
        · rcases List.mem_cons.mp hl with rfl | hl2
          · exact ha
          · exact j1 h0 l hl2 hsl
        · rcases j2 e he with h1 | ⟨l, hl, h2⟩
          · exact Or.inl h1
          · exact Or.inr ⟨l, List.mem_cons_of_mem _ hl, h2⟩
      · rw [if_neg ha]
        have ha2 : link.Node ∈ allowed := by
          by_contra hc
          exact ha hc
        by_cases hv : node ∈ visited
        · rw [if_pos hv]
          refine ⟨fun p h => ?_, fun q2 f2 h => by cases h⟩
          simp only [Sum.inl.injEq] at h
          exact ⟨h.symm, hv⟩
        · rw [if_neg hv]
          obtain ⟨i1, i2⟩ := ih
            (queue ++ [{ link := link, path := path ++ [link], visited := setInsert visited node }])
            (fairCount + 1)
          refine ⟨i1, fun q2 f2 h => ?_⟩
          obtain ⟨j1, j2⟩ := i2 q2 f2 h
          have hpos : f2 ≠ 0 := findCycleOutbound_count allowed node path visited rest _ _ q2 f2 h
          refine ⟨fun h0 => absurd h0 hpos, fun e he => ?_⟩
          rcases j2 e he with h1 | ⟨l, hl, h2⟩
          · rcases List.mem_append.mp h1 with h3 | h3
            · exact Or.inl h3
            · rw [List.mem_singleton] at h3
              exact Or.inr ⟨link, List.mem_cons_self _ _, ha2, h3⟩
          · exact Or.inr ⟨l, List.mem_cons_of_mem _ hl, h2⟩


theorem findCyclePathLoop_shape (g : Graph) (allowed : List NodeId) (s : NodeId) :
    ∀ (fuel : Nat) (queue : List Wrapper) (p : List Link),
      (∀ e ∈ queue, searchState g s e.link.Node e.visited (InitNodeToLink g s :: e.path) ∧
        (e.link.Node = s ∨ e.link.Node ∈ allowed)) →
      findCyclePathLoop g allowed fuel queue = Outcome.ret p →
      (∃ node visited, searchState g s node visited (InitNodeToLink g s :: p) ∧
        node ∈ visited) ∨
      (∃ node visited pre, p = pre ++ [stutterLink node] ∧
        searchState g s node visited (InitNodeToLink g s :: pre) ∧
        (node = s ∨ node ∈ allowed) ∧
        ∀ o ∈ (g node).Outbound, o.Fairness = FairnessLevel.STRONG → o.Node ∉ allowed) := by
  intro fuel
  induction fuel with
  | zero =>
    intro queue p _ h
    cases queue <;> simp [findCyclePathLoop] at h
  | succ fuel ih =>
    intro queue p hq h
    cases queue with
    | nil => simp [findCyclePathLoop] at h
    | cons e rest =>
      rw [findCyclePathLoop] at h
      obtain ⟨hst, hallowed⟩ := hq e (List.mem_cons_self _ _)
      obtain ⟨o1, o2⟩ := findCycleOutbound_spec allowed e.link.Node e.path e.visited
        (g e.link.Node).Outbound rest 0
      cases hr : findCycleOutbound allowed e.link.Node e.path e.visited
          (g e.link.Node).Outbound rest 0 with
      | inl path =>
        rw [hr] at h
        simp only [Outcome.ret.injEq] at h
        subst h
        obtain ⟨rfl, hv⟩ := o1 path hr
        exact Or.inl ⟨e.link.Node, e.visited, hst, hv⟩
      | inr v =>
        obtain ⟨queue2, fairCount⟩ := v
        rw [hr] at h
        dsimp only at h
        obtain ⟨j1, j2⟩ := o2 queue2 fairCount hr
        by_cases hz : fairCount = 0
        · rw [if_pos hz] at h
          simp only [Outcome.ret.injEq] at h
          subst h
          exact Or.inr ⟨e.link.Node, e.visited, e.path, rfl, hst, hallowed, j1 hz⟩
        · rw [if_neg hz] at h
          refine ih queue2 p (fun e2 he2 => ?_) h
          rcases j2 e2 he2 with h1 | ⟨l, hl, hla, rfl⟩
          · exact hq e2 (List.mem_cons_of_mem _ h1)
          · exact ⟨searchState_step hst hl, Or.inr hla⟩

theorem findCyclePath_shape (g : Graph) (allowed : List NodeId) (s : NodeId) (fuel : Nat)
    (p : List Link) (h : findCyclePath fuel g s allowed = Outcome.ret p) :
    (∃ node visited, searchState g s node visited (InitNodeToLink g s :: p) ∧
      node ∈ visited) ∨
    (∃ node visited pre, p = pre ++ [stutterLink node] ∧
      searchState g s node visited (InitNodeToLink g s :: pre) ∧
      (node = s ∨ node ∈ allowed) ∧
      ∀ o ∈ (g node).Outbound, o.Fairness = FairnessLevel.STRONG → o.Node ∉ allowed) := by
  refine findCyclePathLoop_shape g allowed s fuel _ p (fun e he => ?_) h
  rw [List.mem_singleton] at he
  subst he
  exact ⟨searchState_root g s, Or.inl rfl⟩

theorem connectedByOutbound_of_follows (g : Graph) (a b : Link) (h : followsOutbound g a b) :
    connectedByOutbound g a b :=
  ⟨b, h, rfl⟩

theorem chain_glue (g : Graph) (failurePath cyc : List Link) (p q : Link)
    (hfp : List.Chain' (connectedByOutbound g) failurePath)
    (hp : failurePath.getLast? = some p) (hpq : p.Node = q.Node)
    (hc : List.Chain' (followsOutbound g) (q :: cyc)) :
    List.Chain' (connectedByOutbound g) (failurePath ++ cyc) := by
  obtain ⟨pre, rfl⟩ := List.getLast?_eq_some_iff.mp hp
  rw [List.append_assoc, List.singleton_append, List.chain'_split]
  refine ⟨hfp, ?_⟩
  have hc2 : List.Chain' (connectedByOutbound g) (q :: cyc) :=
    hc.imp (connectedByOutbound_of_follows g)
  rw [List.chain'_cons'] at hc2 ⊢
  refine ⟨fun y hy => ?_, hc2.2⟩
  have := hc2.1 y hy
  unfold connectedByOutbound at this ⊢
  rw [hpq]
  exact this

theorem fast_counterexample_glue (g : Graph) (root s : NodeId) (failurePath cyc : List Link)
    (stop : NodeId) (hstop : stop = root ∨ (g stop).Process.Name = "init")
    (hhead : failurePath.head? = some (InitNodeToLink g stop))
    (hfp : List.Chain' (connectedByOutbound g) failurePath)
    (p : Link) (hp : failurePath.getLast? = some p) (hps : p.Node = s)
    (hcyc : (∃ node visited, searchState g s node visited (InitNodeToLink g s :: cyc) ∧
        node ∈ visited) ∨
      (∃ node visited pre, cyc = pre ++ [stutterLink node] ∧
        searchState g s node visited (InitNodeToLink g s :: pre) ∧ noStrongLink g node)) :
    fastCounterexample g root (failurePath ++ cyc) := by
  have hne : failurePath ≠ [] := by
    rintro rfl
    cases hp
  have hpmem : p ∈ failurePath := by
    obtain ⟨ys, rfl⟩ := List.getLast?_eq_some_iff.mp hp
    simp
  have hfirst : ∀ l : List Link, ∃ first, (failurePath ++ l).head? = some first ∧
      first.Name = "Init" ∧ (first.Node = root ∨ (g first.Node).Process.Name = "init") := by
    intro l
    refine ⟨InitNodeToLink g stop, ?_, rfl, hstop⟩
    rw [List.head?_append_of_ne_nil _ hne]
    exact hhead
  rcases hcyc with ⟨node, visited, hst, hv⟩ | ⟨node, visited, pre, rfl, hst, hns⟩
  · obtain ⟨stem2, last2, hfull, hlast2, hchain, _, hvis⟩ := hst
    obtain ⟨l, hl, hlnode⟩ := hvis node hv
    have hglue := chain_glue g failurePath cyc p (InitNodeToLink g s) hfp hp hps hchain
    -- the stem of the search is `Init` followed by all links of `cyc` but the last
    cases stem2 with
    | nil => cases hl
    | cons q pre =>
      simp only [List.cons_append, List.cons.injEq] at hfull
      obtain ⟨rfl, rfl⟩ := hfull
      have hstemne : failurePath ++ pre ≠ [] := by simp [hne]
      obtain ⟨prev, hprev⟩ : ∃ prev, (failurePath ++ pre).getLast? = some prev := by
        cases hs : (failurePath ++ pre).getLast? with
        | none => exact absurd (List.getLast?_eq_none_iff.mp hs) hstemne
        | some prev => exact ⟨prev, rfl⟩
      rw [← List.append_assoc, List.chain'_append] at hglue
      refine ⟨failurePath ++ pre, prev, last2, by simp, hfirst pre, hprev, hglue.1,
        Or.inl ⟨hglue.2.2 prev hprev last2 rfl, ?_⟩⟩
      rcases List.mem_cons.mp hl with rfl | hl2
      · exact ⟨p, List.mem_append_left _ hpmem, by rw [hps, hlast2, ← hlnode]; rfl⟩
      · exact ⟨l, List.mem_append_right _ hl2, by rw [hlnode, hlast2]⟩
  · obtain ⟨stem2, last2, hfull, hlast2, hchain, _, _⟩ := hst
    have hglue := chain_glue g failurePath pre p (InitNodeToLink g s) hfp hp hps hchain
    have hstemne : failurePath ++ pre ≠ [] := by simp [hne]
    obtain ⟨prev, hprev⟩ : ∃ prev, (failurePath ++ pre).getLast? = some prev := by
      cases hs : (failurePath ++ pre).getLast? with
      | none => exact absurd (List.getLast?_eq_none_iff.mp hs) hstemne
      | some prev => exact ⟨prev, rfl⟩
    have hprevnode : prev.Node = node := by
      have hl2 : (InitNodeToLink g s :: pre).getLast? = some last2 := by
        rw [hfull]
        exact List.getLast?_concat _
      cases pre with
      | nil =>
        simp only [List.getLast?_singleton, Option.some.injEq] at hl2
        rw [List.append_nil, hp] at hprev
        cases hprev
        rw [hps, ← hlast2, ← hl2]
        rfl
      | cons a rest =>
        rw [List.getLast?_cons_cons] at hl2
        rw [List.getLast?_append_of_ne_nil _ (by simp), hl2] at hprev
        cases hprev
        exact hlast2
    refine ⟨failurePath ++ pre, prev, stutterLink node, by simp, hfirst pre, hprev, hglue,
      Or.inr ⟨rfl, ?_, ?_⟩⟩
    · rw [hprevnode]
      rfl
    · rw [hprevnode]
      exact hns


theorem foldl_closestDeadStep_mem (g : Graph) :
    ∀ (order : List NodeId) (start : Option NodeId) (c : NodeId),
      order.foldl (closestDeadStep g) start = some c → start = some c ∨ c ∈ order := by
  intro order
  induction order with
  | nil =>
    intro start c h
    exact Or.inl h
  | cons a rest ih =>
    intro start c h
    rw [List.foldl_cons] at h
    rcases ih _ c h with h1 | h1
    · cases start with
      | none =>
        simp only [closestDeadStep, Option.some.injEq] at h1
        exact Or.inr (by rw [h1]; exact List.mem_cons_self _ _)
      | some b =>
        unfold closestDeadStep at h1
        dsimp only at h1
        split_ifs at h1
        all_goals first
          | exact Or.inl h1
          | (simp only [Option.some.injEq] at h1
             exact Or.inr (by rw [h1]; exact List.mem_cons_self _ _))
    · exact Or.inr (List.mem_cons_of_mem _ h1)

theorem alwaysEventuallyFalseNodes_char (fuel : Nat) (g : Graph) (nodes : List NodeId)
    (predicate : Predicate) (hout : ∀ n ∈ nodes, (g n).Outbound ≠ [])
    (hmir : mirrored g nodes) (falseNodes : List NodeId)
    (h : alwaysEventuallyFalseNodes fuel g nodes predicate = Outcome.ret falseNodes) :
    ∀ x, x ∈ falseNodes ↔ x ∈ nodes ∧ ¬ reachesGoodSeed g nodes predicate x := by
  obtain ⟨q2, f2, e, h1, h2, _⟩ := alwaysEventuallySeed_spec g predicate nodes [] [] hout
  simp only [List.not_mem_nil, false_or] at h1 h2
  simp only [alwaysEventuallyFalseNodes, e] at h
  intro x
  rw [reverseBfs_spec g notStrongOrSelf fuel q2 [] f2 falseNodes h
    (fun y hy => by cases hy)
    (fun z hz => by
      rcases hz with hz | hz
      · rw [h2 z]
        exact fun hn => hn.2 ((h1 z).mp hz).2
      · cases hz) x]
  rw [h2 x]
  simp only [List.not_mem_nil, or_false]
  constructor
  · rintro ⟨⟨hx, _⟩, hno⟩
    refine ⟨hx, ?_⟩
    rintro ⟨s, ⟨hs, hgood⟩, hpath⟩
    exact hno ⟨s, (h1 s).mpr ⟨hs, hgood⟩, (followedInbound_of_strongPath hmir hx hpath).2⟩
  · rintro ⟨hx, hno⟩
    refine ⟨⟨hx, fun hgood => hno ⟨x, ⟨hx, hgood⟩, Relation.ReflTransGen.refl⟩⟩, ?_⟩
    rintro ⟨s, hs, hreach⟩
    obtain ⟨hsn, hgood⟩ := (h1 s).mp hs
    exact hno ⟨s, ⟨hsn, hgood⟩, (strongPath_of_followedInbound hmir hsn hreach).2⟩

theorem falseNodes_noStrongLink (g : Graph) (nodes : List NodeId) (predicate : Predicate)
    (hmir : mirrored g nodes) (falseNodes : List NodeId)
    (hchar : ∀ x, x ∈ falseNodes ↔ x ∈ nodes ∧ ¬ reachesGoodSeed g nodes predicate x)
    (node : NodeId) (hnode : node ∈ falseNodes)
    (hno : ∀ o ∈ (g node).Outbound, o.Fairness = FairnessLevel.STRONG → o.Node ∉ falseNodes) :
    noStrongLink g node := by
  intro o ho hs
  obtain ⟨hn, hbad⟩ := (hchar node).mp hnode
  have hon : o.Node ∈ nodes := (hmir.2 node hn o ho).1
  have : reachesGoodSeed g nodes predicate o.Node := by
    by_contra hc
    exact hno o ho hs ((hchar o.Node).mpr ⟨hon, hc⟩)
  obtain ⟨s, hs2, hpath⟩ := this
  exact hbad ⟨s, hs2, Relation.ReflTransGen.head ⟨o, ho, rfl, hs⟩ hpath⟩

theorem reachable_mem (g : Graph) (nodes : List NodeId) (hmir : mirrored g nodes)
    (root n : NodeId) (hroot : root ∈ nodes) (h : Relation.ReflTransGen (anyLink g) root n) :
    n ∈ nodes := by
  induction h with
  | refl => exact hroot
  | tail _ hstep ih =>
    obtain ⟨o, ho, rfl⟩ := hstep
    exact (hmir.2 _ ih o ho).1

theorem stop_is_root_or_init (g : Graph) (root : NodeId) (nodes : List NodeId)
    (hinv : graphInvariants g root nodes) (stop : NodeId) (hstop : stop ∈ nodes)
    (h : (g stop).Inbound = [] ∨ (g stop).Process.Name = "init" ∨ nodes.head? = some stop) :
    stop = root ∨ (g stop).Process.Name = "init" := by
  obtain ⟨hhead, hreach, hmir, _⟩ := hinv
  have hrootmem : root ∈ nodes := List.mem_of_mem_head? hhead
  rcases h with h | h | h
  · left
    rcases Relation.ReflTransGen.cases_tail (hreach stop hstop) with h1 | ⟨m, hm, o, ho, hos⟩
    · exact h1
    · have hmn := reachable_mem g nodes hmir root m hrootmem hm
      obtain ⟨_, l, hl, _⟩ := hmir.2 m hmn o ho
      rw [hos, h] at hl
      cases hl
  · exact Or.inr h
  · left
    rw [hhead] at h
    cases h
    rfl

theorem AlwaysEventuallyFast_violation_shape (fuel : Nat) (g : Graph)
    (iteration : List NodeId → List NodeId) (root : NodeId) (nodes : List NodeId)
    (predicate : Predicate) (path : List Link) (hinv : graphInvariants g root nodes)
    (hiter : ∀ m, (iteration m).Perm m)
    (h : AlwaysEventuallyFast fuel g iteration nodes predicate = Outcome.ret (path, false)) :
    fastCounterexample g root path := by
  have hmir := hinv.2.2.1
  have hout := hinv.2.2.2
  unfold AlwaysEventuallyFast at h
  cases hf : alwaysEventuallyFalseNodes fuel g nodes predicate with
  | ret falseNodes =>
    rw [hf] at h
    dsimp only at h
    have hchar := alwaysEventuallyFalseNodes_char fuel g nodes predicate hout hmir falseNodes hf
    split at h
    · unfold alwaysEventuallyFailure at h
      cases hc : (iteration falseNodes).foldl (closestDeadStep g) none with
      | none =>
        rw [hc] at h
        cases h
      | some closest =>
        rw [hc] at h
        dsimp only at h
        have hcmem : closest ∈ falseNodes := by
          rcases foldl_closestDeadStep_mem g _ _ _ hc with h1 | h1
          · cases h1
          · exact (hiter falseNodes).mem_iff.mp h1
        have hcn : closest ∈ nodes := ((hchar closest).mp hcmem).1
        cases hp : pathToInit fuel g nodes closest with
        | ret failurePath =>
          rw [hp] at h
          dsimp only at h
          cases hcyc : findCyclePath fuel g closest falseNodes with
          | ret cyc =>
            rw [hcyc] at h
            simp only [Outcome.ret.injEq, Prod.mk.injEq, and_true] at h
            subst h
            obtain ⟨stop, hstop, hkind, hhead, hchain, last, hlast, hlastnode⟩ :=
              pathToInit_shape g nodes hmir fuel closest hcn failurePath hp
            refine fast_counterexample_glue g root closest failurePath cyc stop
              (stop_is_root_or_init g root nodes hinv stop hstop hkind) hhead hchain last hlast
              hlastnode ?_
            rcases findCyclePath_shape g falseNodes closest fuel cyc hcyc with
              h1 | ⟨node, visited, pre, h2, h3, h4, h5⟩
            · exact Or.inl h1
            · refine Or.inr ⟨node, visited, pre, h2, h3, ?_⟩
              have hnode : node ∈ falseNodes := by
                rcases h4 with rfl | h4
                · exact hcmem
                · exact h4
              exact falseNodes_noStrongLink g nodes predicate hmir falseNodes hchar node hnode h5
          | fatal msg =>
            rw [hcyc] at h
            cases h
          | fuel =>
            rw [hcyc] at h
            cases h
        | fatal msg =>
          rw [hp] at h
          cases h
        | fuel =>
          rw [hp] at h
          cases h
    · simp at h
  | fatal msg =>
    rw [hf] at h
    cases h
  | fuel =>
    rw [hf] at h
    cases h


theorem fastCounterexample_of_final (g : Graph) (root : NodeId) (path : List Link)
    (h : finalCounterexample g root path) : fastCounterexample g root path := by
  obtain ⟨stem, prev, last, hpath, ⟨first, hfirst, hname, hnode⟩, hprev, hchain, hlast⟩ := h
  refine ⟨stem, prev, last, hpath, ⟨first, hfirst, hname, Or.inl hnode⟩, hprev,
    hchain.imp (connectedByOutbound_of_follows g), ?_⟩
  rcases hlast with ⟨h1, h2⟩ | ⟨h1, h2, h3⟩
  · exact Or.inl ⟨connectedByOutbound_of_follows g prev last h1, h2⟩
  · exact Or.inr ⟨h1, h2, fun o ho => (h3.2.1 o ho).2⟩

theorem searchState_stutter_fast {g : Graph} {root node : NodeId} {visited : List NodeId}
    {path : List Link} (h : searchState g root node visited path)
    (hnofair : hasFairLink (g node).Outbound = false) :
    fastCounterexample g root (path ++ [stutterLink node]) := by
  obtain ⟨stem, last, rfl, hlast, hchain, ⟨first, hfirst, hname, hnode⟩, _⟩ := h
  refine ⟨stem ++ [last], last, stutterLink node, rfl, ⟨first, hfirst, hname, Or.inl hnode⟩,
    by simp, hchain.imp (connectedByOutbound_of_follows g), Or.inr ⟨rfl, ?_, ?_⟩⟩
  · rw [hlast]
    rfl
  · rw [hlast]
    intro o ho hs
    simp only [hasFairLink, List.any_eq_false, decide_eq_true_eq, not_or] at hnofair
    exact (hnofair o ho).1 hs

theorem cycleFinderBfsLoop_shape (g : Graph) (callback : CycleCallback) (root : NodeId) :
    ∀ (fuel : Nat) (queue : List Wrapper) (p : List Link),
      (∀ e ∈ queue, searchState g root e.link.Node e.visited (e.path ++ [e.link])) →
      cycleFinderBfsLoop g callback fuel queue = Outcome.ret (p, false) →
      fastCounterexample g root p := by
  intro fuel
  induction fuel with
  | zero =>
    intro queue p _ h
    cases queue <;> simp [cycleFinderBfsLoop] at h
  | succ fuel ih =>
    intro queue p hq h
    cases queue with
    | nil => simp [cycleFinderBfsLoop] at h
    | cons e rest =>
      rw [cycleFinderBfsLoop] at h
      dsimp only at h
      have hst := hq e (List.mem_cons_self _ _)
      have hrest : ∀ e2 ∈ rest ++ (g e.link.Node).Outbound.map (fun outLink =>
          Wrapper.mk outLink (e.path ++ [e.link]) (setInsert e.visited e.link.Node)),
          searchState g root e2.link.Node e2.visited (e2.path ++ [e2.link]) := by
        intro e2 he2
        rcases List.mem_append.mp he2 with h1 | h1
        · exact hq e2 (List.mem_cons_of_mem _ h1)
        · obtain ⟨o, ho, rfl⟩ := List.mem_map.mp h1
          exact searchState_step hst ho
      by_cases hv : e.link.Node ∈ e.visited
      · rw [if_pos hv] at h
        cases hc : callback (e.path ++ [e.link]) with
        | ret live =>
          rw [hc] at h
          cases live with
          | true =>
            simp only [if_true] at h
            exact ih rest p (fun e2 he2 => hq e2 (List.mem_cons_of_mem _ he2)) h
          | false =>
            simp only [Bool.false_eq_true, if_false, Outcome.ret.injEq, Prod.mk.injEq,
              and_true] at h
            subst h
            exact fastCounterexample_of_final g root _ (searchState_cycle hst hv)
        | fatal msg =>
          rw [hc] at h
          cases h
        | fuel =>
          rw [hc] at h
          cases h
      · rw [if_neg hv] at h
        by_cases hfair : hasFairLink (g e.link.Node).Outbound = true
        · rw [if_pos hfair] at h
          exact ih _ p hrest h
        · rw [if_neg hfair] at h
          cases hc : callback (e.path ++ [e.link] ++ [stutterLink e.link.Node]) with
          | ret live =>
            rw [hc] at h
            cases live with
            | true =>
              simp only [if_true] at h
              exact ih _ p hrest h
            | false =>
              simp only [Bool.false_eq_true, if_false, Outcome.ret.injEq, Prod.mk.injEq,
                and_true] at h
              subst h
              exact searchState_stutter_fast hst (by simpa using hfair)
          | fatal msg =>
            rw [hc] at h
            cases h
          | fuel =>
            rw [hc] at h
            cases h

theorem EventuallyAlwaysFast_violation_shape (fuel : Nat) (g : Graph)
    (iteration : List NodeId → List NodeId) (root : NodeId) (nodes : List NodeId)
    (predicate : Predicate) (path : List Link) (hinv : graphInvariants g root nodes)
    (hiter : ∀ m, (iteration m).Perm m)
    (h : EventuallyAlwaysFast fuel g iteration nodes predicate = Outcome.ret (path, false)) :
    fastCounterexample g root path := by
  unfold EventuallyAlwaysFast at h
  cases ht : eventuallyAlwaysTrueNodes fuel g nodes predicate with
  | ret trueNodes =>
    rw [ht] at h
    dsimp only at h
    split at h
    · exact AlwaysEventuallyFast_violation_shape fuel g iteration root nodes _ path hinv hiter h
    · obtain ⟨hhead, _⟩ := hinv
      cases hn : nodes with
      | nil =>
        rw [hn] at hhead
        cases hhead
      | cons r others =>
        rw [hn] at h hhead
        simp only [List.head?_cons, Option.some.injEq] at hhead
        subst hhead
        dsimp only at h
        refine cycleFinderBfsLoop_shape g _ r fuel _ path (fun e he => ?_) h
        rw [List.mem_singleton] at he
        subst he
        exact searchState_root g r
  | fatal msg =>
    rw [ht] at h
    cases h
  | fuel =>
    rw [ht] at h
    cases h

theorem weakPingPongGraph_invariants : graphInvariants weakPingPongGraph 0 [0, 1, 2] := by
  refine ⟨rfl, ?_, by unfold mirrored; decide, by decide⟩
  have h01 : anyLink weakPingPongGraph 0 1 := ⟨{ Node := 1, Name := "step" }, by decide, rfl⟩
  have h12 : anyLink weakPingPongGraph 1 2 :=
    ⟨{ Node := 2, Name := "ping", Fairness := FairnessLevel.WEAK }, by decide, rfl⟩
  intro n hn
  simp only [List.mem_cons, List.mem_singleton, List.not_mem_nil, or_false] at hn
  rcases hn with rfl | rfl | rfl
  · exact Relation.ReflTransGen.refl
  · exact Relation.ReflTransGen.single h01
  · exact (Relation.ReflTransGen.single h01).tail h12

/-- C8 (as stated, refuted): `weakPingPongGraph` satisfies the graph invariants
with root 0, and `AlwaysEventuallyFast` returns on it the violation path `Init`
at state 0, `step` to state 1, `stutter` at state 1. The final link does not
close a cycle, since state 1 has no outbound link to itself, and state 1 is a
`yield` state that has a weak-fair outbound link, so the path does not have the
claimed shape. -/
theorem AlwaysEventuallyFast_path_not_claimed_shape :
    graphInvariants weakPingPongGraph 0 [0, 1, 2] ∧
    AlwaysEventuallyFast 6 weakPingPongGraph id [0, 1, 2] (fastPredicate weakPingPongGraph 0 0) =
      Outcome.ret (weakPingPongPath, false) ∧
    ¬ claimedFastCounterexample weakPingPongGraph 0 weakPingPongPath := by
  refine ⟨weakPingPongGraph_invariants, by decide, ?_⟩
  rintro ⟨stem, prev, last, hpath, _, hprev, _, hlast⟩
  have hstem : stem = [{ Node := 0, Name := "Init" }, { Node := 1, Name := "step" }] ∧
      last = { Node := 1, Name := "stutter" } := by
    have hlen := congrArg List.length hpath
    simp only [weakPingPongPath, List.length_cons, List.length_nil, List.length_append] at hlen
    match stem, hlen, hpath with
    | [a, b], _, hpath =>
      simp only [weakPingPongPath, List.cons_append, List.nil_append, List.cons.injEq,
        and_true] at hpath
      obtain ⟨rfl, rfl, rfl⟩ := hpath
      exact ⟨rfl, rfl⟩
  obtain ⟨rfl, rfl⟩ := hstem
  simp only [List.getLast?, List.getLast, Option.some.injEq] at hprev
  subst hprev
  rcases hlast with ⟨⟨o, ho, hnode⟩, _⟩ | ⟨_, _, _, hfair, _⟩
  · simp only [weakPingPongGraph, List.mem_singleton] at ho
    subst ho
    cases hnode
  · exact absurd (hfair { Node := 2, Name := "ping", Fairness := FairnessLevel.WEAK }
      (by decide)) (by decide)

/-- C8 (amended): on a graph that satisfies the graph invariants, every violation
path returned by `AlwaysEventuallyFast` or `EventuallyAlwaysFast` has the shape
`fastCounterexample`: it begins with a link named `Init` at the root or at a
node named `init`, each adjacent pair of links is connected by an outbound link
of the node of the earlier link, and the final link either closes a cycle or is
a link named `stutter` at the node of the link before it, which has no
strong-fair outbound link. -/
theorem fast_violation_path_shape (fuel : Nat) (g : Graph)
    (iteration : List NodeId → List NodeId) (root : NodeId) (nodes : List NodeId)
    (predicate : Predicate) (path : List Link) (hinv : graphInvariants g root nodes)
    (hiter : ∀ m, (iteration m).Perm m) :
    (AlwaysEventuallyFast fuel g iteration nodes predicate = Outcome.ret (path, false) →
      fastCounterexample g root path) ∧
    (EventuallyAlwaysFast fuel g iteration nodes predicate = Outcome.ret (path, false) →
      fastCounterexample g root path) :=
  ⟨AlwaysEventuallyFast_violation_shape fuel g iteration root nodes predicate path hinv hiter,
    EventuallyAlwaysFast_violation_shape fuel g iteration root nodes predicate path hinv hiter⟩

theorem fast_violation_path_shape_witness :
    graphInvariants weakPingPongGraph 0 [0, 1, 2] ∧
    (∀ m : List NodeId, (id m).Perm m) ∧
    AlwaysEventuallyFast 6 weakPingPongGraph id [0, 1, 2] (fastPredicate weakPingPongGraph 0 0) =
      Outcome.ret (weakPingPongPath, false) ∧
    fastCounterexample weakPingPongGraph 0 weakPingPongPath :=
  ⟨weakPingPongGraph_invariants, fun _ => List.Perm.refl _, by decide,
    (fast_violation_path_shape 6 weakPingPongGraph id 0 [0, 1, 2]
      (fastPredicate weakPingPongGraph 0 0) weakPingPongPath weakPingPongGraph_invariants
      (fun _ => List.Perm.refl _)).1 (by decide)⟩


theorem traverseOutbound_single
    (explore : NodeId → List NodeId → List Link → List NodeId →
      Outcome (List Link × Bool × List NodeId))
    (visited : List NodeId) (path : List Link) (o : Link) (globalVisited : List NodeId)
    (p : List Link) (live : Bool) (gv : List NodeId)
    (h : explore o.Node visited (path ++ [o]) globalVisited = Outcome.ret (p, live, gv)) :
    ∃ p2, traverseOutbound explore visited path [o] globalVisited = Outcome.ret (p2, live, gv) := by
  unfold traverseOutbound
  rw [h]
  cases live with
  | true => exact ⟨[], by simp [traverseOutbound]⟩
  | false => exact ⟨p, by simp⟩

theorem hasFairLink_of_strong (o : Link) (h : o.Fairness = FairnessLevel.STRONG) :
    hasFairLink [o] = true := by
  simp [hasFairLink, h]

theorem cycleFinderHelper_deterministic (g : Graph) (callback : CycleCallback)
    (nodes : List NodeId)
    (hclosed : ∀ n ∈ nodes, ∀ o ∈ (g n).Outbound, o.Node ∈ nodes)
    (hdet : deterministic g nodes)
    (hcb : ∀ p, p ≠ [] → ∃ b, callback p = Outcome.ret b) :
    ∀ (depth : Nat) (node : NodeId) (visited : List NodeId) (stem : List Link) (last : Link)
      (globalVisited : List NodeId),
      last.Node = node → node ∈ nodes →
      List.Chain' (followsOutbound g) (stem ++ [last]) →
      (stem.map Link.Node).Nodup →
      (∀ v, v ∈ visited ↔ v ∈ stem.map Link.Node) →
      (∀ v ∈ globalVisited, v ∈ visited) →
      (∀ l ∈ stem, l.Node ∈ nodes) →
      unvisitedCount nodes visited + 1 ≤ depth →
      ∃ p live gv pre lm mid lk,
        cycleFinderHelper g callback depth node visited (stem ++ [last]) globalVisited =
          Outcome.ret (p, live, gv) ∧
        lasso g nodes pre lm mid lk ∧
        (pre ++ lm :: (mid ++ [lk])).head? = (stem ++ [last]).head? ∧
        callback (pre ++ lm :: (mid ++ [lk])) = Outcome.ret live := by
  intro depth
  induction depth with
  | zero =>
    intro node visited stem last gv _ _ _ _ _ _ _ hdepth
    omega
  | succ depth ih =>
    intro node visited stem last gv hlast hnode hchain hnodup hvis hgv hstem hdepth
    rw [cycleFinderHelper]
    by_cases hv : node ∈ visited
    · rw [if_pos hv]
      obtain ⟨lm, hlm, hlmnode⟩ := List.mem_map.mp ((hvis node).mp hv)
      obtain ⟨pre, mid, rfl⟩ := List.append_of_mem hlm
      obtain ⟨b, hb⟩ := hcb ((pre ++ lm :: mid) ++ [last]) (by simp)
      rw [hb]
      refine ⟨_, b, gv, pre, lm, mid, last, rfl, ⟨?_, ?_, hnodup, hstem⟩, ?_, ?_⟩
      · rw [hlast, hlmnode]
      · simpa using hchain
      · simp
      · simpa using hb
    · rw [if_neg hv]
      dsimp only
      have hngv : node ∉ gv := fun h => hv (hgv node h)
      rw [if_neg hngv]
      obtain ⟨o, ho, hstrong, _⟩ := hdet node hnode
      rw [ho, hasFairLink_of_strong o hstrong]
      have hstep := ih o.Node (setInsert visited node) (stem ++ [last]) o (setInsert gv node) rfl
        (hclosed node hnode o (by rw [ho]; exact List.mem_singleton_self o))
        (by
          rw [List.chain'_append]
          refine ⟨hchain, List.chain'_singleton _, ?_⟩
          intro x hx y hy
          rw [List.getLast?_concat] at hx
          simp only [Option.mem_def, Option.some.injEq] at hx
          simp only [List.head?_cons, Option.mem_def, Option.some.injEq] at hy
          subst hx hy
          unfold followsOutbound
          rw [hlast, ho]
          exact List.mem_singleton_self _)
        (by
          rw [List.map_append, List.map_singleton, List.nodup_append]
          refine ⟨hnodup, List.nodup_singleton _, ?_⟩
          intro a ha hb
          rw [List.mem_singleton] at hb
          rw [hb, hlast] at ha
          exact hv ((hvis node).mpr ha))
        (by
          intro v
          rw [mem_setInsert, List.map_append, List.map_singleton, List.mem_append,
            List.mem_singleton, hvis v, hlast])
        (by
          intro v hv2
          rw [mem_setInsert] at hv2 ⊢
          rcases hv2 with h | h
          · exact Or.inl (hgv v h)
          · exact Or.inr h)
        (by
          intro l hl
          rw [List.mem_append, List.mem_singleton] at hl
          rcases hl with h | h
          · exact hstem l h
          · rw [h, hlast]
            exact hnode)
        (by
          have := unvisitedCount_insert visited node hv nodes hnode
          omega)
      obtain ⟨p, live, gv2, pre, lm, mid, lk, hres, hlasso, hhead, hcall⟩ := hstep
      obtain ⟨p2, hp2⟩ := traverseOutbound_single (cycleFinderHelper g callback depth)
        (setInsert visited node) (stem ++ [last]) o (setInsert gv node) p live gv2 hres
      refine ⟨p2, live, gv2, pre, lm, mid, lk, ?_, hlasso, ?_, hcall⟩
      · simp only [Bool.not_true, Bool.false_eq_true, false_and, and_false, if_false]
        exact hp2
      · rw [hhead, List.head?_append_of_ne_nil _ (by simp)]


theorem chain_get_succ {R : Link → Link → Prop} :
    ∀ (c : List Link) (i : Nat) (x y : Link), List.Chain' R c →
      c.get? i = some x → c.get? (i + 1) = some y → R x y
  | [], _, _, _, _, h, _ => by simp at h
  | [_], _, _, _, _, _, h2 => by simp at h2
  | a :: b :: t, 0, x, y, hc, h1, h2 => by
    simp only [List.get?_cons_zero, Option.some.injEq, List.get?_cons_succ] at h1 h2
    subst h1 h2
    exact (List.chain'_cons.mp hc).1
  | _ :: b :: t, i + 1, x, y, hc, h1, h2 =>
    chain_get_succ (b :: t) i x y (List.chain'_cons.mp hc).2 (by simpa using h1)
      (by simpa using h2)

theorem isFairCycle_deterministic (g : Graph) (nodes : List NodeId)
    (hdet : deterministic g nodes) (lm : Link) (mid : List Link) (lk : Link)
    (hnode : lk.Node = lm.Node)
    (hchain : List.Chain' (followsOutbound g) (lm :: (mid ++ [lk])))
    (hmem : ∀ l ∈ lm :: mid, l.Node ∈ nodes) :
    isFairCycle g (lm :: (mid ++ [lk])) = true := by
  have hall : ∀ i link, (lm :: (mid ++ [lk])).get? i = some link → link.Node ∈ nodes := by
    intro i link hget
    have hin := List.get?_mem hget
    rw [List.mem_cons, List.mem_append, List.mem_singleton] at hin
    rcases hin with h | h | h
    · exact hmem link (h ▸ List.mem_cons_self _ _)
    · exact hmem link (List.mem_cons_of_mem _ h)
    · rw [h, hnode]
      exact hmem lm (List.mem_cons_self _ _)
  rw [isFairCycle_iff]
  refine ⟨?_, ?_, ?_⟩
  · rintro ⟨k, m, _, _, ⟨_, link, outLink, hget, hout, hname, _⟩, _⟩
    obtain ⟨o, ho, _, hcrash⟩ := hdet link.Node (hall k link hget)
    rw [ho, List.mem_singleton] at hout
    exact hcrash (hout ▸ hname)
  · rintro a ⟨⟨i, hpart, link, outLink, hget, hout, hfair, hname, hsucc⟩, hnot⟩
    apply hnot
    obtain ⟨o, ho, _, _⟩ := hdet link.Node (hall i link hget)
    rw [ho, List.mem_singleton] at hout
    subst hout
    have hlen : (lm :: (mid ++ [lk])).length = mid.length + 2 := by simp
    have hi : i < mid.length + 2 := by
      rw [← hlen]
      exact (List.get?_eq_some.mp hget).1
    by_cases hlt : i + 1 < mid.length + 2
    · exfalso
      obtain ⟨next, hnext⟩ : ∃ next, (lm :: (mid ++ [lk])).get? (i + 1) = some next :=
        ⟨_, List.get?_eq_get (by rw [hlen]; exact hlt)⟩
      have hfollow := chain_get_succ _ i link next hchain hget hnext
      unfold followsOutbound at hfollow
      rw [ho, List.mem_singleton] at hfollow
      apply hsucc
      unfold succNode
      rw [hlen, Nat.mod_eq_of_lt hlt, hnext, hfollow]
      rfl
    · have hi2 : i = mid.length + 1 := by omega
      subst hi2
      have hlink : link = lk := by
        simpa using hget.symm
      subst hlink
      obtain ⟨second, hsecond⟩ : ∃ second, (lm :: (mid ++ [link])).get? (0 + 1) = some second :=
        ⟨_, List.get?_eq_get (by rw [hlen]; omega)⟩
      have hfollow := chain_get_succ _ 0 lm second hchain rfl hsecond
      unfold followsOutbound at hfollow
      rw [← hnode, ho, List.mem_singleton] at hfollow
      have hp0 : participates g (lm :: (mid ++ [link])) 0 := by
        have h0 : (lm :: (mid ++ [link])).get? 0 = some lm := rfl
        rw [participates_of_get h0, ← hnode]
        exact (participates_of_get hget).mp hpart
      refine ⟨0, hp0, lm, outLink, rfl, ?_, hfair, hname, ?_⟩
      · rw [← hnode, ho]
        exact List.mem_singleton_self _
      · unfold succNode
        rw [hlen, Nat.mod_eq_of_lt (by omega), hsecond, hfollow]
        rfl
  · rintro a ⟨⟨i, hi⟩, hallw⟩
    obtain ⟨⟨_, link, outLink, hget, hout, hfair, _⟩, _⟩ := hallw i hi
    obtain ⟨o, ho, hstrong, _⟩ := hdet link.Node (hall i link hget)
    rw [ho, List.mem_singleton] at hout
    rw [hout, hstrong] at hfair
    cases hfair


theorem alwaysEventuallyScan_cycle (predicate : Predicate) (mergeNode : NodeId) (last : Nat)
    (lm : Link) (preR : List Link) (hlm : lm.Node = mergeNode) (hlen : preR.length < last) :
    ∀ seg : List Link, (∀ l ∈ seg, l.Node ≠ mergeNode) →
      alwaysEventuallyScan predicate mergeNode last (seg ++ lm :: preR) =
        if (seg ++ [lm]).any (fun l => (predicate l.Node).1 && (predicate l.Node).2) = true
        then none else some preR.length := by
  intro seg
  induction seg with
  | nil =>
    intro _
    simp only [List.nil_append, alwaysEventuallyScan, List.any_cons, List.any_nil,
      Bool.or_false]
    split_ifs with h1 h2
    · rfl
    · rfl
    · exact absurd ⟨hlen, hlm⟩ h2
  | cons l seg ih =>
    intro hseg
    have hl : l.Node ≠ mergeNode := hseg l (List.mem_cons_self _ _)
    have ih2 := ih (fun x hx => hseg x (List.mem_cons_of_mem _ hx))
    rw [List.cons_append, alwaysEventuallyScan, List.cons_append, List.any_cons]
    by_cases h1 : ((predicate l.Node).1 && (predicate l.Node).2) = true
    · simp [h1]
    · rw [if_neg h1, if_neg (fun h => hl h.2), ih2]
      simp only [Bool.not_eq_true] at h1
      rw [h1, Bool.false_or]

theorem alwaysEventuallyCallback_lasso (g : Graph) (nodes : List NodeId)
    (predicate : Predicate) (hdet : deterministic g nodes) (pre : List Link) (lm : Link)
    (mid : List Link) (lk : Link) (h : lasso g nodes pre lm mid lk) :
    alwaysEventuallyCallback g predicate (pre ++ lm :: (mid ++ [lk])) =
      Outcome.ret ((lm :: mid).any (fun l => (predicate l.Node).1 && (predicate l.Node).2)) := by
  obtain ⟨hnode, hchain, hnodup, hmem⟩ := h
  have hlast : (pre ++ lm :: (mid ++ [lk])).getLast? = some lk := by
    rw [show pre ++ lm :: (mid ++ [lk]) = (pre ++ lm :: mid) ++ [lk] by simp,
      List.getLast?_concat]
  have hrev : (pre ++ lm :: (mid ++ [lk])).reverse = lk :: (mid.reverse ++ lm :: pre.reverse) := by
    simp
  have hlen : (pre ++ lm :: (mid ++ [lk])).length - 1 = pre.length + mid.length + 1 := by
    simp
    omega
  have hmid : ∀ l ∈ mid.reverse, l.Node ≠ lk.Node := by
    intro l hl heq
    rw [List.mem_reverse] at hl
    rw [List.map_append, List.map_cons, List.nodup_append] at hnodup
    have h2 := (List.nodup_cons.mp hnodup.2.1).1
    apply h2
    rw [← hnode, ← heq]
    exact List.mem_map_of_mem _ hl
  have hfair : isFairCycle g (lm :: (mid ++ [lk])) = true :=
    isFairCycle_deterministic g nodes hdet lm mid lk hnode
      (List.Chain'.right_of_append hchain)
      (fun l hl => hmem l (List.mem_append_right _ hl))
  have hdrop : (pre ++ lm :: (mid ++ [lk])).drop pre.length = lm :: (mid ++ [lk]) := by
    simp
  unfold alwaysEventuallyCallback
  rw [hlast]
  dsimp only
  rw [hrev, hlen, alwaysEventuallyScan]
  have hscan := alwaysEventuallyScan_cycle predicate lk.Node (pre.length + mid.length + 1) lm
    pre.reverse hnode.symm (by simp; omega) mid.reverse hmid
  by_cases h1 : ((predicate lk.Node).1 && (predicate lk.Node).2) = true
  · rw [if_pos h1]
    dsimp only
    rw [hnode] at h1
    simp [h1]
  · rw [if_neg h1, if_neg (by simp; omega), hscan]
    simp only [Bool.not_eq_true] at h1
    by_cases h2 : (mid.reverse ++ [lm]).any
        (fun l => (predicate l.Node).1 && (predicate l.Node).2) = true
    · rw [if_pos h2]
      dsimp only
      have : (lm :: mid).any (fun l => (predicate l.Node).1 && (predicate l.Node).2) = true := by
        rw [List.any_eq_true] at h2 ⊢
        obtain ⟨x, hx, hxs⟩ := h2
        refine ⟨x, ?_, hxs⟩
        simpa [or_comm] using hx
      rw [this]
    · rw [if_neg h2]
      dsimp only
      rw [List.length_reverse, hdrop, hfair, if_pos rfl]
      have : (lm :: mid).any (fun l => (predicate l.Node).1 && (predicate l.Node).2) = false := by
        rw [Bool.not_eq_true] at h2
        rw [List.any_eq_false] at h2 ⊢
        intro x hx
        exact h2 x (by simpa [or_comm] using hx)
      rw [this]


theorem eventuallyAlwaysScan_cycle (predicate : Predicate) (mergeNode : NodeId) (last : Nat)
    (lm : Link) (preR : List Link) (hlm : lm.Node = mergeNode) (hlen : preR.length < last) :
    ∀ (seg : List Link) (dead : Bool), (∀ l ∈ seg, l.Node ≠ mergeNode) →
      eventuallyAlwaysScan predicate mergeNode last (seg ++ lm :: preR) dead =
        (preR.length, dead ||
          (seg ++ [lm]).any (fun l => (predicate l.Node).1 && !(predicate l.Node).2)) := by
  intro seg
  induction seg with
  | nil =>
    intro dead _
    rw [List.nil_append, eventuallyAlwaysScan, List.nil_append, List.any_cons, List.any_nil,
      Bool.or_false]
    rw [if_pos ⟨hlen, hlm⟩]
    cases ((predicate lm.Node).1 && !(predicate lm.Node).2) <;> cases dead <;> rfl
  | cons l seg ih =>
    intro dead hseg
    have hl : l.Node ≠ mergeNode := hseg l (List.mem_cons_self _ _)
    rw [List.cons_append, eventuallyAlwaysScan, List.cons_append, List.any_cons]
    rw [if_neg (fun h => hl h.2), ih _ (fun x hx => hseg x (List.mem_cons_of_mem _ hx))]
    cases ((predicate l.Node).1 && !(predicate l.Node).2) <;> cases dead <;> simp

theorem eventuallyAlwaysCallback_lasso (g : Graph) (nodes : List NodeId)
    (predicate : Predicate) (hdet : deterministic g nodes) (pre : List Link) (lm : Link)
    (mid : List Link) (lk : Link) (h : lasso g nodes pre lm mid lk) :
    eventuallyAlwaysCallback g predicate (pre ++ lm :: (mid ++ [lk])) =
      Outcome.ret
        (!(lm :: mid).any (fun l => (predicate l.Node).1 && !(predicate l.Node).2)) := by
  obtain ⟨hnode, hchain, hnodup, hmem⟩ := h
  have hlast : (pre ++ lm :: (mid ++ [lk])).getLast? = some lk := by
    rw [show pre ++ lm :: (mid ++ [lk]) = (pre ++ lm :: mid) ++ [lk] by simp,
      List.getLast?_concat]
  have hrev : (pre ++ lm :: (mid ++ [lk])).reverse = lk :: (mid.reverse ++ lm :: pre.reverse) := by
    simp
  have hlen : (pre ++ lm :: (mid ++ [lk])).length - 1 = pre.length + mid.length + 1 := by
    simp
    omega
  have hmid : ∀ l ∈ mid.reverse, l.Node ≠ lk.Node := by
    intro l hl heq
    rw [List.mem_reverse] at hl
    rw [List.map_append, List.map_cons, List.nodup_append] at hnodup
    have h2 := (List.nodup_cons.mp hnodup.2.1).1
    apply h2
    rw [← hnode, ← heq]
    exact List.mem_map_of_mem _ hl
  have hfair : isFairCycle g (lm :: (mid ++ [lk])) = true :=
    isFairCycle_deterministic g nodes hdet lm mid lk hnode
      (List.Chain'.right_of_append hchain)
      (fun l hl => hmem l (List.mem_append_right _ hl))
  have hdrop : (pre ++ lm :: (mid ++ [lk])).drop pre.length = lm :: (mid ++ [lk]) := by
    simp
  have hany : ((if ((predicate lk.Node).1 && !(predicate lk.Node).2) = true then true else false) ||
      (mid.reverse ++ [lm]).any (fun l => (predicate l.Node).1 && !(predicate l.Node).2)) =
      (lm :: mid).any (fun l => (predicate l.Node).1 && !(predicate l.Node).2) := by
    rw [hnode, List.any_append, List.any_reverse, List.any_cons, List.any_cons, List.any_nil,
      Bool.or_false]
    cases ((predicate lm.Node).1 && !(predicate lm.Node).2) <;>
      cases (mid.any (fun l => (predicate l.Node).1 && !(predicate l.Node).2)) <;> rfl
  have hscan : eventuallyAlwaysScan predicate lk.Node (pre.length + mid.length + 1)
      (lk :: (mid.reverse ++ lm :: pre.reverse)) false =
      (pre.length, (lm :: mid).any (fun l => (predicate l.Node).1 && !(predicate l.Node).2)) := by
    rw [eventuallyAlwaysScan]
    rw [if_neg (by simp; omega),
      eventuallyAlwaysScan_cycle predicate lk.Node (pre.length + mid.length + 1) lm
        pre.reverse hnode.symm (by simp; omega) mid.reverse _ hmid, List.length_reverse, hany]
  unfold eventuallyAlwaysCallback
  rw [hlast]
  dsimp only
  rw [hrev, hlen, hscan]
  dsimp only
  rw [hdrop, hfair, Bool.and_true]
  cases ((lm :: mid).any (fun l => (predicate l.Node).1 && !(predicate l.Node).2)) <;> rfl


theorem chain_succ_mem {R : Link → Link → Prop} :
    ∀ (s : List Link) (z : Link), List.Chain' R (s ++ [z]) →
      ∀ l ∈ s, ∃ l2 ∈ s ++ [z], R l l2 := by
  intro s
  induction s with
  | nil =>
    intro z _ l hl
    cases hl
  | cons a t ih =>
    intro z hchain l hl
    rw [List.cons_append, List.chain'_cons'] at hchain
    rcases List.mem_cons.mp hl with rfl | hl
    · cases ht : t ++ [z] with
      | nil => simp at ht
      | cons y rest =>
        rw [ht] at hchain
        exact ⟨y, by rw [List.cons_append, ht]; simp, hchain.1 y rfl⟩
    · obtain ⟨l2, hl2, hr⟩ := ih z hchain.2 l hl
      exact ⟨l2, List.mem_cons_of_mem _ hl2, hr⟩

theorem strongLink_of_follows (g : Graph) (nodes : List NodeId) (hdet : deterministic g nodes)
    (a y : Link) (ha : a.Node ∈ nodes) (h : followsOutbound g a y) :
    strongLink g a.Node y.Node := by
  obtain ⟨o, ho, hstrong, _⟩ := hdet a.Node ha
  unfold followsOutbound at h
  refine ⟨y, h, rfl, ?_⟩
  rw [ho, List.mem_singleton] at h
  rw [h]
  exact hstrong

theorem anyLink_of_strongLink (g : Graph) (a b : NodeId) (h : strongLink g a b) :
    anyLink g a b := by
  obtain ⟨o, ho, hb, _⟩ := h
  exact ⟨o, ho, hb⟩

theorem lasso_closed (g : Graph) (nodes : List NodeId) (hdet : deterministic g nodes)
    (s : List Link) (z : Link) (hchain : List.Chain' (followsOutbound g) (s ++ [z]))
    (hz : z.Node ∈ s.map Link.Node) (hmem : ∀ l ∈ s, l.Node ∈ nodes) :
    ∀ x ∈ s.map Link.Node, ∀ y, Relation.ReflTransGen (anyLink g) x y →
      y ∈ s.map Link.Node := by
  intro x hx y hreach
  induction hreach with
  | refl => exact hx
  | @tail b c _ hstep ih =>
    obtain ⟨l, hl, rfl⟩ := List.mem_map.mp ih
    obtain ⟨l2, hl2, hfollow⟩ := chain_succ_mem s z hchain l hl
    obtain ⟨o, ho, _, _⟩ := hdet l.Node (hmem l hl)
    obtain ⟨o2, ho2, rfl⟩ := hstep
    unfold followsOutbound at hfollow
    rw [ho, List.mem_singleton] at hfollow ho2
    rw [ho2, ← hfollow]
    rcases List.mem_append.mp hl2 with h | h
    · exact List.mem_map_of_mem _ h
    · rw [List.mem_singleton] at h
      rw [h]
      exact hz

theorem chain_reach_last (g : Graph) (nodes : List NodeId) (hdet : deterministic g nodes) :
    ∀ (s : List Link) (z : Link), List.Chain' (followsOutbound g) (s ++ [z]) →
      (∀ l ∈ s, l.Node ∈ nodes) →
      ∀ l ∈ s, Relation.ReflTransGen (strongLink g) l.Node z.Node := by
  intro s
  induction s with
  | nil =>
    intro z _ _ l hl
    cases hl
  | cons a t ih =>
    intro z hchain hmem l hl
    rw [List.cons_append, List.chain'_cons'] at hchain
    have iht := ih z hchain.2 (fun x hx => hmem x (List.mem_cons_of_mem _ hx))
    rcases List.mem_cons.mp hl with rfl | hl
    · cases t with
      | nil =>
        exact Relation.ReflTransGen.single
          (strongLink_of_follows g nodes hdet l z (hmem l (List.mem_cons_self _ _))
            (hchain.1 z rfl))
      | cons b rest =>
        exact Relation.ReflTransGen.head
          (strongLink_of_follows g nodes hdet l b (hmem l (List.mem_cons_self _ _))
            (hchain.1 b rfl))
          (iht b (List.mem_cons_self _ _))
    · exact iht l hl

theorem chain_reach_from_head (g : Graph) (nodes : List NodeId)
    (hdet : deterministic g nodes) :
    ∀ (t : List Link) (a : Link), List.Chain' (followsOutbound g) (a :: t) →
      (∀ l ∈ a :: t, l.Node ∈ nodes) →
      ∀ l ∈ a :: t, Relation.ReflTransGen (strongLink g) a.Node l.Node := by
  intro t
  induction t with
  | nil =>
    intro a _ _ l hl
    rw [List.mem_singleton] at hl
    rw [hl]
  | cons b rest ih =>
    intro a hchain hmem l hl
    rw [List.chain'_cons] at hchain
    rcases List.mem_cons.mp hl with rfl | hl
    · exact Relation.ReflTransGen.refl
    · exact Relation.ReflTransGen.head
        (strongLink_of_follows g nodes hdet a b (hmem a (List.mem_cons_self _ _)) hchain.1)
        (ih b hchain.2 (fun x hx => hmem x (List.mem_cons_of_mem _ hx)) l hl)


theorem lasso_facts (g : Graph) (root : NodeId) (nodes : List NodeId)
    (hinv : graphInvariants g root nodes) (hdet : deterministic g nodes) (pre : List Link)
    (lm : Link) (mid : List Link) (lk : Link) (h : lasso g nodes pre lm mid lk)
    (hhead : (pre ++ lm :: (mid ++ [lk])).head? = some (InitNodeToLink g root)) :
    (∀ l ∈ lm :: mid, l.Node ∈ nodes) ∧
    (∀ x ∈ nodes, Relation.ReflTransGen (strongLink g) x lm.Node) ∧
    (∀ l ∈ lm :: mid, Relation.ReflTransGen (strongLink g) lm.Node l.Node) ∧
    (∀ y, Relation.ReflTransGen (anyLink g) lm.Node y → ∃ l ∈ lm :: mid, l.Node = y) := by
  obtain ⟨hnode, hchain, _, hmem⟩ := h
  have hfull : pre ++ lm :: (mid ++ [lk]) = (pre ++ lm :: mid) ++ [lk] := by simp
  have hcycle : List.Chain' (followsOutbound g) ((lm :: mid) ++ [lk]) :=
    List.Chain'.right_of_append hchain
  have hmem2 : ∀ l ∈ lm :: mid, l.Node ∈ nodes :=
    fun l hl => hmem l (List.mem_append_right _ hl)
  have hroot : root ∈ (pre ++ lm :: mid).map Link.Node := by
    cases pre with
    | nil =>
      simp only [List.nil_append, List.head?_cons, Option.some.injEq] at hhead
      rw [hhead]
      simp [InitNodeToLink]
    | cons a rest =>
      simp only [List.cons_append, List.head?_cons, Option.some.injEq] at hhead
      rw [hhead]
      simp [InitNodeToLink]
  refine ⟨hmem2, ?_, ?_, ?_⟩
  · intro x hx
    rw [hfull] at hchain
    have hxs := lasso_closed g nodes hdet (pre ++ lm :: mid) lk hchain
      (by rw [hnode]; exact List.mem_map_of_mem _ (by simp)) hmem root hroot x
      (hinv.2.1 x hx)
    obtain ⟨l, hl, rfl⟩ := List.mem_map.mp hxs
    rw [← hnode]
    exact chain_reach_last g nodes hdet (pre ++ lm :: mid) lk hchain hmem l hl
  · exact chain_reach_from_head g nodes hdet mid lm (List.Chain'.left_of_append hcycle) hmem2
  · intro y hy
    have := lasso_closed g nodes hdet (lm :: mid) lk hcycle
      (by rw [hnode]; exact List.mem_map_of_mem _ (List.mem_cons_self _ _)) hmem2 lm.Node
      (List.mem_map_of_mem _ (List.mem_cons_self _ _)) y hy
    obtain ⟨l, hl, hly⟩ := List.mem_map.mp this
    exact ⟨l, hl, hly⟩

theorem CycleFinderFinal_deterministic (g : Graph) (callback : CycleCallback) (root : NodeId)
    (nodes : List NodeId) (hinv : graphInvariants g root nodes) (hdet : deterministic g nodes)
    (hcb : ∀ p, p ≠ [] → ∃ b, callback p = Outcome.ret b) (depth : Nat)
    (hdepth : nodes.length + 1 ≤ depth) :
    ∃ p live pre lm mid lk, CycleFinderFinal depth g root callback = Outcome.ret (p, live) ∧
      lasso g nodes pre lm mid lk ∧
      (pre ++ lm :: (mid ++ [lk])).head? = some (InitNodeToLink g root) ∧
      callback (pre ++ lm :: (mid ++ [lk])) = Outcome.ret live := by
  obtain ⟨hhead, _, hmir, _⟩ := hinv
  have hroot : root ∈ nodes := List.mem_of_mem_head? hhead
  obtain ⟨p, live, gv, pre, lm, mid, lk, hres, hlasso, hh, hcall⟩ :=
    cycleFinderHelper_deterministic g callback nodes (fun n hn o ho => (hmir.2 n hn o ho).1)
      hdet hcb depth root [] [] (InitNodeToLink g root) [] rfl hroot
      (List.chain'_singleton _) List.nodup_nil (fun v => by simp)
      (fun v hv => by cases hv) (fun l hl => by cases hl)
      (by
        have := unvisitedCount_le nodes []
        omega)
  refine ⟨p, live, pre, lm, mid, lk, ?_, hlasso, by simpa using hh, hcall⟩
  unfold CycleFinderFinal
  rw [List.nil_append] at hres
  rw [hres]

theorem alwaysEventuallyCallback_returns (g : Graph) (predicate : Predicate) :
    ∀ p, p ≠ [] → ∃ b, alwaysEventuallyCallback g predicate p = Outcome.ret b := by
  intro p hp
  obtain ⟨pre, last, rfl⟩ : ∃ pre last, p = pre ++ [last] :=
    ⟨p.dropLast, p.getLast hp, (List.dropLast_append_getLast hp).symm⟩
  unfold alwaysEventuallyCallback
  rw [List.getLast?_concat]
  dsimp only
  split
  · exact ⟨true, rfl⟩
  · split
    · exact ⟨false, rfl⟩
    · exact ⟨true, rfl⟩

theorem eventuallyAlwaysCallback_returns (g : Graph) (predicate : Predicate) :
    ∀ p, p ≠ [] → ∃ b, eventuallyAlwaysCallback g predicate p = Outcome.ret b := by
  intro p hp
  obtain ⟨pre, last, rfl⟩ : ∃ pre last, p = pre ++ [last] :=
    ⟨p.dropLast, p.getLast hp, (List.dropLast_append_getLast hp).symm⟩
  unfold eventuallyAlwaysCallback
  rw [List.getLast?_concat]
  dsimp only
  split
  · exact ⟨false, rfl⟩
  · exact ⟨true, rfl⟩


theorem AlwaysEventuallyFast_isLive_iff (fuel : Nat) (g : Graph)
    (iteration : List NodeId → List NodeId) (nodes : List NodeId) (predicate : Predicate)
    (hout : ∀ n ∈ nodes, (g n).Outbound ≠ []) (hmir : mirrored g nodes)
    (hfuel : bfsBound g nodes ≤ fuel) :
    isLive (AlwaysEventuallyFast fuel g iteration nodes predicate) ↔
      ∀ x ∈ nodes, reachesGoodSeed g nodes predicate x := by
  obtain ⟨falseNodes, hfn, hspec⟩ :=
    alwaysEventuallyFalseNodes_spec fuel g nodes predicate hout hmir hfuel
  have hiff := AlwaysEventuallyFast_live_iff_falseNodes_empty fuel g iteration nodes predicate
    falseNodes hfn
  have hempty : falseNodes = [] ↔ ∀ x ∈ nodes, reachesGoodSeed g nodes predicate x := by
    constructor
    · intro h x hx
      by_contra hnot
      have := (hspec x).mpr ⟨hx, hnot⟩
      rw [h] at this
      cases this
    · intro h
      rw [List.eq_nil_iff_forall_not_mem]
      intro x hx
      obtain ⟨hx1, hx2⟩ := (hspec x).mp hx
      exact hx2 (h x hx1)
  rw [← hempty]
  constructor
  · rintro ⟨path, hpath⟩
    exact hiff.2 path hpath
  · intro h
    exact ⟨[], hiff.1.mpr h⟩

theorem cycleFinderBfsLoop_never_live (g : Graph) :
    ∀ (fuel : Nat) (queue : List Wrapper) (p : List Link), queue ≠ [] →
      cycleFinderBfsLoop g (fun _ => Outcome.ret false) fuel queue ≠ Outcome.ret (p, true) := by
  intro fuel
  induction fuel with
  | zero =>
    intro queue p hq h
    cases queue with
    | nil => exact hq rfl
    | cons e rest => simp [cycleFinderBfsLoop] at h
  | succ fuel ih =>
    intro queue p hq h
    cases queue with
    | nil => exact hq rfl
    | cons e rest =>
      rw [cycleFinderBfsLoop] at h
      dsimp only at h
      by_cases hv : e.link.Node ∈ e.visited
      · rw [if_pos hv] at h
        simp at h
      · rw [if_neg hv] at h
        by_cases hfair : hasFairLink (g e.link.Node).Outbound = true
        · rw [if_pos hfair] at h
          refine ih _ p ?_ h
          cases hout : (g e.link.Node).Outbound with
          | nil =>
            rw [hout] at hfair
            simp [hasFairLink] at hfair
          | cons o others => simp
        · rw [if_neg hfair] at h
          simp at h

theorem isLive_ret_iff (p : List Link) (live : Bool) :
    isLive (Outcome.ret (p, live)) ↔ live = true := by
  unfold isLive
  constructor
  · rintro ⟨path, h⟩
    simp only [Outcome.ret.injEq, Prod.mk.injEq] at h
    exact h.2
  · intro h
    exact ⟨p, by rw [h]⟩

theorem AlwaysEventually_agree_deterministic (fuel depth : Nat) (g : Graph)
    (iteration : List NodeId → List NodeId) (root : NodeId) (nodes : List NodeId)
    (predicate : Predicate) (hinv : graphInvariants g root nodes)
    (hdet : deterministic g nodes) (hfuel : bfsBound g nodes ≤ fuel)
    (hdepth : nodes.length + 1 ≤ depth) :
    (∃ p live, AlwaysEventuallyFinal depth g root predicate = Outcome.ret (p, live)) ∧
    (isLive (AlwaysEventuallyFast fuel g iteration nodes predicate) ↔
      isLive (AlwaysEventuallyFinal depth g root predicate)) := by
  obtain ⟨p, live, pre, lm, mid, lk, hres, hlasso, hhead, hcall⟩ :=
    CycleFinderFinal_deterministic g (alwaysEventuallyCallback g predicate) root nodes hinv hdet
      (alwaysEventuallyCallback_returns g predicate) depth hdepth
  rw [alwaysEventuallyCallback_lasso g nodes predicate hdet pre lm mid lk hlasso] at hcall
  simp only [Outcome.ret.injEq] at hcall
  obtain ⟨hmem, hall, hcyc, hclosed⟩ := lasso_facts g root nodes hinv hdet pre lm mid lk hlasso hhead
  refine ⟨⟨p, live, hres⟩, ?_⟩
  unfold AlwaysEventuallyFinal
  rw [hres, isLive_ret_iff, ← hcall,
    AlwaysEventuallyFast_isLive_iff fuel g iteration nodes predicate hinv.2.2.2 hinv.2.2.1 hfuel,
    List.any_eq_true]
  constructor
  · intro h
    obtain ⟨s, ⟨_, hs1, hs2⟩, hreach⟩ := h lm.Node (hmem lm (List.mem_cons_self _ _))
    obtain ⟨l, hl, hls⟩ := hclosed s (hreach.mono (anyLink_of_strongLink g))
    refine ⟨l, hl, ?_⟩
    rw [hls, hs1, hs2]
    rfl
  · rintro ⟨l, hl, hseed⟩ x hx
    rw [Bool.and_eq_true] at hseed
    exact ⟨l.Node, ⟨hmem l hl, hseed.1, hseed.2⟩, (hall x hx).trans (hcyc l hl)⟩


theorem EventuallyAlways_agree_deterministic (fuel depth : Nat) (g : Graph)
    (iteration : List NodeId → List NodeId) (root : NodeId) (nodes : List NodeId)
    (predicate : Predicate) (hinv : graphInvariants g root nodes)
    (hdet : deterministic g nodes) (hrel : ∀ n ∈ nodes, (predicate n).1 = true)
    (hfuel : bfsBound g nodes ≤ fuel) (hdepth : nodes.length + 1 ≤ depth) :
    (∃ p live, EventuallyAlwaysFinal depth g root predicate = Outcome.ret (p, live)) ∧
    (isLive (EventuallyAlwaysFast fuel g iteration nodes predicate) ↔
      isLive (EventuallyAlwaysFinal depth g root predicate)) := by
  obtain ⟨p, live, pre, lm, mid, lk, hres, hlasso, hhead, hcall⟩ :=
    CycleFinderFinal_deterministic g (eventuallyAlwaysCallback g predicate) root nodes hinv hdet
      (eventuallyAlwaysCallback_returns g predicate) depth hdepth
  rw [eventuallyAlwaysCallback_lasso g nodes predicate hdet pre lm mid lk hlasso] at hcall
  simp only [Outcome.ret.injEq] at hcall
  obtain ⟨hmem, hall, hcyc, hclosed⟩ := lasso_facts g root nodes hinv hdet pre lm mid lk hlasso hhead
  obtain ⟨trueNodes, htn, hspec⟩ :=
    eventuallyAlwaysTrueNodes_spec fuel g nodes predicate hinv.2.2.2 hinv.2.2.1 hfuel
  have hlm : lm.Node ∈ nodes := hmem lm (List.mem_cons_self _ _)
  refine ⟨⟨p, live, hres⟩, ?_⟩
  have hfinal : isLive (EventuallyAlwaysFinal depth g root predicate) ↔
      ∀ l ∈ lm :: mid, (predicate l.Node).2 = true := by
    unfold EventuallyAlwaysFinal
    rw [hres, isLive_ret_iff, ← hcall, Bool.not_eq_true', List.any_eq_false]
    constructor
    · intro h l hl
      have h1 := h l hl
      rw [hrel l.Node (hmem l hl)] at h1
      simpa using h1
    · intro h l hl
      rw [h l hl]
      simp
  rw [hfinal]
  unfold EventuallyAlwaysFast
  rw [htn]
  dsimp only
  constructor
  · intro hlive l hl
    by_contra hbad
    rw [Bool.not_eq_true] at hbad
    split_ifs at hlive with hlen
    · rw [AlwaysEventuallyFast_isLive_iff fuel g iteration nodes (inTrueNodes trueNodes)
        hinv.2.2.2 hinv.2.2.1 hfuel] at hlive
      obtain ⟨s, ⟨hs, _, hs2⟩, _⟩ := hlive lm.Node hlm
      have hst : s ∈ trueNodes := by simpa [inTrueNodes] using hs2
      obtain ⟨_, _, _, hnobad⟩ := (hspec s).mp hst
      exact hnobad ⟨l.Node, ⟨hmem l hl, hrel l.Node (hmem l hl), hbad⟩,
        ((hall s hs).trans (hcyc l hl)).mono (anyLink_of_strongLink g)⟩
    · cases hn : nodes with
      | nil =>
        rw [hn] at hlm
        cases hlm
      | cons r others =>
        rw [hn] at hlive
        obtain ⟨path, hpath⟩ := hlive
        exact cycleFinderBfsLoop_never_live g fuel _ path (by simp) hpath
  · intro htrue
    have hperm : lm.Node ∈ trueNodes := by
      rw [hspec]
      refine ⟨hlm, hrel lm.Node hlm, htrue lm (List.mem_cons_self _ _), ?_⟩
      rintro ⟨b, ⟨_, _, hb⟩, hreach⟩
      obtain ⟨l, hl, rfl⟩ := hclosed b hreach
      rw [htrue l hl] at hb
      cases hb
    rw [if_pos (List.length_pos_of_mem hperm),
      AlwaysEventuallyFast_isLive_iff fuel g iteration nodes (inTrueNodes trueNodes)
        hinv.2.2.2 hinv.2.2.1 hfuel]
    intro x hx
    exact ⟨lm.Node, ⟨hlm, rfl, by simpa [inTrueNodes] using hperm⟩, hall x hx⟩


theorem weakEscapeGraph_invariants : graphInvariants weakEscapeGraph 0 [0, 1] := by
  refine ⟨rfl, ?_, by unfold mirrored; decide, by decide⟩
  intro n hn
  simp only [List.mem_cons, List.mem_singleton, List.not_mem_nil, or_false] at hn
  rcases hn with rfl | rfl
  · exact Relation.ReflTransGen.refl
  · exact Relation.ReflTransGen.single
      ⟨{ Node := 1, Name := "a", Fairness := FairnessLevel.WEAK }, by decide, rfl⟩

theorem pingPongGraph_invariants : graphInvariants pingPongGraph 0 [0, 1] := by
  refine ⟨rfl, ?_, by unfold mirrored; decide, by decide⟩
  intro n hn
  simp only [List.mem_cons, List.mem_singleton, List.not_mem_nil, or_false] at hn
  rcases hn with rfl | rfl
  · exact Relation.ReflTransGen.refl
  · exact Relation.ReflTransGen.single
      ⟨{ Node := 1, Name := "ping", Fairness := FairnessLevel.STRONG }, by decide, rfl⟩

theorem pingPongGraph_deterministic : deterministic pingPongGraph [0, 1] := by
  intro n hn
  simp only [List.mem_cons, List.mem_singleton, List.not_mem_nil, or_false] at hn
  rcases hn with rfl | rfl
  · exact ⟨{ Node := 1, Name := "ping", Fairness := FairnessLevel.STRONG }, rfl, rfl,
      by decide⟩
  · exact ⟨{ Node := 0, Name := "pong", Fairness := FairnessLevel.STRONG }, rfl, rfl,
      by decide⟩


/-! ## `CheckSimpleExistsWitness` without witness -/

theorem collectExistsPositions_spec (i : Nat) :
    ∀ (invariants : List Invariant) (j : Nat),
      ((collectExistsPositions i j invariants).map InvariantPosition.InvariantIndex).Sorted
        (· < ·) ∧
      (∀ p ∈ collectExistsPositions i j invariants, p.FileIndex = i ∧ j ≤ p.InvariantIndex) ∧
      ∀ k, NewInvariantPosition i (j + k) ∈ collectExistsPositions i j invariants ↔
        ∃ invariant, invariants.get? k = some invariant ∧ invariant.Block = true ∧
          invariant.TemporalOperators.contains "exists" = true := by
  intro invariants
  induction invariants with
  | nil =>
    intro j
    simp [collectExistsPositions]
  | cons invariant rest ih =>
    intro j
    obtain ⟨h1, h2, h3⟩ := ih (j + 1)
    have hshift : ∀ k, NewInvariantPosition i (j + (k + 1)) ∈
        collectExistsPositions i (j + 1) rest ↔
        ∃ inv, rest.get? k = some inv ∧ inv.Block = true ∧
          inv.TemporalOperators.contains "exists" = true := by
      intro k
      rw [← h3 k, show j + (k + 1) = j + 1 + k by omega]
    have hzero : NewInvariantPosition i (j + 0) ∉ collectExistsPositions i (j + 1) rest := by
      intro hmem
      have := (h2 _ hmem).2
      simp only [NewInvariantPosition] at this
      omega
    rw [collectExistsPositions]
    by_cases hc : (invariant.Block && invariant.TemporalOperators.contains "exists") = true
    · rw [if_pos hc]
      refine ⟨?_, ?_, ?_⟩
      · rw [List.map_cons, List.sorted_cons]
        refine ⟨?_, h1⟩
        intro b hb
        obtain ⟨p, hp, rfl⟩ := List.mem_map.mp hb
        have := (h2 p hp).2
        simp only [NewInvariantPosition]
        omega
      · intro p hp
        rcases List.mem_cons.mp hp with rfl | hp
        · exact ⟨rfl, Nat.le_refl _⟩
        · exact ⟨(h2 p hp).1, by have := (h2 p hp).2; omega⟩
      · intro k
        cases k with
        | zero =>
          rw [Bool.and_eq_true] at hc
          simp only [List.mem_cons, List.get?_cons_zero, Option.some.injEq, exists_eq_left']
          constructor
          · intro _
            exact hc
          · intro _
            exact Or.inl rfl
        | succ k =>
          rw [List.mem_cons, List.get?_cons_succ, hshift k]
          constructor
          · rintro (h | h)
            · simp only [NewInvariantPosition, InvariantPosition.mk.injEq] at h
              omega
            · exact h
          · exact Or.inr
    · rw [if_neg hc]
      refine ⟨h1, fun p hp => ⟨(h2 p hp).1, by have := (h2 p hp).2; omega⟩, ?_⟩
      intro k
      cases k with
      | zero =>
        simp only [List.get?_cons_zero, Option.some.injEq, exists_eq_left']
        constructor
        · intro h
          exact absurd h hzero
        · intro h
          rw [Bool.and_eq_true] at hc
          exact absurd h hc
      | succ k =>
        rw [List.get?_cons_succ, hshift k]

theorem witnessedIndices_nil (process : Process) :
    ∀ (positions : List InvariantPosition) (j : Nat),
      (∀ p ∈ positions, process.Witness p.FileIndex p.InvariantIndex = false) →
      witnessedIndices process j positions = [] := by
  intro positions
  induction positions with
  | nil =>
    intro j _
    rfl
  | cons p rest ih =>
    intro j h
    rw [witnessedIndices, if_neg (by rw [h p (List.mem_cons_self _ _)]; simp)]
    exact ih (j + 1) (fun q hq => h q (List.mem_cons_of_mem _ hq))

theorem existsWitnessLoop_no_witness (g : Graph) (positions : List InvariantPosition) :
    ∀ nodes : List NodeId,
      (∀ n ∈ nodes, ∀ p ∈ positions,
        (g n).Process.Witness p.FileIndex p.InvariantIndex = false) →
      existsWitnessLoop g nodes positions [] = Outcome.ret positions := by
  intro nodes
  induction nodes with
  | nil =>
    intro _
    rfl
  | cons node rest ih =>
    intro h
    rw [existsWitnessLoop]
    by_cases hlen : positions.length = 0
    · rw [if_pos hlen]
    · rw [if_neg hlen]
      dsimp only
      rw [witnessedIndices_nil (g node).Process positions 0 (h node (List.mem_cons_self _ _))]
      simp only [List.append_nil, deleteIndices]
      exact ih (fun n hn => h n (List.mem_cons_of_mem _ hn))

/-- C12: on a non-empty node list whose first process has one file, when no node
has the witness bit set at the position of a block invariant whose operators
contain `exists`, `CheckSimpleExistsWitness` returns the positions `(0, j)` of
exactly those invariants, in ascending order of `j`, however many nodes the list
has. -/
theorem CheckSimpleExistsWitness_keeps_unwitnessed (g : Graph) (first : NodeId)
    (others : List NodeId) (file : File) (hfiles : (g first).Process.Files = [file])
    (hnone : ∀ n ∈ first :: others, ∀ j invariant, file.Invariants.get? j = some invariant →
      invariant.Block = true → invariant.TemporalOperators.contains "exists" = true →
      (g n).Process.Witness 0 j = false) :
    ∃ positions, CheckSimpleExistsWitness g (first :: others) = Outcome.ret positions ∧
      (positions.map InvariantPosition.InvariantIndex).Sorted (· < ·) ∧
      (∀ p ∈ positions, p.FileIndex = 0) ∧
      ∀ j, NewInvariantPosition 0 j ∈ positions ↔
        ∃ invariant, file.Invariants.get? j = some invariant ∧ invariant.Block = true ∧
          invariant.TemporalOperators.contains "exists" = true := by
  obtain ⟨h1, h2, h3⟩ := collectExistsPositions_spec 0 file.Invariants 0
  refine ⟨collectExistsPositions 0 0 file.Invariants, ?_, h1, fun p hp => (h2 p hp).1, ?_⟩
  · unfold CheckSimpleExistsWitness
    dsimp only
    rw [hfiles]
    simp only [List.length_singleton, gt_iff_lt, lt_self_iff_false, if_false]
    apply existsWitnessLoop_no_witness
    intro n hn p hp
    have hp0 := (h2 p hp).1
    have hmem : NewInvariantPosition 0 (0 + p.InvariantIndex) ∈
        collectExistsPositions 0 0 file.Invariants := by
      rw [Nat.zero_add]
      have : NewInvariantPosition 0 p.InvariantIndex = p := by
        cases p
        simp only [NewInvariantPosition] at hp0 ⊢
        simp only [InvariantPosition.mk.injEq, and_true]
        exact hp0.symm
      rw [this]
      exact hp
    obtain ⟨invariant, hget, hblock, hex⟩ := (h3 p.InvariantIndex).mp hmem
    rw [hp0]
    exact hnone n hn p.InvariantIndex invariant hget hblock hex
  · intro j
    have := h3 j
    rwa [Nat.zero_add] at this

theorem CheckSimpleExistsWitness_keeps_unwitnessed_witness :
    ∃ positions,
      CheckSimpleExistsWitness unwitnessedGraph (0 :: List.range' 1 49) =
        Outcome.ret positions ∧
      (positions.map InvariantPosition.InvariantIndex).Sorted (· < ·) ∧
      (∀ p ∈ positions, p.FileIndex = 0) ∧
      ∀ j, NewInvariantPosition 0 j ∈ positions ↔
        ∃ invariant, exampleInvariants.get? j = some invariant ∧ invariant.Block = true ∧
          invariant.TemporalOperators.contains "exists" = true :=
  CheckSimpleExistsWitness_keeps_unwitnessed unwitnessedGraph 0 (List.range' 1 49)
    { FileName := "spec.fizz", Invariants := exampleInvariants } rfl
    (fun _ _ _ _ _ _ _ => rfl)

/-! ## `AlwaysEventuallyFinal` without reachable P-state -/

theorem isFairCycle_plain (g : Graph) (path : List Link)
    (h : ∀ l ∈ path, plainNode g l.Node) : isFairCycle g path = true := by
  rw [isFairCycle_iff]
  refine ⟨?_, ?_, ?_⟩
  · rintro ⟨k, m, _, _, ⟨_, link, outLink, hget, hout, hname, _⟩, _⟩
    exact (h link (List.get?_mem hget) outLink hout).2 hname
  · rintro a ⟨⟨i, _, link, outLink, hget, hout, hfair, _⟩, _⟩
    rw [(h link (List.get?_mem hget) outLink hout).1] at hfair
    cases hfair
  · rintro a ⟨⟨i, hi⟩, hall⟩
    obtain ⟨⟨_, link, outLink, hget, hout, hfair, _⟩, _⟩ := hall i hi
    rw [(h link (List.get?_mem hget) outLink hout).1] at hfair
    cases hfair

theorem alwaysEventuallyScan_no_seed (predicate : Predicate) (mergeNode : NodeId) (last : Nat) :
    ∀ l : List Link, (∀ x ∈ l, relevantTrue predicate x.Node = false) →
      ∃ m, alwaysEventuallyScan predicate mergeNode last l = some m := by
  intro l
  induction l with
  | nil =>
    intro _
    exact ⟨0, rfl⟩
  | cons x rest ih =>
    intro h
    have hx : ¬ ((predicate x.Node).1 && (predicate x.Node).2) = true := by
      have := h x (List.mem_cons_self _ _)
      unfold relevantTrue at this
      rw [this]
      simp
    rw [alwaysEventuallyScan, if_neg hx]
    split_ifs
    · exact ⟨_, rfl⟩
    · exact ih (fun y hy => h y (List.mem_cons_of_mem _ hy))

theorem alwaysEventuallyCallback_plain (g : Graph) (predicate : Predicate) (path : List Link)
    (hne : path ≠ []) (hseed : ∀ l ∈ path, relevantTrue predicate l.Node = false)
    (hplain : ∀ l ∈ path, plainNode g l.Node) :
    alwaysEventuallyCallback g predicate path = Outcome.ret false := by
  obtain ⟨pre, last, rfl⟩ : ∃ pre last, path = pre ++ [last] :=
    ⟨path.dropLast, path.getLast hne, (List.dropLast_append_getLast hne).symm⟩
  unfold alwaysEventuallyCallback
  rw [List.getLast?_concat]
  dsimp only
  obtain ⟨m, hm⟩ := alwaysEventuallyScan_no_seed predicate last.Node ((pre ++ [last]).length - 1)
    (pre ++ [last]).reverse (fun x hx => hseed x (List.mem_reverse.mp hx))
  rw [hm]
  dsimp only
  rw [isFairCycle_plain g _ (fun l hl => hplain l (List.mem_of_mem_drop hl)), if_pos rfl]

theorem cycleFinderHelper_first_candidate (g : Graph) (callback : CycleCallback)
    (root : NodeId) (nodes : List NodeId)
    (hfin : ∀ n, reachableFrom g root n → n ∈ nodes)
    (hout : ∀ n, reachableFrom g root n → (g n).Outbound ≠ [])
    (hcb : ∀ p, p ≠ [] → (∀ l ∈ p, reachableFrom g root l.Node) →
      callback p = Outcome.ret false) :
    ∀ (depth : Nat) (node : NodeId) (visited : List NodeId) (path : List Link)
      (globalVisited : List NodeId),
      reachableFrom g root node → path ≠ [] → (∀ l ∈ path, reachableFrom g root l.Node) →
      (∀ v ∈ globalVisited, v ∈ visited) →
      unvisitedCount nodes visited + 1 ≤ depth →
      ∃ p gv, p ≠ [] ∧
        cycleFinderHelper g callback depth node visited path globalVisited =
          Outcome.ret (p, false, gv) := by
  intro depth
  induction depth with
  | zero =>
    intro node visited path gv _ _ _ _ hdepth
    omega
  | succ depth ih =>
    intro node visited path gv hnode hne hpath hgv hdepth
    rw [cycleFinderHelper]
    by_cases hv : node ∈ visited
    · rw [if_pos hv, hcb path hne hpath]
      exact ⟨path, gv, hne, rfl⟩
    · rw [if_neg hv]
      dsimp only
      rw [if_neg (fun h => hv (hgv node h))]
      have hstutter : callback (path ++ [stutterLink node]) = Outcome.ret false :=
        hcb _ (by simp) (fun l hl => by
          rcases List.mem_append.mp hl with h | h
          · exact hpath l h
          · rw [List.mem_singleton] at h
            rw [h]
            exact hnode)
      have hdescend : ∃ p gv2, p ≠ [] ∧
          traverseOutbound (cycleFinderHelper g callback depth) (setInsert visited node) path
            (g node).Outbound (setInsert gv node) = Outcome.ret (p, false, gv2) := by
        cases hlinks : (g node).Outbound with
        | nil => exact absurd hlinks (hout node hnode)
        | cons o rest =>
          have ho : reachableFrom g root o.Node :=
            Relation.ReflTransGen.tail hnode ⟨o, by rw [hlinks]; exact List.mem_cons_self _ _, rfl⟩
          obtain ⟨p, gv2, hp, hres⟩ := ih o.Node (setInsert visited node) (path ++ [o])
            (setInsert gv node) ho (by simp)
            (fun l hl => by
              rcases List.mem_append.mp hl with h | h
              · exact hpath l h
              · rw [List.mem_singleton] at h
                rw [h]
                exact ho)
            (fun v hv2 => by
              rw [mem_setInsert] at hv2 ⊢
              exact hv2.imp_left (hgv v))
            (by
              have := unvisitedCount_insert visited node hv nodes (hfin node hnode)
              omega)
          refine ⟨p, gv2, hp, ?_⟩
          rw [traverseOutbound, hres]
          rfl
      obtain ⟨p, gv2, hp, hres⟩ := hdescend
      split_ifs
      · rw [hstutter]
        exact ⟨_, _, by simp, rfl⟩
      · exact ⟨p, gv2, hp, hres⟩

theorem reachableFrom_mem_of_closed (g : Graph) (root : NodeId) (nodes : List NodeId)
    (hroot : root ∈ nodes) (hclosed : ∀ n ∈ nodes, ∀ o ∈ (g n).Outbound, o.Node ∈ nodes)
    (n : NodeId) (h : reachableFrom g root n) : n ∈ nodes := by
  induction h with
  | refl => exact hroot
  | tail _ hstep ih =>
    obtain ⟨o, ho, rfl⟩ := hstep
    exact hclosed _ ih o ho

theorem islandGraph_reachable (n : NodeId) (h : reachableFrom islandGraph 0 n) : n ∈ [0, 1] :=
  reachableFrom_mem_of_closed islandGraph 0 [0, 1] (by decide) (by decide) n h

/-- C11 (defect of the code): in `twoBranchGraph` every state has an outbound
link and the predicate holds at no state, yet `AlwaysEventuallyFinal` reports
the property satisfied. The search hands only the two simple cycles through
state 0 to the callback, and on each of them the strong-fair link of the other
cycle is out of chain, so `isFairCycle` rejects both and the callback answers
live. The run `twoBranchCycle`, which alternates between the two cycles, takes
every strong-fair link and is accepted by `isFairCycle`; it never reaches a
state where the predicate holds. `AlwaysEventuallyFast` reports the violation
on the same graph and predicate. -/
theorem AlwaysEventuallyFinal_live_without_P :
    (∀ n, (twoBranchGraph n).Outbound ≠ []) ∧
    (∀ n, relevantTrue (strictPredicate twoBranchGraph 0 0) n = false) ∧
    AlwaysEventuallyFinal 4 twoBranchGraph 0 (strictPredicate twoBranchGraph 0 0) =
      Outcome.ret ([], true) ∧
    List.Chain' (followsOutbound twoBranchGraph) twoBranchCycle ∧
    isFairCycle twoBranchGraph twoBranchCycle = true ∧
    AlwaysEventuallyFast 8 twoBranchGraph id [0, 1, 2] (strictPredicate twoBranchGraph 0 0) =
      Outcome.ret ([{ Node := 0, Name := "Init" },
        { Node := 1, Name := "a", Fairness := FairnessLevel.STRONG },
        { Node := 0, Name := "c", Fairness := FairnessLevel.STRONG }], false) := by
  refine ⟨?_, ?_, by decide, ?_, by decide, by decide⟩
  · intro n
    rcases n with _ | _ | n <;> simp [twoBranchGraph]
  · intro n
    rcases n with _ | _ | n <;> simp [relevantTrue, strictPredicate, twoBranchGraph]
  · simp only [twoBranchCycle, List.chain'_cons, List.chain'_singleton, and_true]
    unfold followsOutbound
    exact ⟨by decide, by decide, by decide, by decide⟩

/-- On a graph whose states reachable from the root are finitely many, each with
an outbound link and none with a weak- or strong-fair outbound link or an
outbound link named `crash`, when no state reachable from the root is relevant
and P-true, `AlwaysEventuallyFinal`, given depth for the search, returns false
with a non-empty counterexample path. -/
theorem AlwaysEventuallyFinal_violated_on_plain_graphs (depth : Nat) (g : Graph) (root : NodeId)
    (nodes : List NodeId) (predicate : Predicate)
    (hfin : ∀ n, reachableFrom g root n → n ∈ nodes) (hdepth : nodes.length + 1 ≤ depth)
    (hout : ∀ n, reachableFrom g root n → (g n).Outbound ≠ [])
    (hseed : ∀ n, reachableFrom g root n → relevantTrue predicate n = false)
    (hplain : ∀ n, reachableFrom g root n → plainNode g n) :
    ∃ path, path ≠ [] ∧
      AlwaysEventuallyFinal depth g root predicate = Outcome.ret (path, false) := by
  obtain ⟨p, gv, hp, hres⟩ := cycleFinderHelper_first_candidate g
    (alwaysEventuallyCallback g predicate) root nodes hfin hout
    (fun p hne hreach => alwaysEventuallyCallback_plain g predicate p hne
      (fun l hl => hseed l.Node (hreach l hl)) (fun l hl => hplain l.Node (hreach l hl)))
    depth root [] [InitNodeToLink g root] [] Relation.ReflTransGen.refl (by simp)
    (fun l hl => by
      rw [List.mem_singleton] at hl
      rw [hl]
      exact Relation.ReflTransGen.refl)
    (fun v hv => hv)
    (by
      have := unvisitedCount_le nodes []
      omega)
  refine ⟨p, hp, ?_⟩
  unfold AlwaysEventuallyFinal CycleFinderFinal
  rw [hres]

theorem islandGraph_violated :
    relevantTrue (strictPredicate islandGraph 0 0) 2 = true ∧
    ∃ path, path ≠ [] ∧
      AlwaysEventuallyFinal 3 islandGraph 0 (strictPredicate islandGraph 0 0) =
        Outcome.ret (path, false) :=
  ⟨by decide,
    AlwaysEventuallyFinal_violated_on_plain_graphs 3 islandGraph 0 [0, 1]
      (strictPredicate islandGraph 0 0) islandGraph_reachable (by decide)
      (fun n hn => by
        have h := islandGraph_reachable n hn
        simp only [List.mem_cons, List.mem_singleton, List.not_mem_nil, or_false] at h
        rcases h with rfl | rfl <;> decide)
      (fun n hn => by
        have h := islandGraph_reachable n hn
        simp only [List.mem_cons, List.mem_singleton, List.not_mem_nil, or_false] at h
        rcases h with rfl | rfl <;> decide)
      (fun n hn => by
        have h := islandGraph_reachable n hn
        simp only [List.mem_cons, List.mem_singleton, List.not_mem_nil, or_false] at h
        rcases h with rfl | rfl <;> (unfold plainNode; decide))⟩

/-! ## Temporal classification and `CheckInvariant` -/

/-- C13 (as stated, refuted): a block invariant whose operator list is
`[eventually]` is not skipped: the classification reads
`TemporalOperators[1]`, so `classifyTemporal`, `CheckStrictLiveness` and
`CheckFastLiveness` end in a fatal error, index out of range, on a graph that
declares it, whatever the depth or fuel. -/
theorem dispatchers_panic_on_single_eventually :
    classifyTemporal eventuallyOnlyInvariant =
      Outcome.fatal "index out of range [1] with length 1" ∧
    (∀ depth, CheckStrictLiveness depth eventuallyOnlyGraph 0 =
      Outcome.fatal "index out of range [1] with length 1") ∧
    (∀ fuel, CheckFastLiveness fuel eventuallyOnlyGraph id [0] =
      Outcome.fatal "index out of range [1] with length 1") :=
  ⟨by decide, fun _ => rfl, fun _ => rfl⟩

theorem classifyTemporal_flat (invariant : Invariant) (hblock : invariant.Block = false) :
    classifyTemporal invariant =
      Outcome.ret (!(invariant.Always && invariant.Eventually) &&
        (invariant.Eventually && GetNestedAlways invariant),
        invariant.Always && invariant.Eventually) := by
  unfold classifyTemporal
  cases ha : invariant.Always <;> cases he : invariant.Eventually <;>
    cases hn : GetNestedAlways invariant <;> simp [hblock]

theorem classifyTemporal_block (invariant : Invariant) (hblock : invariant.Block = true)
    (hops : invariant.TemporalOperators ≠ ["eventually"]) :
    classifyTemporal invariant =
      Outcome.ret (decide (invariant.TemporalOperators.take 2 = ["eventually", "always"]),
        decide (invariant.TemporalOperators.take 2 = ["always", "eventually"])) := by
  unfold classifyTemporal
  cases hlist : invariant.TemporalOperators with
  | nil => simp [hblock]
  | cons first others =>
    cases others with
    | nil =>
      have hfirst : first ≠ "eventually" := by
        intro h
        rw [hlist, h] at hops
        exact hops rfl
      simp [hblock, hfirst, Ne.symm hfirst]
    | cons second more =>
      by_cases hf : first = "eventually"
      · by_cases hs : second = "always"
        · simp [hblock, hf, hs]
        · simp [hblock, hf, hs]
      · by_cases hfa : first = "always"
        · by_cases hs : second = "eventually"
          · simp [hblock, hfa, hs]
          · by_cases hcont : ("always" :: second :: more).contains "eventually" = true
            · simp [hblock, hfa, hs, hcont]
            · simp [hblock, hfa, hs, hcont]
        · by_cases hcont : (first :: second :: more).contains "eventually" = true
          · simp [hblock, hf, hfa, hcont]
          · simp [hblock, hf, hfa, hcont]

theorem livenessLoop_skip (invariant : Invariant)
    (hc : classifyTemporal invariant = Outcome.ret (false, false)) (i : Nat)
    (predicateAt : Nat → Predicate)
    (eventuallyAlwaysEntry alwaysEventuallyEntry : Predicate → Outcome (List Link × Bool))
    (j : Nat) (rest : List Invariant) :
    livenessLoop i predicateAt eventuallyAlwaysEntry alwaysEventuallyEntry j
        (invariant :: rest) =
      livenessLoop i predicateAt eventuallyAlwaysEntry alwaysEventuallyEntry (j + 1) rest := by
  rw [livenessLoop, hc]
  rfl

/-- C13 (amended): the temporal classification `classifyTemporal`, which the loop
`livenessLoop` of both dispatchers applies to every invariant, returns for every
invariant except a block invariant whose operator list is exactly
`[eventually]`; on that shape it ends in a fatal error, as `CheckAssertion` does
on every process. On every other invariant: a flat invariant is
always-eventually iff `Always` and `Eventually`, else eventually-always iff
`Eventually` and `Nested.Always`; a block invariant is eventually-always iff its
first two operators are `[eventually, always]` and always-eventually iff they
are `[always, eventually]`; and an invariant of neither class is skipped by the
loop of the dispatchers, which goes on with the next invariant. -/
theorem classifyTemporal_total_except_lone_eventually (invariant : Invariant) :
    (loneEventually invariant →
      classifyTemporal invariant = Outcome.fatal "index out of range [1] with length 1" ∧
      ∃ msg, ∀ process index, CheckAssertion process invariant index = Outcome.fatal msg) ∧
    (¬ loneEventually invariant →
      ∃ eventuallyAlways alwaysEventually,
        classifyTemporal invariant = Outcome.ret (eventuallyAlways, alwaysEventually) ∧
        (invariant.Block = false →
          (alwaysEventually = true ↔
            invariant.Always = true ∧ invariant.Eventually = true) ∧
          (eventuallyAlways = true ↔
            ¬ (invariant.Always = true ∧ invariant.Eventually = true) ∧
              invariant.Eventually = true ∧ GetNestedAlways invariant = true)) ∧
        (invariant.Block = true →
          (eventuallyAlways = true ↔
            invariant.TemporalOperators.take 2 = ["eventually", "always"]) ∧
          (alwaysEventually = true ↔
            invariant.TemporalOperators.take 2 = ["always", "eventually"])) ∧
        (eventuallyAlways = false → alwaysEventually = false →
          ∀ (i : Nat) (predicateAt : Nat → Predicate)
            (eventuallyAlwaysEntry alwaysEventuallyEntry :
              Predicate → Outcome (List Link × Bool))
            (j : Nat) (rest : List Invariant),
            livenessLoop i predicateAt eventuallyAlwaysEntry alwaysEventuallyEntry j
                (invariant :: rest) =
              livenessLoop i predicateAt eventuallyAlwaysEntry alwaysEventuallyEntry (j + 1)
                rest)) := by
  constructor
  · rintro ⟨hblock, hops⟩
    constructor
    · unfold classifyTemporal
      rw [hblock, hops]
      rfl
    · refine ⟨"Invariant checking supported only for always/always-eventually/eventually-always/exists invariants", fun process index => ?_⟩
      unfold CheckAssertion
      rw [hops]
      rfl
  · intro hnot
    have hskip : ∀ ea ae, classifyTemporal invariant = Outcome.ret (ea, ae) →
        ea = false → ae = false →
        ∀ (i : Nat) (predicateAt : Nat → Predicate)
          (eventuallyAlwaysEntry alwaysEventuallyEntry :
            Predicate → Outcome (List Link × Bool))
          (j : Nat) (rest : List Invariant),
          livenessLoop i predicateAt eventuallyAlwaysEntry alwaysEventuallyEntry j
              (invariant :: rest) =
            livenessLoop i predicateAt eventuallyAlwaysEntry alwaysEventuallyEntry (j + 1)
              rest := by
      intro ea ae hc hea hae
      subst hea hae
      exact livenessLoop_skip invariant hc
    cases hblock : invariant.Block with
    | false =>
      have hc := classifyTemporal_flat invariant hblock
      refine ⟨_, _, hc, fun _ => ⟨?_, ?_⟩, fun h => Bool.noConfusion h, hskip _ _ hc⟩
      · simp
      · cases ha : invariant.Always <;> cases he : invariant.Eventually <;>
          cases hn : GetNestedAlways invariant <;> simp
    | true =>
      have hc := classifyTemporal_block invariant hblock (fun h => hnot ⟨hblock, h⟩)
      refine ⟨_, _, hc, fun h => Bool.noConfusion h, fun _ => ⟨?_, ?_⟩, hskip _ _ hc⟩
      · simp
      · simp

theorem classifyTemporal_total_except_lone_eventually_witness :
    loneEventually eventuallyOnlyInvariant ∧
    (classifyTemporal eventuallyOnlyInvariant =
        Outcome.fatal "index out of range [1] with length 1" ∧
      ∃ msg, ∀ process index,
        CheckAssertion process eventuallyOnlyInvariant index = Outcome.fatal msg) ∧
    ¬ loneEventually alwaysEventuallyInvariant ∧
    classifyTemporal alwaysEventuallyInvariant = Outcome.ret (false, true) ∧
    ∃ eventuallyAlways alwaysEventually,
      classifyTemporal alwaysEventuallyInvariant =
        Outcome.ret (eventuallyAlways, alwaysEventually) ∧
      (alwaysEventuallyInvariant.Block = false →
        (alwaysEventually = true ↔
          alwaysEventuallyInvariant.Always = true ∧
            alwaysEventuallyInvariant.Eventually = true) ∧
        (eventuallyAlways = true ↔
          ¬ (alwaysEventuallyInvariant.Always = true ∧
              alwaysEventuallyInvariant.Eventually = true) ∧
            alwaysEventuallyInvariant.Eventually = true ∧
            GetNestedAlways alwaysEventuallyInvariant = true)) ∧
      (alwaysEventuallyInvariant.Block = true →
        (eventuallyAlways = true ↔
          alwaysEventuallyInvariant.TemporalOperators.take 2 = ["eventually", "always"]) ∧
        (alwaysEventually = true ↔
          alwaysEventuallyInvariant.TemporalOperators.take 2 = ["always", "eventually"])) ∧
      (eventuallyAlways = false → alwaysEventually = false →
        ∀ (i : Nat) (predicateAt : Nat → Predicate)
          (eventuallyAlwaysEntry alwaysEventuallyEntry :
            Predicate → Outcome (List Link × Bool))
          (j : Nat) (rest : List Invariant),
          livenessLoop i predicateAt eventuallyAlwaysEntry alwaysEventuallyEntry j
              (alwaysEventuallyInvariant :: rest) =
            livenessLoop i predicateAt eventuallyAlwaysEntry alwaysEventuallyEntry (j + 1)
              rest) :=
  ⟨⟨rfl, rfl⟩,
    (classifyTemporal_total_except_lone_eventually eventuallyOnlyInvariant).1 ⟨rfl, rfl⟩,
    fun h => absurd h.1 (by decide), by decide,
    (classifyTemporal_total_except_lone_eventually alwaysEventuallyInvariant).2
      (fun h => absurd h.1 (by decide))⟩

/-- C14 (as stated, refuted): the flat invariant `always eventually done`
(`Always` and `Eventually`, no nested part) is neither pure always nor
eventually-always, yet `CheckInvariant` does not fail on it: it returns the
truth value of `done`. -/
theorem CheckInvariant_accepts_always_eventually :
    claimedValidShape alwaysEventuallyInvariant = false ∧
    CheckInvariant exampleProcess alwaysEventuallyInvariant = Outcome.ret true := by
  constructor <;> decide

/-- C14 (amended): `CheckInvariant` evaluates exactly the flat invariants that
have `Always` set and no nested part (with or without `Eventually`) or are
eventually-always (`Eventually` with `Nested.Always`). For every other invariant
it fails fatally, with a message fixed by the invariant alone, whatever the
process and its evaluator. For a valid one, on a process with a file, it
returns what the evaluator answers for `Nested.PyExpr` in the eventually-always
shape and for `PyExpr` otherwise, an evaluator error being fatal. -/
theorem CheckInvariant_valid_iff (process : Process) (invariant : Invariant) (file : File)
    (rest : List File) (hfiles : process.Files = file :: rest) :
    (validShape invariant = false →
      ∃ msg, ∀ q : Process, CheckInvariant q invariant = Outcome.fatal msg) ∧
    (∀ nested, invariant.Nested = some nested → invariant.Eventually = true →
      nested.Always = true →
      CheckInvariant process invariant =
        evaluatorResult (process.EvalPyExpr file.FileName nested.PyExpr)) ∧
    (invariant.Nested = none → invariant.Always = true →
      CheckInvariant process invariant =
        evaluatorResult (process.EvalPyExpr file.FileName invariant.PyExpr)) := by
  refine ⟨?_, ?_, ?_⟩
  · intro hshape
    unfold validShape at hshape
    cases hn : invariant.Nested with
    | none =>
      have ha : invariant.Always = false := by
        simpa [hn, GetNestedAlways] using hshape
      refine ⟨"Invariant checking not supported for non-always invariants", fun q => ?_⟩
      simp [CheckInvariant, GetNestedAlways, hn, ha]
    | some nested =>
      have hea : (invariant.Eventually && nested.Always) = false := by
        simpa [hn, GetNestedAlways] using hshape
      cases ha : invariant.Always with
      | false =>
        refine ⟨"Invariant checking not supported for non-always invariants", fun q => ?_⟩
        simp [CheckInvariant, GetNestedAlways, hn, ha, hea]
      | true =>
        refine ⟨"Invariant checking not supported for nested invariants", fun q => ?_⟩
        simp [CheckInvariant, GetNestedAlways, hn, ha, hea]
  · intro nested hn he ha
    simp [CheckInvariant, GetNestedAlways, hn, he, ha, hfiles, evaluatorResult]
  · intro hn ha
    simp [CheckInvariant, GetNestedAlways, hn, ha, hfiles, evaluatorResult]

theorem CheckInvariant_valid_iff_witness :
    (∃ msg, ∀ q : Process, CheckInvariant q flatEventuallyInvariant = Outcome.fatal msg) ∧
    CheckInvariant exampleProcess eventuallyAlwaysInvariant =
      evaluatorResult (exampleProcess.EvalPyExpr "spec.fizz" "done") ∧
    CheckInvariant exampleProcess alwaysEventuallyInvariant =
      evaluatorResult (exampleProcess.EvalPyExpr "spec.fizz" "done") :=
  ⟨(CheckInvariant_valid_iff exampleProcess flatEventuallyInvariant
      { FileName := "spec.fizz", Invariants := exampleInvariants } [] rfl).1 (by decide),
    (CheckInvariant_valid_iff exampleProcess eventuallyAlwaysInvariant
      { FileName := "spec.fizz", Invariants := exampleInvariants } [] rfl).2.1
      { Always := true, PyExpr := "done", Nested := none } rfl rfl rfl,
    (CheckInvariant_valid_iff exampleProcess alwaysEventuallyInvariant
      { FileName := "spec.fizz", Invariants := exampleInvariants } [] rfl).2.2 rfl rfl⟩

/-! ## Crash filter and weak fairness of `isFairCycle` -/

/-- C20 (defect of the code): in `threadGraph` the set `falseNodes` is
`{1, 2}`, state 1 without threads and state 2 with one thread. Iterated in the
order 1, 2 the selection loop of `AlwaysEventuallyFast` ends with state 2, a
state with threads, because its action depth is smaller; iterated in the order
2, 1 it ends with state 1. The counterexample path of `AlwaysEventuallyFast`
differs accordingly. -/
theorem closestDeadNode_depends_on_iteration_order :
    alwaysEventuallyFalseNodes 9 threadGraph [0, 1, 2] (fastPredicate threadGraph 0 0) =
      Outcome.ret [1, 2] ∧
    (threadGraph 1).Process.Threads = 0 ∧ (threadGraph 2).Process.Threads = 1 ∧
    ([1, 2] : List NodeId).foldl (closestDeadStep threadGraph) none = some 2 ∧
    ([2, 1] : List NodeId).foldl (closestDeadStep threadGraph) none = some 1 ∧
    AlwaysEventuallyFast 9 threadGraph id [0, 1, 2] (fastPredicate threadGraph 0 0) =
      Outcome.ret ([{ Node := 0, Name := "Init" }, { Node := 2, Name := "start" },
        { Node := 2, Name := "stutter" }], false) ∧
    AlwaysEventuallyFast 9 threadGraph List.reverse [0, 1, 2] (fastPredicate threadGraph 0 0) =
      Outcome.ret ([{ Node := 0, Name := "Init" }, { Node := 2, Name := "start" },
        { Node := 1, Name := "finish" }, { Node := 1, Name := "stutter" }], false) := by
  refine ⟨?_, ?_, ?_, ?_, ?_, ?_, ?_⟩ <;> decide

/-! ## Callbacks of the Final strategy -/

theorem reverse_take_succ (path : List Link) (k : Nat) (x : Link)
    (hx : path.get? k = some x) :
    (path.take (k + 1)).reverse = x :: (path.take k).reverse := by
  rw [List.take_succ]
  rw [List.get?_eq_getElem?] at hx
  rw [hx]
  simp

theorem eventuallyAlwaysScan_take (predicate : Predicate) (mergeNode : NodeId) (last : Nat)
    (path : List Link) :
    ∀ (k : Nat) (dead : Bool), k < path.length →
      ∃ m d, eventuallyAlwaysScan predicate mergeNode last (path.take (k + 1)).reverse dead =
          (m, d) ∧ m ≤ k ∧
        (d = true ↔ dead = true ∨ ∃ j link, m ≤ j ∧ j ≤ k ∧ path.get? j = some link ∧
          relevantFalse predicate link.Node = true) ∧
        ((m < last ∧ ∃ link, path.get? m = some link ∧ link.Node = mergeNode) ∨ m = 0) ∧
        ∀ j link, m < j → j ≤ k → path.get? j = some link →
          ¬ (j < last ∧ link.Node = mergeNode) := by
  intro k
  induction k with
  | zero =>
    intro dead hk
    obtain ⟨x, hx⟩ : ∃ x, path.get? 0 = some x := ⟨_, List.get?_eq_get hk⟩
    rw [reverse_take_succ path 0 x hx, List.take_zero, List.reverse_nil, eventuallyAlwaysScan]
    simp only [List.length_nil]
    refine ⟨0, (if relevantFalse predicate x.Node = true then true else dead), ?_,
      Nat.le_refl _, ?_, ?_, ?_⟩
    · unfold relevantFalse
      split_ifs <;> simp [eventuallyAlwaysScan]
    · constructor
      · intro hd
        by_cases hb : relevantFalse predicate x.Node = true
        · exact Or.inr ⟨0, x, Nat.le_refl _, Nat.le_refl _, hx, hb⟩
        · rw [if_neg hb] at hd
          exact Or.inl hd
      · rintro (hd | ⟨j, link, _, hj, hget, hb⟩)
        · split_ifs
          · rfl
          · exact hd
        · have : j = 0 := by omega
          subst this
          rw [hx] at hget
          cases hget
          rw [if_pos hb]
    · exact Or.inr rfl
    · intro j link h1 h2
      omega
  | succ k ih =>
    intro dead hk
    obtain ⟨x, hx⟩ : ∃ x, path.get? (k + 1) = some x := ⟨_, List.get?_eq_get hk⟩
    rw [reverse_take_succ path (k + 1) x hx, eventuallyAlwaysScan]
    have hlen : (path.take (k + 1)).reverse.length = k + 1 := by
      rw [List.length_reverse, List.length_take]
      omega
    simp only [hlen]
    by_cases hmerge : k + 1 < last ∧ x.Node = mergeNode
    · rw [if_pos hmerge]
      refine ⟨k + 1, _, rfl, Nat.le_refl _, ?_, Or.inl ⟨hmerge.1, x, hx, hmerge.2⟩, ?_⟩
      · constructor
        · intro hd
          by_cases hb : relevantFalse predicate x.Node = true
          · exact Or.inr ⟨k + 1, x, Nat.le_refl _, Nat.le_refl _, hx, hb⟩
          · unfold relevantFalse at hb
            rw [if_neg hb] at hd
            exact Or.inl hd
        · rintro (hd | ⟨j, link, h1, h2, hget, hb⟩)
          · split_ifs
            · rfl
            · exact hd
          · have : j = k + 1 := by omega
            subst this
            rw [hx] at hget
            cases hget
            unfold relevantFalse at hb
            rw [if_pos hb]
      · intro j link h1 h2
        omega
    · rw [if_neg hmerge]
      obtain ⟨m, d, hscan, hm, hd, hmp, hno⟩ := ih
        (if ((predicate x.Node).1 && !(predicate x.Node).2) = true then true else dead)
        (by omega)
      refine ⟨m, d, hscan, by omega, ?_, hmp, ?_⟩
      · rw [hd]
        constructor
        · rintro (h | ⟨j, link, h1, h2, hget, hb⟩)
          · by_cases hb : relevantFalse predicate x.Node = true
            · exact Or.inr ⟨k + 1, x, by omega, Nat.le_refl _, hx, hb⟩
            · unfold relevantFalse at hb
              rw [if_neg hb] at h
              exact Or.inl h
          · exact Or.inr ⟨j, link, h1, by omega, hget, hb⟩
        · rintro (h | ⟨j, link, h1, h2, hget, hb⟩)
          · left
            split_ifs
            · rfl
            · exact h
          · by_cases hj : j = k + 1
            · subst hj
              rw [hx] at hget
              cases hget
              left
              unfold relevantFalse at hb
              rw [if_pos hb]
            · exact Or.inr ⟨j, link, h1, by omega, hget, hb⟩
      · intro j link h1 h2 hget
        by_cases hj : j = k + 1
        · subst hj
          rw [hx] at hget
          cases hget
          exact hmerge
        · exact hno j link h1 (by omega) hget

theorem alwaysEventuallyScan_take (predicate : Predicate) (mergeNode : NodeId) (last : Nat)
    (path : List Link) :
    ∀ k : Nat, k < path.length →
      (alwaysEventuallyScan predicate mergeNode last (path.take (k + 1)).reverse = none ∧
        ∃ i link, i ≤ k ∧ path.get? i = some link ∧ relevantTrue predicate link.Node = true ∧
          ∀ j link2, i < j → j ≤ k → path.get? j = some link2 →
            ¬ (j < last ∧ link2.Node = mergeNode)) ∨
      (∃ m, alwaysEventuallyScan predicate mergeNode last (path.take (k + 1)).reverse =
          some m ∧ m ≤ k ∧
        (∀ j link, m ≤ j → j ≤ k → path.get? j = some link →
          relevantTrue predicate link.Node = false) ∧
        ((m < last ∧ ∃ link, path.get? m = some link ∧ link.Node = mergeNode) ∨ m = 0) ∧
        ∀ j link, m < j → j ≤ k → path.get? j = some link →
          ¬ (j < last ∧ link.Node = mergeNode)) := by
  intro k
  induction k with
  | zero =>
    intro hk
    obtain ⟨x, hx⟩ : ∃ x, path.get? 0 = some x := ⟨_, List.get?_eq_get hk⟩
    rw [reverse_take_succ path 0 x hx, List.take_zero, List.reverse_nil, alwaysEventuallyScan]
    simp only [List.length_nil]
    by_cases hseed : ((predicate x.Node).1 && (predicate x.Node).2) = true
    · rw [if_pos hseed]
      exact Or.inl ⟨rfl, 0, x, Nat.le_refl _, hx, hseed, fun j _ h1 h2 => by omega⟩
    · rw [if_neg hseed]
      right
      refine ⟨0, ?_, Nat.le_refl _, ?_, Or.inr rfl, fun j _ h1 h2 => by omega⟩
      · split_ifs <;> rfl
      · intro j link _ h2 hget
        have : j = 0 := by omega
        subst this
        rw [hx] at hget
        cases hget
        unfold relevantTrue
        simpa using hseed
  | succ k ih =>
    intro hk
    obtain ⟨x, hx⟩ : ∃ x, path.get? (k + 1) = some x := ⟨_, List.get?_eq_get hk⟩
    rw [reverse_take_succ path (k + 1) x hx, alwaysEventuallyScan]
    have hlen : (path.take (k + 1)).reverse.length = k + 1 := by
      rw [List.length_reverse, List.length_take]
      omega
    simp only [hlen]
    by_cases hseed : ((predicate x.Node).1 && (predicate x.Node).2) = true
    · rw [if_pos hseed]
      exact Or.inl ⟨rfl, k + 1, x, Nat.le_refl _, hx, hseed, fun j _ h1 h2 => by omega⟩
    · rw [if_neg hseed]
      have hx0 : relevantTrue predicate x.Node = false := by
        unfold relevantTrue
        simpa using hseed
      by_cases hmerge : k + 1 < last ∧ x.Node = mergeNode
      · rw [if_pos hmerge]
        right
        refine ⟨k + 1, rfl, Nat.le_refl _, ?_, Or.inl ⟨hmerge.1, x, hx, hmerge.2⟩,
          fun j _ h1 h2 => by omega⟩
        intro j link h1 h2 hget
        have : j = k + 1 := by omega
        subst this
        rw [hx] at hget
        cases hget
        exact hx0
      · rw [if_neg hmerge]
        have hstep : ∀ j link, j = k + 1 → path.get? j = some link →
            ¬ (j < last ∧ link.Node = mergeNode) := by
          intro j link hj hget
          subst hj
          rw [hx] at hget
          cases hget
          exact hmerge
        rcases ih (by omega) with ⟨hnone, i, link, hi, hget, hs, hno⟩ |
          ⟨m, hsome, hm, hns, hmp, hno⟩
        · left
          refine ⟨hnone, i, link, by omega, hget, hs, ?_⟩
          intro j link2 h1 h2 hget2
          by_cases hj : j = k + 1
          · exact hstep j link2 hj hget2
          · exact hno j link2 h1 (by omega) hget2
        · right
          refine ⟨m, hsome, by omega, ?_, hmp, ?_⟩
          · intro j link h1 h2 hget
            by_cases hj : j = k + 1
            · subst hj
              rw [hx] at hget
              cases hget
              exact hx0
            · exact hns j link h1 (by omega) hget
          · intro j link h1 h2 hget
            by_cases hj : j = k + 1
            · exact hstep j link hj hget
            · exact hno j link h1 (by omega) hget

theorem isMergeIndex_of_scan (path : List Link) (last : Link) (m : Nat)
    (hlast : path.getLast? = some last) (hm : m ≤ path.length - 1)
    (hmp : (m < path.length - 1 ∧ ∃ link, path.get? m = some link ∧ link.Node = last.Node) ∨
      m = 0)
    (hno : ∀ j link, m < j → j ≤ path.length - 1 → path.get? j = some link →
      ¬ (j < path.length - 1 ∧ link.Node = last.Node)) :
    isMergeIndex path m := by
  refine ⟨last, hlast, ?_⟩
  by_cases h : m < path.length - 1 ∧ ∃ link, path.get? m = some link ∧ link.Node = last.Node
  · left
    refine ⟨by omega, h.2, ?_⟩
    intro i link h1 h2 hget hnode
    exact hno i link h1 (by omega) hget ⟨by omega, hnode⟩
  · right
    have hm0 : m = 0 := by
      rcases hmp with h2 | h2
      · exact absurd h2 h
      · exact h2
    subst hm0
    refine ⟨rfl, ?_⟩
    intro i link h2 hget hnode
    by_cases hi : i = 0
    · subst hi
      exact h ⟨by omega, link, hget, hnode⟩
    · exact hno i link (by omega) (by omega) hget ⟨by omega, hnode⟩

theorem isMergeIndex_unique (path : List Link) (m n : Nat) (hm : isMergeIndex path m)
    (hn : isMergeIndex path n) : m = n := by
  obtain ⟨last, hlast, h1⟩ := hm
  obtain ⟨last2, hlast2, h2⟩ := hn
  rw [hlast] at hlast2
  cases hlast2
  rcases h1 with ⟨a1, ⟨l1, g1, n1⟩, c1⟩ | ⟨rfl, c1⟩ <;>
    rcases h2 with ⟨a2, ⟨l2, g2, n2⟩, c2⟩ | ⟨rfl, c2⟩
  · by_contra hne
    rcases Nat.lt_or_gt_of_ne hne with h | h
    · exact c1 n l2 h a2 g2 n2
    · exact c2 m l1 h a1 g1 n1
  · exact absurd n1 (c2 m l1 a1 g1)
  · exact absurd n2 (c1 n l2 a2 g2)
  · rfl

theorem traverseOutbound_false (Q : List Link → Prop)
    (explore : NodeId → List NodeId → List Link → List NodeId →
      Outcome (List Link × Bool × List NodeId))
    (visited : List NodeId) (path : List Link)
    (hexplore : ∀ link gv p gv2,
      explore link.Node visited (path ++ [link]) gv = Outcome.ret (p, false, gv2) → Q p) :
    ∀ (links : List Link) (gv : List NodeId) (p : List Link) (gv2 : List NodeId),
      traverseOutbound explore visited path links gv = Outcome.ret (p, false, gv2) → Q p := by
  intro links
  induction links with
  | nil =>
    intro gv p gv2 h
    simp [traverseOutbound] at h
  | cons link rest ih =>
    intro gv p gv2 h
    rw [traverseOutbound] at h
    cases he : explore link.Node visited (path ++ [link]) gv with
    | ret v =>
      obtain ⟨fp, success, gv3⟩ := v
      rw [he] at h
      cases success with
      | true =>
        simp only [Bool.not_true, Bool.false_eq_true, if_false] at h
        exact ih gv3 p gv2 h
      | false =>
        simp only [Bool.not_false, if_true, Outcome.ret.injEq, Prod.mk.injEq] at h
        obtain ⟨rfl, _, rfl⟩ := h
        exact hexplore link gv fp gv3 he
    | fatal msg =>
      rw [he] at h
      cases h
    | fuel =>
      rw [he] at h
      cases h

theorem cycleFinderHelper_callback_false (g : Graph) (callback : CycleCallback) :
    ∀ (depth : Nat) (node : NodeId) (visited : List NodeId) (path : List Link)
      (gv : List NodeId) (p : List Link) (gv2 : List NodeId), path ≠ [] →
      cycleFinderHelper g callback depth node visited path gv = Outcome.ret (p, false, gv2) →
      callback p = Outcome.ret false ∧ p ≠ [] := by
  intro depth
  induction depth with
  | zero =>
    intro node visited path gv p gv2 _ h
    simp [cycleFinderHelper] at h
  | succ depth ih =>
    intro node visited path gv p gv2 hne h
    rw [cycleFinderHelper] at h
    by_cases hv : node ∈ visited
    · rw [if_pos hv] at h
      cases hc : callback path with
      | ret live =>
        rw [hc] at h
        simp only [Outcome.ret.injEq, Prod.mk.injEq] at h
        obtain ⟨rfl, rfl, _⟩ := h
        exact ⟨hc, hne⟩
      | fatal msg =>
        rw [hc] at h
        cases h
      | fuel =>
        rw [hc] at h
        cases h
    · rw [if_neg hv] at h
      by_cases hg : node ∈ gv
      · rw [if_pos hg] at h
        simp at h
      · rw [if_neg hg] at h
        have hdescend : ∀ p gv2,
            traverseOutbound (cycleFinderHelper g callback depth) (setInsert visited node) path
              (g node).Outbound (setInsert gv node) = Outcome.ret (p, false, gv2) →
            callback p = Outcome.ret false ∧ p ≠ [] :=
          fun p gv2 => traverseOutbound_false
            (fun q => callback q = Outcome.ret false ∧ q ≠ []) _ _ path
            (fun link gv3 p3 gv4 he => ih link.Node _ _ gv3 p3 gv4 (by simp) he)
            (g node).Outbound _ p gv2
        dsimp only at h
        split at h
        · cases hc : callback (path ++ [stutterLink node]) with
          | ret isLive =>
            rw [hc] at h
            cases isLive with
            | true =>
              simp only [Bool.not_true, Bool.false_eq_true, if_false] at h
              exact hdescend p gv2 h
            | false =>
              simp only [Bool.not_false, if_true, Outcome.ret.injEq, Prod.mk.injEq] at h
              obtain ⟨rfl, _, _⟩ := h
              exact ⟨hc, by simp⟩
          | fatal msg =>
            rw [hc] at h
            cases h
          | fuel =>
            rw [hc] at h
            cases h
        · exact hdescend p gv2 h

theorem CycleFinderFinal_callback_false (depth : Nat) (g : Graph) (root : NodeId)
    (callback : CycleCallback) (p : List Link)
    (h : CycleFinderFinal depth g root callback = Outcome.ret (p, false)) :
    callback p = Outcome.ret false ∧ p ≠ [] := by
  unfold CycleFinderFinal at h
  cases hc : cycleFinderHelper g callback depth root [] [InitNodeToLink g root] [] with
  | ret v =>
    obtain ⟨q, live, gv⟩ := v
    rw [hc] at h
    simp only [Outcome.ret.injEq, Prod.mk.injEq] at h
    obtain ⟨rfl, rfl⟩ := h
    exact cycleFinderHelper_callback_false g callback depth root [] _ [] q gv (by simp) hc
  | fatal msg =>
    rw [hc] at h
    cases h
  | fuel =>
    rw [hc] at h
    cases h

theorem path_take_length_sub (path : List Link) (hne : path ≠ []) :
    path.take (path.length - 1 + 1) = path := by
  have : 0 < path.length := List.length_pos.mpr hne
  rw [Nat.sub_add_cancel this, List.take_length]

theorem get?_last_of_getLast? (path : List Link) (last : Link)
    (h : path.getLast? = some last) : path.get? (path.length - 1) = some last := by
  rw [List.get?_eq_getElem?, ← List.getLast?_eq_getElem?]
  exact h

theorem alwaysEventuallyCallback_spec (g : Graph) (predicate : Predicate) (path : List Link)
    (hne : path ≠ []) :
    ∃ m, isMergeIndex path m ∧
      (((∀ i link, m ≤ i → path.get? i = some link →
            relevantTrue predicate link.Node = false) ∧ isFairCycle g (path.drop m) = true) →
        alwaysEventuallyCallback g predicate path = Outcome.ret false) ∧
      (¬ ((∀ i link, m ≤ i → path.get? i = some link →
            relevantTrue predicate link.Node = false) ∧ isFairCycle g (path.drop m) = true) →
        alwaysEventuallyCallback g predicate path = Outcome.ret true) := by
  obtain ⟨pre, last, hpath⟩ : ∃ pre last, path = pre ++ [last] :=
    ⟨path.dropLast, path.getLast hne, (List.dropLast_append_getLast hne).symm⟩
  have hlast : path.getLast? = some last := by
    rw [hpath, List.getLast?_concat]
  have hpos : 0 < path.length := List.length_pos.mpr hne
  have hscanEA := eventuallyAlwaysScan_take predicate last.Node (path.length - 1) path
    (path.length - 1) false (by omega)
  obtain ⟨m0, _, _, hm0, _, hmp0, hno0⟩ := hscanEA
  have hmerge0 := isMergeIndex_of_scan path last m0 hlast hm0 hmp0 hno0
  refine ⟨m0, hmerge0, ?_⟩
  unfold alwaysEventuallyCallback
  rw [hlast]
  dsimp only
  have hscan := alwaysEventuallyScan_take predicate last.Node (path.length - 1) path
    (path.length - 1) (by omega)
  rw [path_take_length_sub path hne] at hscan
  rcases hscan with ⟨hnone, i, link, hi, hget, hs, hno⟩ | ⟨m, hsome, hm, hns, hmp, hno⟩
  · rw [hnone]
    dsimp only
    have hmi : m0 ≤ i := by
      by_contra hlt
      rcases hmp0 with ⟨h1, l0, hg0, hn0⟩ | h0
      · exact hno m0 l0 (by omega) hm0 hg0 ⟨h1, hn0⟩
      · omega
    refine ⟨fun hall => ?_, fun _ => rfl⟩
    rw [hall.1 i link hmi hget] at hs
    cases hs
  · rw [hsome]
    dsimp only
    have hmm : m = m0 :=
      isMergeIndex_unique path m m0 (isMergeIndex_of_scan path last m hlast hm hmp hno) hmerge0
    subst hmm
    have hA : ∀ i link, m ≤ i → path.get? i = some link →
        relevantTrue predicate link.Node = false := by
      intro i link h1 hget
      have hi : i < path.length := (List.get?_eq_some.mp hget).1
      exact hns i link h1 (by omega) hget
    constructor
    · intro h
      rw [h.2, if_pos rfl]
    · intro h
      have hf : isFairCycle g (path.drop m) = false := by
        cases hfc : isFairCycle g (path.drop m) with
        | false => rfl
        | true => exact absurd ⟨hA, hfc⟩ h
      rw [hf]
      rfl

theorem eventuallyAlwaysCallback_spec (g : Graph) (predicate : Predicate) (path : List Link)
    (hne : path ≠ []) :
    ∃ m, isMergeIndex path m ∧
      (((∃ i link, m ≤ i ∧ path.get? i = some link ∧
            relevantFalse predicate link.Node = true) ∧ isFairCycle g (path.drop m) = true) →
        eventuallyAlwaysCallback g predicate path = Outcome.ret false) ∧
      (¬ ((∃ i link, m ≤ i ∧ path.get? i = some link ∧
            relevantFalse predicate link.Node = true) ∧ isFairCycle g (path.drop m) = true) →
        eventuallyAlwaysCallback g predicate path = Outcome.ret true) := by
  obtain ⟨pre, last, hpath⟩ : ∃ pre last, path = pre ++ [last] :=
    ⟨path.dropLast, path.getLast hne, (List.dropLast_append_getLast hne).symm⟩
  have hlast : path.getLast? = some last := by
    rw [hpath, List.getLast?_concat]
  have hpos : 0 < path.length := List.length_pos.mpr hne
  have hscan := eventuallyAlwaysScan_take predicate last.Node (path.length - 1) path
    (path.length - 1) false (by omega)
  rw [path_take_length_sub path hne] at hscan
  obtain ⟨m, d, hres, hm, hd, hmp, hno⟩ := hscan
  refine ⟨m, isMergeIndex_of_scan path last m hlast hm hmp hno, ?_⟩
  unfold eventuallyAlwaysCallback
  rw [hlast]
  dsimp only
  rw [hres]
  dsimp only
  have hdead : d = true ↔ ∃ i link, m ≤ i ∧ path.get? i = some link ∧
      relevantFalse predicate link.Node = true := by
    rw [hd]
    constructor
    · rintro (h | ⟨j, link, h1, _, hget, hb⟩)
      · cases h
      · exact ⟨j, link, h1, hget, hb⟩
    · rintro ⟨i, link, h1, hget, hb⟩
      have hi : i < path.length := (List.get?_eq_some.mp hget).1
      exact Or.inr ⟨i, link, h1, by omega, hget, hb⟩
  constructor
  · intro h
    rw [hdead.mpr h.1, h.2]
    rfl
  · intro h
    have : (d && isFairCycle g (path.drop m)) = false := by
      cases hdd : d with
      | false => rfl
      | true =>
        cases hfc : isFairCycle g (path.drop m) with
        | false => rfl
        | true => exact absurd ⟨hdead.mp hdd, hfc⟩ h
    rw [this]
    rfl

/-- C17: for a non-empty path, with `m` the latest index before the last whose
node is the node of the last link (0 if there is none), the always-eventually
callback answers not live if and only if no node at the positions from `m` on is
relevant and P-true and `isFairCycle` accepts `path[m:]`, and the
eventually-always callback answers not live if and only if some node at the
positions from `m` on is relevant and not P-true and `isFairCycle` accepts
`path[m:]`; otherwise they answer live. Hence the cycle portion of every
violation path that `AlwaysEventuallyFinal` or `EventuallyAlwaysFinal` returns
is accepted by `isFairCycle`. -/
theorem final_callbacks_report_fair_cycles (g : Graph) (predicate : Predicate)
    (path : List Link) (hne : path ≠ []) :
    (∃ m, isMergeIndex path m ∧
      (alwaysEventuallyCallback g predicate path = Outcome.ret false ↔
        (∀ i link, m ≤ i → path.get? i = some link →
          relevantTrue predicate link.Node = false) ∧ isFairCycle g (path.drop m) = true) ∧
      (alwaysEventuallyCallback g predicate path = Outcome.ret false ∨
        alwaysEventuallyCallback g predicate path = Outcome.ret true) ∧
      (eventuallyAlwaysCallback g predicate path = Outcome.ret false ↔
        (∃ i link, m ≤ i ∧ path.get? i = some link ∧
          relevantFalse predicate link.Node = true) ∧ isFairCycle g (path.drop m) = true) ∧
      (eventuallyAlwaysCallback g predicate path = Outcome.ret false ∨
        eventuallyAlwaysCallback g predicate path = Outcome.ret true)) ∧
    (∀ depth root p, AlwaysEventuallyFinal depth g root predicate = Outcome.ret (p, false) →
      ∃ m, isMergeIndex p m ∧ isFairCycle g (p.drop m) = true) ∧
    (∀ depth root p, EventuallyAlwaysFinal depth g root predicate = Outcome.ret (p, false) →
      ∃ m, isMergeIndex p m ∧ isFairCycle g (p.drop m) = true) := by
  refine ⟨?_, ?_, ?_⟩
  · obtain ⟨m, hm, ha1, ha2⟩ := alwaysEventuallyCallback_spec g predicate path hne
    obtain ⟨m2, hm2, he1, he2⟩ := eventuallyAlwaysCallback_spec g predicate path hne
    have hmm := isMergeIndex_unique path m2 m hm2 hm
    subst hmm
    refine ⟨m2, hm, ⟨?_, ha1⟩, ?_, ⟨?_, he1⟩, ?_⟩
    · intro h
      by_contra hnot
      rw [ha2 hnot] at h
      cases h
    · by_cases h : (∀ i link, m2 ≤ i → path.get? i = some link →
          relevantTrue predicate link.Node = false) ∧ isFairCycle g (path.drop m2) = true
      · exact Or.inl (ha1 h)
      · exact Or.inr (ha2 h)
    · intro h
      by_contra hnot
      rw [he2 hnot] at h
      cases h
    · by_cases h : (∃ i link, m2 ≤ i ∧ path.get? i = some link ∧
          relevantFalse predicate link.Node = true) ∧ isFairCycle g (path.drop m2) = true
      · exact Or.inl (he1 h)
      · exact Or.inr (he2 h)
  · intro depth root p h
    obtain ⟨hcb, hp⟩ := CycleFinderFinal_callback_false depth g root _ p h
    obtain ⟨m, hm, _, ha2⟩ := alwaysEventuallyCallback_spec g predicate p hp
    refine ⟨m, hm, ?_⟩
    by_contra hnot
    rw [ha2 (fun hboth => hnot hboth.2)] at hcb
    cases hcb
  · intro depth root p h
    obtain ⟨hcb, hp⟩ := CycleFinderFinal_callback_false depth g root _ p h
    obtain ⟨m, hm, _, he2⟩ := eventuallyAlwaysCallback_spec g predicate p hp
    refine ⟨m, hm, ?_⟩
    by_contra hnot
    rw [he2 (fun hboth => hnot hboth.2)] at hcb
    cases hcb

theorem final_callbacks_report_fair_cycles_witness :
    pingPongPath ≠ [] ∧
    EventuallyAlwaysFinal 3 pingPongGraph 0 (strictPredicate pingPongGraph 0 1) =
      Outcome.ret (pingPongPath, false) ∧
    ∃ m, isMergeIndex pingPongPath m ∧ isFairCycle pingPongGraph (pingPongPath.drop m) = true :=
  ⟨by decide, by decide,
    (final_callbacks_report_fair_cycles pingPongGraph (strictPredicate pingPongGraph 0 1)
      pingPongPath (by decide)).2.2 3 0 pingPongPath (by decide)⟩

/-- C15: on a path with a position whose node is named `init` or `yield`, if an
action name labels at every such position a weak-fair outbound link that does
not target the successor, and at no such position a weak-fair outbound link that
targets the successor, then `isFairCycle` returns false, and the
always-eventually callback answers live on every path whose cycle portion is
that path. -/
theorem isFairCycle_false_on_weak_escape (g : Graph) (path : List Link) (a : String)
    (hpart : ∃ i, participates g path i)
    (hout : ∀ i, participates g path i → outOfChainAt g path FairnessLevel.WEAK i a)
    (hin : ∀ i, participates g path i → ¬ inChainAt g path FairnessLevel.WEAK i a) :
    isFairCycle g path = false ∧
    ∀ (predicate : Predicate) (full : List Link) (m : Nat), full ≠ [] →
      isMergeIndex full m → full.drop m = path →
      alwaysEventuallyCallback g predicate full = Outcome.ret true := by
  have hfalse : isFairCycle g path = false := by
    cases hfc : isFairCycle g path with
    | false => rfl
    | true =>
      exact absurd ⟨hpart, fun i hi => ⟨hout i hi, hin i hi⟩⟩
        (((isFairCycle_iff g path).mp hfc).2.2 a)
  refine ⟨hfalse, ?_⟩
  intro predicate full m hne hm hdrop
  obtain ⟨m2, hm2, _, h2⟩ := alwaysEventuallyCallback_spec g predicate full hne
  have hmm := isMergeIndex_unique full m2 m hm2 hm
  subst hmm
  apply h2
  rintro ⟨_, hfair⟩
  rw [hdrop, hfalse] at hfair
  cases hfair

theorem weakEscapeCycle_participates (i : Nat) (link : Link)
    (h : weakEscapeCycle.get? i = some link) :
    link.Node = 0 ∧ succNode weakEscapeCycle i = some 0 := by
  rcases i with _ | _ | i
  · simp only [weakEscapeCycle, List.get?_cons_zero, Option.some.injEq] at h
    subst h
    exact ⟨rfl, rfl⟩
  · simp only [weakEscapeCycle, List.get?_cons_succ, List.get?_cons_zero,
      Option.some.injEq] at h
    subst h
    exact ⟨rfl, rfl⟩
  · simp [weakEscapeCycle] at h

theorem isFairCycle_false_on_weak_escape_witness :
    (∃ i, participates weakEscapeGraph weakEscapeCycle i) ∧
    isFairCycle weakEscapeGraph weakEscapeCycle = false ∧
    ∀ (predicate : Predicate) (full : List Link) (m : Nat), full ≠ [] →
      isMergeIndex full m → full.drop m = weakEscapeCycle →
      alwaysEventuallyCallback weakEscapeGraph predicate full = Outcome.ret true :=
  ⟨⟨0, { Node := 0, Name := "Init" }, rfl, Or.inr rfl⟩,
    isFairCycle_false_on_weak_escape weakEscapeGraph weakEscapeCycle "a"
      ⟨0, { Node := 0, Name := "Init" }, rfl, Or.inr rfl⟩
      (fun i hi => by
        obtain ⟨link, hget, _⟩ := id hi
        obtain ⟨hnode, hsucc⟩ := weakEscapeCycle_participates i link hget
        refine ⟨hi, link, { Node := 1, Name := "a", Fairness := FairnessLevel.WEAK }, hget,
          ?_, rfl, rfl, ?_⟩
        · rw [hnode]
          decide
        · rw [hsucc]
          decide)
      (fun i hi => by
        obtain ⟨link, hget, _⟩ := id hi
        obtain ⟨hnode, hsucc⟩ := weakEscapeCycle_participates i link hget
        rintro ⟨_, link2, outLink, hget2, hmem, _, hname, htarget⟩
        rw [hget] at hget2
        cases hget2
        rw [hnode] at hmem
        rw [hsucc] at htarget
        simp only [weakEscapeGraph, List.mem_cons, List.mem_singleton, List.not_mem_nil,
          or_false] at hmem
        rcases hmem with rfl | rfl
        · exact absurd htarget (by decide)
        · exact absurd hname (by decide))⟩

/-! ## Depth-first search that ends live -/

theorem exploredLive_mono {g : Graph} {root : NodeId} {callback : CycleCallback}
    {onPath onPath2 : List NodeId} {x : NodeId} (hsub : ∀ v ∈ onPath2, v ∈ onPath)
    (h : exploredLive g root callback onPath x) : exploredLive g root callback onPath2 x := by
  obtain ⟨visited, path, h1, h2, h3, h4⟩ := h
  exact ⟨visited, path, h1, fun v hv => h2 v (hsub v hv), h3, h4⟩

theorem cycle_pred (cyc : List Link) (last lz : Link) (hlast : cyc.getLast? = some last)
    (hlz : lz ∈ cyc) :
    ∃ front prev back, last :: cyc = front ++ prev :: lz :: back ∧ prev ∈ cyc := by
  obtain ⟨s, t, rfl⟩ := List.append_of_mem hlz
  have hlastmem : last ∈ s ++ lz :: t := List.mem_of_getLast?_eq_some hlast
  by_cases hs : s = []
  · subst hs
    exact ⟨[], last, t, rfl, hlastmem⟩
  · obtain ⟨s2, prev, rfl⟩ : ∃ s2 prev, s = s2 ++ [prev] :=
      ⟨s.dropLast, s.getLast hs, (List.dropLast_append_getLast hs).symm⟩
    exact ⟨last :: s2, prev, t, by simp, by simp⟩

theorem chain_forward {P : Link → Prop} {Q : Link → Prop} {R : Link → Link → Prop}
    (hstep : ∀ x y, R x y → P x → Q y → P y) :
    ∀ (l : List Link) (a : Link), List.Chain' R (a :: l) → P a → (∀ y ∈ l, Q y) →
      ∀ y ∈ l, P y := by
  intro l
  induction l with
  | nil =>
    intro a _ _ _ y hy
    cases hy
  | cons b rest ih =>
    intro a hchain ha hq y hy
    rw [List.chain'_cons] at hchain
    have hb : P b := hstep a b hchain.1 ha (hq b (List.mem_cons_self _ _))
    rcases List.mem_cons.mp hy with rfl | hy
    · exact hb
    · exact ih b hchain.2 hb (fun z hz => hq z (List.mem_cons_of_mem _ hz)) y hy

theorem cycle_closed {g : Graph} {P : Link → Prop} {Q : Link → Prop} (cyc : List Link)
    (hcyc : isCycle g cyc) (hstep : ∀ x y, followsOutbound g x y → P x → Q y → P y)
    (hq : ∀ y ∈ cyc, Q y) (z : Link) (hz : z ∈ cyc) (hpz : P z) : ∀ y ∈ cyc, P y := by
  obtain ⟨last, hlast, hchain⟩ := hcyc
  have hplast : P last := by
    obtain ⟨s, t, hst⟩ := List.append_of_mem hz
    have hchain2 : List.Chain' (followsOutbound g) (z :: t) := by
      have hsplit : List.Chain' (followsOutbound g) ((last :: s) ++ z :: t) := by
        rw [hst] at hchain
        exact hchain
      exact List.Chain'.right_of_append hsplit
    have hafter := chain_forward hstep t z hchain2 hpz
      (fun y hy => hq y (by rw [hst]; simp [hy]))
    by_cases ht : t = []
    · subst ht
      rw [hst, List.getLast?_concat] at hlast
      cases hlast
      exact hpz
    · obtain ⟨t2, e, rfl⟩ : ∃ t2 e, t = t2 ++ [e] :=
        ⟨t.dropLast, t.getLast ht, (List.dropLast_append_getLast ht).symm⟩
      rw [hst, show s ++ z :: (t2 ++ [e]) = (s ++ z :: t2) ++ [e] by simp,
        List.getLast?_concat] at hlast
      cases hlast
      exact hafter last (by simp)
  exact chain_forward hstep cyc last hchain hplast hq

theorem liveSearch_refl (g : Graph) (root : NodeId) (callback : CycleCallback)
    (onPath gv : List NodeId) : liveSearch g root callback onPath gv gv := by
  exact ⟨fun v hv => hv, fun x hx hn => absurd hx hn, fun x hx hn => absurd hx hn⟩

theorem liveSearch_mono {g : Graph} {root : NodeId} {callback : CycleCallback}
    {onPath onPath2 before after : List NodeId} (hsub : ∀ v ∈ onPath2, v ∈ onPath)
    (h : liveSearch g root callback onPath before after) :
    liveSearch g root callback onPath2 before after :=
  ⟨h.1, h.2.1, fun x hx hn => exploredLive_mono hsub (h.2.2 x hx hn)⟩

theorem liveSearch_trans {g : Graph} {root : NodeId} {callback : CycleCallback}
    {onPath first middle last : List NodeId}
    (h1 : liveSearch g root callback onPath first middle)
    (h2 : liveSearch g root callback onPath middle last) :
    liveSearch g root callback onPath first last := by
  obtain ⟨a1, b1, c1⟩ := h1
  obtain ⟨a2, b2, c2⟩ := h2
  refine ⟨fun v hv => a2 v (a1 v hv), ?_, ?_⟩
  · intro x hx hn o ho
    by_cases hm : x ∈ middle
    · exact a2 _ (b1 x hm hn o ho)
    · exact b2 x hx hm o ho
  · intro x hx hn
    by_cases hm : x ∈ middle
    · exact c1 x hm hn
    · exact c2 x hx hm

theorem traverseOutbound_live (g : Graph) (root : NodeId) (callback : CycleCallback)
    (node : NodeId) (visited2 : List NodeId) (path : List Link)
    (explore : NodeId → List NodeId → List Link → List NodeId →
      Outcome (List Link × Bool × List NodeId))
    (hexplore : ∀ link ∈ (g node).Outbound, ∀ gv p gv2, (∀ v ∈ visited2, v ∈ gv) →
      explore link.Node visited2 (path ++ [link]) gv = Outcome.ret (p, true, gv2) →
      liveSearch g root callback (setInsert visited2 link.Node) gv gv2 ∧ link.Node ∈ gv2 ∧
        (link.Node ∈ visited2 → callback (path ++ [link]) = Outcome.ret true)) :
    ∀ (links : List Link), (∀ l ∈ links, l ∈ (g node).Outbound) →
      ∀ gv p gv2, (∀ v ∈ visited2, v ∈ gv) →
      traverseOutbound explore visited2 path links gv = Outcome.ret (p, true, gv2) →
      liveSearch g root callback visited2 gv gv2 ∧ (∀ o ∈ links, o.Node ∈ gv2) ∧
        (∀ o ∈ links, o.Node ∈ visited2 → callback (path ++ [o]) = Outcome.ret true) := by
  intro links
  induction links with
  | nil =>
    intro _ gv p gv2 _ h
    simp only [traverseOutbound, Outcome.ret.injEq, Prod.mk.injEq, true_and] at h
    obtain ⟨_, rfl⟩ := h
    exact ⟨liveSearch_refl g root callback visited2 gv,
      fun o ho => absurd ho (List.not_mem_nil o), fun o ho => absurd ho (List.not_mem_nil o)⟩
  | cons link rest ih =>
    intro hsub gv p gv2 hgv h
    rw [traverseOutbound] at h
    cases he : explore link.Node visited2 (path ++ [link]) gv with
    | ret v =>
      obtain ⟨fp, success, gv3⟩ := v
      rw [he] at h
      cases success with
      | false =>
        simp at h
      | true =>
        simp only [Bool.not_true, Bool.false_eq_true, if_false] at h
        obtain ⟨hlive, hmem, hback⟩ := hexplore link (hsub link (List.mem_cons_self _ _)) gv fp gv3
          hgv he
        obtain ⟨hlive2, hmem2, hback2⟩ := ih (fun l hl => hsub l (List.mem_cons_of_mem _ hl))
          gv3 p gv2 (fun v hv => hlive.1 v (hgv v hv)) h
        refine ⟨liveSearch_trans (liveSearch_mono (fun v hv => (mem_setInsert _ _ _).mpr
          (Or.inl hv)) hlive) hlive2, ?_, ?_⟩
        · intro o ho
          rcases List.mem_cons.mp ho with rfl | ho
          · exact hlive2.1 _ hmem
          · exact hmem2 o ho
        · intro o ho hv
          rcases List.mem_cons.mp ho with rfl | ho
          · exact hback hv
          · exact hback2 o ho hv
    | fatal msg =>
      rw [he] at h
      cases h
    | fuel =>
      rw [he] at h
      cases h

theorem cycleFinderHelper_live (g : Graph) (callback : CycleCallback) (root : NodeId) :
    ∀ (depth : Nat) (node : NodeId) (visited : List NodeId) (path : List Link)
      (gv : List NodeId) (p : List Link) (gv2 : List NodeId),
      searchState g root node visited path → (∀ v ∈ visited, v ∈ gv) →
      cycleFinderHelper g callback depth node visited path gv = Outcome.ret (p, true, gv2) →
      liveSearch g root callback (setInsert visited node) gv gv2 ∧ node ∈ gv2 ∧
        (node ∈ visited → callback path = Outcome.ret true) := by
  intro depth
  induction depth with
  | zero =>
    intro node visited path gv p gv2 _ _ h
    simp [cycleFinderHelper] at h
  | succ depth ih =>
    intro node visited path gv p gv2 hst hgv h
    rw [cycleFinderHelper] at h
    by_cases hv : node ∈ visited
    · rw [if_pos hv] at h
      cases hc : callback path with
      | ret live =>
        rw [hc] at h
        simp only [Outcome.ret.injEq, Prod.mk.injEq] at h
        obtain ⟨_, rfl, rfl⟩ := h
        exact ⟨liveSearch_refl g root callback _ gv, hgv node hv, fun _ => rfl⟩
      | fatal msg =>
        rw [hc] at h
        cases h
      | fuel =>
        rw [hc] at h
        cases h
    · rw [if_neg hv] at h
      by_cases hg : node ∈ gv
      · rw [if_pos hg] at h
        simp only [Outcome.ret.injEq, Prod.mk.injEq, true_and] at h
        obtain ⟨_, rfl⟩ := h
        exact ⟨liveSearch_refl g root callback _ gv, hg, fun hv2 => absurd hv2 hv⟩
      · rw [if_neg hg] at h
        dsimp only at h
        have hgv1 : ∀ v ∈ setInsert visited node, v ∈ setInsert gv node := by
          intro v hv2
          rw [mem_setInsert] at hv2 ⊢
          exact hv2.imp_left (hgv v)
        have hdescend : ∀ p gv2,
            traverseOutbound (cycleFinderHelper g callback depth) (setInsert visited node) path
              (g node).Outbound (setInsert gv node) = Outcome.ret (p, true, gv2) →
            liveSearch g root callback (setInsert visited node) (setInsert gv node) gv2 ∧
              (∀ o ∈ (g node).Outbound, o.Node ∈ gv2) ∧
              (∀ o ∈ (g node).Outbound, o.Node ∈ setInsert visited node →
                callback (path ++ [o]) = Outcome.ret true) :=
          fun p gv2 => traverseOutbound_live g root callback node _ path _
            (fun link hlink gv3 p3 gv4 hsub he =>
              ih link.Node _ _ gv3 p3 gv4 (searchState_step hst hlink) hsub he)
            (g node).Outbound (fun _ hl => hl) _ p gv2 hgv1
        have hfinish : ∀ p gv2,
            (stutterCandidate g node →
              callback (path ++ [stutterLink node]) = Outcome.ret true) →
            traverseOutbound (cycleFinderHelper g callback depth) (setInsert visited node) path
              (g node).Outbound (setInsert gv node) = Outcome.ret (p, true, gv2) →
            liveSearch g root callback (setInsert visited node) gv gv2 ∧ node ∈ gv2 ∧
              (node ∈ visited → callback path = Outcome.ret true) := by
          intro p gv2 hstutter htrav
          obtain ⟨⟨a, b, c⟩, hlinks, hback⟩ := hdescend p gv2 htrav
          have hnode2 : node ∈ gv2 := a node ((mem_setInsert _ _ _).mpr (Or.inr rfl))
          have hnew : ∀ x, x ∉ gv → x ≠ node → x ∉ setInsert gv node := by
            intro x hx hne hmem
            rw [mem_setInsert] at hmem
            rcases hmem with h1 | h1
            · exact hx h1
            · exact hne h1
          have hexplored : ∀ x ∈ gv2, x ∉ gv →
              exploredLive g root callback (setInsert visited node) x := by
            intro x hx hn
            by_cases hxn : x = node
            · subst hxn
              refine ⟨visited, path, hst, ?_, hstutter, ?_⟩
              · intro v hv2
                exact (mem_setInsert _ _ _).mp hv2
              · intro o ho hon
                exact hback o ho ((mem_setInsert _ _ _).mpr hon)
            · exact c x hx (hnew x hn hxn)
          refine ⟨⟨fun v hv2 => a v ((mem_setInsert _ _ _).mpr (Or.inl hv2)), ?_, hexplored⟩,
            hnode2, fun hv2 => absurd hv2 hv⟩
          intro x hx hn o ho
          by_cases hxn : x = node
          · subst hxn
            exact hlinks o ho
          · exact b x hx (hnew x hn hxn) o ho
        split at h
        · rename_i hy
          cases hc : callback (path ++ [stutterLink node]) with
          | ret isLive =>
            rw [hc] at h
            cases isLive with
            | true =>
              simp only [Bool.not_true, Bool.false_eq_true, if_false] at h
              exact hfinish p gv2 (fun _ => hc) h
            | false =>
              simp at h
          | fatal msg =>
            rw [hc] at h
            cases h
          | fuel =>
            rw [hc] at h
            cases h
        · rename_i hy
          exact hfinish p gv2 (fun hcand => absurd hcand hy) h

theorem traverseOutbound_returns
    (explore : NodeId → List NodeId → List Link → List NodeId →
      Outcome (List Link × Bool × List NodeId))
    (visited : List NodeId) (path : List Link) :
    ∀ links : List Link,
      (∀ link ∈ links, ∀ gv, ∃ r, explore link.Node visited (path ++ [link]) gv =
        Outcome.ret r) →
      ∀ gv, ∃ r, traverseOutbound explore visited path links gv = Outcome.ret r := by
  intro links
  induction links with
  | nil =>
    intro _ gv
    exact ⟨_, rfl⟩
  | cons link rest ih =>
    intro h gv
    obtain ⟨⟨fp, success, gv3⟩, hr⟩ := h link (List.mem_cons_self _ _) gv
    rw [traverseOutbound, hr]
    cases success with
    | true =>
      simp only [Bool.not_true, Bool.false_eq_true, if_false]
      exact ih (fun l hl => h l (List.mem_cons_of_mem _ hl)) gv3
    | false => exact ⟨_, rfl⟩

theorem cycleFinderHelper_returns (g : Graph) (callback : CycleCallback) (root : NodeId)
    (nodes : List NodeId) (hfin : ∀ n, reachableFrom g root n → n ∈ nodes)
    (hcb : ∀ p, p ≠ [] → ∃ b, callback p = Outcome.ret b) :
    ∀ (depth : Nat) (node : NodeId) (visited : List NodeId) (path : List Link)
      (gv : List NodeId), reachableFrom g root node → path ≠ [] →
      unvisitedCount nodes visited + 1 ≤ depth →
      ∃ r, cycleFinderHelper g callback depth node visited path gv = Outcome.ret r := by
  intro depth
  induction depth with
  | zero =>
    intro node visited path gv _ _ hdepth
    omega
  | succ depth ih =>
    intro node visited path gv hnode hne hdepth
    rw [cycleFinderHelper]
    by_cases hv : node ∈ visited
    · rw [if_pos hv]
      obtain ⟨b, hb⟩ := hcb path hne
      rw [hb]
      exact ⟨_, rfl⟩
    · rw [if_neg hv]
      dsimp only
      by_cases hg : node ∈ gv
      · rw [if_pos hg]
        exact ⟨_, rfl⟩
      · rw [if_neg hg]
        have hdescend := traverseOutbound_returns (cycleFinderHelper g callback depth)
          (setInsert visited node) path (g node).Outbound
          (fun link hlink gv3 => ih link.Node _ _ gv3
            (Relation.ReflTransGen.tail hnode ⟨link, hlink, rfl⟩) (by simp)
            (by
              have := unvisitedCount_insert visited node hv nodes (hfin node hnode)
              omega))
          (setInsert gv node)
        split_ifs
        · obtain ⟨b, hb⟩ := hcb (path ++ [stutterLink node]) (by simp)
          rw [hb]
          cases b with
          | true =>
            simp only [Bool.not_true, Bool.false_eq_true, if_false]
            exact hdescend
          | false => exact ⟨_, rfl⟩
        · exact hdescend

theorem CycleFinderFinal_returns (depth : Nat) (g : Graph) (root : NodeId)
    (callback : CycleCallback) (nodes : List NodeId)
    (hfin : ∀ n, reachableFrom g root n → n ∈ nodes) (hdepth : nodes.length + 1 ≤ depth)
    (hcb : ∀ p, p ≠ [] → ∃ b, callback p = Outcome.ret b) :
    ∃ p live, CycleFinderFinal depth g root callback = Outcome.ret (p, live) := by
  obtain ⟨⟨p, live, gv⟩, hr⟩ := cycleFinderHelper_returns g callback root nodes hfin hcb depth
    root [] [InitNodeToLink g root] [] Relation.ReflTransGen.refl (by simp)
    (by
      have := unvisitedCount_le nodes []
      omega)
  refine ⟨p, live, ?_⟩
  unfold CycleFinderFinal
  rw [hr]

theorem CycleFinderFinal_live (depth : Nat) (g : Graph) (root : NodeId)
    (callback : CycleCallback) (p : List Link)
    (h : CycleFinderFinal depth g root callback = Outcome.ret (p, true)) :
    ∀ x, reachableFrom g root x → exploredLive g root callback [] x := by
  unfold CycleFinderFinal at h
  cases hc : cycleFinderHelper g callback depth root [] [InitNodeToLink g root] [] with
  | ret v =>
    obtain ⟨q, live, gv⟩ := v
    rw [hc] at h
    simp only [Outcome.ret.injEq, Prod.mk.injEq] at h
    obtain ⟨rfl, rfl⟩ := h
    obtain ⟨⟨_, b, c⟩, hroot, _⟩ := cycleFinderHelper_live g callback root depth root [] _ []
      q gv (searchState_root g root) (fun v hv => absurd hv (List.not_mem_nil v)) hc
    have hall : ∀ x, reachableFrom g root x → x ∈ gv := by
      intro x hx
      induction hx with
      | refl => exact hroot
      | tail _ hstep ih =>
        obtain ⟨o, ho, rfl⟩ := hstep
        exact b _ ih (List.not_mem_nil _) o ho
    exact fun x hx => exploredLive_mono (fun v hv => absurd hv (List.not_mem_nil v))
      (c x (hall x hx) (List.not_mem_nil x))
  | fatal msg =>
    rw [hc] at h
    cases h
  | fuel =>
    rw [hc] at h
    cases h

/-! ## Stutter candidates of the depth-first search -/

theorem stutterCandidate_of_stutteringYield {g : Graph} {n : NodeId}
    (h : stutteringYield g n) : stutterCandidate g n := by
  obtain ⟨h1, h2, h3⟩ := h
  refine ⟨h1, ?_, ?_⟩
  · simp only [hasFairLink, Bool.not_eq_true', List.any_eq_false, decide_eq_true_eq, not_or]
    intro l hl
    exact ⟨(h2 l hl).2, (h2 l hl).1⟩
  · simp only [hasPendingAction, Bool.not_eq_true', List.any_eq_false]
    intro l hl hp
    exact h3 l hl (List.isPrefixOf_iff_prefix.mp hp)

theorem isFairCycle_stutter (g : Graph) (last : Link) (n : NodeId) (hlast : last.Node = n)
    (hy : stutteringYield g n)
    (hcrash : ¬ ((∃ o ∈ (g n).Outbound, o.Name = "crash" ∧ o.Node = n) ∧
      ∃ o ∈ (g n).Outbound, o.Name ≠ "crash")) :
    isFairCycle g [last, stutterLink n] = true := by
  have hnode : ∀ i link, [last, stutterLink n].get? i = some link → link.Node = n := by
    intro i link hget
    have hmem := List.get?_mem hget
    simp only [List.mem_cons, List.mem_singleton, List.not_mem_nil, or_false] at hmem
    rcases hmem with rfl | rfl
    · exact hlast
    · rfl
  rw [isFairCycle_iff]
  refine ⟨?_, ?_, ?_⟩
  · rintro ⟨k, m, hkm, hm, ⟨_, link, o, hget, ho, hname, hsucc⟩, ⟨_, link2, o2, hget2, ho2, hname2⟩⟩
    simp only [List.length_cons, List.length_nil] at hm
    have hm0 : m = 0 := by omega
    have hk0 : k = 0 := by omega
    subst hm0 hk0
    rw [hnode 0 link hget] at ho
    rw [hnode 0 link2 hget2] at ho2
    have hs : succNode [last, stutterLink n] 0 = some n := rfl
    rw [hs] at hsucc
    exact hcrash ⟨⟨o, ho, hname, (Option.some.inj hsucc)⟩, ⟨o2, ho2, hname2⟩⟩
  · rintro a ⟨⟨i, _, link, o, hget, ho, hfair, _⟩, _⟩
    rw [hnode i link hget] at ho
    exact (hy.2.1 o ho).2 hfair
  · rintro a ⟨⟨i, hi⟩, hall⟩
    obtain ⟨⟨_, link, o, hget, ho, hfair, _⟩, _⟩ := hall i hi
    rw [hnode i link hget] at ho
    exact (hy.2.1 o ho).1 hfair

theorem isMergeIndex_stutter (stem : List Link) (last : Link) (n : NodeId)
    (hlast : last.Node = n) : isMergeIndex (stem ++ [last] ++ [stutterLink n]) stem.length := by
  have hget : (stem ++ [last] ++ [stutterLink n]).get? stem.length = some last := by
    rw [List.append_assoc, List.get?_eq_getElem?, List.getElem?_append_right (Nat.le_refl _),
      Nat.sub_self]
    rfl
  refine ⟨stutterLink n, List.getLast?_concat _, Or.inl ⟨by simp, ⟨last, hget, hlast⟩, ?_⟩⟩
  intro i link h1 h2
  simp only [List.length_append, List.length_singleton, List.length_nil] at h2
  omega

theorem alwaysEventuallyCallback_stutter (g : Graph) (predicate : Predicate)
    (stem : List Link) (last : Link) (n : NodeId) (hlast : last.Node = n)
    (hy : stutteringYield g n) (hval : (predicate n).2 = false)
    (hcrash : ¬ ((∃ o ∈ (g n).Outbound, o.Name = "crash" ∧ o.Node = n) ∧
      ∃ o ∈ (g n).Outbound, o.Name ≠ "crash")) :
    alwaysEventuallyCallback g predicate (stem ++ [last] ++ [stutterLink n]) =
      Outcome.ret false := by
  obtain ⟨m, hm, h1, _⟩ := alwaysEventuallyCallback_spec g predicate
    (stem ++ [last] ++ [stutterLink n]) (by simp)
  have hmm := isMergeIndex_unique _ m stem.length hm (isMergeIndex_stutter stem last n hlast)
  subst hmm
  apply h1
  constructor
  · intro i link hi hget
    have hnode : link.Node = n := by
      have hlen : i < (stem ++ [last] ++ [stutterLink n]).length := (List.get?_eq_some.mp hget).1
      simp only [List.length_append, List.length_singleton] at hlen
      by_cases h0 : i = stem.length
      · subst h0
        simp only [List.append_assoc, List.singleton_append, List.get?_eq_getElem?,
          List.getElem?_append_right (Nat.le_refl _), Nat.sub_self, List.getElem?_cons_zero,
          Option.some.injEq] at hget
        rw [← hget]
        exact hlast
      · have h1 : i = stem.length + 1 := by omega
        subst h1
        simp only [List.get?_eq_getElem?] at hget
        rw [List.getElem?_append_right (by simp)] at hget
        simp only [List.length_append, List.length_singleton, Nat.sub_self,
          List.getElem?_cons_zero, Option.some.injEq] at hget
        rw [← hget]
        rfl
    unfold relevantTrue
    rw [hnode, hval, Bool.and_false]
  · have hdrop : (stem ++ [last] ++ [stutterLink n]).drop stem.length =
        [last, stutterLink n] := by
      simp
    rw [hdrop]
    exact isFairCycle_stutter g last n hlast hy hcrash

theorem cycleFinderHelper_stutter (g : Graph) (predicate : Predicate) (root n : NodeId)
    (hy : stutteringYield g n) (hval : (predicate n).2 = false)
    (hcrash : ¬ ((∃ o ∈ (g n).Outbound, o.Name = "crash" ∧ o.Node = n) ∧
      ∃ o ∈ (g n).Outbound, o.Name ≠ "crash"))
    (depth : Nat) (visited : List NodeId) (path : List Link) (gv : List NodeId)
    (hst : searchState g root n visited path) (hv : n ∉ visited) (hg : n ∉ gv) :
    cycleFinderHelper g (alwaysEventuallyCallback g predicate) (depth + 1) n visited path gv =
      Outcome.ret (path ++ [stutterLink n], false, setInsert gv n) := by
  obtain ⟨stem, last, rfl, hlast, _⟩ := hst
  rw [cycleFinderHelper, if_neg hv]
  dsimp only
  have hcand : (g n).Process.Name = "yield" ∧ (!hasFairLink (g n).Outbound) = true ∧
      (!hasPendingAction (g n).Outbound) = true := stutterCandidate_of_stutteringYield hy
  rw [if_neg hg, if_pos hcand,
    alwaysEventuallyCallback_stutter g predicate stem last n hlast hy hval hcrash]
  rfl

/-- C18 (as stated, refuted): state 0 of `crashLoopGraph`, the root, is a
`yield` state without fair outbound link and without `thread-` link at which the
predicate is false, yet `AlwaysEventuallyFinal` reports the property satisfied:
state 0 has a crash link to itself and a link that is not a crash, so the crash
filter of `isFairCycle` rejects the stutter candidate. -/
theorem AlwaysEventuallyFinal_misses_stuttering_yield :
    stutteringYield crashLoopGraph 0 ∧
    (strictPredicate crashLoopGraph 0 0 0).2 = false ∧
    AlwaysEventuallyFinal 3 crashLoopGraph 0 (strictPredicate crashLoopGraph 0 0) =
      Outcome.ret ([], true) :=
  ⟨stutteringYield_of_flags (by decide), by decide, by decide⟩

/-- C18 (amended): on a graph whose states reachable from the root are finitely
many, if a state reachable from the root is named `yield`, has no weak- or
strong-fair outbound link and no outbound link whose name starts with `thread-`,
the predicate is false at it, and it does not have both an outbound link named
`crash` that targets the state itself and an outbound link not named `crash`,
then `AlwaysEventuallyFinal`, given depth for the search, reports a violation;
and whenever the search explores that state, it returns there with the path to
the state extended by the synthetic `stutter` link at it. -/
theorem AlwaysEventuallyFinal_reports_stuttering_yield (depth : Nat) (g : Graph)
    (root : NodeId) (nodes : List NodeId) (predicate : Predicate) (n : NodeId)
    (hfin : ∀ x, reachableFrom g root x → x ∈ nodes) (hdepth : nodes.length + 1 ≤ depth)
    (hreach : reachableFrom g root n) (hy : stutteringYield g n)
    (hval : (predicate n).2 = false)
    (hcrash : ¬ ((∃ o ∈ (g n).Outbound, o.Name = "crash" ∧ o.Node = n) ∧
      ∃ o ∈ (g n).Outbound, o.Name ≠ "crash")) :
    (∃ p, p ≠ [] ∧ AlwaysEventuallyFinal depth g root predicate = Outcome.ret (p, false)) ∧
    ∀ (d : Nat) (visited : List NodeId) (path : List Link) (gv : List NodeId),
      searchState g root n visited path → n ∉ visited → n ∉ gv →
      cycleFinderHelper g (alwaysEventuallyCallback g predicate) (d + 1) n visited path gv =
        Outcome.ret (path ++ [stutterLink n], false, setInsert gv n) := by
  refine ⟨?_, fun d visited path gv hst hv hg =>
    cycleFinderHelper_stutter g predicate root n hy hval hcrash d visited path gv hst hv hg⟩
  obtain ⟨p, live, hres⟩ := CycleFinderFinal_returns depth g root
    (alwaysEventuallyCallback g predicate) nodes hfin hdepth
    (alwaysEventuallyCallback_returns g predicate)
  cases live with
  | false =>
    exact ⟨p, (CycleFinderFinal_callback_false depth g root _ p hres).2, hres⟩
  | true =>
    exfalso
    have hexp := CycleFinderFinal_live depth g root _ p hres
    obtain ⟨visited, path, hst, _, hstutter, _⟩ := hexp n hreach
    obtain ⟨stem, last, rfl, hlast, _⟩ := hst
    have h1 := hstutter (stutterCandidate_of_stutteringYield hy)
    rw [alwaysEventuallyCallback_stutter g predicate stem last n hlast hy hval hcrash] at h1
    cases h1

theorem crashGraph_reachable (n : NodeId) (h : reachableFrom crashGraph 0 n) : n ∈ [0, 1] :=
  reachableFrom_mem_of_closed crashGraph 0 [0, 1] (by decide) (by decide) n h

theorem AlwaysEventuallyFinal_reports_stuttering_yield_witness :
    stutteringYield crashGraph 0 ∧
    (∃ p, p ≠ [] ∧ AlwaysEventuallyFinal 3 crashGraph 0 (strictPredicate crashGraph 0 0) =
      Outcome.ret (p, false)) ∧
    cycleFinderHelper crashGraph (alwaysEventuallyCallback crashGraph
        (strictPredicate crashGraph 0 0)) 3 0 [] [InitNodeToLink crashGraph 0] [] =
      Outcome.ret ([InitNodeToLink crashGraph 0] ++ [stutterLink 0], false, setInsert [] 0) :=
  ⟨stutteringYield_of_flags (by decide),
    (AlwaysEventuallyFinal_reports_stuttering_yield 3 crashGraph 0 [0, 1]
      (strictPredicate crashGraph 0 0) 0 crashGraph_reachable (by decide)
      Relation.ReflTransGen.refl (stutteringYield_of_flags (by decide)) (by decide)
      (by decide)).1,
    (AlwaysEventuallyFinal_reports_stuttering_yield 3 crashGraph 0 [0, 1]
      (strictPredicate crashGraph 0 0) 0 crashGraph_reachable (by decide)
      Relation.ReflTransGen.refl (stutteringYield_of_flags (by decide)) (by decide)
      (by decide)).2 2 [] [InitNodeToLink crashGraph 0] [] (searchState_root crashGraph 0)
      (by decide) (by decide)⟩

theorem CycleFinderFinal_counterexample (depth : Nat) (g : Graph) (root : NodeId)
    (callback : CycleCallback) (p : List Link)
    (h : CycleFinderFinal depth g root callback = Outcome.ret (p, false)) :
    finalCounterexample g root p := by
  unfold CycleFinderFinal at h
  cases hc : cycleFinderHelper g callback depth root [] [InitNodeToLink g root] [] with
  | ret v =>
    obtain ⟨q, live, gv⟩ := v
    rw [hc] at h
    simp only [Outcome.ret.injEq, Prod.mk.injEq] at h
    obtain ⟨rfl, rfl⟩ := h
    exact cycleFinderHelper_counterexample g callback root depth root [] _ [] q gv
      (searchState_root g root) hc
  | fatal msg =>
    rw [hc] at h
    cases h
  | fuel =>
    rw [hc] at h
    cases h

theorem skippedCycle_isCycle : isCycle skipGraph skippedCycle := by
  refine ⟨{ Node := 0, Name := "d" }, rfl, ?_⟩
  simp only [skippedCycle, List.chain'_cons, List.chain'_singleton, and_true]
  unfold followsOutbound
  exact ⟨by decide, by decide⟩

theorem skippedCycle_reachable : ∀ l ∈ skippedCycle, reachableFrom skipGraph 0 l.Node := by
  intro l hl
  simp only [skippedCycle, List.mem_cons, List.mem_singleton, List.not_mem_nil,
    or_false] at hl
  rcases hl with rfl | rfl
  · exact Relation.ReflTransGen.single ⟨{ Node := 2, Name := "b" }, by decide, rfl⟩
  · exact Relation.ReflTransGen.refl

/-- C19 (as stated, refuted): in `skipGraph` the links `b`, `d` form a simple
cycle through the root, but the search hands no path that ends with this cycle
to the callback: with the callback that answers not live on exactly those paths
and live on all others, `CycleFinderFinal` ends live, and with the callback that
always answers live the log of the search records three paths handed to the
callback, none of which holds the link `b`. State 2 is explored on the branch
through state 1, and on the branch through `b` it is skipped as globally
visited. -/
theorem CycleFinderFinal_skips_cycle :
    isCycle skipGraph skippedCycle ∧
    (skippedCycle.map Link.Node).Nodup ∧
    (∀ l ∈ skippedCycle, reachableFrom skipGraph 0 l.Node) ∧
    (∀ path, path.drop (path.length - 2) = skippedCycle ∨
        path.drop (path.length - 2) = skippedCycle.reverse →
      skipCallback path = Outcome.ret false) ∧
    CycleFinderFinal 4 skipGraph 0 skipCallback = Outcome.ret ([], true) ∧
    handedPaths (CycleFinderFinalLog 4 skipGraph 0 (fun _ => Outcome.ret true)).1 =
      [[{ Node := 0, Name := "Init" }, { Node := 1, Name := "a" },
        { Node := 1, Name := "stutter" }],
       [{ Node := 0, Name := "Init" }, { Node := 1, Name := "a" }, { Node := 2, Name := "c" },
        { Node := 2, Name := "stutter" }],
       [{ Node := 0, Name := "Init" }, { Node := 1, Name := "a" }, { Node := 2, Name := "c" },
        { Node := 0, Name := "d" }]] ∧
    (∀ path ∈ handedPaths (CycleFinderFinalLog 4 skipGraph 0 (fun _ => Outcome.ret true)).1,
      ({ Node := 2, Name := "b" } : Link) ∉ path) := by
  refine ⟨skippedCycle_isCycle, by decide, skippedCycle_reachable, ?_, by decide, by decide,
    by decide⟩
  · intro path h
    unfold skipCallback
    rcases h with h | h
    · rw [h]
      rfl
    · rw [h]
      rfl

theorem skipGraph_reachable (n : NodeId) (h : reachableFrom skipGraph 0 n) : n ∈ [0, 1, 2] :=
  reachableFrom_mem_of_closed skipGraph 0 [0, 1, 2] (by decide) (by decide) n h

/-! ## Termination of the walk to init -/

theorem backEdgeGraph_invariants : graphInvariants backEdgeGraph 0 [0, 1, 2] := by
  refine ⟨rfl, ?_, by unfold mirrored; decide, by decide⟩
  have h01 : anyLink backEdgeGraph 0 1 := ⟨{ Node := 1, Name := "a" }, by decide, rfl⟩
  have h12 : anyLink backEdgeGraph 1 2 := ⟨{ Node := 2, Name := "b" }, by decide, rfl⟩
  intro n hn
  simp only [List.mem_cons, List.mem_singleton, List.not_mem_nil, or_false] at hn
  rcases hn with rfl | rfl | rfl
  · exact Relation.ReflTransGen.refl
  · exact Relation.ReflTransGen.single h01
  · exact (Relation.ReflTransGen.single h01).tail h12

theorem pathToInitLoop_backEdge :
    ∀ (fuel : Nat) (node : NodeId) (failurePath : List Link), node = 1 ∨ node = 2 →
      pathToInitLoop backEdgeGraph [0, 1, 2] fuel node failurePath = Outcome.fuel := by
  intro fuel
  induction fuel with
  | zero =>
    intro node failurePath _
    rfl
  | succ fuel ih =>
    intro node failurePath hnode
    rcases hnode with rfl | rfl
    · rw [pathToInitLoop]
      exact ih 2 _ (Or.inr rfl)
    · rw [pathToInitLoop]
      exact ih 1 _ (Or.inl rfl)

/-- C21 (as stated, refuted): `backEdgeGraph` satisfies the graph invariants with
root 0 (every state is reachable from state 0, the inbound lists mirror the
outbound lists), and `pathToInit` with target 1 does not return on it, whatever
the number of iterations allowed: the first inbound link of state 1 comes from
state 2 and the first inbound link of state 2 comes from state 1, so the walk
alternates between the two states and never meets a stop node. -/
theorem pathToInit_does_not_return_on_back_edge :
    graphInvariants backEdgeGraph 0 [0, 1, 2] ∧
    ∀ fuel, pathToInit fuel backEdgeGraph [0, 1, 2] 1 = Outcome.fuel := by
  refine ⟨backEdgeGraph_invariants, fun fuel => ?_⟩
  unfold pathToInit
  rw [pathToInitLoop_backEdge fuel 1 [] (Or.inl rfl)]

theorem pathToInitLoop_initPath (g : Graph) (root : NodeId) (nodes : List NodeId)
    (rank : NodeId → Nat) (hhead : nodes.head? = some root)
    (hclosed : ∀ n ∈ nodes, ∀ l ∈ (g n).Inbound, l.Node ∈ nodes)
    (hrank : firstInboundDescends g nodes rank) (target : NodeId) :
    ∀ (fuel : Nat) (node : NodeId) (failurePath : List Link),
      node ∈ nodes → rank node + 1 ≤ fuel →
      List.Chain' (reversedFirstInbound g) failurePath.reverse →
      (∀ h, failurePath.getLast? = some h → ∀ prev : Link, prev.Node = node →
        reversedFirstInbound g prev h) →
      ((failurePath = [] ∧ node = target) ∨
        ∃ t rest, failurePath = t :: rest ∧ t.Node = target) →
      ∃ res, pathToInitLoop g nodes fuel node failurePath = Outcome.ret res ∧
        initPath g nodes target res.reverse := by
  intro fuel
  induction fuel with
  | zero =>
    intro node failurePath _ hfuel
    omega
  | succ fuel ih =>
    intro node failurePath hnode hfuel hchain hlast htarget
    have finish : stopNode g nodes node →
        initPath g nodes target (failurePath ++ [InitNodeToLink g node]).reverse := by
      intro hstop
      rw [List.reverse_append, List.reverse_singleton, List.singleton_append]
      refine ⟨⟨node, hstop, rfl⟩, ?_, ?_⟩
      · rcases htarget with ⟨rfl, rfl⟩ | ⟨t, rest, rfl, ht⟩
        · exact ⟨InitNodeToLink g node, rfl, rfl⟩
        · refine ⟨t, ?_, ht⟩
          rw [show InitNodeToLink g node :: (t :: rest).reverse =
            (InitNodeToLink g node :: rest.reverse) ++ [t] by simp]
          exact List.getLast?_concat _
      · refine List.Chain'.cons' hchain ?_
        intro y hy
        rw [List.head?_reverse] at hy
        exact hlast y hy _ rfl
    rw [pathToInitLoop]
    cases hin : (g node).Inbound with
    | nil => exact ⟨_, rfl, finish (Or.inl hin)⟩
    | cons first others =>
      dsimp only
      by_cases hname : (g node).Process.Name = "init"
      · rw [if_pos hname]
        exact ⟨_, rfl, finish (Or.inr (Or.inl hname))⟩
      · rw [if_neg hname, hhead]
        dsimp only
        by_cases hroot : node = root
        · rw [if_pos hroot]
          exact ⟨_, rfl, finish (Or.inr (Or.inr (by rw [hroot]; exact hhead)))⟩
        · rw [if_neg hroot]
          have hfirst : first ∈ (g node).Inbound := by
            rw [hin]
            exact List.mem_cons_self _ _
          have hnostop : ¬ stopNode g nodes node := by
            rintro (h | h | h)
            · rw [hin] at h
              cases h
            · exact hname h
            · rw [hhead] at h
              cases h
              exact hroot rfl
          have hdesc := hrank node hnode hnostop first (by rw [hin]; rfl)
          refine ih first.Node (failurePath ++ [ReverseLink node first])
            (hclosed node hnode first hfirst) (by omega) ?_ ?_ ?_
          · rw [List.reverse_append, List.reverse_singleton, List.singleton_append]
            refine List.Chain'.cons' hchain ?_
            intro y hy
            rw [List.head?_reverse] at hy
            exact hlast y hy _ rfl
          · intro h2 hh prev hprev
            rw [List.getLast?_concat] at hh
            cases hh
            exact ⟨first, by rw [show (ReverseLink node first).Node = node from rfl, hin]; rfl,
              rfl, hprev.symm⟩
          · rcases htarget with ⟨rfl, rfl⟩ | ⟨t, rest, rfl, ht⟩
            · exact Or.inr ⟨ReverseLink node first, [], rfl, rfl⟩
            · exact Or.inr ⟨t, rest ++ [ReverseLink node first], rfl, ht⟩

/-- C21 (amended): on a node list that starts with the root, whose inbound lists
mirror its outbound lists, and on which some rank strictly decreases from every
listed node at which the walk does not stop to the origin of its first inbound
link, `pathToInit` returns for every listed target once it is allowed one
iteration more than the rank of the target, and the path it returns reads from
init to the target: its first link is the `Init` link of a node that has no
inbound link, is named `init` or is `nodes[0]`, the node of its last link is the
target, and every other link is the reversal of the first inbound link of its
own node, whose origin is the node of the preceding link. -/
theorem pathToInit_returns_init_path (fuel : Nat) (g : Graph) (root : NodeId)
    (nodes : List NodeId) (rank : NodeId → Nat) (target : NodeId)
    (hhead : nodes.head? = some root) (hmir : mirrored g nodes)
    (hrank : firstInboundDescends g nodes rank) (htarget : target ∈ nodes)
    (hfuel : rank target + 1 ≤ fuel) :
    ∃ path, pathToInit fuel g nodes target = Outcome.ret path ∧
      initPath g nodes target path := by
  obtain ⟨res, hres, hshape⟩ := pathToInitLoop_initPath g root nodes rank hhead
    (fun n hn l hl => (hmir.1 n hn l hl).1) hrank target fuel target [] htarget hfuel
    (by simp) (fun h hh => by cases hh) (Or.inl ⟨rfl, rfl⟩)
  refine ⟨res.reverse, ?_, hshape⟩
  unfold pathToInit
  rw [hres]

theorem weakPingPongGraph_descends : firstInboundDescends weakPingPongGraph [0, 1, 2] id := by
  intro n hn hstop first hfirst
  simp only [List.mem_cons, List.mem_singleton, List.not_mem_nil, or_false] at hn
  rcases hn with rfl | rfl | rfl
  · exact absurd (Or.inl rfl) hstop
  · simp only [weakPingPongGraph, List.head?_cons, Option.some.injEq] at hfirst
    subst hfirst
    decide
  · simp only [weakPingPongGraph, List.head?_cons, Option.some.injEq] at hfirst
    subst hfirst
    decide

theorem pathToInit_returns_init_path_witness :
    [0, 1, 2].head? = some 0 ∧ mirrored weakPingPongGraph [0, 1, 2] ∧
    firstInboundDescends weakPingPongGraph [0, 1, 2] id ∧ 2 ∈ [0, 1, 2] ∧ id 2 + 1 ≤ 3 ∧
    pathToInit 3 weakPingPongGraph [0, 1, 2] 2 =
      Outcome.ret [{ Node := 0, Name := "Init" }, { Node := 1, Name := "step" },
        { Node := 2, Name := "ping", Fairness := FairnessLevel.WEAK }] ∧
    ∃ path, pathToInit 3 weakPingPongGraph [0, 1, 2] 2 = Outcome.ret path ∧
      initPath weakPingPongGraph [0, 1, 2] 2 path :=
  ⟨rfl, weakPingPongGraph_invariants.2.2.1, weakPingPongGraph_descends, by decide, by decide,
    by decide,
    pathToInit_returns_init_path 3 weakPingPongGraph 0 [0, 1, 2] id 2 rfl
      weakPingPongGraph_invariants.2.2.1 weakPingPongGraph_descends (by decide) (by decide)⟩

/-! ## Termination and branch discipline of the depth-first search -/

theorem traverseOutboundLog_result
    (exploreLog : NodeId → List NodeId → List Link → List NodeId →
      List SearchEvent × Outcome (List Link × Bool × List NodeId))
    (explore : NodeId → List NodeId → List Link → List NodeId →
      Outcome (List Link × Bool × List NodeId))
    (h : ∀ node visited path gv, (exploreLog node visited path gv).2 = explore node visited path gv)
    (visited : List NodeId) (path : List Link) :
    ∀ (links : List Link) (gv : List NodeId),
      (traverseOutboundLog exploreLog visited path links gv).2 =
        traverseOutbound explore visited path links gv := by
  intro links
  induction links with
  | nil =>
    intro gv
    rfl
  | cons link rest ih =>
    intro gv
    rw [traverseOutboundLog, traverseOutbound, ← h]
    rcases exploreLog link.Node visited (path ++ [link]) gv with ⟨log, r⟩
    cases r with
    | ret v =>
      obtain ⟨fp, success, gv2⟩ := v
      dsimp only
      cases success with
      | true =>
        simp only [Bool.not_true, Bool.false_eq_true, if_false]
        exact ih gv2
      | false => rfl
    | fatal msg => rfl
    | fuel => rfl

theorem cycleFinderHelperLog_result (g : Graph) (callback : CycleCallback) :
    ∀ (depth : Nat) (node : NodeId) (visited : List NodeId) (path : List Link)
      (gv : List NodeId),
      (cycleFinderHelperLog g callback depth node visited path gv).2 =
        cycleFinderHelper g callback depth node visited path gv := by
  intro depth
  induction depth with
  | zero =>
    intro node visited path gv
    rfl
  | succ depth ih =>
    intro node visited path gv
    rw [cycleFinderHelperLog, cycleFinderHelper]
    have hdesc := traverseOutboundLog_result (cycleFinderHelperLog g callback depth)
      (cycleFinderHelper g callback depth) ih (setInsert visited node) path (g node).Outbound
      (setInsert gv node)
    by_cases hv : node ∈ visited
    · rw [if_pos hv, if_pos hv]
    · rw [if_neg hv, if_neg hv]
      dsimp only
      by_cases hg : node ∈ gv
      · rw [if_pos hg, if_pos hg]
      · rw [if_neg hg, if_neg hg]
        split_ifs
        · cases callback (path ++ [stutterLink node]) with
          | ret b =>
            cases b with
            | true =>
              simp only [Bool.not_true, Bool.false_eq_true, if_false]
              exact hdesc
            | false => rfl
          | fatal msg => rfl
          | fuel => rfl
        · exact hdesc

theorem CycleFinderFinalLog_result (depth : Nat) (g : Graph) (node : NodeId)
    (callback : CycleCallback) :
    (CycleFinderFinalLog depth g node callback).2 = CycleFinderFinal depth g node callback := by
  unfold CycleFinderFinalLog CycleFinderFinal
  dsimp only
  rw [cycleFinderHelperLog_result]

theorem exploredNodes_append (a b : List SearchEvent) :
    exploredNodes (a ++ b) = exploredNodes a ++ exploredNodes b := by
  unfold exploredNodes
  exact List.filterMap_append _ _ _

theorem searchSegment_nil (bound : Nat) (gv : List NodeId) : searchSegment bound gv [] gv :=
  ⟨fun _ _ _ h => absurd h (List.not_mem_nil _), fun _ h => absurd h (List.not_mem_nil _),
    List.nodup_nil, fun _ h => absurd h (List.not_mem_nil _), fun _ h => h⟩

theorem searchSegment_append {bound : Nat} {gv1 gv2 gv3 : List NodeId}
    {l1 l2 : List SearchEvent} (h1 : searchSegment bound gv1 l1 gv2)
    (h2 : searchSegment bound gv2 l2 gv3) : searchSegment bound gv1 (l1 ++ l2) gv3 := by
  obtain ⟨a1, b1, c1, d1, e1⟩ := h1
  obtain ⟨a2, b2, c2, d2, e2⟩ := h2
  refine ⟨?_, ?_, ?_, ?_, fun x hx => e2 x (e1 x hx)⟩
  · intro node visited path h
    rcases List.mem_append.mp h with h | h
    · exact a1 node visited path h
    · exact a2 node visited path h
  · intro path h
    rcases List.mem_append.mp h with h | h
    · exact b1 path h
    · exact b2 path h
  · rw [exploredNodes_append, List.nodup_append]
    refine ⟨c1, c2, ?_⟩
    intro x hx1 hx2
    exact (d2 x hx2).1 (d1 x hx1).2
  · intro x hx
    rw [exploredNodes_append] at hx
    rcases List.mem_append.mp hx with h | h
    · exact ⟨(d1 x h).1, e2 x (d1 x h).2⟩
    · exact ⟨fun hb => (d2 x h).1 (e1 x hb), (d2 x h).2⟩

theorem traverseOutboundLog_segment (bound : Nat)
    (exploreLog : NodeId → List NodeId → List Link → List NodeId →
      List SearchEvent × Outcome (List Link × Bool × List NodeId))
    (visited : List NodeId) (path : List Link) :
    ∀ links : List Link,
      (∀ link ∈ links, ∀ gv, ∃ log fp live gv2,
        exploreLog link.Node visited (path ++ [link]) gv = (log, Outcome.ret (fp, live, gv2)) ∧
          searchSegment bound gv log gv2) →
      ∀ gv, ∃ log fp live gv2,
        traverseOutboundLog exploreLog visited path links gv =
          (log, Outcome.ret (fp, live, gv2)) ∧ searchSegment bound gv log gv2 := by
  intro links
  induction links with
  | nil =>
    intro _ gv
    exact ⟨[], [], true, gv, rfl, searchSegment_nil bound gv⟩
  | cons link rest ih =>
    intro h gv
    obtain ⟨log, fp, live, gv2, hr, hseg⟩ := h link (List.mem_cons_self _ _) gv
    rw [traverseOutboundLog, hr]
    dsimp only
    cases live with
    | true =>
      simp only [Bool.not_true, Bool.false_eq_true, if_false]
      obtain ⟨log2, fp2, live2, gv3, hr2, hseg2⟩ :=
        ih (fun l hl => h l (List.mem_cons_of_mem _ hl)) gv2
      rw [hr2]
      exact ⟨log ++ log2, fp2, live2, gv3, rfl, searchSegment_append hseg hseg2⟩
    | false => exact ⟨log, fp, false, gv2, rfl, hseg⟩

theorem nodup_length_le_of_subset (l nodes : List NodeId) (hd : l.Nodup)
    (hs : ∀ x ∈ l, x ∈ nodes) : l.length ≤ nodes.length :=
  (List.subperm_of_subset hd hs).length_le

theorem cycleFinderHelperLog_segment (g : Graph) (callback : CycleCallback) (root : NodeId)
    (nodes : List NodeId) (hfin : ∀ n, reachableFrom g root n → n ∈ nodes)
    (hcb : ∀ p, p ≠ [] → ∃ b, callback p = Outcome.ret b) :
    ∀ (depth : Nat) (node : NodeId) (visited : List NodeId) (path : List Link)
      (gv : List NodeId) (stem : List Link) (last : Link),
      path = stem ++ [last] → last.Node = node → reachableFrom g root node →
      (∀ x, x ∈ visited ↔ x ∈ stem.map Link.Node) → (stem.map Link.Node).Nodup →
      (∀ l ∈ stem, l.Node ∈ nodes) → unvisitedCount nodes visited + 1 ≤ depth →
      ∃ log fp live gv2,
        cycleFinderHelperLog g callback depth node visited path gv =
          (log, Outcome.ret (fp, live, gv2)) ∧ searchSegment nodes.length gv log gv2 := by
  intro depth
  induction depth with
  | zero =>
    intro node visited path gv stem last _ _ _ _ _ _ hdepth
    omega
  | succ depth ih =>
    intro node visited path gv stem last hpath hlast hnode hvis hnodup hstem hdepth
    have hne : path ≠ [] := by
      rw [hpath]
      simp
    have hdrop : path.dropLast = stem := by
      rw [hpath, List.dropLast_concat]
    have hcall : visitedIsPathMembership [SearchEvent.call node visited path] := by
      intro n v p h
      rw [List.mem_singleton] at h
      cases h
      rw [hdrop]
      exact hvis
    have hstemlen : stem.length ≤ nodes.length := by
      have := nodup_length_le_of_subset (stem.map Link.Node) nodes hnodup (fun x hx => by
        obtain ⟨l, hl, rfl⟩ := List.mem_map.mp hx
        exact hstem l hl)
      rwa [List.length_map] at this
    rw [cycleFinderHelperLog]
    by_cases hv : node ∈ visited
    · rw [if_pos hv]
      obtain ⟨b, hb⟩ := hcb path hne
      rw [hb]
      refine ⟨_, path, b, gv, rfl, ?_, ?_, ?_, ?_, fun x hx => hx⟩
      · intro n v p h
        simp only [List.mem_cons, List.mem_singleton, List.not_mem_nil, or_false] at h
        rcases h with h | h
        · cases h
          rw [hdrop]
          exact hvis
        · cases h
      · intro p h
        simp only [List.mem_cons, List.mem_singleton, List.not_mem_nil, or_false] at h
        rcases h with h | h
        · cases h
        · cases h
          rw [hdrop]
          refine ⟨hnodup, ?_⟩
          rw [hpath, List.length_append, List.length_singleton]
          omega
      · simp [exploredNodes]
      · intro x hx
        simp [exploredNodes] at hx
    · rw [if_neg hv]
      dsimp only
      by_cases hg : node ∈ gv
      · rw [if_pos hg]
        refine ⟨_, [], true, gv, rfl, hcall, ?_, ?_, ?_, fun x hx => hx⟩
        · intro p h
          rw [List.mem_singleton] at h
          cases h
        · simp [exploredNodes]
        · intro x hx
          simp [exploredNodes] at hx
      · rw [if_neg hg]
        have hnotin : node ∉ stem.map Link.Node := fun h => hv ((hvis node).mpr h)
        have hpathnodes : path.map Link.Node = stem.map Link.Node ++ [node] := by
          rw [hpath, List.map_append, List.map_singleton, hlast]
        have hpathnodup : (path.map Link.Node).Nodup := by
          rw [hpathnodes]
          exact List.Nodup.append hnodup (List.nodup_singleton _)
            (by
              intro x hx1 hx2
              rw [List.mem_singleton] at hx2
              subst hx2
              exact hnotin hx1)
        have hpathin : ∀ l ∈ path, l.Node ∈ nodes := by
          intro l hl
          rw [hpath] at hl
          rcases List.mem_append.mp hl with h | h
          · exact hstem l h
          · rw [List.mem_singleton] at h
            subst h
            rw [hlast]
            exact hfin node hnode
        have hpathlen : path.length ≤ nodes.length := by
          have := nodup_length_le_of_subset (path.map Link.Node) nodes hpathnodup (fun x hx => by
            obtain ⟨l, hl, rfl⟩ := List.mem_map.mp hx
            exact hpathin l hl)
          rwa [List.length_map] at this
        obtain ⟨dlog, dfp, dlive, dgv, hdr, hdseg⟩ :=
          traverseOutboundLog_segment nodes.length (cycleFinderHelperLog g callback depth)
            (setInsert visited node) path (g node).Outbound
            (fun link hlink gv3 => ih link.Node (setInsert visited node) (path ++ [link]) gv3
              path link rfl rfl (Relation.ReflTransGen.tail hnode ⟨link, hlink, rfl⟩)
              (fun x => by
                rw [mem_setInsert, hpathnodes, List.mem_append, List.mem_singleton, hvis x])
              hpathnodup hpathin
              (by
                have := unvisitedCount_insert visited node hv nodes (hfin node hnode)
                omega))
            (setInsert gv node)
        have hplain : searchSegment nodes.length gv
            [SearchEvent.call node visited path, SearchEvent.explore node]
            (setInsert gv node) := by
          refine ⟨?_, ?_, ?_, ?_, fun x hx => (mem_setInsert _ _ _).mpr (Or.inl hx)⟩
          · intro n v p h
            simp only [List.mem_cons, List.mem_singleton, List.not_mem_nil, or_false] at h
            rcases h with h | h
            · cases h
              rw [hdrop]
              exact hvis
            · cases h
          · intro p h
            simp only [List.mem_cons, List.mem_singleton, List.not_mem_nil, or_false] at h
            rcases h with h | h <;> cases h
          · simp [exploredNodes]
          · intro x hx
            simp only [exploredNodes, List.filterMap_cons, List.filterMap_nil,
              List.mem_singleton] at hx
            subst hx
            exact ⟨hg, (mem_setInsert _ _ _).mpr (Or.inr rfl)⟩
        have hstutter : searchSegment nodes.length gv
            [SearchEvent.call node visited path, SearchEvent.explore node,
              SearchEvent.handed (path ++ [stutterLink node])]
            (setInsert gv node) := by
          have hh : searchSegment nodes.length (setInsert gv node)
              [SearchEvent.handed (path ++ [stutterLink node])] (setInsert gv node) := by
            refine ⟨?_, ?_, ?_, ?_, fun x hx => hx⟩
            · intro n v p h
              rw [List.mem_singleton] at h
              cases h
            · intro p h
              rw [List.mem_singleton] at h
              cases h
              rw [List.dropLast_concat]
              refine ⟨hpathnodup, ?_⟩
              rw [List.length_append, List.length_singleton]
              omega
            · simp [exploredNodes]
            · intro x hx
              simp [exploredNodes] at hx
          exact searchSegment_append hplain hh
        split_ifs
        · obtain ⟨b, hb⟩ := hcb (path ++ [stutterLink node]) (by simp)
          rw [hb]
          dsimp only
          cases b with
          | true =>
            simp only [Bool.not_true, Bool.false_eq_true, if_false]
            rw [hdr]
            exact ⟨_, dfp, dlive, dgv, rfl, searchSegment_append hstutter hdseg⟩
          | false => exact ⟨_, _, false, _, rfl, hstutter⟩
        · rw [hdr]
          exact ⟨_, dfp, dlive, dgv, rfl, searchSegment_append hplain hdseg⟩

/-- C22: on a finite graph (every node reachable from the root is in the list
`nodes`), with a callback that returns on every non-empty path and a recursion
depth of at least the number of listed nodes plus one, `CycleFinderFinal`
returns. In the log of its search no node has its outbound links explored twice;
at every call of `cycleFinderHelper` the per-branch `visited` set is exactly the
set of the nodes of the links of the path before its last link; and every path
handed to the callback repeats no node before its last link, so that it has at
most as many links as there are listed nodes, plus one. The second component of
`CycleFinderFinalLog` is the result of `CycleFinderFinal`. -/
theorem CycleFinderFinal_terminates_with_simple_paths (depth : Nat) (g : Graph)
    (root : NodeId) (callback : CycleCallback) (nodes : List NodeId)
    (hfin : ∀ n, reachableFrom g root n → n ∈ nodes) (hdepth : nodes.length + 1 ≤ depth)
    (hcb : ∀ p, p ≠ [] → ∃ b, callback p = Outcome.ret b) :
    (∃ p live, CycleFinderFinal depth g root callback = Outcome.ret (p, live)) ∧
    (CycleFinderFinalLog depth g root callback).2 = CycleFinderFinal depth g root callback ∧
    (exploredNodes (CycleFinderFinalLog depth g root callback).1).Nodup ∧
    visitedIsPathMembership (CycleFinderFinalLog depth g root callback).1 ∧
    handedPathsSimple nodes.length (CycleFinderFinalLog depth g root callback).1 := by
  obtain ⟨log, fp, live, gv, hr, hvis, hhanded, hnodup, _, _⟩ :=
    cycleFinderHelperLog_segment g callback root nodes hfin hcb depth root []
      [InitNodeToLink g root] [] [] (InitNodeToLink g root) rfl rfl Relation.ReflTransGen.refl
      (fun x => by simp) List.nodup_nil (fun l hl => absurd hl (List.not_mem_nil l))
      (by
        have := unvisitedCount_le nodes []
        omega)
  have hlog : (CycleFinderFinalLog depth g root callback).1 = log := by
    unfold CycleFinderFinalLog
    dsimp only
    rw [hr]
  rw [hlog]
  exact ⟨CycleFinderFinal_returns depth g root callback nodes hfin hdepth hcb,
    CycleFinderFinalLog_result depth g root callback, hnodup, hvis, hhanded⟩

theorem CycleFinderFinal_terminates_with_simple_paths_witness :
    exploredNodes (CycleFinderFinalLog 4 skipGraph 0 skipCallback).1 = [0, 1, 2] ∧
    ((∃ p live, CycleFinderFinal 4 skipGraph 0 skipCallback = Outcome.ret (p, live)) ∧
    (CycleFinderFinalLog 4 skipGraph 0 skipCallback).2 =
      CycleFinderFinal 4 skipGraph 0 skipCallback ∧
    (exploredNodes (CycleFinderFinalLog 4 skipGraph 0 skipCallback).1).Nodup ∧
    visitedIsPathMembership (CycleFinderFinalLog 4 skipGraph 0 skipCallback).1 ∧
    handedPathsSimple [0, 1, 2].length (CycleFinderFinalLog 4 skipGraph 0 skipCallback).1) :=
  ⟨by decide,
    CycleFinderFinal_terminates_with_simple_paths 4 skipGraph 0 skipCallback [0, 1, 2]
      skipGraph_reachable (by decide) (fun _ _ => ⟨_, rfl⟩)⟩

/-! ## Termination of the cycle path search of the Fast strategy -/

theorem findCycleOutbound_children (allowed : List NodeId) (node : NodeId) (path : List Link)
    (visited : List NodeId) :
    ∀ (links : List Link) (queue : List Wrapper) (fairCount : Nat),
      (findCycleOutbound allowed node path visited links queue fairCount = Sum.inl path ∧
        node ∈ visited) ∨
      ∃ children, findCycleOutbound allowed node path visited links queue fairCount =
          Sum.inr (queue ++ children, fairCount + children.length) ∧
        children.length ≤ links.length ∧
        (∀ c ∈ children, ∃ l ∈ links, l.Fairness = FairnessLevel.STRONG ∧ l.Node ∈ allowed ∧
          c = { link := l, path := path ++ [l], visited := setInsert visited node }) ∧
        (children = [] → ∀ l ∈ links, l.Fairness = FairnessLevel.STRONG → l.Node ∉ allowed) ∧
        (children ≠ [] → node ∉ visited) := by
  intro links
  induction links with
  | nil =>
    intro queue fairCount
    exact Or.inr ⟨[], by simp [findCycleOutbound], Nat.le_refl _,
      fun c hc => absurd hc (List.not_mem_nil c),
      fun _ l hl => absurd hl (List.not_mem_nil l), fun h => absurd rfl h⟩
  | cons link rest ih =>
    intro queue fairCount
    rw [findCycleOutbound]
    have skip : (link.Fairness = FairnessLevel.STRONG → link.Node ∉ allowed) →
        ((findCycleOutbound allowed node path visited rest queue fairCount = Sum.inl path ∧
          node ∈ visited) ∨
        ∃ children, findCycleOutbound allowed node path visited rest queue fairCount =
            Sum.inr (queue ++ children, fairCount + children.length) ∧
          children.length ≤ (link :: rest).length ∧
          (∀ c ∈ children, ∃ l ∈ link :: rest, l.Fairness = FairnessLevel.STRONG ∧
            l.Node ∈ allowed ∧
            c = { link := l, path := path ++ [l], visited := setInsert visited node }) ∧
          (children = [] → ∀ l ∈ link :: rest, l.Fairness = FairnessLevel.STRONG →
            l.Node ∉ allowed) ∧
          (children ≠ [] → node ∉ visited)) := by
      intro hskip
      rcases ih queue fairCount with h | ⟨children, h1, h2, h3, h4, h5⟩
      · exact Or.inl h
      · refine Or.inr ⟨children, h1, ?_, ?_, ?_, h5⟩
        · rw [List.length_cons]
          omega
        · intro c hc
          obtain ⟨l, hl, r⟩ := h3 c hc
          exact ⟨l, List.mem_cons_of_mem _ hl, r⟩
        · intro h0 l hl hs
          rcases List.mem_cons.mp hl with rfl | hl2
          · exact hskip hs
          · exact h4 h0 l hl2 hs
    by_cases hs : link.Fairness ≠ FairnessLevel.STRONG
    · rw [if_pos hs]
      exact skip (fun h => absurd h hs)
    · rw [if_neg hs]
      by_cases ha : link.Node ∉ allowed
      · rw [if_pos ha]
        exact skip (fun _ => ha)
      · rw [if_neg ha]
        have hs2 : link.Fairness = FairnessLevel.STRONG := by
          by_contra hc
          exact hs hc
        have ha2 : link.Node ∈ allowed := by
          by_contra hc
          exact ha hc
        by_cases hv : node ∈ visited
        · rw [if_pos hv]
          exact Or.inl ⟨rfl, hv⟩
        · rw [if_neg hv]
          have hrest := ih
            (queue ++ [{ link := link, path := path ++ [link], visited := setInsert visited node }])
            (fairCount + 1)
          rcases hrest with h | ⟨children, h1, h2, h3, _, _⟩
          · exact absurd h.2 hv
          · refine Or.inr ⟨Wrapper.mk link (path ++ [link]) (setInsert visited node) :: children,
              ?_, ?_, ?_, ?_, fun _ => hv⟩
            · rw [h1, List.append_assoc, List.singleton_append, List.length_cons]
              congr 2
              omega
            · rw [List.length_cons, List.length_cons]
              omega
            · intro c hc
              rcases List.mem_cons.mp hc with rfl | hc2
              · exact ⟨link, List.mem_cons_self _ _, hs2, ha2, rfl⟩
              · obtain ⟨l, hl, r⟩ := h3 c hc2
                exact ⟨l, List.mem_cons_of_mem _ hl, r⟩
            · intro h0
              cases h0

theorem queueWeight_same_visited (g : Graph) (nodes : List NodeId) (visited : List NodeId) :
    ∀ children : List Wrapper, (∀ c ∈ children, c.visited = visited) →
      queueWeight g nodes children =
        children.length * (maxOutDegree g nodes + 1) ^ unvisitedCount nodes visited := by
  intro children
  induction children with
  | nil =>
    intro _
    simp [queueWeight]
  | cons c rest ih =>
    intro h
    have hrest := ih (fun c2 hc2 => h c2 (List.mem_cons_of_mem _ hc2))
    unfold queueWeight at hrest ⊢
    simp only [List.map_cons, List.sum_cons, List.length_cons, hrest,
      h c (List.mem_cons_self _ _)]
    ring

theorem cycleBranch_child {g : Graph} {allowed : List NodeId} {start : NodeId} {e : Wrapper}
    (h : cycleBranch g allowed start e) {l : Link} (hl : l ∈ (g e.link.Node).Outbound)
    (hs : l.Fairness = FairnessLevel.STRONG) (ha : l.Node ∈ allowed) :
    cycleBranch g allowed start
      { link := l, path := e.path ++ [l], visited := setInsert e.visited e.link.Node } := by
  obtain ⟨⟨hchain, hstrong⟩, ⟨stem, last, hsplit, hlast, hvis⟩, _⟩ := h
  refine ⟨⟨?_, ?_⟩, ⟨InitNodeToLink g start :: e.path, l, rfl, rfl, ?_⟩,
    List.mem_cons_of_mem _ ha⟩
  · rw [← List.cons_append, List.chain'_append]
    refine ⟨hchain, List.chain'_singleton _, ?_⟩
    intro x hx y hy
    rw [hsplit, List.getLast?_concat] at hx
    simp only [Option.mem_def, Option.some.injEq] at hx
    simp only [List.head?_cons, Option.mem_def, Option.some.injEq] at hy
    subst hx hy
    unfold followsOutbound
    rw [hlast]
    exact hl
  · intro l2 hl2
    rcases List.mem_append.mp hl2 with h2 | h2
    · exact hstrong l2 h2
    · rw [List.mem_singleton] at h2
      subst h2
      exact ⟨hs, ha⟩
  · intro x hx
    rw [hsplit, List.map_append, List.mem_append]
    rcases (mem_setInsert _ _ _).mp hx with h2 | h2
    · exact Or.inl (hvis x h2)
    · subst h2
      exact Or.inr (by simp [hlast])

theorem findCyclePathLoop_returns (g : Graph) (allowed : List NodeId) (start : NodeId)
    (domain : List NodeId) (hdomain : ∀ x ∈ start :: allowed, x ∈ domain) :
    ∀ (fuel : Nat) (queue : List Wrapper), queue ≠ [] →
      (∀ e ∈ queue, cycleBranch g allowed start e) →
      queueWeight g domain queue ≤ fuel →
      ∃ p, findCyclePathLoop g allowed fuel queue = Outcome.ret p ∧
        cyclePathResult g allowed start p := by
  intro fuel
  induction fuel with
  | zero =>
    intro queue hne _ hw
    cases queue with
    | nil => exact absurd rfl hne
    | cons e rest =>
      unfold queueWeight at hw
      simp only [List.map_cons, List.sum_cons] at hw
      have : 0 < (maxOutDegree g domain + 1) ^
          unvisitedCount domain e.visited := pow_pos (Nat.succ_pos _) _
      omega
  | succ fuel ih =>
    intro queue hne hq hw
    cases queue with
    | nil => exact absurd rfl hne
    | cons e rest =>
      have hbranch := hq e (List.mem_cons_self _ _)
      obtain ⟨⟨hchain, hstrong⟩, ⟨stem, last, hsplit, hlast, hvis⟩, hin⟩ := id hbranch
      rw [findCyclePathLoop]
      rcases findCycleOutbound_children allowed e.link.Node e.path e.visited
          (g e.link.Node).Outbound rest 0 with
        ⟨hr, hv⟩ | ⟨children, hr, hlen, hch, hnone, hsome⟩
      · rw [hr]
        refine ⟨e.path, rfl, Or.inl ?_⟩
        have hmem := hvis _ hv
        cases stem with
        | nil => simp at hmem
        | cons s0 stem2 =>
          rw [List.cons_append, List.cons.injEq] at hsplit
          obtain ⟨hs0, hpath⟩ := hsplit
          refine ⟨stem2, last, hpath, ⟨hchain, hstrong⟩, ?_⟩
          rw [hlast, hs0]
          exact hmem
      · rw [hr]
        dsimp only
        by_cases hz : 0 + children.length = 0
        · rw [if_pos hz]
          have hnil : children = [] := List.length_eq_zero.mp (by omega)
          refine ⟨_, rfl, Or.inr ⟨e.path, last, by rw [hlast], ⟨hchain, hstrong⟩, ?_, ?_⟩⟩
          · rw [hsplit, List.getLast?_concat]
          · rw [hlast]
            exact hnone hnil
        · rw [if_neg hz]
          have hcne : children ≠ [] := by
            intro h0
            rw [h0] at hz
            exact hz rfl
          have hv : e.link.Node ∉ e.visited := hsome hcne
          apply ih
          · intro h0
            exact hcne (List.append_eq_nil.mp h0).2
          · intro e2 he2
            rcases List.mem_append.mp he2 with h1 | h1
            · exact hq e2 (List.mem_cons_of_mem _ h1)
            · obtain ⟨l, hl, hs, ha, rfl⟩ := hch e2 h1
              exact cycleBranch_child hbranch hl hs ha
          · have hdeg := maxOutDegree_ge g domain _ (hdomain _ hin)
            have hcount := unvisitedCount_insert e.visited e.link.Node hv domain (hdomain _ hin)
            have hchildren := queueWeight_same_visited g domain
              (setInsert e.visited e.link.Node) children (fun c hc => by
                obtain ⟨l, _, _, _, rfl⟩ := hch c hc
                rfl)
            have hsplitw : queueWeight g domain (rest ++ children) =
                queueWeight g domain rest +
                  queueWeight g domain children := by
              unfold queueWeight
              rw [List.map_append, List.sum_append]
            rw [hsplitw, hchildren]
            have hold : queueWeight g domain (e :: rest) =
                (maxOutDegree g domain + 1) ^
                    unvisitedCount domain e.visited +
                  queueWeight g domain rest := by
              unfold queueWeight
              simp only [List.map_cons, List.sum_cons]
            rw [hold] at hw
            have hpow : (maxOutDegree g domain + 1) ^
                (unvisitedCount domain (setInsert e.visited e.link.Node) + 1) ≤
                (maxOutDegree g domain + 1) ^
                  unvisitedCount domain e.visited :=
              Nat.pow_le_pow_right (Nat.succ_pos _) hcount
            have hmul : children.length *
                (maxOutDegree g domain + 1) ^
                  unvisitedCount domain (setInsert e.visited e.link.Node) ≤
                maxOutDegree g domain * (maxOutDegree g domain + 1) ^
                  unvisitedCount domain (setInsert e.visited e.link.Node) :=
              Nat.mul_le_mul_right _ (Nat.le_trans hlen hdeg)
            have hpos : 0 < (maxOutDegree g domain + 1) ^
                unvisitedCount domain (setInsert e.visited e.link.Node) :=
              pow_pos (Nat.succ_pos _) _
            rw [pow_succ] at hpow
            nlinarith

/-- C23: for every graph, every start node and every allowed set, `findCyclePath`
returns once it is allowed `cycleBound g (start :: allowed)` queue iterations, so
it does not reach its fatal branch `Cycle not found`. The path it returns
consists of strong-fair outbound links into the allowed set, starting at the
start node, and either its last link targets a node already expanded on the
same branch, or it is such a path followed by a link named `stutter` at the node
where it ends, which has no strong-fair outbound link into the allowed set. -/
theorem findCyclePath_returns_cycle_or_stutter (fuel : Nat) (g : Graph) (start : NodeId)
    (allowed : List NodeId) (hfuel : cycleBound g (start :: allowed) ≤ fuel) :
    ∃ p, findCyclePath fuel g start allowed = Outcome.ret p ∧
      cyclePathResult g allowed start p := by
  unfold findCyclePath
  refine findCyclePathLoop_returns g allowed start (start :: allowed) (fun x hx => hx) fuel _
    (by simp) (fun e he => ?_) ?_
  · rw [List.mem_singleton] at he
    subst he
    exact ⟨⟨List.chain'_singleton _, fun l hl => absurd hl (List.not_mem_nil l)⟩,
      ⟨[], InitNodeToLink g start, rfl, rfl, fun x hx => absurd hx (List.not_mem_nil x)⟩,
      List.mem_cons_self _ _⟩
  · unfold queueWeight
    simp only [List.map_cons, List.map_nil, List.sum_cons, List.sum_nil, Nat.add_zero]
    rw [unvisitedCount_nil]
    exact hfuel

theorem findCyclePath_returns_cycle_or_stutter_witness :
    cycleBound pingPongGraph (0 :: [0, 1]) ≤ 8 ∧
    findCyclePath 8 pingPongGraph 0 [0, 1] = Outcome.ret
      [{ Node := 1, Name := "ping", Fairness := FairnessLevel.STRONG },
       { Node := 0, Name := "pong", Fairness := FairnessLevel.STRONG }] ∧
    ∃ p, findCyclePath 8 pingPongGraph 0 [0, 1] = Outcome.ret p ∧
      cyclePathResult pingPongGraph [0, 1] 0 p :=
  ⟨by decide, by decide,
    findCyclePath_returns_cycle_or_stutter 8 pingPongGraph 0 [0, 1] (by decide)⟩

/-! ## Roles -/

theorem Role_SetField_param {V P F : Type} (lib : StructLib V P F) (r : Role V P F)
    (name : String) (val given : V)
    (h : lib.ParamsAttr r.Params name = (some given, none)) :
    r.SetField lib name val =
      (r, some (Error.Errorf ("cannot set immutable field " ++ name ++ " on role " ++ r.Name))) := by
  unfold Role.SetField
  rw [h]

theorem Role_SetField_other {V P F : Type} (lib : StructLib V P F) (r : Role V P F)
    (name : String) (val : V) (msg : String)
    (h : lib.ParamsAttr r.Params name = (none, some (Error.NoSuchAttrError msg)))
    (hb : lib.BuiltinAttr r name [] = (none, none)) :
    r.SetField lib name val =
      ({ r with Fields := (lib.FieldsSetField r.Fields name val).1 },
        (lib.FieldsSetField r.Fields name val).2) := by
  unfold Role.SetField roleMethods
  rw [h]
  dsimp only
  rw [hb]

theorem paramsIntact_SetField {V P F : Type} (lib : StructLib V P F) (hlib : lawfulLib lib)
    (role : String) (kwargs : List (String × V)) (r : Role V P F)
    (h : paramsIntact lib role kwargs r) (name : String) (val : V) :
    paramsIntact lib role kwargs (r.SetField lib name val).1 := by
  obtain ⟨hname, hparams, hfields⟩ := id h
  obtain ⟨lparams, _, lset, lbuiltin⟩ := hlib
  rcases lparams "params" kwargs name with ⟨given, _, hattr⟩ | ⟨hnot, msg, hattr⟩
  · rw [← hparams] at hattr
    rw [Role_SetField_param lib r name val given hattr]
    exact h
  · rw [← hparams] at hattr
    rw [Role_SetField_other lib r name val msg hattr (lbuiltin r name)]
    refine ⟨hname, hparams, fun p hp => ?_⟩
    obtain ⟨msg2, hmsg⟩ := hfields p hp
    refine ⟨msg2, ?_⟩
    have hne : p ≠ name := by
      rintro rfl
      exact hnot hp
    dsimp only
    rw [(lset r.Fields name val).2.2 p hne]
    exact hmsg

theorem paramsIntact_setFields {V P F : Type} (lib : StructLib V P F) (hlib : lawfulLib lib)
    (role : String) (kwargs : List (String × V)) :
    ∀ (calls : List (String × V)) (r : Role V P F), paramsIntact lib role kwargs r →
      paramsIntact lib role kwargs (setFields lib r calls) := by
  intro calls
  induction calls with
  | nil =>
    intro r h
    exact h
  | cons call rest ih =>
    intro r h
    rw [setFields]
    exact ih _ (paramsIntact_SetField lib hlib role kwargs r h call.1 call.2)

theorem Role_Attr_param {V P F : Type} (lib : StructLib V P F) (r : Role V P F)
    (name : String) (given : V) (msg : String)
    (hf : lib.FieldsAttr r.Fields name = (none, some (Error.NoSuchAttrError msg)))
    (hp : lib.ParamsAttr r.Params name = (some given, none)) :
    r.Attr lib name = (some given, none) := by
  unfold Role.Attr
  rw [hf]
  dsimp only
  rw [hp]

theorem Role_Attr_field {V P F : Type} (lib : StructLib V P F) (r : Role V P F)
    (name : String) (val : V) (hf : lib.FieldsAttr r.Fields name = (some val, none)) :
    r.Attr lib name = (some val, none) := by
  unfold Role.Attr
  rw [hf]

/-- C24: let the struct operations behind a role satisfy their contract
`lawfulLib`, let `created` be the role that the builtin of `CreateRoleBuiltin`
returns for the keyword arguments `kwargs`, and `r` the role after any sequence
of `SetField` calls. The builtin returns a role and no error. When `field` is
the name of a keyword argument, `SetField` of `field` returns an error and
leaves the role unchanged, and `Attr` of `field` returns no error and a value
given for it at creation, the same as on the created role. Otherwise `SetField`
returns no error, the fields of the role become what `SetField` of its field
struct stores, and `Attr` of `field` then returns the value set. -/
theorem Role_params_immutable {V P F : Type} (lib : StructLib V P F) (hlib : lawfulLib lib)
    (name : String) (roleRefs : RoleRefs) (args : List V) (kwargs calls : List (String × V))
    (field : String) (val : V) :
    ∃ created, (CreateRoleBuiltin lib name roleRefs args kwargs).1 = (some created, none) ∧
      (field ∈ kwargs.map Prod.fst →
        (∃ err, (setFields lib created calls).SetField lib field val =
          (setFields lib created calls, some err)) ∧
        ∃ given, (field, given) ∈ kwargs ∧
          (setFields lib created calls).Attr lib field = (some given, none) ∧
          created.Attr lib field = (some given, none)) ∧
      (field ∉ kwargs.map Prod.fst →
        ((setFields lib created calls).SetField lib field val).2 = none ∧
        ((setFields lib created calls).SetField lib field val).1.Fields =
          (lib.FieldsSetField (setFields lib created calls).Fields field val).1 ∧
        ((setFields lib created calls).SetField lib field val).1.Attr lib field =
          (some val, none)) := by
  have hcreated : paramsIntact lib name kwargs
      { ref := roleRefs name + 1, Name := name, Params := lib.FromKeywords "params" kwargs,
        Fields := lib.FromStringDict "fields" [] } :=
    ⟨rfl, rfl, fun p _ => hlib.2.1 "fields" p⟩
  refine ⟨_, rfl, ?_, ?_⟩
  · intro hfield
    have hlater := paramsIntact_setFields lib hlib name kwargs calls _ hcreated
    obtain ⟨_, hparams, hfields⟩ := hlater
    rcases hlib.1 "params" kwargs field with ⟨given, hmem, hattr⟩ | ⟨hnot, _⟩
    · have hattr2 := hattr
      rw [← hparams] at hattr2
      obtain ⟨msg, hmsg⟩ := hfields field hfield
      obtain ⟨msg0, hmsg0⟩ := hcreated.2.2 field hfield
      exact ⟨⟨_, Role_SetField_param lib _ field val given hattr2⟩, given, hmem,
        Role_Attr_param lib _ field given msg hmsg hattr2,
        Role_Attr_param lib _ field given msg0 hmsg0 hattr⟩
    · exact absurd hfield hnot
  · intro hfield
    have hlater := paramsIntact_setFields lib hlib name kwargs calls _ hcreated
    obtain ⟨_, hparams, _⟩ := hlater
    rcases hlib.1 "params" kwargs field with ⟨given, hmem, _⟩ | ⟨_, msg, hattr⟩
    · exact absurd (List.mem_map.mpr ⟨(field, given), hmem, rfl⟩) hfield
    · rw [← hparams] at hattr
      rw [Role_SetField_other lib _ field val msg hattr (hlib.2.2.2 _ field)]
      obtain ⟨hok, hget, _⟩ := hlib.2.2.1 (setFields lib _ calls).Fields field val
      exact ⟨hok, rfl, Role_Attr_field lib _ field val hget⟩

theorem listLib_lawful : lawfulLib listLib := by
  refine ⟨?_, fun _ _ => ⟨_, rfl⟩, ?_, fun _ _ => rfl⟩
  · intro ctor kwargs name
    show (∃ v, (name, v) ∈ kwargs ∧ listAttr kwargs name = (some v, none)) ∨
      (name ∉ kwargs.map Prod.fst ∧ ∃ msg,
        listAttr kwargs name = (none, some (Error.NoSuchAttrError msg)))
    unfold listAttr
    cases h : kwargs.find? (fun entry => decide (entry.1 = name)) with
    | none =>
      refine Or.inr ⟨?_, _, rfl⟩
      intro hmem
      obtain ⟨entry, hentry, hkey⟩ := List.mem_map.mp hmem
      have := List.find?_eq_none.mp h entry hentry
      simp only [decide_eq_true_eq] at this
      exact this hkey
    | some entry =>
      have hkey := List.find?_some h
      simp only [decide_eq_true_eq] at hkey
      refine Or.inl ⟨entry.2, ?_, rfl⟩
      have hmem := List.mem_of_find?_eq_some h
      rw [← hkey]
      exact hmem
  · intro f name v
    refine ⟨rfl, ?_, fun other hne => ?_⟩
    · show listAttr ((name, v) :: f) name = (some v, none)
      simp [listAttr]
    · show listAttr ((name, v) :: f) other = listAttr f other
      have hne2 : ¬ name = other := fun h => hne h.symm
      simp [listAttr, List.find?_cons, hne2]

theorem Role_params_immutable_witness :
    lawfulLib listLib ∧
    (setFields listLib { ref := 1, Name := "Node", Params := [("id", 7)], Fields := [] }
      [("status", 1), ("id", 2)]).Attr listLib "id" = (some 7, none) ∧
    ∃ created,
      (CreateRoleBuiltin listLib "Node" (fun _ => 0) [] [("id", 7)]).1 = (some created, none) ∧
      ("id" ∈ [("id", 7)].map Prod.fst →
        (∃ err, (setFields listLib created [("status", 1), ("id", 2)]).SetField listLib "id" 9 =
          (setFields listLib created [("status", 1), ("id", 2)], some err)) ∧
        ∃ given, ("id", given) ∈ [("id", 7)] ∧
          (setFields listLib created [("status", 1), ("id", 2)]).Attr listLib "id" =
            (some given, none) ∧
          created.Attr listLib "id" = (some given, none)) ∧
      ("id" ∉ [("id", 7)].map Prod.fst →
        ((setFields listLib created [("status", 1), ("id", 2)]).SetField listLib "id" 9).2 =
          none ∧
        ((setFields listLib created [("status", 1), ("id", 2)]).SetField listLib "id" 9).1.Fields =
          (listLib.FieldsSetField (setFields listLib created [("status", 1), ("id", 2)]).Fields
            "id" 9).1 ∧
        ((setFields listLib created [("status", 1), ("id", 2)]).SetField listLib "id" 9).1.Attr
          listLib "id" = (some 9, none)) :=
  ⟨listLib_lawful, by decide,
    Role_params_immutable listLib listLib_lawful "Node" (fun _ => 0) [] [("id", 7)]
      [("status", 1), ("id", 2)] "id" 9⟩

/-! ## Agreement of the Fast and Final strategies -/

theorem closestDeadStep_some (g : Graph) (start : Option NodeId) (node : NodeId) :
    ∃ d, closestDeadStep g start node = some d := by
  unfold closestDeadStep
  cases start with
  | none => exact ⟨node, rfl⟩
  | some closest =>
    dsimp only
    split_ifs <;> exact ⟨_, rfl⟩

theorem foldl_closestDeadStep_some (g : Graph) :
    ∀ (order : List NodeId) (c : NodeId),
      ∃ d, order.foldl (closestDeadStep g) (some c) = some d := by
  intro order
  induction order with
  | nil =>
    intro c
    exact ⟨c, rfl⟩
  | cons x rest ih =>
    intro c
    obtain ⟨d, hd⟩ := closestDeadStep_some g (some c) x
    rw [List.foldl_cons, hd]
    exact ih d

theorem AlwaysEventuallyFast_returns (fuel : Nat) (g : Graph)
    (iteration : List NodeId → List NodeId) (root : NodeId) (nodes : List NodeId)
    (rank : NodeId → Nat) (predicate : Predicate) (hinv : graphInvariants g root nodes)
    (hrank : firstInboundDescends g nodes rank) (hiter : ∀ m, (iteration m).Perm m)
    (hfuel : bfsBound g nodes ≤ fuel) (hcycle : cycleBound g nodes ≤ fuel)
    (hwalk : ∀ n ∈ nodes, rank n < fuel) :
    ∃ p live, AlwaysEventuallyFast fuel g iteration nodes predicate = Outcome.ret (p, live) := by
  obtain ⟨falseNodes, hfn, hchar⟩ :=
    alwaysEventuallyFalseNodes_spec fuel g nodes predicate hinv.2.2.2 hinv.2.2.1 hfuel
  unfold AlwaysEventuallyFast
  rw [hfn]
  dsimp only
  by_cases hlen : falseNodes.length > 0
  · rw [if_pos hlen]
    unfold alwaysEventuallyFailure
    have hperm := hiter falseNodes
    obtain ⟨c, hc⟩ : ∃ c, (iteration falseNodes).foldl (closestDeadStep g) none = some c := by
      cases horder : iteration falseNodes with
      | nil =>
        have := hperm.length_eq
        rw [horder] at this
        simp only [List.length_nil] at this
        omega
      | cons x rest =>
        rw [List.foldl_cons]
        exact foldl_closestDeadStep_some g rest x
    have hcmem : c ∈ falseNodes := by
      rcases foldl_closestDeadStep_mem g (iteration falseNodes) none c hc with h | h
      · cases h
      · exact hperm.mem_iff.mp h
    have hcnodes : c ∈ nodes := ((hchar c).mp hcmem).1
    rw [hc]
    dsimp only
    obtain ⟨res, hres, _⟩ := pathToInitLoop_initPath g root nodes rank hinv.1
      (fun n hn l hl => (hinv.2.2.1.1 n hn l hl).1) hrank c fuel c [] hcnodes
      (by
        have := hwalk c hcnodes
        omega)
      (by simp) (fun h hh => by cases hh) (Or.inl ⟨rfl, rfl⟩)
    have hpath : pathToInit fuel g nodes c = Outcome.ret res.reverse := by
      unfold pathToInit
      rw [hres]
    rw [hpath]
    dsimp only
    obtain ⟨p, hp, _⟩ := findCyclePathLoop_returns g falseNodes c nodes
      (fun x hx => by
        rcases List.mem_cons.mp hx with rfl | hx
        · exact hcnodes
        · exact ((hchar x).mp hx).1)
      fuel [{ link := InitNodeToLink g c, path := [], visited := [] }] (by simp)
      (fun e he => by
        rw [List.mem_singleton] at he
        subst he
        exact ⟨⟨List.chain'_singleton _, fun l hl => absurd hl (List.not_mem_nil l)⟩,
          ⟨[], InitNodeToLink g c, rfl, rfl, fun x hx => absurd hx (List.not_mem_nil x)⟩,
          List.mem_cons_self _ _⟩)
      (by
        unfold queueWeight
        simp only [List.map_cons, List.map_nil, List.sum_cons, List.sum_nil, Nat.add_zero]
        rw [unvisitedCount_nil]
        exact hcycle)
    have hcyc : findCyclePath fuel g c falseNodes = Outcome.ret p := hp
    rw [hcyc]
    exact ⟨_, _, rfl⟩
  · rw [if_neg hlen]
    exact ⟨[], true, rfl⟩

theorem EventuallyAlwaysFast_returns (fuel : Nat) (g : Graph)
    (iteration : List NodeId → List NodeId) (root : NodeId) (nodes : List NodeId)
    (rank : NodeId → Nat) (predicate : Predicate) (hinv : graphInvariants g root nodes)
    (hrank : firstInboundDescends g nodes rank) (hiter : ∀ m, (iteration m).Perm m)
    (hfuel : bfsBound g nodes ≤ fuel) (hcycle : cycleBound g nodes ≤ fuel)
    (hwalk : ∀ n ∈ nodes, rank n < fuel) :
    ∃ p live, EventuallyAlwaysFast fuel g iteration nodes predicate = Outcome.ret (p, live) := by
  obtain ⟨trueNodes, htn, _⟩ :=
    eventuallyAlwaysTrueNodes_spec fuel g nodes predicate hinv.2.2.2 hinv.2.2.1 hfuel
  unfold EventuallyAlwaysFast
  rw [htn]
  dsimp only
  by_cases hlen : trueNodes.length > 0
  · rw [if_pos hlen]
    exact AlwaysEventuallyFast_returns fuel g iteration root nodes rank (inTrueNodes trueNodes)
      hinv hrank hiter hfuel hcycle hwalk
  · rw [if_neg hlen]
    cases hn : nodes with
    | nil =>
      have := hinv.1
      rw [hn] at this
      cases this
    | cons r others =>
      dsimp only
      obtain ⟨path, _, hpath⟩ := cycleFinderBfsLoop_violation g nodes
        (fun n hn2 o ho => (hinv.2.2.1.2 n hn2 o ho).1) fuel
        [{ link := InitNodeToLink g r, path := [], visited := [] }] (by simp)
        (fun e he => by
          rw [List.mem_singleton] at he
          subst he
          rw [hn]
          exact List.mem_cons_self _ _)
        (by
          unfold queueWeight
          simp only [List.map_cons, List.map_nil, List.sum_cons, List.sum_nil, Nat.add_zero]
          rw [unvisitedCount_nil]
          exact hcycle)
      exact ⟨path, false, hpath⟩

theorem same_verdict_of_isLive_iff {fast final : Outcome (List Link × Bool)}
    (hfast : ∃ p live, fast = Outcome.ret (p, live))
    (hfinal : ∃ p live, final = Outcome.ret (p, live)) (hiff : isLive fast ↔ isLive final) :
    ∃ p q live, fast = Outcome.ret (p, live) ∧ final = Outcome.ret (q, live) := by
  obtain ⟨p, l1, rfl⟩ := hfast
  obtain ⟨q, l2, rfl⟩ := hfinal
  rw [isLive_ret_iff, isLive_ret_iff] at hiff
  have : l1 = l2 := by
    cases l1 <;> cases l2 <;> simp_all
  subst this
  exact ⟨p, q, l1, rfl, rfl⟩

theorem pathToInitLoop_strongBackEdge :
    ∀ (fuel : Nat) (node : NodeId) (failurePath : List Link), node = 1 ∨ node = 2 →
      pathToInitLoop strongBackEdgeGraph [0, 1, 2] fuel node failurePath = Outcome.fuel := by
  intro fuel
  induction fuel with
  | zero =>
    intro node failurePath _
    rfl
  | succ fuel ih =>
    intro node failurePath hnode
    rcases hnode with rfl | rfl
    · rw [pathToInitLoop]
      exact ih 2 _ (Or.inr rfl)
    · rw [pathToInitLoop]
      exact ih 1 _ (Or.inl rfl)

theorem AlwaysEventuallyFast_strongBackEdge (fuel : Nat) :
    AlwaysEventuallyFast fuel strongBackEdgeGraph id [0, 1, 2]
      (fastPredicate strongBackEdgeGraph 0 0) = Outcome.fuel := by
  cases fuel with
  | zero => rfl
  | succ n =>
    have hfalse : alwaysEventuallyFalseNodes (n + 1) strongBackEdgeGraph [0, 1, 2]
        (fastPredicate strongBackEdgeGraph 0 0) = Outcome.ret [1, 2] := by
      unfold alwaysEventuallyFalseNodes
      rw [show alwaysEventuallySeed strongBackEdgeGraph (fastPredicate strongBackEdgeGraph 0 0)
        [0, 1, 2] [] [] = Outcome.ret ([0], [1, 2]) from by decide]
      dsimp only
      rw [reverseBfs]
      rw [if_neg (by decide)]
      dsimp only
      rw [show (strongBackEdgeGraph 0).Inbound = [] from rfl]
      simp only [List.foldl_nil]
      rw [reverseBfs]
    unfold AlwaysEventuallyFast
    rw [hfalse]
    dsimp only
    rw [if_pos (by decide)]
    unfold alwaysEventuallyFailure
    rw [show (id [1, 2] : List NodeId).foldl (closestDeadStep strongBackEdgeGraph) none = some 1
      from by decide]
    dsimp only
    unfold pathToInit
    rw [pathToInitLoop_strongBackEdge (n + 1) 1 [] (Or.inl rfl)]

theorem strongBackEdgeGraph_invariants : graphInvariants strongBackEdgeGraph 0 [0, 1, 2] := by
  refine ⟨rfl, ?_, by unfold mirrored; decide, by decide⟩
  have h01 : anyLink strongBackEdgeGraph 0 1 :=
    ⟨{ Node := 1, Name := "a", Fairness := FairnessLevel.STRONG }, by decide, rfl⟩
  have h12 : anyLink strongBackEdgeGraph 1 2 :=
    ⟨{ Node := 2, Name := "b", Fairness := FairnessLevel.STRONG }, by decide, rfl⟩
  intro n hn
  simp only [List.mem_cons, List.mem_singleton, List.not_mem_nil, or_false] at hn
  rcases hn with rfl | rfl | rfl
  · exact Relation.ReflTransGen.refl
  · exact Relation.ReflTransGen.single h01
  · exact (Relation.ReflTransGen.single h01).tail h12

theorem strongBackEdgeGraph_deterministic : deterministic strongBackEdgeGraph [0, 1, 2] := by
  intro n hn
  simp only [List.mem_cons, List.mem_singleton, List.not_mem_nil, or_false] at hn
  rcases hn with rfl | rfl | rfl
  · exact ⟨{ Node := 1, Name := "a", Fairness := FairnessLevel.STRONG }, rfl, rfl, by decide⟩
  · exact ⟨{ Node := 2, Name := "b", Fairness := FairnessLevel.STRONG }, rfl, rfl, by decide⟩
  · exact ⟨{ Node := 1, Name := "c", Fairness := FairnessLevel.STRONG }, rfl, rfl, by decide⟩

theorem pingPongGraph_descends : firstInboundDescends pingPongGraph [0, 1] id := by
  intro n hn hstop first hfirst
  simp only [List.mem_cons, List.mem_singleton, List.not_mem_nil, or_false] at hn
  rcases hn with rfl | rfl
  · exact absurd (Or.inr (Or.inr rfl)) hstop
  · simp only [pingPongGraph, List.head?_cons, Option.some.injEq] at hfirst
    subst hfirst
    decide

/-- C5 (as stated, refuted): `weakEscapeGraph`, the scenario "weak-fair escape
continuously enabled" of the specification, satisfies the graph invariants with
root 0, and on it the Fast strategy reports both always-eventually and
eventually-always violated (it follows strong-fair links only) while the Final
strategy reports both live (its only cycle without the predicate is unfair), so
the verdicts of `AlwaysEventuallyFast` and `AlwaysEventuallyFinal` differ.
Moreover `strongBackEdgeGraph` satisfies the graph invariants and has one
strong-fair link per state, and on it `AlwaysEventuallyFast` returns no verdict,
whatever the number of iterations allowed (the walk of `pathToInit` from state 1
follows first inbound links around the cycle), while `AlwaysEventuallyFinal`
returns a violation. -/
theorem Fast_and_Final_verdicts_differ :
    graphInvariants weakEscapeGraph 0 [0, 1] ∧
    AlwaysEventuallyFast 6 weakEscapeGraph id [0, 1] (fastPredicate weakEscapeGraph 0 0) =
      Outcome.ret (weakEscapePath, false) ∧
    AlwaysEventuallyFinal 6 weakEscapeGraph 0 (fastPredicate weakEscapeGraph 0 0) =
      Outcome.ret ([], true) ∧
    EventuallyAlwaysFast 6 weakEscapeGraph id [0, 1] (fastPredicate weakEscapeGraph 0 0) =
      Outcome.ret (weakEscapePath, false) ∧
    EventuallyAlwaysFinal 6 weakEscapeGraph 0 (fastPredicate weakEscapeGraph 0 0) =
      Outcome.ret ([], true) ∧
    ¬ (isLive (AlwaysEventuallyFast 6 weakEscapeGraph id [0, 1]
          (fastPredicate weakEscapeGraph 0 0)) ↔
        isLive (AlwaysEventuallyFinal 6 weakEscapeGraph 0 (fastPredicate weakEscapeGraph 0 0))) ∧
    graphInvariants strongBackEdgeGraph 0 [0, 1, 2] ∧
    deterministic strongBackEdgeGraph [0, 1, 2] ∧
    (∀ fuel, AlwaysEventuallyFast fuel strongBackEdgeGraph id [0, 1, 2]
      (fastPredicate strongBackEdgeGraph 0 0) = Outcome.fuel) ∧
    AlwaysEventuallyFinal 4 strongBackEdgeGraph 0 (fastPredicate strongBackEdgeGraph 0 0) =
      Outcome.ret ([{ Node := 0, Name := "Init" },
        { Node := 1, Name := "a", Fairness := FairnessLevel.STRONG },
        { Node := 2, Name := "b", Fairness := FairnessLevel.STRONG },
        { Node := 1, Name := "c", Fairness := FairnessLevel.STRONG }], false) := by
  have hfast : AlwaysEventuallyFast 6 weakEscapeGraph id [0, 1]
      (fastPredicate weakEscapeGraph 0 0) = Outcome.ret (weakEscapePath, false) := by decide
  have hfinal : AlwaysEventuallyFinal 6 weakEscapeGraph 0 (fastPredicate weakEscapeGraph 0 0) =
      Outcome.ret ([], true) := by decide
  refine ⟨weakEscapeGraph_invariants, hfast, hfinal, by decide, by decide, ?_,
    strongBackEdgeGraph_invariants, strongBackEdgeGraph_deterministic,
    AlwaysEventuallyFast_strongBackEdge, by decide⟩
  rw [hfast, hfinal, isLive_ret_iff, isLive_ret_iff]
  decide

/-- C5 (amended): on a graph that satisfies the graph invariants, in which every
listed node has exactly one outbound link, that link being strong-fair and not
named `crash`, and on which some rank strictly decreases from every listed node
at which the walk of `pathToInit` does not stop to the origin of its first
inbound link, with fuel and depth for the loops, the Fast and Final strategies
return the same verdict for every predicate: `AlwaysEventuallyFast` and
`AlwaysEventuallyFinal` both return, with the same truth value, and, when the
predicate is relevant at every listed node, so do `EventuallyAlwaysFast` and
`EventuallyAlwaysFinal`; the paths may differ. -/
theorem Fast_and_Final_agree_on_deterministic_graphs (fuel depth : Nat) (g : Graph)
    (iteration : List NodeId → List NodeId) (root : NodeId) (nodes : List NodeId)
    (rank : NodeId → Nat) (predicate : Predicate) (hinv : graphInvariants g root nodes)
    (hdet : deterministic g nodes) (hrank : firstInboundDescends g nodes rank)
    (hiter : ∀ m, (iteration m).Perm m) (hfuel : bfsBound g nodes ≤ fuel)
    (hcycle : cycleBound g nodes ≤ fuel) (hwalk : ∀ n ∈ nodes, rank n < fuel)
    (hdepth : nodes.length + 1 ≤ depth) :
    (∃ p q live, AlwaysEventuallyFast fuel g iteration nodes predicate = Outcome.ret (p, live) ∧
      AlwaysEventuallyFinal depth g root predicate = Outcome.ret (q, live)) ∧
    ((∀ n ∈ nodes, (predicate n).1 = true) →
      ∃ p q live,
        EventuallyAlwaysFast fuel g iteration nodes predicate = Outcome.ret (p, live) ∧
        EventuallyAlwaysFinal depth g root predicate = Outcome.ret (q, live)) := by
  constructor
  · obtain ⟨hfinal, hiff⟩ := AlwaysEventually_agree_deterministic fuel depth g iteration root
      nodes predicate hinv hdet hfuel hdepth
    exact same_verdict_of_isLive_iff
      (AlwaysEventuallyFast_returns fuel g iteration root nodes rank predicate hinv hrank hiter
        hfuel hcycle hwalk) hfinal hiff
  · intro hrel
    obtain ⟨hfinal, hiff⟩ := EventuallyAlways_agree_deterministic fuel depth g iteration root
      nodes predicate hinv hdet hrel hfuel hdepth
    exact same_verdict_of_isLive_iff
      (EventuallyAlwaysFast_returns fuel g iteration root nodes rank predicate hinv hrank hiter
        hfuel hcycle hwalk) hfinal hiff

theorem Fast_and_Final_agree_on_deterministic_graphs_witness :
    graphInvariants pingPongGraph 0 [0, 1] ∧ deterministic pingPongGraph [0, 1] ∧
    firstInboundDescends pingPongGraph [0, 1] id ∧ (∀ m : List NodeId, (id m).Perm m) ∧
    bfsBound pingPongGraph [0, 1] ≤ 4 ∧ cycleBound pingPongGraph [0, 1] ≤ 4 ∧
    (∀ n ∈ [0, 1], id n < 4) ∧ [0, 1].length + 1 ≤ 3 ∧
    AlwaysEventuallyFast 4 pingPongGraph id [0, 1] (fun _ => (true, false)) =
      Outcome.ret ([{ Node := 0, Name := "Init" },
        { Node := 1, Name := "ping", Fairness := FairnessLevel.STRONG },
        { Node := 0, Name := "pong", Fairness := FairnessLevel.STRONG }], false) ∧
    (∃ p q live,
      AlwaysEventuallyFast 4 pingPongGraph id [0, 1] (fun _ => (true, false)) =
        Outcome.ret (p, live) ∧
      AlwaysEventuallyFinal 3 pingPongGraph 0 (fun _ => (true, false)) =
        Outcome.ret (q, live)) ∧
    ((∀ n ∈ [0, 1], ((fun _ => (true, false)) n : Bool × Bool).1 = true) →
      ∃ p q live,
        EventuallyAlwaysFast 4 pingPongGraph id [0, 1] (fun _ => (true, false)) =
          Outcome.ret (p, live) ∧
        EventuallyAlwaysFinal 3 pingPongGraph 0 (fun _ => (true, false)) =
          Outcome.ret (q, live)) :=
  ⟨pingPongGraph_invariants, pingPongGraph_deterministic, pingPongGraph_descends,
    fun _ => List.Perm.refl _, by decide, by decide, by decide, by decide, by decide,
    Fast_and_Final_agree_on_deterministic_graphs 4 3 pingPongGraph id 0 [0, 1] id
      (fun _ => (true, false)) pingPongGraph_invariants pingPongGraph_deterministic
      pingPongGraph_descends (fun _ => List.Perm.refl _) (by decide) (by decide) (by decide)
      (by decide)⟩

/-! ## Cycles handed to the callback by the depth-first search -/

theorem exploredInLog_mono {g : Graph} {root : NodeId} {log log2 : List SearchEvent}
    {onPath onPath2 : List NodeId} {x : NodeId} (hsub : ∀ v ∈ onPath2, v ∈ onPath)
    (hlog : ∀ e ∈ log, e ∈ log2) (h : exploredInLog g root log onPath x) :
    exploredInLog g root log2 onPath2 x := by
  obtain ⟨visited, path, h1, h2, h3⟩ := h
  exact ⟨visited, path, h1, fun v hv => h2 v (hsub v hv), fun o ho hon => hlog _ (h3 o ho hon)⟩

theorem cycleLinkHanded_mono {g : Graph} {root : NodeId} {log log2 : List SearchEvent}
    {cyc : List Link} (hlog : ∀ e ∈ log, e ∈ log2) (h : cycleLinkHanded g root log cyc) :
    cycleLinkHanded g root log2 cyc := by
  obtain ⟨stem, o, h1, h2⟩ := h
  exact ⟨stem, o, hlog _ h1, h2⟩

theorem liveSegment_refl (g : Graph) (root : NodeId) (log : List SearchEvent)
    (onPath gv : List NodeId) : liveSegment g root log onPath gv gv := by
  refine ⟨fun v hv => hv, fun x hx hn => absurd hx hn, fun x hx hn => absurd hx hn, ?_⟩
  intro cyc hcyc hall
  obtain ⟨last, hlast, _⟩ := hcyc
  have hmem := List.mem_of_getLast?_eq_some hlast
  exact absurd (hall last hmem).1 (hall last hmem).2

theorem liveSegment_mono {g : Graph} {root : NodeId} {log log2 : List SearchEvent}
    {onPath onPath2 before after : List NodeId} (hsub : ∀ v ∈ onPath2, v ∈ onPath)
    (hlog : ∀ e ∈ log, e ∈ log2) (h : liveSegment g root log onPath before after) :
    liveSegment g root log2 onPath2 before after :=
  ⟨h.1, h.2.1, fun x hx hn => exploredInLog_mono hsub hlog (h.2.2.1 x hx hn),
    fun cyc hcyc hall => cycleLinkHanded_mono hlog (h.2.2.2 cyc hcyc hall)⟩

theorem liveSegment_trans {g : Graph} {root : NodeId} {log : List SearchEvent}
    {onPath first middle last : List NodeId}
    (h1 : liveSegment g root log onPath first middle)
    (h2 : liveSegment g root log onPath middle last) :
    liveSegment g root log onPath first last := by
  obtain ⟨a1, b1, c1, d1⟩ := h1
  obtain ⟨a2, b2, c2, d2⟩ := h2
  refine ⟨fun v hv => a2 v (a1 v hv), ?_, ?_, ?_⟩
  · intro x hx hn o ho
    by_cases hm : x ∈ middle
    · exact a2 _ (b1 x hm hn o ho)
    · exact b2 x hx hm o ho
  · intro x hx hn
    by_cases hm : x ∈ middle
    · exact c1 x hm hn
    · exact c2 x hx hm
  · intro cyc hcyc hall
    by_cases hmid : ∃ z ∈ cyc, z.Node ∈ middle
    · obtain ⟨z, hz, hzm⟩ := hmid
      have hin := cycle_closed (P := fun l => l.Node ∈ middle ∧ l.Node ∉ first)
        (Q := fun l => l.Node ∉ first) cyc hcyc
        (fun x y hfollow hx hy => ⟨b1 x.Node hx.1 hx.2 y hfollow, hy⟩)
        (fun y hy => (hall y hy).2) z hz ⟨hzm, (hall z hz).2⟩
      exact d1 cyc hcyc hin
    · exact d2 cyc hcyc (fun l hl => ⟨(hall l hl).1, fun hm => hmid ⟨l, hl, hm⟩⟩)

theorem cycleLinkHanded_of_explored {g : Graph} {root : NodeId} {log : List SearchEvent}
    {cyc : List Link} {prev lz : Link} {visited : List NodeId} {path : List Link}
    (hlz : lz ∈ cyc) (hfollow : followsOutbound g prev lz)
    (hstate : searchState g root prev.Node visited path)
    (hback : lz.Node ∈ visited ∨ lz.Node = prev.Node)
    (hhanded : SearchEvent.handed (path ++ [lz]) ∈ log) : cycleLinkHanded g root log cyc := by
  obtain ⟨stem, last, rfl, hlast, hchain, ⟨first, hfirst, hinit⟩, hvis⟩ := hstate
  refine ⟨stem ++ [last], lz, hhanded, hlz, ?_, ⟨first, hfirst, hinit⟩, ?_⟩
  · rcases hback with h | h
    · obtain ⟨l, hl, hlv⟩ := hvis lz.Node h
      exact ⟨l, by simp [hl], hlv⟩
    · exact ⟨last, by simp, by rw [hlast, h]⟩
  · rw [List.chain'_append]
    refine ⟨hchain, List.chain'_singleton _, ?_⟩
    intro x hx y hy
    rw [List.getLast?_concat] at hx
    simp only [Option.mem_def, Option.some.injEq] at hx
    simp only [List.head?_cons, Option.mem_def, Option.some.injEq] at hy
    subst hx hy
    unfold followsOutbound
    rw [hlast]
    exact hfollow

theorem traverseOutboundLog_live (g : Graph) (root : NodeId)
    (node : NodeId) (visited2 : List NodeId) (path : List Link)
    (exploreLog : NodeId → List NodeId → List Link → List NodeId →
      List SearchEvent × Outcome (List Link × Bool × List NodeId))
    (hexplore : ∀ link ∈ (g node).Outbound, ∀ gv log p gv2, (∀ v ∈ visited2, v ∈ gv) →
      exploreLog link.Node visited2 (path ++ [link]) gv = (log, Outcome.ret (p, true, gv2)) →
      liveSegment g root log (setInsert visited2 link.Node) gv gv2 ∧ link.Node ∈ gv2 ∧
        (link.Node ∈ visited2 → SearchEvent.handed (path ++ [link]) ∈ log)) :
    ∀ (links : List Link), (∀ l ∈ links, l ∈ (g node).Outbound) →
      ∀ gv log p gv2, (∀ v ∈ visited2, v ∈ gv) →
      traverseOutboundLog exploreLog visited2 path links gv =
        (log, Outcome.ret (p, true, gv2)) →
      liveSegment g root log visited2 gv gv2 ∧ (∀ o ∈ links, o.Node ∈ gv2) ∧
        (∀ o ∈ links, o.Node ∈ visited2 → SearchEvent.handed (path ++ [o]) ∈ log) := by
  intro links
  induction links with
  | nil =>
    intro _ gv log p gv2 _ h
    simp only [traverseOutboundLog, Prod.mk.injEq, Outcome.ret.injEq, true_and] at h
    obtain ⟨_, _, rfl⟩ := h
    exact ⟨liveSegment_refl g root log visited2 gv,
      fun o ho => absurd ho (List.not_mem_nil o), fun o ho => absurd ho (List.not_mem_nil o)⟩
  | cons link rest ih =>
    intro hsub gv log p gv2 hgv h
    rw [traverseOutboundLog] at h
    rcases he : exploreLog link.Node visited2 (path ++ [link]) gv with ⟨log1, r1⟩
    rw [he] at h
    cases r1 with
    | ret v =>
      obtain ⟨fp, success, gv3⟩ := v
      dsimp only at h
      cases success with
      | false =>
        simp at h
      | true =>
        simp only [Bool.not_true, Bool.false_eq_true, if_false, Prod.mk.injEq] at h
        obtain ⟨hlog, hres⟩ := h
        rcases hl : traverseOutboundLog exploreLog visited2 path rest gv3 with ⟨log2, r2⟩
        rw [hl] at hlog hres
        dsimp only at hlog hres
        subst hlog hres
        obtain ⟨hlive, hmem, hback⟩ := hexplore link (hsub link (List.mem_cons_self _ _)) gv
          log1 fp gv3 hgv he
        obtain ⟨hlive2, hmem2, hback2⟩ := ih (fun l hl2 => hsub l (List.mem_cons_of_mem _ hl2))
          gv3 log2 p gv2 (fun v hv => hlive.1 v (hgv v hv)) hl
        refine ⟨liveSegment_trans
          (liveSegment_mono (fun v hv => (mem_setInsert _ _ _).mpr (Or.inl hv))
            (fun e he2 => List.mem_append_left _ he2) hlive)
          (liveSegment_mono (fun v hv => hv) (fun e he2 => List.mem_append_right _ he2) hlive2),
          ?_, ?_⟩
        · intro o ho
          rcases List.mem_cons.mp ho with rfl | ho
          · exact hlive2.1 _ hmem
          · exact hmem2 o ho
        · intro o ho hv
          rcases List.mem_cons.mp ho with rfl | ho
          · exact List.mem_append_left _ (hback hv)
          · exact List.mem_append_right _ (hback2 o ho hv)
    | fatal msg =>
      simp at h
    | fuel =>
      simp at h

theorem cycleFinderHelperLog_live (g : Graph) (callback : CycleCallback) (root : NodeId) :
    ∀ (depth : Nat) (node : NodeId) (visited : List NodeId) (path : List Link)
      (gv : List NodeId) (log : List SearchEvent) (p : List Link) (gv2 : List NodeId),
      searchState g root node visited path → (∀ v ∈ visited, v ∈ gv) →
      cycleFinderHelperLog g callback depth node visited path gv =
        (log, Outcome.ret (p, true, gv2)) →
      liveSegment g root log (setInsert visited node) gv gv2 ∧ node ∈ gv2 ∧
        (node ∈ visited → SearchEvent.handed path ∈ log) := by
  intro depth
  induction depth with
  | zero =>
    intro node visited path gv log p gv2 _ _ h
    simp [cycleFinderHelperLog] at h
  | succ depth ih =>
    intro node visited path gv log p gv2 hst hgv h
    rw [cycleFinderHelperLog] at h
    by_cases hv : node ∈ visited
    · rw [if_pos hv] at h
      simp only [Prod.mk.injEq] at h
      obtain ⟨hlog, hres⟩ := h
      subst hlog
      cases hc : callback path with
      | ret live =>
        rw [hc] at hres
        simp only [Outcome.ret.injEq, Prod.mk.injEq] at hres
        obtain ⟨_, _, rfl⟩ := hres
        exact ⟨liveSegment_refl g root _ _ gv, hgv node hv, fun _ => by simp⟩
      | fatal msg =>
        rw [hc] at hres
        cases hres
      | fuel =>
        rw [hc] at hres
        cases hres
    · rw [if_neg hv] at h
      dsimp only at h
      by_cases hg : node ∈ gv
      · rw [if_pos hg] at h
        simp only [Prod.mk.injEq, Outcome.ret.injEq, true_and] at h
        obtain ⟨_, _, rfl⟩ := h
        exact ⟨liveSegment_refl g root _ _ gv, hg, fun hv2 => absurd hv2 hv⟩
      · rw [if_neg hg] at h
        have hgv1 : ∀ v ∈ setInsert visited node, v ∈ setInsert gv node := by
          intro v hv2
          rw [mem_setInsert] at hv2 ⊢
          exact hv2.imp_left (hgv v)
        rcases hd : traverseOutboundLog (cycleFinderHelperLog g callback depth)
            (setInsert visited node) path (g node).Outbound (setInsert gv node) with
          ⟨dlog, dres⟩
        rw [hd] at h
        dsimp only at h
        have hfinish : ∀ (front : List SearchEvent),
            log = front ++ dlog → dres = Outcome.ret (p, true, gv2) →
            liveSegment g root log (setInsert visited node) gv gv2 ∧ node ∈ gv2 ∧
              (node ∈ visited → SearchEvent.handed path ∈ log) := by
          intro front hlog hres
          subst hlog hres
          obtain ⟨hseg, hlinks, hback⟩ := traverseOutboundLog_live g root node _ path _
            (fun link hlink gv3 log3 p3 gv4 hsub he =>
              ih link.Node _ _ gv3 log3 p3 gv4 (searchState_step hst hlink) hsub he)
            (g node).Outbound (fun _ hl => hl) _ dlog p gv2 hgv1 hd
          have hseg2 : liveSegment g root (front ++ dlog) (setInsert visited node)
              (setInsert gv node) gv2 :=
            liveSegment_mono (fun v hv2 => hv2) (fun e he => List.mem_append_right _ he) hseg
          obtain ⟨a, b, c, d⟩ := hseg2
          have hnode2 : node ∈ gv2 := a node ((mem_setInsert _ _ _).mpr (Or.inr rfl))
          have hnew : ∀ x, x ∉ gv → x ≠ node → x ∉ setInsert gv node := by
            intro x hx hne hmem
            rw [mem_setInsert] at hmem
            rcases hmem with h1 | h1
            · exact hx h1
            · exact hne h1
          have hexplored : ∀ x ∈ gv2, x ∉ gv →
              exploredInLog g root (front ++ dlog) (setInsert visited node) x := by
            intro x hx hn
            by_cases hxn : x = node
            · subst hxn
              refine ⟨visited, path, hst, ?_, ?_⟩
              · intro v hv2
                exact (mem_setInsert _ _ _).mp hv2
              · intro o ho hon
                exact List.mem_append_right _ (hback o ho ((mem_setInsert _ _ _).mpr hon))
            · exact c x hx (hnew x hn hxn)
          refine ⟨⟨fun v hv2 => a v ((mem_setInsert _ _ _).mpr (Or.inl hv2)), ?_, hexplored, ?_⟩,
            hnode2, fun hv2 => absurd hv2 hv⟩
          · intro x hx hn o ho
            by_cases hxn : x = node
            · subst hxn
              exact hlinks o ho
            · exact b x hx (hnew x hn hxn) o ho
          · intro cyc hcyc hall
            by_cases hthrough : ∃ lz ∈ cyc, lz.Node = node
            · obtain ⟨lz, hlz, hlznode⟩ := hthrough
              obtain ⟨last, hlast, hchain⟩ := hcyc
              obtain ⟨front2, prev, back, hsplit, hprev⟩ := cycle_pred cyc last lz hlast hlz
              have hfollow : followsOutbound g prev lz := by
                rw [hsplit] at hchain
                exact (List.chain'_cons.mp (List.Chain'.right_of_append hchain)).1
              obtain ⟨vis, π, hπ, hon, hcb⟩ :=
                hexplored prev.Node (hall prev hprev).1 (hall prev hprev).2
              have hback2 : lz.Node ∈ vis ∨ lz.Node = prev.Node := by
                rw [hlznode]
                exact hon node ((mem_setInsert _ _ _).mpr (Or.inr rfl))
              exact cycleLinkHanded_of_explored hlz hfollow hπ hback2 (hcb lz hfollow hback2)
            · exact d cyc hcyc (fun l hl => ⟨(hall l hl).1,
                hnew l.Node (hall l hl).2 (fun hln => hthrough ⟨l, hl, hln⟩)⟩)
        split at h
        · cases hc : callback (path ++ [stutterLink node]) with
          | ret isLive =>
            rw [hc] at h
            dsimp only at h
            cases isLive with
            | true =>
              simp only [Bool.not_true, Bool.false_eq_true, if_false, Prod.mk.injEq] at h
              exact hfinish _ h.1.symm h.2
            | false =>
              simp at h
          | fatal msg =>
            rw [hc] at h
            simp at h
          | fuel =>
            rw [hc] at h
            simp at h
        · simp only [Prod.mk.injEq] at h
          exact hfinish _ h.1.symm h.2

theorem stopsAtFirstNotLive_append {callback : CycleCallback} {front log : List SearchEvent}
    {p : List Link} {live : Bool}
    (hfront : ∀ q, SearchEvent.handed q ∈ front → callback q = Outcome.ret true)
    (h : stopsAtFirstNotLive callback log p live) :
    stopsAtFirstNotLive callback (front ++ log) p live := by
  obtain ⟨h1, h2⟩ := h
  constructor
  · intro hlive q hq
    rcases List.mem_append.mp hq with hq | hq
    · exact hfront q hq
    · exact h1 hlive q hq
  · intro hlive
    obtain ⟨before, hlog, hp, hbefore⟩ := h2 hlive
    refine ⟨front ++ before, by rw [hlog, List.append_assoc], hp, ?_⟩
    intro q hq
    rcases List.mem_append.mp hq with hq | hq
    · exact hfront q hq
    · exact hbefore q hq

theorem traverseOutboundLog_stops (callback : CycleCallback)
    (exploreLog : NodeId → List NodeId → List Link → List NodeId →
      List SearchEvent × Outcome (List Link × Bool × List NodeId))
    (visited : List NodeId) (path : List Link)
    (hexplore : ∀ node visited2 path2 gv log p live gv2,
      exploreLog node visited2 path2 gv = (log, Outcome.ret (p, live, gv2)) →
      stopsAtFirstNotLive callback log p live) :
    ∀ (links : List Link) (gv : List NodeId) (log : List SearchEvent) (p : List Link)
      (live : Bool) (gv2 : List NodeId),
      traverseOutboundLog exploreLog visited path links gv =
        (log, Outcome.ret (p, live, gv2)) →
      stopsAtFirstNotLive callback log p live := by
  intro links
  induction links with
  | nil =>
    intro gv log p live gv2 h
    simp only [traverseOutboundLog, Prod.mk.injEq, Outcome.ret.injEq] at h
    obtain ⟨rfl, _, rfl, _⟩ := h
    exact ⟨fun _ q hq => absurd hq (List.not_mem_nil _), fun h0 => Bool.noConfusion h0⟩
  | cons link rest ih =>
    intro gv log p live gv2 h
    rw [traverseOutboundLog] at h
    rcases he : exploreLog link.Node visited (path ++ [link]) gv with ⟨log1, r1⟩
    rw [he] at h
    cases r1 with
    | ret v =>
      obtain ⟨fp, success, gv3⟩ := v
      dsimp only at h
      have hfirst := hexplore _ _ _ _ _ _ _ _ he
      cases success with
      | false =>
        simp only [Bool.not_false, if_true, Prod.mk.injEq, Outcome.ret.injEq] at h
        obtain ⟨rfl, rfl, rfl, _⟩ := h
        exact hfirst
      | true =>
        simp only [Bool.not_true, Bool.false_eq_true, if_false, Prod.mk.injEq] at h
        obtain ⟨hlog, hres⟩ := h
        rcases hl : traverseOutboundLog exploreLog visited path rest gv3 with ⟨log2, r2⟩
        rw [hl] at hlog hres
        dsimp only at hlog hres
        subst hlog hres
        exact stopsAtFirstNotLive_append (hfirst.1 rfl) (ih gv3 log2 p live gv2 hl)
    | fatal msg =>
      simp at h
    | fuel =>
      simp at h

theorem cycleFinderHelperLog_stops (g : Graph) (callback : CycleCallback) :
    ∀ (depth : Nat) (node : NodeId) (visited : List NodeId) (path : List Link)
      (gv : List NodeId) (log : List SearchEvent) (p : List Link) (live : Bool)
      (gv2 : List NodeId),
      cycleFinderHelperLog g callback depth node visited path gv =
        (log, Outcome.ret (p, live, gv2)) →
      stopsAtFirstNotLive callback log p live := by
  intro depth
  induction depth with
  | zero =>
    intro node visited path gv log p live gv2 h
    simp [cycleFinderHelperLog] at h
  | succ depth ih =>
    intro node visited path gv log p live gv2 h
    rw [cycleFinderHelperLog] at h
    by_cases hv : node ∈ visited
    · rw [if_pos hv] at h
      simp only [Prod.mk.injEq] at h
      obtain ⟨hlog, hres⟩ := h
      subst hlog
      cases hc : callback path with
      | ret answer =>
        rw [hc] at hres
        simp only [Outcome.ret.injEq, Prod.mk.injEq] at hres
        obtain ⟨rfl, rfl, _⟩ := hres
        constructor
        · intro hlive q hq
          simp only [List.mem_cons, List.mem_singleton, List.not_mem_nil, or_false] at hq
          rcases hq with hq | hq
          · cases hq
          · cases hq
            rw [hc, hlive]
        · intro hlive
          refine ⟨[SearchEvent.call node visited path], rfl, by rw [hc, hlive], ?_⟩
          intro q hq
          rw [List.mem_singleton] at hq
          cases hq
      | fatal msg =>
        rw [hc] at hres
        cases hres
      | fuel =>
        rw [hc] at hres
        cases hres
    · rw [if_neg hv] at h
      dsimp only at h
      by_cases hg : node ∈ gv
      · rw [if_pos hg] at h
        simp only [Prod.mk.injEq, Outcome.ret.injEq] at h
        obtain ⟨rfl, _, rfl, _⟩ := h
        refine ⟨fun _ q hq => ?_, fun h0 => Bool.noConfusion h0⟩
        rw [List.mem_singleton] at hq
        cases hq
      · rw [if_neg hg] at h
        rcases hd : traverseOutboundLog (cycleFinderHelperLog g callback depth)
            (setInsert visited node) path (g node).Outbound (setInsert gv node) with
          ⟨dlog, dres⟩
        rw [hd] at h
        dsimp only at h
        have hdescend : dres = Outcome.ret (p, live, gv2) →
            stopsAtFirstNotLive callback dlog p live := by
          intro hres
          subst hres
          exact traverseOutboundLog_stops callback _ _ path
            (fun n v2 p2 gv3 log3 p3 live3 gv4 he => ih n v2 p2 gv3 log3 p3 live3 gv4 he)
            (g node).Outbound _ dlog p live gv2 hd
        split at h
        · cases hc : callback (path ++ [stutterLink node]) with
          | ret isLive =>
            rw [hc] at h
            dsimp only at h
            cases isLive with
            | true =>
              simp only [Bool.not_true, Bool.false_eq_true, if_false, Prod.mk.injEq] at h
              obtain ⟨hlog, hres⟩ := h
              subst hlog
              refine stopsAtFirstNotLive_append ?_ (hdescend hres)
              intro q hq
              simp only [List.mem_cons, List.mem_singleton, List.not_mem_nil, or_false] at hq
              rcases hq with hq | hq | hq
              · cases hq
              · cases hq
              · cases hq
                exact hc
            | false =>
              simp only [Bool.not_false, if_true, Prod.mk.injEq, Outcome.ret.injEq] at h
              obtain ⟨rfl, rfl, rfl, _⟩ := h
              refine ⟨fun h0 => Bool.noConfusion h0, fun _ =>
                ⟨[SearchEvent.call node visited path, SearchEvent.explore node], rfl, hc, ?_⟩⟩
              intro q hq
              simp only [List.mem_cons, List.mem_singleton, List.not_mem_nil, or_false] at hq
              rcases hq with hq | hq <;> cases hq
          | fatal msg =>
            rw [hc] at h
            simp at h
          | fuel =>
            rw [hc] at h
            simp at h
        · simp only [Prod.mk.injEq] at h
          obtain ⟨hlog, hres⟩ := h
          subst hlog
          refine stopsAtFirstNotLive_append ?_ (hdescend hres)
          intro q hq
          simp only [List.mem_cons, List.mem_singleton, List.not_mem_nil, or_false] at hq
          rcases hq with hq | hq <;> cases hq

theorem CycleFinderFinalLog_run (depth : Nat) (g : Graph) (root : NodeId)
    (callback : CycleCallback) (p : List Link) (live : Bool)
    (h : CycleFinderFinal depth g root callback = Outcome.ret (p, live)) :
    ∃ gv, cycleFinderHelperLog g callback depth root [] [InitNodeToLink g root] [] =
      ((CycleFinderFinalLog depth g root callback).1, Outcome.ret (p, live, gv)) := by
  unfold CycleFinderFinal at h
  have hres := cycleFinderHelperLog_result g callback depth root [] [InitNodeToLink g root] []
  cases hc : cycleFinderHelper g callback depth root [] [InitNodeToLink g root] [] with
  | ret v =>
    obtain ⟨q, l, gv⟩ := v
    rw [hc] at h hres
    simp only [Outcome.ret.injEq, Prod.mk.injEq] at h
    obtain ⟨rfl, rfl⟩ := h
    refine ⟨gv, ?_⟩
    unfold CycleFinderFinalLog
    dsimp only
    rw [← hres]
  | fatal msg =>
    rw [hc] at h
    cases h
  | fuel =>
    rw [hc] at h
    cases h

/-- C19 (amended): `CycleFinderFinal` hands a link of every cycle to the
callback. On a graph whose states reachable from the root are finitely many,
with depth for the search and a callback that answers on every non-empty path,
the traversal returns; the second component of `CycleFinderFinalLog` is its
result and the first the log of its search. When it ends live, the callback
answered live on every path handed to it, and for every cycle of outbound links
reachable from the root the log records as handed to the callback a path from
the root that ends with a link of that cycle leading back to a node of the path
(the cycle portion of that path need not be the cycle itself, because nodes
explored in an earlier branch are skipped). When it ends not live, the last
event of the log is the handing of the returned path, on which the callback
answers not live, the callback answered live on every path handed to it before,
and the returned path is a cycle or stutter candidate. -/
theorem CycleFinderFinal_surfaces_cycle_links (depth : Nat) (g : Graph) (root : NodeId)
    (callback : CycleCallback) (nodes : List NodeId)
    (hfin : ∀ n, reachableFrom g root n → n ∈ nodes) (hdepth : nodes.length + 1 ≤ depth)
    (hcb : ∀ p, p ≠ [] → ∃ b, callback p = Outcome.ret b) :
    (∃ p live, CycleFinderFinal depth g root callback = Outcome.ret (p, live)) ∧
    (CycleFinderFinalLog depth g root callback).2 = CycleFinderFinal depth g root callback ∧
    (∀ p, CycleFinderFinal depth g root callback = Outcome.ret (p, true) →
      (∀ q, SearchEvent.handed q ∈ (CycleFinderFinalLog depth g root callback).1 →
        callback q = Outcome.ret true) ∧
      ∀ cyc, isCycle g cyc → (∀ l ∈ cyc, reachableFrom g root l.Node) →
        cycleLinkHanded g root (CycleFinderFinalLog depth g root callback).1 cyc) ∧
    (∀ p, CycleFinderFinal depth g root callback = Outcome.ret (p, false) →
      (∃ before, (CycleFinderFinalLog depth g root callback).1 =
          before ++ [SearchEvent.handed p] ∧
        ∀ q, SearchEvent.handed q ∈ before → callback q = Outcome.ret true) ∧
      callback p = Outcome.ret false ∧ finalCounterexample g root p) := by
  refine ⟨CycleFinderFinal_returns depth g root callback nodes hfin hdepth hcb,
    CycleFinderFinalLog_result depth g root callback, ?_, ?_⟩
  · intro p h
    obtain ⟨gv, hrun⟩ := CycleFinderFinalLog_run depth g root callback p true h
    have hstops := cycleFinderHelperLog_stops g callback depth root [] _ [] _ p true gv hrun
    obtain ⟨⟨_, b, _, d⟩, hroot, _⟩ := cycleFinderHelperLog_live g callback root depth root []
      _ [] _ p gv (searchState_root g root) (fun v hv => absurd hv (List.not_mem_nil v)) hrun
    have hall : ∀ x, reachableFrom g root x → x ∈ gv := by
      intro x hx
      induction hx with
      | refl => exact hroot
      | tail _ hstep ih =>
        obtain ⟨o, ho, rfl⟩ := hstep
        exact b _ ih (List.not_mem_nil _) o ho
    exact ⟨hstops.1 rfl, fun cyc hcyc hreach =>
      d cyc hcyc (fun l hl => ⟨hall l.Node (hreach l hl), List.not_mem_nil _⟩)⟩
  · intro p h
    obtain ⟨gv, hrun⟩ := CycleFinderFinalLog_run depth g root callback p false h
    have hstops := cycleFinderHelperLog_stops g callback depth root [] _ [] _ p false gv hrun
    obtain ⟨before, hlog, hp, hbefore⟩ := hstops.2 rfl
    exact ⟨⟨before, hlog, hbefore⟩, hp, CycleFinderFinal_counterexample depth g root callback p h⟩

theorem CycleFinderFinal_surfaces_cycle_links_witness :
    CycleFinderFinal 4 skipGraph 0 skipCallback = Outcome.ret ([], true) ∧
    handedPaths (CycleFinderFinalLog 4 skipGraph 0 skipCallback).1 =
      [[{ Node := 0, Name := "Init" }, { Node := 1, Name := "a" },
        { Node := 1, Name := "stutter" }],
       [{ Node := 0, Name := "Init" }, { Node := 1, Name := "a" }, { Node := 2, Name := "c" },
        { Node := 2, Name := "stutter" }],
       [{ Node := 0, Name := "Init" }, { Node := 1, Name := "a" }, { Node := 2, Name := "c" },
        { Node := 0, Name := "d" }]] ∧
    (∀ q, SearchEvent.handed q ∈ (CycleFinderFinalLog 4 skipGraph 0 skipCallback).1 →
      skipCallback q = Outcome.ret true) ∧
    cycleLinkHanded skipGraph 0 (CycleFinderFinalLog 4 skipGraph 0 skipCallback).1 skippedCycle :=
  ⟨by decide, by decide,
    ((CycleFinderFinal_surfaces_cycle_links 4 skipGraph 0 skipCallback [0, 1, 2]
      skipGraph_reachable (by decide) (fun _ _ => ⟨_, rfl⟩)).2.2.1 [] (by decide)).1,
    ((CycleFinderFinal_surfaces_cycle_links 4 skipGraph 0 skipCallback [0, 1, 2]
      skipGraph_reachable (by decide) (fun _ _ => ⟨_, rfl⟩)).2.2.1 [] (by decide)).2
      skippedCycle skippedCycle_isCycle skippedCycle_reachable⟩

end Fizzbee
